import Mathlib

/-! # Split-ordered hash table (`lock_free_hashtable.c`): single-threaded model

A shallow embedding of the hash table of `lock_free_hashtable.c`, written for the
sequential (single-thread, no interference) executions of the code.

Machine model.  The code is x86 only (it uses the `ia32` fence builtins); the
embedding fixes the LP64 variant: `size_t`, `uintptr_t` and pointers are 64-bit
words, `int` is 32-bit two's complement, `float` is IEEE binary32 evaluated in
single precision.  Machine words are natural numbers with an explicit reduction
modulo `2^64` wherever the C arithmetic can wrap.

Memory.  `malloc` never fails and never reuses an address: the `i`-th node ever
allocated lives at address `64 * (i + 1)` and the `j`-th directory array at
address `64 * j + 32`, so node addresses are non-null, 16-byte aligned, pairwise
distinct and distinct from directory addresses.  A freed object is kept as
`none`; touching it, touching an unallocated address, a misaligned access and an
out-of-bounds array access are undefined behaviour (`Fault.ub`).

Loops.  Every loop of the C code is a recursion on a step budget; a budget that
runs out is reported as `Fault.fuel` and is never confused with a result.
-/

namespace LockFreeHashtable

/-- Number of values of a 64-bit machine word. -/
def WORD : Nat := 2 ^ 64

/-- Ways in which a run of the C code fails to produce a result. -/
inductive Fault where
  | ub
  | abort
  | fuel
deriving DecidableEq

/-- Result of running a piece of the C code. -/
abbrev M (α : Type) : Type := Except Fault α

/-- The `struct hash_node_s`: four machine words at byte offsets 0, 8, 16, 24. -/
structure hash_node_t where
  code  : Nat
  key   : Nat
  value : Nat
  next  : Nat
deriving DecidableEq

/-- The `struct hash_table_s` together with the memory it refers to:
`table` is the directory pointer, `hazard` the calling thread's three hazard
slots, `nodes` the node heap and `dirs` the directory arrays. -/
structure hash_table_t where
  table  : Nat
  hazard : List Nat
  count  : Nat
  size   : Nat
  lvalue : Bool
  nodes  : List (Option hash_node_t)
  dirs   : List (Option (List Nat))
deriving DecidableEq

/-- A `hash_mark_t *`: the address of a directory slot `&table[bucket]` or the
address of a word of node memory. -/
inductive Slot where
  | dir (table : Nat) (bucket : Nat)
  | mem (addr : Nat)
deriving DecidableEq

/-! ## Key hashing (lines 87-124) -/

/-- The `byte(b)` macro, 64-bit variant (line 97). -/
def byte (b : Nat) : Nat :=
  ((b * 0x0202020202 % WORD) &&& 0x010884422010) % 1023

/-- The `hashtable_rvalue` of lines 87-111 (the `#if 1` branch). -/
def hashtable_rvalue (k : Nat) : Nat :=
  (byte ((k &&& 0x000000ff) >>> 0) <<< 24) |||
  (byte ((k &&& 0x0000ff00) >>> 8) <<< 16) |||
  (byte ((k &&& 0x00ff0000) >>> 16) <<< 8) |||
  (byte ((k &&& 0xff000000) >>> 24) <<< 0)

/-- The `byte(b)` macro, 32-bit variant (line 95, `ULONG_MAX == 0xffffffff`),
in 32-bit unsigned arithmetic. -/
def byte32 (b : Nat) : Nat :=
  ((((b * 0x0802 % 2 ^ 32) &&& 0x22110) ||| ((b * 0x8020 % 2 ^ 32) &&& 0x88440))
    * 0x10101 % 2 ^ 32) >>> 16

/-- The `hashtable_rvalue` of lines 87-111 with the 32-bit `byte(b)`, in 32-bit
unsigned arithmetic. -/
def hashtable_rvalue32 (k : Nat) : Nat :=
  (byte32 ((k &&& 0x000000ff) >>> 0) <<< 24 % 2 ^ 32) |||
  (byte32 ((k &&& 0x0000ff00) >>> 8) <<< 16 % 2 ^ 32) |||
  (byte32 ((k &&& 0x00ff0000) >>> 16) <<< 8 % 2 ^ 32) |||
  (byte32 ((k &&& 0xff000000) >>> 24) <<< 0 % 2 ^ 32)

/-- The `hashtable_hash_key` of line 113: multiplication of 64-bit words. -/
def hashtable_hash_key (k : Nat) : Nat :=
  (k * 2654435761) % WORD

/-- The `hashtable_hash_key_regular` of line 118. -/
def hashtable_hash_key_regular (k : Nat) : Nat :=
  hashtable_rvalue (k ||| 0x80000000)

/-- The `hashtable_hash_key_dummy` of line 122. -/
def hashtable_hash_key_dummy (k : Nat) : Nat :=
  hashtable_rvalue (k &&& 0x7fffffff)

/-! ## Marked pointers (lines 166-185) -/

/-- The `hashtable_node_make`: the address with the tag bit or-ed in. -/
def hashtable_node_make (node : Nat) (bit : Nat) : Nat :=
  node ||| bit

/-- The `hashtable_node_get`: `mark & ~1`, the address with bit 0 cleared. -/
def hashtable_node_get (mark : Nat) : Nat :=
  mark / 2 * 2

/-- The `hashtable_node_bit`: `mark & 1`. -/
def hashtable_node_bit (mark : Nat) : Nat :=
  mark % 2

/-- The `hashtable_node_destroy`: aborts when handed a tagged pointer. -/
def hashtable_node_destroy (mark : Nat) : M Unit :=
  if hashtable_node_bit mark ≠ 0 then .error .abort else .ok ()

/-- The `hashtable_node_regular`: an odd split-order key is a data node. -/
def hashtable_node_regular (k : Nat) : Bool :=
  k % 2 == 1

/-! ## Memory -/

/-- Address of the `i`-th allocated node. -/
def nodeAddr (i : Nat) : Nat := 64 * (i + 1)

/-- Address of the `j`-th allocated directory array. -/
def dirAddr (j : Nat) : Nat := 64 * j + 32

/-- Read the machine word at address `addr` of node memory. -/
def load (s : hash_table_t) (addr : Nat) : M Nat :=
  if addr / 64 = 0 then .error .ub
  else match s.nodes[addr / 64 - 1]? with
    | some (some n) =>
      if addr % 64 = 0 then .ok n.code
      else if addr % 64 = 8 then .ok n.key
      else if addr % 64 = 16 then .ok n.value
      else if addr % 64 = 24 then .ok n.next
      else .error .ub
    | _ => .error .ub

/-- Write the machine word `v` at address `addr` of node memory. -/
def store (s : hash_table_t) (addr : Nat) (v : Nat) : M hash_table_t :=
  if addr / 64 = 0 then .error .ub
  else match s.nodes[addr / 64 - 1]? with
    | some (some n) =>
      if addr % 64 = 0 then
        .ok { s with nodes := s.nodes.set (addr / 64 - 1) (some { n with code := v }) }
      else if addr % 64 = 8 then
        .ok { s with nodes := s.nodes.set (addr / 64 - 1) (some { n with key := v }) }
      else if addr % 64 = 16 then
        .ok { s with nodes := s.nodes.set (addr / 64 - 1) (some { n with value := v }) }
      else if addr % 64 = 24 then
        .ok { s with nodes := s.nodes.set (addr / 64 - 1) (some { n with next := v }) }
      else .error .ub
    | _ => .error .ub

/-- Read `table[bucket]` through the directory pointer `table`. -/
def dir_load (s : hash_table_t) (table : Nat) (bucket : Nat) : M Nat :=
  if table % 64 ≠ 32 then .error .ub
  else match s.dirs[table / 64]? with
    | some (some d) =>
      match d[bucket]? with
      | some v => .ok v
      | none => .error .ub
    | _ => .error .ub

/-- Write `table[bucket] = v` through the directory pointer `table`. -/
def dir_store (s : hash_table_t) (table : Nat) (bucket : Nat) (v : Nat) : M hash_table_t :=
  if table % 64 ≠ 32 then .error .ub
  else match s.dirs[table / 64]? with
    | some (some d) =>
      if bucket < d.length then
        .ok { s with dirs := s.dirs.set (table / 64) (some (d.set bucket v)) }
      else .error .ub
    | _ => .error .ub

/-- Read through a `hash_mark_t *`. -/
def slot_load (s : hash_table_t) : Slot → M Nat
  | .dir table bucket => dir_load s table bucket
  | .mem addr => load s addr

/-- Write through a `hash_mark_t *`. -/
def slot_store (s : hash_table_t) : Slot → Nat → M hash_table_t
  | .dir table bucket, v => dir_store s table bucket v
  | .mem addr, v => store s addr v

/-- The `hashtable_atomic_cas` on a `hash_mark_t *`, run without interference. -/
def hashtable_atomic_cas (s : hash_table_t) (p : Slot) (old new : Nat) :
    M (Bool × hash_table_t) :=
  match slot_load s p with
  | .error e => .error e
  | .ok cur =>
    if cur = old then
      match slot_store s p new with
      | .error e => .error e
      | .ok s1 => .ok (true, s1)
    else .ok (false, s)

/-- The `HASHTABLE_CALLOC(sizeof(hash_node_t), 1)`: a fresh zeroed node. -/
def node_calloc (s : hash_table_t) : Nat × hash_table_t :=
  (nodeAddr s.nodes.length, { s with nodes := s.nodes ++ [some ⟨0, 0, 0, 0⟩] })

/-- The `HASHTABLE_FREE` of a node. -/
def node_free (s : hash_table_t) (p : Nat) : M hash_table_t :=
  if p / 64 = 0 ∨ p % 64 ≠ 0 then .error .ub
  else match s.nodes[p / 64 - 1]? with
    | some (some _) => .ok { s with nodes := s.nodes.set (p / 64 - 1) none }
    | _ => .error .ub

/-! ## Hazard slots (lines 199-257) -/

/-- The `hashtable_hazard_ptr_unmask`: `ptr & ~3`. -/
def hashtable_hazard_ptr_unmask (ptr : Nat) : Nat :=
  ptr / 4 * 4

/-- The `hashtable_hazard_ptr_set`. -/
def hashtable_hazard_ptr_set (s : hash_table_t) (p : Nat) (index : Nat) : hash_table_t :=
  { s with hazard := s.hazard.set index p }

/-- The `hashtable_hazard_ptr_set_with_mask`. -/
def hashtable_hazard_ptr_set_with_mask (s : hash_table_t) (p : Nat) (index : Nat) :
    hash_table_t :=
  hashtable_hazard_ptr_set s (hashtable_hazard_ptr_unmask p) index

/-- The `hashtable_hazard_ptr_get_current`. -/
def hashtable_hazard_ptr_get_current (s : hash_table_t) (index : Nat) : M Nat :=
  match s.hazard[index]? with
  | some p => .ok p
  | none => .error .ub

/-- The `hashtable_hazard_ptr_clear`. -/
def hashtable_hazard_ptr_clear (s : hash_table_t) (index : Nat) : hash_table_t :=
  hashtable_hazard_ptr_set s 0 index

/-- The `hashtable_hazard_ptr_clear_all`. -/
def hashtable_hazard_ptr_clear_all (s : hash_table_t) : hash_table_t :=
  hashtable_hazard_ptr_clear (hashtable_hazard_ptr_clear (hashtable_hazard_ptr_clear s 0) 1) 2

/-- The `hashtable_hazard_ptr_get_with_mask` applied to a word of node memory:
reads `*unmask(pointer)`, publishes the unmasked result, returns the result. -/
def hashtable_hazard_ptr_get_with_mask (s : hash_table_t) (pointer : Nat) (index : Nat) :
    M (Nat × hash_table_t) :=
  match load s (hashtable_hazard_ptr_unmask pointer) with
  | .error e => .error e
  | .ok result => .ok (result, hashtable_hazard_ptr_set_with_mask s result index)

/-! ## The marked sorted list (lines 266-458) -/

/-- Entry of `hashtable_list_find` (lines 280-283, the label
`hashtable_list_find_again`): loads the directory pointer into hazard slot 0
and the head of the bucket into hazard slot 1. -/
def list_find_entry (s : hash_table_t) (bucket : Nat) : M (hash_table_t × Slot × Nat) :=
  let table := s.table
  let s1 := hashtable_hazard_ptr_set s table 0
  let head := Slot.dir table bucket
  match slot_load s1 head with
  | .error e => .error e
  | .ok current => .ok (hashtable_hazard_ptr_set s1 current 1, head, current)

/-- The `for (;;)` loop of `hashtable_list_find` (lines 285-318).  A `goto
hashtable_list_find_again` re-enters through `list_find_entry`.  Returns
`(current, prev, state)`. -/
def list_find_loop (bucket key code : Nat) :
    Nat → hash_table_t → Slot → Nat → M (Nat × Slot × hash_table_t)
  | 0, _, _, _ => .error .fuel
  | fuel + 1, s, prev, current =>
    if hashtable_node_get current = 0 then .ok (current, prev, s)
    else
      match hashtable_hazard_ptr_get_with_mask s (current + 24) 0 with
      | .error e => .error e
      | .ok (next, s1) =>
      match load s1 current with
      | .error e => .error e
      | .ok chash =>
      match load s1 (current + 8) with
      | .error e => .error e
      | .ok ckey =>
      match slot_load s1 prev with
      | .error e => .error e
      | .ok pv =>
      if pv ≠ hashtable_node_make (hashtable_node_get current) 0 then
        match list_find_entry s1 bucket with
        | .error e => .error e
        | .ok (s2, head, cur2) => list_find_loop bucket key code fuel s2 head cur2
      else if hashtable_node_bit next = 0 then
        if chash > code ∨ (chash = code ∧ ckey = key) then .ok (current, prev, s1)
        else
          let prev2 := Slot.mem (hashtable_node_get current + 24)
          let s2 := hashtable_hazard_ptr_set_with_mask s1 current 2
          list_find_loop bucket key code fuel
            (hashtable_hazard_ptr_set_with_mask s2 next 1) prev2 next
      else
        match hashtable_atomic_cas s1 prev
            (hashtable_node_make (hashtable_node_get current) 0)
            (hashtable_node_make (hashtable_node_get next) 0) with
        | .error e => .error e
        | .ok (true, s2) =>
          match hashtable_node_destroy (hashtable_node_get current) with
          | .error e => .error e
          | .ok _ =>
            list_find_loop bucket key code fuel
              (hashtable_hazard_ptr_set_with_mask s2 next 1) prev next
        | .ok (false, s2) =>
          match list_find_entry s2 bucket with
          | .error e => .error e
          | .ok (s3, head, cur3) => list_find_loop bucket key code fuel s3 head cur3

/-- The `hashtable_list_find` of lines 266-322; returns `(current, *result, state)`. -/
def hashtable_list_find (fuel : Nat) (s : hash_table_t) (bucket key code : Nat) :
    M (Nat × Slot × hash_table_t) :=
  match list_find_entry s bucket with
  | .error e => .error e
  | .ok (s1, head, current) => list_find_loop bucket key code fuel s1 head current

/-- The `for (;;)` loop of `hashtable_list_sweep` (lines 348-372).  A `goto
hashtable_list_sweep_again` re-enters through `list_find_entry` at bucket 0. -/
def list_sweep_loop : Nat → hash_table_t → Slot → Nat → M hash_table_t
  | 0, _, _, _ => .error .fuel
  | fuel + 1, s, prev, current =>
    if hashtable_node_get current = 0 then .ok s
    else
      match hashtable_hazard_ptr_get_with_mask s (current + 24) 0 with
      | .error e => .error e
      | .ok (next, s1) =>
      match slot_load s1 prev with
      | .error e => .error e
      | .ok pv =>
      if pv ≠ hashtable_node_make (hashtable_node_get current) 0 then
        match list_find_entry s1 0 with
        | .error e => .error e
        | .ok (s2, head, cur2) => list_sweep_loop fuel s2 head cur2
      else if hashtable_node_bit next = 0 then
        let prev2 := Slot.mem (hashtable_node_get current + 24)
        let s2 := hashtable_hazard_ptr_set_with_mask s1 current 2
        list_sweep_loop fuel (hashtable_hazard_ptr_set_with_mask s2 next 1) prev2 next
      else
        match hashtable_atomic_cas s1 prev
            (hashtable_node_make (hashtable_node_get current) 0)
            (hashtable_node_make (hashtable_node_get next) 0) with
        | .error e => .error e
        | .ok (true, s2) =>
          match hashtable_node_destroy (hashtable_node_get current) with
          | .error e => .error e
          | .ok _ =>
            list_sweep_loop fuel (hashtable_hazard_ptr_set_with_mask s2 next 1) prev next
        | .ok (false, s2) =>
          match list_find_entry s2 0 with
          | .error e => .error e
          | .ok (s3, head, cur3) => list_sweep_loop fuel s3 head cur3

/-- The `hashtable_list_sweep` of lines 334-373. -/
def hashtable_list_sweep (fuel : Nat) (s : hash_table_t) : M hash_table_t :=
  match list_find_entry s 0 with
  | .error e => .error e
  | .ok (s1, head, current) => list_sweep_loop fuel s1 head current

/-- The `hashtable_list_delete` of lines 389-421; `fuel` bounds both the retry
loop and each walk. -/
def list_delete_loop (n : Nat) (bucket key code : Nat) :
    Nat → hash_table_t → M (Nat × hash_table_t)
  | 0, _ => .error .fuel
  | fuel + 1, s =>
    match hashtable_list_find n s bucket key code with
    | .error e => .error e
    | .ok (result, prev, s1) =>
    if result = 0 then .ok (0, s1)
    else
      match load s1 result with
      | .error e => .error e
      | .ok rcode =>
      if rcode ≠ code then .ok (0, s1)
      else
        match load s1 (result + 8) with
        | .error e => .error e
        | .ok rkey =>
        if rkey ≠ key then .ok (0, s1)
        else
          match hashtable_hazard_ptr_get_current s1 0 with
          | .error e => .error e
          | .ok next =>
          match hashtable_atomic_cas s1 (Slot.mem (hashtable_node_get result + 24))
              (hashtable_node_make (hashtable_node_get next) 0)
              (hashtable_node_make (hashtable_node_get next) 1) with
          | .error e => .error e
          | .ok (false, s2) => list_delete_loop n bucket key code fuel s2
          | .ok (true, s2) =>
            match hashtable_atomic_cas s2 prev
                (hashtable_node_make (hashtable_node_get result) 0)
                (hashtable_node_make (hashtable_node_get next) 0) with
            | .error e => .error e
            | .ok (true, s3) =>
              match hashtable_node_destroy (hashtable_node_get result) with
              | .error e => .error e
              | .ok _ => .ok (result, s3)
            | .ok (false, s3) => .ok (result, s3)

/-- The `hashtable_list_delete` of lines 389-421. -/
def hashtable_list_delete (fuel : Nat) (s : hash_table_t) (bucket key code : Nat) :
    M (Nat × hash_table_t) :=
  list_delete_loop fuel bucket key code fuel s

/-- The test `result && result->code == node->code && result->key == node->key`
of line 445, with C's left-to-right short-circuit evaluation. -/
def list_insert_found (s : hash_table_t) (result node : Nat) : M Bool :=
  if result = 0 then .ok false
  else
    match load s result with
    | .error e => .error e
    | .ok rcode =>
    match load s node with
    | .error e => .error e
    | .ok ncode =>
    if rcode ≠ ncode then .ok false
    else
      match load s (result + 8) with
      | .error e => .error e
      | .ok rkey =>
      match load s (node + 8) with
      | .error e => .error e
      | .ok nkey => .ok (decide (rkey = nkey))

/-- The retry loop of `hashtable_list_insert` (lines 443-457); `key` and `code`
are the values read from the node before the loop. -/
def list_insert_loop (n : Nat) (bucket node key code : Nat) :
    Nat → hash_table_t → M (Nat × hash_table_t)
  | 0, _ => .error .fuel
  | fuel + 1, s =>
    match hashtable_list_find n s bucket key code with
    | .error e => .error e
    | .ok (result, prev, s1) =>
    match list_insert_found s1 result node with
    | .error e => .error e
    | .ok true => .ok (result, s1)
    | .ok false =>
      match store s1 (node + 24) (hashtable_node_make (hashtable_node_get result) 0) with
      | .error e => .error e
      | .ok s2 =>
      match hashtable_atomic_cas (hashtable_hazard_ptr_set s2 node 0) prev
          (hashtable_node_make (hashtable_node_get result) 0)
          (hashtable_node_make node 0) with
      | .error e => .error e
      | .ok (true, s3) => .ok (node, s3)
      | .ok (false, s3) => list_insert_loop n bucket node key code fuel s3

/-- The `hashtable_list_insert` of lines 435-458. -/
def hashtable_list_insert (fuel : Nat) (s : hash_table_t) (bucket node : Nat) :
    M (Nat × hash_table_t) :=
  match load s (node + 8) with
  | .error e => .error e
  | .ok key =>
  match load s node with
  | .error e => .error e
  | .ok code => list_insert_loop fuel bucket node key code fuel s

/-! ## Bucket directory (lines 460-494) -/

/-- Value, converted to `size_t`, of the `int` expression `1 << i` for a shift
count below 32: `1 << 31` is `INT_MIN`, which sign-extends. -/
def int_shl_one (i : Nat) : Nat :=
  if i < 31 then 2 ^ i else WORD - 2 ^ 31

/-- Value, converted to `size_t`, of the `int` expression `~(1 << i)`. -/
def int_not_shl_one (i : Nat) : Nat :=
  WORD - 1 - int_shl_one i

/-- The loop of `hashtable_bucket_parent` from index `i` downwards.  The index
is a `size_t`, so `i >= 0` always holds: after `i = 0` the decrement wraps to
`2^64 - 1` and `1 << i` is a shift by more than the width of `int`. -/
def bucket_parent_from (bucket : Nat) : Nat → M Nat
  | 0 =>
    if bucket &&& int_shl_one 0 ≠ 0 then .ok (bucket &&& int_not_shl_one 0)
    else .error .ub
  | i + 1 =>
    if bucket &&& int_shl_one (i + 1) ≠ 0 then .ok (bucket &&& int_not_shl_one (i + 1))
    else bucket_parent_from bucket i

/-- The `hashtable_bucket_parent` of lines 460-465. -/
def hashtable_bucket_parent (bucket : Nat) : M Nat :=
  bucket_parent_from bucket 31

/-- The `hashtable_bucket_parent` applied `k` times in a row. -/
def bucket_parent_iter : Nat → Nat → M Nat
  | 0, bucket => .ok bucket
  | k + 1, bucket =>
    match hashtable_bucket_parent bucket with
    | .error e => .error e
    | .ok parent => bucket_parent_iter k parent

/-- The `hashtable_bucket_init` of lines 475-494.  The second argument bounds
the depth of the recursion, `fuel` is handed to the list walk. -/
def hashtable_bucket_init (fuel : Nat) :
    Nat → hash_table_t → Nat → Nat → M hash_table_t
  | 0, _, _, _ => .error .fuel
  | depth + 1, s, table, bucket =>
    match hashtable_bucket_parent bucket with
    | .error e => .error e
    | .ok parent =>
    match dir_load s table parent with
    | .error e => .error e
    | .ok tp =>
    match (if tp = 0 then hashtable_bucket_init fuel depth s table parent else .ok s) with
    | .error e => .error e
    | .ok s1 =>
    let (node, s2) := node_calloc s1
    match store s2 (node + 8) bucket with
    | .error e => .error e
    | .ok s3 =>
    match store s3 node (hashtable_hash_key_dummy bucket) with
    | .error e => .error e
    | .ok s4 =>
    match hashtable_list_insert fuel s4 parent node with
    | .error e => .error e
    | .ok (result, s5) =>
    match (if hashtable_node_get result ≠ node then node_free s5 node else .ok s5) with
    | .error e => .error e
    | .ok s6 =>
    let node2 := if hashtable_node_get result ≠ node then hashtable_node_get result else node
    let table2 := s6.table
    let s7 := hashtable_hazard_ptr_set s6 table2 1
    dir_store s7 table2 bucket (hashtable_node_make node2 0)

/-! ## Resize (lines 496-508) -/

/-- The `HASHTABLE_CALLOC(sizeof(hash_node_t *), n)`: a fresh zeroed array; the
byte count `8 * n` is computed in 64-bit arithmetic. -/
def dir_calloc (s : hash_table_t) (n : Nat) : Nat × hash_table_t :=
  (dirAddr s.dirs.length,
   { s with dirs := s.dirs ++ [some (List.replicate (8 * n % WORD / 8) 0)] })

/-- The `HASHTABLE_FREE` of a directory array. -/
def dir_free (s : hash_table_t) (p : Nat) : M hash_table_t :=
  if p % 64 ≠ 32 then .error .ub
  else match s.dirs[p / 64]? with
    | some (some _) => .ok { s with dirs := s.dirs.set (p / 64) none }
    | _ => .error .ub

/-- The `memcpy(new, old, sizeof(hash_node_t *) * size)` of line 500. -/
def dir_memcpy (s : hash_table_t) (new old size : Nat) : M hash_table_t :=
  if new % 64 ≠ 32 ∨ old % 64 ≠ 32 then .error .ub
  else match s.dirs[new / 64]?, s.dirs[old / 64]? with
    | some (some dn), some (some d) =>
      let cnt := 8 * size % WORD / 8
      if cnt ≤ d.length ∧ cnt ≤ dn.length then
        .ok { s with dirs := s.dirs.set (new / 64) (some (d.take cnt ++ dn.drop cnt)) }
      else .error .ub
    | _, _ => .error .ub

/-- The `hashtable_resize` of lines 496-508, run without interference. -/
def hashtable_resize (s : hash_table_t) (size : Nat) : M hash_table_t :=
  let old := s.table
  let s1 := hashtable_hazard_ptr_set s old 0
  let (new, s2) := dir_calloc s1 (size * 2 % WORD)
  match dir_memcpy s2 new old size with
  | .error e => .error e
  | .ok s3 =>
    if s3.size ≠ size then dir_free s3 new
    else
      let s4 := { s3 with size := size * 2 % WORD }
      if s4.table ≠ old then dir_free s4 new
      else .ok { s4 with table := new }

/-! ## Load-factor test (lines 529-530) -/

/-- The conversion `(float)n` of a `size_t`: `n` rounded to 24 significant bits,
ties to even.  The result is again an integer. -/
def f32_of_nat (n : Nat) : Nat :=
  if n < 2 ^ 24 then n
  else
    let e := Nat.log2 n - 23
    let q := n / 2 ^ e
    let r := n % 2 ^ e
    let h := 2 ^ (e - 1)
    (if r > h ∨ (r = h ∧ q % 2 = 1) then q + 1 else q) * 2 ^ e

/-- The test `count / size > HASHTABLE_LOAD_FACTOR` of line 530 on the `float`
value `size` and the `size_t` value `count`.  The constant `0.7f` is the
binary32 number `11744051 / 2^24`; the next binary32 number is
`11744052 / 2^24`, and the correctly rounded quotient exceeds `0.7f` exactly
when the real quotient is at least their midpoint `23488103 / 2^25` (the tie
rounds to the even significand `11744052`).  Division by zero gives `+inf` for
a positive count and `NaN` for `0 / 0`. -/
def load_factor_exceeded (count fsize : Nat) : Bool :=
  if fsize = 0 then decide (0 < f32_of_nat count)
  else decide (23488103 * fsize ≤ f32_of_nat count * 2 ^ 25)

/-! ## Public interface (lines 510-614) -/

/-- The `hashtable_insert` of lines 510-534. -/
def hashtable_insert (fuel : Nat) (s : hash_table_t) (key value : Nat) :
    M (Bool × hash_table_t) :=
  let hash := hashtable_hash_key key
  let (node, s1) := node_calloc s
  let table := s1.table
  let s2 := hashtable_hazard_ptr_set s1 table 0
  match store s2 node (hashtable_hash_key_regular hash) with
  | .error e => .error e
  | .ok s3 =>
  match store s3 (node + 8) key with
  | .error e => .error e
  | .ok s4 =>
  match store s4 (node + 16) value with
  | .error e => .error e
  | .ok s5 =>
  if s5.size = 0 then .error .ub
  else
    let bucket := hash % s5.size
    match dir_load s5 table bucket with
    | .error e => .error e
    | .ok tb =>
    match (if tb = 0 then hashtable_bucket_init fuel fuel s5 table bucket else .ok s5) with
    | .error e => .error e
    | .ok s6 =>
    match hashtable_list_insert fuel s6 bucket node with
    | .error e => .error e
    | .ok (result, s7) =>
    if hashtable_node_get result ≠ node then
      match node_free s7 node with
      | .error e => .error e
      | .ok s8 => .ok (false, hashtable_hazard_ptr_clear_all s8)
    else
      let fsize := f32_of_nat s7.size
      let old := s7.count
      let s8 := { s7 with count := (s7.count + 1) % WORD }
      if load_factor_exceeded old fsize then
        if fsize < WORD then
          match hashtable_resize s8 fsize with
          | .error e => .error e
          | .ok s9 => .ok (true, s9)
        else .error .ub
      else .ok (true, s8)

/-- The `hashtable_find` of lines 537-566; `NULL` is the word 0. -/
def hashtable_find (fuel : Nat) (s : hash_table_t) (key : Nat) :
    M (Nat × hash_table_t) :=
  let hash := hashtable_hash_key key
  if s.size = 0 then .error .ub
  else
    let bucket := hash % s.size
    let table := s.table
    let s1 := hashtable_hazard_ptr_set s table 0
    match dir_load s1 table bucket with
    | .error e => .error e
    | .ok tb =>
    match (if tb = 0 then hashtable_bucket_init fuel fuel s1 table bucket else .ok s1) with
    | .error e => .error e
    | .ok s2 =>
    let hash2 := hashtable_hash_key_regular hash
    match hashtable_list_find fuel s2 bucket key hash2 with
    | .error e => .error e
    | .ok (result, _, s3) =>
    let node := hashtable_node_get result
    if node = 0 then .ok (0, s3)
    else
      match load s3 node with
      | .error e => .error e
      | .ok ncode =>
      if ncode ≠ hash2 then .ok (0, s3)
      else
        match load s3 (node + 8) with
        | .error e => .error e
        | .ok nkey =>
        if nkey ≠ key then .ok (0, s3)
        else if s3.lvalue then
          match hashtable_hazard_ptr_get_with_mask s3 (node + 16) 0 with
          | .error e => .error e
          | .ok (value, s4) =>
            .ok (value, hashtable_hazard_ptr_clear (hashtable_hazard_ptr_clear s4 1) 2)
        else
          match load s3 (node + 16) with
          | .error e => .error e
          | .ok value => .ok (value, hashtable_hazard_ptr_clear_all s3)

/-- The `hashtable_delete` of lines 572-601; `NULL` is the word 0. -/
def hashtable_delete (fuel : Nat) (s : hash_table_t) (key : Nat) :
    M (Nat × hash_table_t) :=
  let hash := hashtable_hash_key key
  if s.size = 0 then .error .ub
  else
    let bucket := hash % s.size
    let table := s.table
    let s1 := hashtable_hazard_ptr_set s table 0
    match dir_load s1 table bucket with
    | .error e => .error e
    | .ok tb =>
    match (if tb = 0 then hashtable_bucket_init fuel fuel s1 table bucket else .ok s1) with
    | .error e => .error e
    | .ok s2 =>
    let hash2 := hashtable_hash_key_regular hash
    match hashtable_list_delete fuel s2 bucket key hash2 with
    | .error e => .error e
    | .ok (result, s3) =>
    if result = 0 then .ok (0, s3)
    else
      let s4 := { s3 with count := (s3.count + WORD - 1) % WORD }
      match (if s4.lvalue then
               match hashtable_hazard_ptr_get_with_mask s4 (hashtable_node_get result + 16) 0 with
               | .error e => .error e
               | .ok (value, s5) =>
                 .ok (value, hashtable_hazard_ptr_clear (hashtable_hazard_ptr_clear s5 1) 2)
             else
               match load s4 (hashtable_node_get result + 16) with
               | .error e => .error e
               | .ok value => .ok (value, hashtable_hazard_ptr_clear_all s4) :
             M (Nat × hash_table_t)) with
      | .error e => .error e
      | .ok (value, s6) =>
        match store s6 (result + 16) 0 with
        | .error e => .error e
        | .ok s7 => .ok (value, s7)

/-- The `hashtable_create` of lines 603-614, in an empty memory. -/
def hashtable_create (lvalue : Bool) (size : Nat) : M hash_table_t :=
  let s0 : hash_table_t :=
    { table := 0, hazard := [0, 0, 0], count := 0, size := size, lvalue := lvalue,
      nodes := [], dirs := [] }
  let (table, s1) := dir_calloc s0 size
  let s2 := { s1 with table := table }
  let (node, s3) := node_calloc s2
  match dir_store s3 table 0 node with
  | .error e => .error e
  | .ok s4 =>
  match store s4 node (hashtable_hash_key_dummy 0) with
  | .error e => .error e
  | .ok s5 => store s5 (node + 8) 0

/-! ## Teardown (lines 616-649) -/

/-- The inner `while` loop of `hashtable_destroy` (lines 631-638): retries the
tagging of `current->next` until the compare-and-swap succeeds or the reloaded
pointer is seen tagged.  Returns the last value of `next`. -/
def destroy_mark_loop (current : Nat) : Nat → hash_table_t → Nat → M (Nat × hash_table_t)
  | 0, _, _ => .error .fuel
  | fuel + 1, s, next =>
    match hashtable_atomic_cas s (Slot.mem (current + 24))
        (hashtable_node_make (hashtable_node_get next) 0)
        (hashtable_node_make (hashtable_node_get next) 1) with
    | .error e => .error e
    | .ok (true, s1) => .ok (next, s1)
    | .ok (false, s1) =>
      match hashtable_hazard_ptr_get_with_mask s1 (current + 24) 0 with
      | .error e => .error e
      | .ok (next2, s2) =>
        if hashtable_node_bit next2 ≠ 0 then .ok (next2, s2)
        else destroy_mark_loop current fuel s2 next2

/-- The value read at lines 626-628 of `hashtable_destroy`: through hazard slot
2 in `lvalue` mode, directly otherwise. -/
def destroy_read_value (s : hash_table_t) (current : Nat) : M (Nat × hash_table_t) :=
  if s.lvalue then hashtable_hazard_ptr_get_with_mask s (current + 16) 2
  else
    match load s (current + 16) with
    | .error e => .error e
    | .ok value => .ok (value, s)

/-- The body of the `for` loop of `hashtable_destroy` before the node is freed
(lines 625-639); `&&` evaluates `current->code` only when `next` is `NULL`.
Returns the value of `next` after the body. -/
def destroy_visit (n : Nat) (s : hash_table_t) (current next : Nat) : M (Nat × hash_table_t) :=
  if hashtable_node_get next ≠ 0 then .ok (next, s)
  else
    match load s current with
    | .error e => .error e
    | .ok code =>
      if hashtable_node_regular code then
        match destroy_read_value s current with
        | .error e => .error e
        | .ok (value, s1) =>
          if value ≠ 0 then destroy_mark_loop current n s1 next
          else .ok (next, s1)
      else .ok (next, s)

/-- The `for (; current; )` loop of `hashtable_destroy` (lines 622-642); `n`
bounds the inner loop. -/
def destroy_loop (n : Nat) : Nat → hash_table_t → Nat → M hash_table_t
  | 0, _, _ => .error .fuel
  | fuel + 1, s, current =>
    if current = 0 then .ok s
    else
      let s1 := hashtable_hazard_ptr_set_with_mask s current 1
      match hashtable_hazard_ptr_get_with_mask s1 (current + 24) 0 with
      | .error e => .error e
      | .ok (next, s2) =>
      match destroy_visit n s2 current next with
      | .error e => .error e
      | .ok (next2, s3) =>
      match node_free s3 current with
      | .error e => .error e
      | .ok s4 => destroy_loop n fuel s4 (hashtable_node_get next2)

/-- The `hashtable_destroy` of lines 616-649.  The result is the memory left
behind: the freed nodes and the freed directory are `none`, the hazard slots of
the calling thread are gone. -/
def hashtable_destroy (fuel : Nat) (s : hash_table_t) : M hash_table_t :=
  let table := s.table
  let s1 := hashtable_hazard_ptr_set s table 2
  match dir_load s1 table 0 with
  | .error e => .error e
  | .ok head =>
    let s2 := hashtable_hazard_ptr_set s1 head 0
    match destroy_loop fuel fuel s2 (hashtable_node_get head) with
    | .error e => .error e
    | .ok s3 =>
      match dir_free s3 s3.table with
      | .error e => .error e
      | .ok s4 => .ok { s4 with hazard := [] }

/-! ## The reference bit reversal (lines 105-110, the `#else` branch) -/

/-- One round `r |= ((k & (1 << i)) >> i) << (31 - i)` of the reference loop
(line 109) in `size_t` arithmetic modulo `w`; `one_shl i` is the value of the
`int` expression `1 << i` converted to `size_t`. -/
def rvalue_ref_round (w : Nat) (one_shl : Nat → Nat) (k r i : Nat) : Nat :=
  r ||| ((((k &&& one_shl i) >>> i) <<< (31 - i)) % w)

/-- The reference loop of lines 106-110 with a 64-bit `size_t`. -/
def hashtable_rvalue_ref (k : Nat) : Nat :=
  (List.range 32).foldl (rvalue_ref_round WORD int_shl_one k) 0

/-- The reference loop of lines 106-110 with a 32-bit `size_t`, where `1 << i`
converts to `2^i` for every `i ≤ 31`. -/
def hashtable_rvalue_ref32 (k : Nat) : Nat :=
  (List.range 32).foldl (rvalue_ref_round (2 ^ 32) (fun i => 2 ^ i) k) 0

/-! ## Bit reversal, as the specification words it -/

/-- Reversal of the low `n` bits of `x`: bit `i` of `x` (for `i < n`) becomes
bit `n - 1 - i` of the result, and the result has no other bits.
`bit_reverse 32` is the 32-bit bit reversal. -/
def bit_reverse : Nat → Nat → Nat
  | 0, _ => 0
  | n + 1, x => 2 * bit_reverse n x + x / 2 ^ n % 2

/-- The word `x` with bit 31 set. -/
def with_bit31_set (x : Nat) : Nat :=
  if x.testBit 31 then x else x + 2 ^ 31

/-- The word `x` with bit 31 cleared. -/
def with_bit31_clear (x : Nat) : Nat :=
  if x.testBit 31 then x - 2 ^ 31 else x

/-! ## Abstract view of the shared list -/

/-- Address of the first node of a list of node indices (`NULL` when empty). -/
def headPtr : List Nat → Nat
  | [] => 0
  | i :: _ => nodeAddr i

/-- Segment `Seg nodes p l q`: following untagged `next` pointers from `p` visits
exactly the allocated nodes with indices `l`, in this order, and arrives at `q`. -/
def Seg (nodes : List (Option hash_node_t)) : Nat → List Nat → Nat → Prop
  | p, [], q => p = q
  | p, i :: l, q => p = nodeAddr i ∧ ∃ n, nodes[i]? = some (some n) ∧ Seg nodes n.next l q

/-- Chain `Chain nodes p l`: the `NULL`-terminated chain starting at `p` is `l`. -/
def Chain (nodes : List (Option hash_node_t)) (p : Nat) (l : List Nat) : Prop :=
  Seg nodes p l 0

/-- Split-order key of the node with index `i` (0 when it is not allocated). -/
def codeAt (nodes : List (Option hash_node_t)) (i : Nat) : Nat :=
  match nodes[i]? with
  | some (some n) => n.code
  | _ => 0

/-- Key of the node with index `i` (0 when it is not allocated). -/
def keyAt (nodes : List (Option hash_node_t)) (i : Nat) : Nat :=
  match nodes[i]? with
  | some (some n) => n.key
  | _ => 0

/-- Value of the node with index `i` (0 when it is not allocated). -/
def valueAt (nodes : List (Option hash_node_t)) (i : Nat) : Nat :=
  match nodes[i]? with
  | some (some n) => n.value
  | _ => 0

/-- The walk of `hashtable_list_find` moves past node `i`: it neither has a
larger split-order key nor is it the `(code, key)` looked for. -/
def passes (nodes : List (Option hash_node_t)) (code key : Nat) (i : Nat) : Bool :=
  !(decide (codeAt nodes i > code) || (decide (codeAt nodes i = code) && decide (keyAt nodes i = key)))

/-- Node `i` is the `(code, key)` looked for. -/
def isMatch (nodes : List (Option hash_node_t)) (code key : Nat) (i : Nat) : Bool :=
  decide (codeAt nodes i = code) && decide (keyAt nodes i = key)

/-- The first node of the list, if any, is the `(code, key)` looked for. -/
def headMatches (nodes : List (Option hash_node_t)) (code key : Nat) : List Nat → Bool
  | [] => false
  | i :: _ => isMatch nodes code key i

/-- The `prev` slot after walking past the nodes `pre` starting with `prev`. -/
def lastSlot (prev : Slot) : List Nat → Slot
  | [] => prev
  | i :: l => lastSlot (Slot.mem (nodeAddr i + 24)) l

/-- Node `i` is a data node: its split-order key is odd. -/
def isData (nodes : List (Option hash_node_t)) (i : Nat) : Bool :=
  decide (codeAt nodes i % 2 = 1)

/-- The indices of the nodes met by following `next` pointers (tag bit ignored)
from the pointer `p`, for at most `fuel` nodes. -/
def walk (nodes : List (Option hash_node_t)) : Nat → Nat → List Nat
  | 0, _ => []
  | fuel + 1, p =>
    if hashtable_node_get p / 64 = 0 ∨ hashtable_node_get p % 64 ≠ 0 then []
    else match nodes[hashtable_node_get p / 64 - 1]? with
      | some (some n) => (hashtable_node_get p / 64 - 1) :: walk nodes fuel n.next
      | _ => []

/-- Content of directory slot `bucket` of the current directory (0 if there is
no such slot). -/
def slotOf (s : hash_table_t) (bucket : Nat) : Nat :=
  match s.dirs[s.table / 64]? with
  | some (some d) => d.getD bucket 0
  | _ => 0

/-- The nodes reachable from directory slot 0, in list order. -/
def reachable (s : hash_table_t) : List Nat :=
  walk s.nodes s.nodes.length (slotOf s 0)

/-- The split-order keys along the list reachable from directory slot 0. -/
def codes (s : hash_table_t) : List Nat :=
  (reachable s).map (codeAt s.nodes)

/-- The `(key, value)` pairs of the data nodes reachable from slot 0. -/
def entries (s : hash_table_t) : List (Nat × Nat) :=
  ((reachable s).filter (isData s.nodes)).map (fun i => (keyAt s.nodes i, valueAt s.nodes i))

/-- The value stored under `key` in the list reachable from slot 0, if any. -/
def lookup (s : hash_table_t) (key : Nat) : Option Nat :=
  (entries s).lookup key

/-- Node `i` is marked deleted: the tag bit of its `next` field is set. -/
def isMarked (nodes : List (Option hash_node_t)) (i : Nat) : Bool :=
  match nodes[i]? with
  | some (some n) => hashtable_node_bit n.next == 1
  | _ => false

/-- Marked chain `MChain nodes p l`: following `next` pointers with the tag bit
masked off from the untagged pointer `p` visits exactly the allocated nodes with
indices `l`, in this order, and arrives at `NULL`. -/
def MChain (nodes : List (Option hash_node_t)) : Nat → List Nat → Prop
  | p, [] => p = 0
  | p, i :: l => p = nodeAddr i ∧
      ∃ n, nodes[i]? = some (some n) ∧ MChain nodes (hashtable_node_get n.next) l

/-- Directory `d` is closed under `hashtable_bucket_parent`: the parent of every
set slot other than slot 0 is a set slot. -/
def ParentsSet (d : List Nat) : Prop :=
  ∀ (b v : Nat), d[b]? = some v → v ≠ 0 → 0 < b →
    ∃ p v', hashtable_bucket_parent b = .ok p ∧ d[p]? = some v' ∧ v' ≠ 0

/-- The structural invariant of the table, for the directory array `d` and the
list `L` of node indices reachable from slot 0; everything but the count and the shape of the size. -/
structure InvL (s : hash_table_t) (d : List Nat) (L : List Nat) : Prop where
  hz : s.hazard.length = 3
  tbl : ∃ j, s.table = dirAddr j ∧ s.dirs[j]? = some (some d)
  dlen : d.length = s.size
  szb : 0 < s.size ∧ s.size < 2 ^ 61
  head : d[0]? = some (headPtr L)
  ne : L ≠ []
  chain : Chain s.nodes (headPtr L) L
  nodup : L.Nodup
  sorted : L.Pairwise (fun a b => codeAt s.nodes a ≤ codeAt s.nodes b)
  slots : ∀ b v, d[b]? = some v → v ≠ 0 →
    ∃ i, v = nodeAddr i ∧ i ∈ L ∧ codeAt s.nodes i = hashtable_hash_key_dummy b
      ∧ keyAt s.nodes i = b
  data : ∀ i ∈ L, codeAt s.nodes i % 2 = 1 →
    codeAt s.nodes i = hashtable_hash_key_regular (hashtable_hash_key (keyAt s.nodes i))
  uniq : ∀ i ∈ L, ∀ i' ∈ L, codeAt s.nodes i % 2 = 1 → codeAt s.nodes i' % 2 = 1 →
    keyAt s.nodes i = keyAt s.nodes i' → i = i'

/-- The invariant of the table: structure, live count, and a size that is a
power of two. -/
structure Inv (s : hash_table_t) (d : List Nat) (L : List Nat) : Prop where
  toInvL : InvL s d L
  cnt : s.count = (L.filter (isData s.nodes)).length % WORD
  pow : ∃ k, s.size = 2 ^ k ∧ k ≤ 60

/-- Relation `Keeps s d L s' d' L'`: every directory slot that is set in `d`
holds the same pointer in `d'`, every sentinel of the list `L` is still in
`L'`, with the same split-order key and the same bucket index, and `d'` is
closed under `hashtable_bucket_parent` if `d` is. -/
structure Keeps (s : hash_table_t) (d L : List Nat) (s' : hash_table_t) (d' L' : List Nat) :
    Prop where
  slot : ∀ (b v : Nat), d[b]? = some v → v ≠ 0 → d'[b]? = some v
  sentinel : ∀ i ∈ L, codeAt s.nodes i % 2 = 0 →
    i ∈ L' ∧ codeAt s'.nodes i = codeAt s.nodes i ∧ keyAt s'.nodes i = keyAt s.nodes i
  closed : ParentsSet d → ParentsSet d'

/-- Relation `Grows s L s' L'`: from `(s, L)` to `(s', L')` only sentinel nodes were
linked; the fields of the old nodes, the count, the size and the flag are the
same. -/
structure Grows (s : hash_table_t) (L : List Nat) (s' : hash_table_t) (L' : List Nat) :
    Prop where
  perm : ∃ S, L'.Perm (S ++ L) ∧
    ∀ i ∈ S, codeAt s'.nodes i % 2 = 0 ∧ s.nodes.length ≤ i
  fields : ∀ k, k < s.nodes.length → codeAt s'.nodes k = codeAt s.nodes k ∧
    keyAt s'.nodes k = keyAt s.nodes k ∧ valueAt s'.nodes k = valueAt s.nodes k
  frame : ∀ k, k < s.nodes.length → k ∉ L → s'.nodes[k]? = s.nodes[k]?
  count : s'.count = s.count
  size : s'.size = s.size
  lvalue : s'.lvalue = s.lvalue
  table : s'.table = s.table
  len : s.nodes.length ≤ s'.nodes.length

/-- Step budget that is enough for any public operation on the table `s`. -/
def budget (s : hash_table_t) : Nat := s.nodes.length + 70

/-- The table states reachable single-threaded from `hashtable_create` with a
power-of-two size through `hashtable_insert`, `hashtable_find`,
`hashtable_delete` and a directory doubling `hashtable_resize(t, t.size)`, each
operation being run to completion. -/
inductive Reach : hash_table_t → Prop where
  | create (lvalue : Bool) (k : Nat) (s : hash_table_t) :
      hashtable_create lvalue (2 ^ k) = .ok s → Reach s
  | insert (s : hash_table_t) (fuel key value : Nat) (r : Bool) (s' : hash_table_t) :
      Reach s → budget s ≤ fuel → hashtable_insert fuel s key value = .ok (r, s') → Reach s'
  | find (s : hash_table_t) (fuel key : Nat) (r : Nat) (s' : hash_table_t) :
      Reach s → budget s ≤ fuel → hashtable_find fuel s key = .ok (r, s') → Reach s'
  | delete (s : hash_table_t) (fuel key : Nat) (r : Nat) (s' : hash_table_t) :
      Reach s → budget s ≤ fuel → hashtable_delete fuel s key = .ok (r, s') → Reach s'
  | resize (s : hash_table_t) (s' : hash_table_t) :
      Reach s → hashtable_resize s s.size = .ok s' → Reach s'

/-- One public operation, or one directory doubling, run to completion on the
table `s` with a sufficient step budget, ending in `s'`. -/
inductive Step : hash_table_t → hash_table_t → Prop where
  | insert (s : hash_table_t) (fuel key value : Nat) (r : Bool) (s' : hash_table_t) :
      budget s ≤ fuel → hashtable_insert fuel s key value = .ok (r, s') → Step s s'
  | find (s : hash_table_t) (fuel key : Nat) (r : Nat) (s' : hash_table_t) :
      budget s ≤ fuel → hashtable_find fuel s key = .ok (r, s') → Step s s'
  | delete (s : hash_table_t) (fuel key : Nat) (r : Nat) (s' : hash_table_t) :
      budget s ≤ fuel → hashtable_delete fuel s key = .ok (r, s') → Step s s'
  | resize (s : hash_table_t) (s' : hash_table_t) :
      hashtable_resize s s.size = .ok s' → Step s s'

/-- Number of data nodes (odd split-order key) reachable from slot 0. -/
def live_nodes (s : hash_table_t) : Nat :=
  ((reachable s).filter (isData s.nodes)).length

/-- The node with index `i` is allocated and not freed. -/
def allocated (s : hash_table_t) (i : Nat) : Bool :=
  match s.nodes[i]? with
  | some (some _) => true
  | _ => false

/-- One call of the public interface. -/
inductive Op where
  | insert (key value : Nat)
  | find (key : Nat)
  | delete (key : Nat)
deriving DecidableEq

/-- Run one call on the table `s` with the step budget of `s`; the result of an
insert is 1 for `true` and 0 for `false`. -/
def run_op (s : hash_table_t) : Op → M (Nat × hash_table_t)
  | .insert key value =>
    match hashtable_insert (budget s) s key value with
    | .error e => .error e
    | .ok (r, s1) => .ok (if r then 1 else 0, s1)
  | .find key => hashtable_find (budget s) s key
  | .delete key => hashtable_delete (budget s) s key

/-- Run a sequence of calls; returns the results in order and the final table. -/
def run_ops : List Op → hash_table_t → M (List Nat × hash_table_t)
  | [], s => .ok ([], s)
  | op :: rest, s =>
    match run_op s op with
    | .error e => .error e
    | .ok (r, s1) =>
      match run_ops rest s1 with
      | .error e => .error e
      | .ok (rs, s2) => .ok (r :: rs, s2)

/-- Create a table with the given flag and size and run a sequence of calls on it. -/
def run_from_create (lvalue : Bool) (size : Nat) (ops : List Op) :
    M (List Nat × hash_table_t) :=
  match hashtable_create lvalue size with
  | .error e => .error e
  | .ok s => run_ops ops s

/-- Everything of a table but its hazard slots and its mode flag: the directory
pointer, the count, the size, the node memory (the list) and the directories. -/
def shared_view (s : hash_table_t) :
    Nat × Nat × Nat × List (Option hash_node_t) × List (Option (List Nat)) :=
  (s.table, s.count, s.size, s.nodes, s.dirs)

/-- The table `s` with the mode flag `b`. -/
def with_lvalue (b : Bool) (s : hash_table_t) : hash_table_t :=
  { s with lvalue := b }

/-- The table `s` with the mode flag off and hazard slot 0 cleared: the part of
a table that a call of the public interface depends on. -/
def mode_free (s : hash_table_t) : hash_table_t :=
  { s with lvalue := false, hazard := s.hazard.set 0 0 }

/-! ## Scenarios -/

/-- State returned by a run (the fallback `s0` when the run faulted). -/
def final_state {α : Type} (r : M (α × hash_table_t)) (s0 : hash_table_t) : hash_table_t :=
  match r with
  | .ok (_, s) => s
  | .error _ => s0

/-- Insert the given `(key, value)` pairs in order, each with the budget of the
state it runs on; returns for every insert its result and the size after it. -/
def run_inserts : List (Nat × Nat) → hash_table_t → M (List (Bool × Nat) × hash_table_t)
  | [], s => .ok ([], s)
  | (key, value) :: rest, s =>
    match hashtable_insert (budget s) s key value with
    | .error e => .error e
    | .ok (r, s1) =>
      match run_inserts rest s1 with
      | .error e => .error e
      | .ok (rs, s2) => .ok ((r, s1.size) :: rs, s2)

/-- Look up the given keys in order; returns the values found. -/
def run_finds : List Nat → hash_table_t → M (List Nat × hash_table_t)
  | [], s => .ok ([], s)
  | key :: rest, s =>
    match hashtable_find (budget s) s key with
    | .error e => .error e
    | .ok (v, s1) =>
      match run_finds rest s1 with
      | .error e => .error e
      | .ok (vs, s2) => .ok (v :: vs, s2)

/-- The table `hashtable_create(lvalue, 16)`. -/
def fresh16 (lvalue : Bool) : hash_table_t :=
  ⟨dirAddr 0, [0, 0, 0], 0, 16, lvalue, [some ⟨0, 0, 0, 0⟩],
   [some (nodeAddr 0 :: List.replicate 15 0)]⟩

/-- The table after `insert(5, 50)` on a fresh table of size 16. -/
def one16 : hash_table_t :=
  final_state (hashtable_insert 100 (fresh16 false) 5 50) (fresh16 false)

/-- The table after inserting the keys 0..10 with value `10 * key + 1` into a
fresh table of size 16. -/
def eleven16 : hash_table_t :=
  final_state (run_inserts ((List.range 11).map (fun i => (i, 10 * i + 1))) (fresh16 false))
    (fresh16 false)

/-- Scenario A: create, insert keys 0..11 with value `key * 10`, find 7,
delete 7, find 7; returns the three results and the final count. -/
def scenarioA (lvalue : Bool) : M (Nat × Nat × Nat × Nat) :=
  match hashtable_create lvalue 16 with
  | .error e => .error e
  | .ok s0 =>
    match run_inserts ((List.range 12).map (fun i => (i, i * 10))) s0 with
    | .error e => .error e
    | .ok (_, s1) =>
      match hashtable_find (budget s1) s1 7 with
      | .error e => .error e
      | .ok (v1, s2) =>
        match hashtable_delete (budget s2) s2 7 with
        | .error e => .error e
        | .ok (v2, s3) =>
          match hashtable_find (budget s3) s3 7 with
          | .error e => .error e
          | .ok (v3, s4) => .ok (v1, v2, v3, s4.count)

/-- Scenario B: create, insert keys 0..11 with value `10 * key + 1`, then look
all of them up, then insert key 12; returns the per-insert results and sizes,
the values found, the size after the twelve inserts and the size after the
thirteenth. -/
def scenarioB (lvalue : Bool) : M (List (Bool × Nat) × List Nat × Nat × Nat) :=
  match hashtable_create lvalue 16 with
  | .error e => .error e
  | .ok s0 =>
    match run_inserts ((List.range 12).map (fun i => (i, 10 * i + 1))) s0 with
    | .error e => .error e
    | .ok (rs, s1) =>
      match run_finds (List.range 12) s1 with
      | .error e => .error e
      | .ok (vs, s2) =>
        match hashtable_insert (budget s2) s2 12 121 with
        | .error e => .error e
        | .ok (_, s3) => .ok (rs, vs, s1.size, s3.size)

/-- The table after `insert(5, 50)` then `delete(5)` on a fresh table of size 16. -/
def deleted16 (lvalue : Bool) : hash_table_t :=
  final_state (hashtable_delete 100
    (final_state (hashtable_insert 100 (fresh16 lvalue) 5 50) (fresh16 lvalue)) 5)
    (fresh16 lvalue)

/-- State after the first compare-and-swap of `hashtable_list_delete` (line 404)
on the node with index `i`: the tag bit of its `next` field is set and the
node is still linked. -/
def mark_node (s : hash_table_t) (i : Nat) : hash_table_t :=
  match s.nodes[i]? with
  | some (some n) =>
    let marked := hashtable_node_make (hashtable_node_get n.next) 1
    { s with nodes := s.nodes.set i (some { n with next := marked }) }
  | _ => s

/-- The table after `insert(5, 50)` then `insert(21, 210)` on a fresh table of
size 16.  Both keys hash to bucket 5; the list is: sentinel 0 (node 0),
sentinel 1 (node 2), sentinel 5 (node 3), key 21 (node 4), key 5 (node 1). -/
def two16 : hash_table_t :=
  final_state (hashtable_insert 100 one16 21 210) one16

/-- The table `two16` with the node of key 21 marked deleted and still linked;
its successor is the node of key 5. -/
def marked_mid16 : hash_table_t := mark_node two16 4

/-- The table `two16` with the node of key 5, the last node of the list, marked
deleted and still linked. -/
def marked_last16 : hash_table_t := mark_node two16 1

/-- The table `two16` with both data nodes, the last two nodes of the list,
marked deleted and still linked. -/
def marked_both16 : hash_table_t := mark_node (mark_node two16 4) 1

/-- The table `s` with one more node, allocated and filled in for `(key, value)`
as lines 511-516 of `hashtable_insert` do and not linked; and its address. -/
def with_node (s : hash_table_t) (key value : Nat) : Nat × hash_table_t :=
  (nodeAddr s.nodes.length,
   { s with nodes := s.nodes ++
      [some ⟨hashtable_hash_key_regular (hashtable_hash_key key), key, value, 0⟩] })

/-- The table `one16` with directory slot 5 cleared: the sentinel of bucket 5 is
linked (line 485) and its address is not published yet (line 490). -/
def unpublished16 : hash_table_t :=
  match dir_store one16 one16.table 5 0 with
  | .ok s => s
  | .error _ => one16

/-! ## Pointer arithmetic -/

theorem node_make_zero (p : Nat) : hashtable_node_make p 0 = p := by
  simp [hashtable_node_make]

theorem node_get_nodeAddr (i : Nat) : hashtable_node_get (nodeAddr i) = nodeAddr i := by
  unfold hashtable_node_get nodeAddr; omega

theorem node_get_zero : hashtable_node_get 0 = 0 := by
  simp [hashtable_node_get]

theorem node_bit_nodeAddr (i : Nat) : hashtable_node_bit (nodeAddr i) = 0 := by
  unfold hashtable_node_bit nodeAddr; omega

theorem node_bit_zero : hashtable_node_bit 0 = 0 := by
  simp [hashtable_node_bit]

theorem nodeAddr_ne_zero (i : Nat) : nodeAddr i ≠ 0 := by
  unfold nodeAddr; omega

theorem nodeAddr_inj {i j : Nat} (h : nodeAddr i = nodeAddr j) : i = j := by
  unfold nodeAddr at h; omega

theorem unmask_nodeAddr (i : Nat) : hashtable_hazard_ptr_unmask (nodeAddr i) = nodeAddr i := by
  unfold hashtable_hazard_ptr_unmask nodeAddr; omega

theorem unmask_zero : hashtable_hazard_ptr_unmask 0 = 0 := by
  simp [hashtable_hazard_ptr_unmask]

theorem unmask_nodeAddr_add (i : Nat) (k : Nat) (hk : k % 4 = 0) :
    hashtable_hazard_ptr_unmask (nodeAddr i + k) = nodeAddr i + k := by
  unfold hashtable_hazard_ptr_unmask nodeAddr; omega

theorem headPtr_even (l : List Nat) : hashtable_node_get (headPtr l) = headPtr l := by
  cases l with
  | nil => exact node_get_zero
  | cons i l => exact node_get_nodeAddr i

theorem headPtr_bit (l : List Nat) : hashtable_node_bit (headPtr l) = 0 := by
  cases l with
  | nil => exact node_bit_zero
  | cons i l => exact node_bit_nodeAddr i

theorem headPtr_unmask (l : List Nat) : hashtable_hazard_ptr_unmask (headPtr l) = headPtr l := by
  cases l with
  | nil => exact unmask_zero
  | cons i l => exact unmask_nodeAddr i

/-! ## Loads and stores of node fields -/

theorem load_code {s : hash_table_t} {i : Nat} {n : hash_node_t}
    (h : s.nodes[i]? = some (some n)) : load s (nodeAddr i) = .ok n.code := by
  have h1 : nodeAddr i / 64 = i + 1 := by unfold nodeAddr; omega
  have h2 : nodeAddr i % 64 = 0 := by unfold nodeAddr; omega
  simp [load, h1, h2, h]

theorem load_key {s : hash_table_t} {i : Nat} {n : hash_node_t}
    (h : s.nodes[i]? = some (some n)) : load s (nodeAddr i + 8) = .ok n.key := by
  have h1 : (nodeAddr i + 8) / 64 = i + 1 := by unfold nodeAddr; omega
  have h2 : (nodeAddr i + 8) % 64 = 8 := by unfold nodeAddr; omega
  simp [load, h1, h2, h]

theorem load_value {s : hash_table_t} {i : Nat} {n : hash_node_t}
    (h : s.nodes[i]? = some (some n)) : load s (nodeAddr i + 16) = .ok n.value := by
  have h1 : (nodeAddr i + 16) / 64 = i + 1 := by unfold nodeAddr; omega
  have h2 : (nodeAddr i + 16) % 64 = 16 := by unfold nodeAddr; omega
  simp [load, h1, h2, h]

theorem load_next {s : hash_table_t} {i : Nat} {n : hash_node_t}
    (h : s.nodes[i]? = some (some n)) : load s (nodeAddr i + 24) = .ok n.next := by
  have h1 : (nodeAddr i + 24) / 64 = i + 1 := by unfold nodeAddr; omega
  have h2 : (nodeAddr i + 24) % 64 = 24 := by unfold nodeAddr; omega
  simp [load, h1, h2, h]

theorem store_code {s : hash_table_t} {i : Nat} {n : hash_node_t} (v : Nat)
    (h : s.nodes[i]? = some (some n)) :
    store s (nodeAddr i) v = .ok { s with nodes := s.nodes.set i (some { n with code := v }) } := by
  have h1 : nodeAddr i / 64 = i + 1 := by unfold nodeAddr; omega
  have h2 : nodeAddr i % 64 = 0 := by unfold nodeAddr; omega
  simp [store, h1, h2, h]

theorem store_key {s : hash_table_t} {i : Nat} {n : hash_node_t} (v : Nat)
    (h : s.nodes[i]? = some (some n)) :
    store s (nodeAddr i + 8) v
      = .ok { s with nodes := s.nodes.set i (some { n with key := v }) } := by
  have h1 : (nodeAddr i + 8) / 64 = i + 1 := by unfold nodeAddr; omega
  have h2 : (nodeAddr i + 8) % 64 = 8 := by unfold nodeAddr; omega
  simp [store, h1, h2, h]

theorem store_value {s : hash_table_t} {i : Nat} {n : hash_node_t} (v : Nat)
    (h : s.nodes[i]? = some (some n)) :
    store s (nodeAddr i + 16) v
      = .ok { s with nodes := s.nodes.set i (some { n with value := v }) } := by
  have h1 : (nodeAddr i + 16) / 64 = i + 1 := by unfold nodeAddr; omega
  have h2 : (nodeAddr i + 16) % 64 = 16 := by unfold nodeAddr; omega
  simp [store, h1, h2, h]

theorem store_next {s : hash_table_t} {i : Nat} {n : hash_node_t} (v : Nat)
    (h : s.nodes[i]? = some (some n)) :
    store s (nodeAddr i + 24) v
      = .ok { s with nodes := s.nodes.set i (some { n with next := v }) } := by
  have h1 : (nodeAddr i + 24) / 64 = i + 1 := by unfold nodeAddr; omega
  have h2 : (nodeAddr i + 24) % 64 = 24 := by unfold nodeAddr; omega
  simp [store, h1, h2, h]

theorem load_hazard (s : hash_table_t) (hz : List Nat) (a : Nat) :
    load { s with hazard := hz } a = load s a := rfl

theorem slot_load_hazard (s : hash_table_t) (hz : List Nat) (p : Slot) :
    slot_load { s with hazard := hz } p = slot_load s p := by
  cases p <;> rfl

/-! ## The walk of `hashtable_list_find` on a well-formed chain -/

theorem seg_headPtr {nodes : List (Option hash_node_t)} {p : Nat} {l : List Nat}
    (h : Chain nodes p l) : p = headPtr l := by
  cases l with
  | nil => exact h
  | cons i l => exact h.1

theorem codeAt_eq {nodes : List (Option hash_node_t)} {i : Nat} {n : hash_node_t}
    (h : nodes[i]? = some (some n)) : codeAt nodes i = n.code := by
  simp [codeAt, h]

theorem keyAt_eq {nodes : List (Option hash_node_t)} {i : Nat} {n : hash_node_t}
    (h : nodes[i]? = some (some n)) : keyAt nodes i = n.key := by
  simp [keyAt, h]

theorem valueAt_eq {nodes : List (Option hash_node_t)} {i : Nat} {n : hash_node_t}
    (h : nodes[i]? = some (some n)) : valueAt nodes i = n.value := by
  simp [valueAt, h]

theorem list_find_loop_chain (bucket key code : Nat) :
    ∀ (R : List Nat) (fuel : Nat) (s : hash_table_t) (prev : Slot) (current : Nat),
      Chain s.nodes current R → slot_load s prev = .ok current → R.length < fuel →
      0 < s.hazard.length →
      ∃ hz, list_find_loop bucket key code fuel s prev current
          = .ok (headPtr (R.dropWhile (passes s.nodes code key)),
                 lastSlot prev (R.takeWhile (passes s.nodes code key)),
                 { s with hazard := hz })
        ∧ hz.length = s.hazard.length
        ∧ (∀ i rest, R.dropWhile (passes s.nodes code key) = i :: rest →
            hz[0]? = some (headPtr rest)) := by
  intro R
  induction R with
  | nil =>
    intro fuel s prev current hc _ hf _
    have hcur : current = 0 := hc
    subst hcur
    obtain ⟨f, rfl⟩ : ∃ f, fuel = f + 1 := ⟨fuel - 1, by simp at hf; omega⟩
    refine ⟨s.hazard, ?_, rfl, ?_⟩
    · simp [list_find_loop, node_get_zero, headPtr, lastSlot]
    · intro i rest h; simp at h
  | cons i R ih =>
    intro fuel s prev current hc hp hf hz0
    obtain ⟨hcur, n, hn, hrest⟩ := hc
    subst hcur
    obtain ⟨f, rfl⟩ : ∃ f, fuel = f + 1 := ⟨fuel - 1, by simp at hf; omega⟩
    have hnext : n.next = headPtr R := seg_headPtr hrest
    have hge : hashtable_node_get (nodeAddr i) ≠ 0 := by
      rw [node_get_nodeAddr]; exact nodeAddr_ne_zero i
    have hgm : hashtable_hazard_ptr_get_with_mask s (nodeAddr i + 24) 0
        = .ok (n.next, { s with hazard := s.hazard.set 0 n.next }) := by
      unfold hashtable_hazard_ptr_get_with_mask
      rw [unmask_nodeAddr_add i 24 (by decide), load_next hn]
      simp [hashtable_hazard_ptr_set_with_mask, hashtable_hazard_ptr_set, hnext, headPtr_unmask]
    have hlc : load { s with hazard := s.hazard.set 0 n.next } (nodeAddr i) = .ok n.code :=
      load_code (s := { s with hazard := s.hazard.set 0 n.next }) hn
    have hlk : load { s with hazard := s.hazard.set 0 n.next } (nodeAddr i + 8) = .ok n.key :=
      load_key (s := { s with hazard := s.hazard.set 0 n.next }) hn
    have hsl : slot_load { s with hazard := s.hazard.set 0 n.next } prev = .ok (nodeAddr i) := by
      rw [slot_load_hazard]; exact hp
    have hbit : hashtable_node_bit n.next = 0 := by rw [hnext]; exact headPtr_bit R
    by_cases hstop : n.code > code ∨ (n.code = code ∧ n.key = key)
    · have hpass : passes s.nodes code key i = false := by
        simp only [passes, codeAt_eq hn, keyAt_eq hn]
        rcases hstop with h | ⟨h1, h2⟩
        · simp [h]
        · simp [h1, h2]
      refine ⟨s.hazard.set 0 n.next, ?_, by simp, ?_⟩
      · rw [list_find_loop]
        simp only [nodeAddr_ne_zero, if_false, hgm, hlc, hlk, hsl, node_get_nodeAddr, node_make_zero,
          ne_eq, not_true_eq_false, hbit, if_true, hstop]
        simp [List.dropWhile, List.takeWhile, hpass, headPtr, lastSlot]
      · intro j rest h
        simp only [List.dropWhile, hpass] at h
        injection h with h1 h2
        subst h2
        rw [hnext]
        simp [List.getElem?_set, hz0]
    · have hpass : passes s.nodes code key i = true := by
        simp only [passes, codeAt_eq hn, keyAt_eq hn]
        push_neg at hstop
        obtain ⟨h1, h2⟩ := hstop
        have h1' : ¬ (code < n.code) := by omega
        by_cases hc : n.code = code
        · simp [h1', hc, h2 hc]
        · simp [h1', hc]
      have hlen : R.length < f := by simp at hf; omega
      obtain ⟨hz, hrun, hlenz, hhz⟩ := ih f
        (hashtable_hazard_ptr_set_with_mask
          (hashtable_hazard_ptr_set_with_mask { s with hazard := s.hazard.set 0 n.next }
            (nodeAddr i) 2) n.next 1)
        (Slot.mem (nodeAddr i + 24)) n.next hrest
        (by
          show load _ (nodeAddr i + 24) = .ok n.next
          exact load_next (s := hashtable_hazard_ptr_set_with_mask
            (hashtable_hazard_ptr_set_with_mask { s with hazard := s.hazard.set 0 n.next }
              (nodeAddr i) 2) n.next 1) hn) hlen
        (by simp [hashtable_hazard_ptr_set_with_mask, hashtable_hazard_ptr_set]; exact hz0)
      refine ⟨hz, ?_, ?_, ?_⟩
      · rw [list_find_loop]
        simp only [nodeAddr_ne_zero, if_false, hgm, hlc, hlk, hsl, node_get_nodeAddr, node_make_zero,
          ne_eq, not_true_eq_false, hbit, if_true, hstop]
        rw [hrun]
        simp [List.dropWhile, List.takeWhile, hpass, lastSlot, hashtable_hazard_ptr_set_with_mask,
          hashtable_hazard_ptr_set]
      · rw [hlenz]; simp [hashtable_hazard_ptr_set_with_mask, hashtable_hazard_ptr_set]
      · intro j rest h
        simp only [List.dropWhile, hpass] at h
        exact hhz j rest h

/-! ## Segments of the list -/

theorem seg_append {nodes : List (Option hash_node_t)} :
    ∀ (X Y : List Nat) (p q : Nat),
      Seg nodes p (X ++ Y) q ↔ ∃ r, Seg nodes p X r ∧ Seg nodes r Y q := by
  intro X
  induction X with
  | nil =>
    intro Y p q
    constructor
    · intro h; exact ⟨p, rfl, h⟩
    · rintro ⟨r, h1, h2⟩
      have : p = r := h1
      subst this; exact h2
  | cons i X ih =>
    intro Y p q
    constructor
    · rintro ⟨hp, n, hn, hrest⟩
      obtain ⟨r, h1, h2⟩ := (ih Y n.next q).1 hrest
      exact ⟨r, ⟨hp, n, hn, h1⟩, h2⟩
    · rintro ⟨r, ⟨hp, n, hn, h1⟩, h2⟩
      exact ⟨hp, n, hn, (ih Y n.next q).2 ⟨r, h1, h2⟩⟩

theorem seg_congr {nodes nodes' : List (Option hash_node_t)} :
    ∀ (X : List Nat) (p q : Nat), (∀ i ∈ X, nodes'[i]? = nodes[i]?) →
      Seg nodes p X q → Seg nodes' p X q := by
  intro X
  induction X with
  | nil => intro p q _ h; exact h
  | cons i X ih =>
    intro p q hx h
    obtain ⟨hp, n, hn, hrest⟩ := h
    refine ⟨hp, n, ?_, ih n.next q (fun k hk => hx k (List.mem_cons_of_mem _ hk)) hrest⟩
    rw [hx i (List.mem_cons_self _ _)]; exact hn

theorem seg_alloc {nodes : List (Option hash_node_t)} :
    ∀ (X : List Nat) (p q : Nat), Seg nodes p X q → ∀ i ∈ X, ∃ n, nodes[i]? = some (some n) := by
  intro X
  induction X with
  | nil => intro p q _ i hi; simp at hi
  | cons a X ih =>
    intro p q h i hi
    obtain ⟨_, n, hn, hrest⟩ := h
    rcases List.mem_cons.1 hi with rfl | hi
    · exact ⟨n, hn⟩
    · exact ih n.next q hrest i hi

theorem seg_lt_length {nodes : List (Option hash_node_t)} {X : List Nat} {p q : Nat}
    (h : Seg nodes p X q) : ∀ i ∈ X, i < nodes.length := by
  intro i hi
  obtain ⟨n, hn⟩ := seg_alloc X p q h i hi
  by_contra hlt
  rw [List.getElem?_eq_none (by omega)] at hn
  simp at hn

/-- Redirecting the `next` field of the last node of a segment. -/
theorem seg_snoc_set {nodes : List (Option hash_node_t)} {X : List Nat} {j p q v : Nat}
    {n : hash_node_t} (h : Seg nodes p (X ++ [j]) q) (hj : j ∉ X)
    (hn : nodes[j]? = some (some n)) :
    Seg (nodes.set j (some { n with next := v })) p (X ++ [j]) v := by
  obtain ⟨r, h1, h2⟩ := (seg_append X [j] p q).1 h
  refine (seg_append X [j] p v).2 ⟨r, ?_, ?_⟩
  · apply seg_congr X p r _ h1
    intro i hi
    have : j ≠ i := fun e => hj (e ▸ hi)
    simp [List.getElem?_set, this]
  · obtain ⟨hr, n', hn', _⟩ := h2
    have hjl : j < nodes.length := by
      by_contra hlt
      rw [List.getElem?_eq_none (by omega)] at hn
      simp at hn
    exact ⟨hr, { n with next := v }, by simp [List.getElem?_set, hjl], rfl⟩

theorem lastSlot_append (prev : Slot) (X : List Nat) (j : Nat) :
    lastSlot prev (X ++ [j]) = Slot.mem (nodeAddr j + 24) := by
  induction X generalizing prev with
  | nil => rfl
  | cons a X ih => exact ih _

theorem codeAt_set_next {nodes : List (Option hash_node_t)} {j : Nat} {n : hash_node_t}
    (hn : nodes[j]? = some (some n)) (v i : Nat) :
    codeAt (nodes.set j (some { n with next := v })) i = codeAt nodes i := by
  unfold codeAt
  by_cases h : j = i
  · subst h
    have hjl : j < nodes.length := by
      by_contra hlt
      rw [List.getElem?_eq_none (by omega)] at hn
      simp at hn
    simp [List.getElem?_set, hjl, hn]
  · simp [List.getElem?_set, h]

theorem keyAt_set_next {nodes : List (Option hash_node_t)} {j : Nat} {n : hash_node_t}
    (hn : nodes[j]? = some (some n)) (v i : Nat) :
    keyAt (nodes.set j (some { n with next := v })) i = keyAt nodes i := by
  unfold keyAt
  by_cases h : j = i
  · subst h
    have hjl : j < nodes.length := by
      by_contra hlt
      rw [List.getElem?_eq_none (by omega)] at hn
      simp at hn
    simp [List.getElem?_set, hjl, hn]
  · simp [List.getElem?_set, h]

theorem valueAt_set_next {nodes : List (Option hash_node_t)} {j : Nat} {n : hash_node_t}
    (hn : nodes[j]? = some (some n)) (v i : Nat) :
    valueAt (nodes.set j (some { n with next := v })) i = valueAt nodes i := by
  unfold valueAt
  by_cases h : j = i
  · subst h
    have hjl : j < nodes.length := by
      by_contra hlt
      rw [List.getElem?_eq_none (by omega)] at hn
      simp at hn
    simp [List.getElem?_set, hjl, hn]
  · simp [List.getElem?_set, h]

/-! ## `hashtable_list_find` from an initialised bucket -/

theorem list_find_spec (fuel : Nat) (s : hash_table_t) (bucket key code : Nat) (R : List Nat)
    (hdl : dir_load s s.table bucket = .ok (headPtr R))
    (hR : Chain s.nodes (headPtr R) R) (hfuel : R.length < fuel) (hz : 0 < s.hazard.length) :
    ∃ hz', hashtable_list_find fuel s bucket key code
        = .ok (headPtr (R.dropWhile (passes s.nodes code key)),
               lastSlot (Slot.dir s.table bucket) (R.takeWhile (passes s.nodes code key)),
               { s with hazard := hz' })
      ∧ hz'.length = s.hazard.length
      ∧ (∀ i rest, R.dropWhile (passes s.nodes code key) = i :: rest →
          hz'[0]? = some (headPtr rest)) := by
  have he : list_find_entry s bucket
      = .ok ({ s with hazard := (s.hazard.set 0 s.table).set 1 (headPtr R) },
             Slot.dir s.table bucket, headPtr R) := by
    unfold list_find_entry
    have : slot_load (hashtable_hazard_ptr_set s s.table 0) (Slot.dir s.table bucket)
        = .ok (headPtr R) := by
      show dir_load (hashtable_hazard_ptr_set s s.table 0) s.table bucket = _
      exact hdl
    simp only [this]
    rfl
  obtain ⟨hz', hrun, hlen, hh⟩ := list_find_loop_chain bucket key code R fuel
    { s with hazard := (s.hazard.set 0 s.table).set 1 (headPtr R) }
    (Slot.dir s.table bucket) (headPtr R) hR
    (by show dir_load _ s.table bucket = _; exact hdl) hfuel (by simpa using hz)
  refine ⟨hz', ?_, by simpa using hlen, hh⟩
  unfold hashtable_list_find
  rw [he]
  exact hrun

/-! ## `hashtable_list_insert` from an initialised bucket -/

theorem getElem?_some_lt {α : Type} {l : List α} {i : Nat} {a : α} (h : l[i]? = some a) :
    i < l.length := by
  by_contra hlt
  rw [List.getElem?_eq_none (by omega)] at h
  simp at h

theorem takeWhile_ne_nil_snoc {α : Type} (f : α → Bool) (r0 : α) (R : List α) (h : f r0 = true) :
    ∃ X j, (r0 :: R).takeWhile f = X ++ [j] := by
  have hne : (r0 :: R).takeWhile f ≠ [] := by simp [List.takeWhile, h]
  exact ⟨_, _, (List.dropLast_append_getLast hne).symm⟩

theorem list_insert_found_spec (s : hash_table_t) (post : List Nat) (m : Nat) (nm : hash_node_t)
    (hm : s.nodes[m]? = some (some nm))
    (hpost : ∀ i ∈ post, ∃ n, s.nodes[i]? = some (some n)) :
    list_insert_found s (headPtr post) (nodeAddr m)
      = .ok (headMatches s.nodes nm.code nm.key post) := by
  cases post with
  | nil => simp [list_insert_found, headPtr, headMatches]
  | cons i rest =>
    obtain ⟨n, hn⟩ := hpost i (List.mem_cons_self _ _)
    unfold list_insert_found
    simp only [headPtr, nodeAddr_ne_zero, if_false, load_code hn, load_code hm, load_key hn,
      load_key hm, isMatch, codeAt_eq hn, keyAt_eq hn, headMatches]
    by_cases hc : n.code = nm.code
    · simp [hc]
    · simp [hc]

theorem list_insert_spec (fuel : Nat) (s : hash_table_t) (bucket m : Nat) (nm : hash_node_t)
    (r0 : Nat) (R : List Nat)
    (hdl : dir_load s s.table bucket = .ok (nodeAddr r0))
    (hR : Chain s.nodes (nodeAddr r0) (r0 :: R)) (hnd : (r0 :: R).Nodup)
    (hm : s.nodes[m]? = some (some nm)) (hmR : m ∉ r0 :: R)
    (hfuel : (r0 :: R).length < fuel) (hz : 0 < s.hazard.length)
    (hfirst : passes s.nodes nm.code nm.key r0 = true) :
    (∀ i rest, (r0 :: R).dropWhile (passes s.nodes nm.code nm.key) = i :: rest →
        isMatch s.nodes nm.code nm.key i = true →
        ∃ hz', hashtable_list_insert fuel s bucket (nodeAddr m)
            = .ok (nodeAddr i, { s with hazard := hz' }) ∧ hz'.length = s.hazard.length) ∧
    ((∀ i rest, (r0 :: R).dropWhile (passes s.nodes nm.code nm.key) = i :: rest →
        isMatch s.nodes nm.code nm.key i = false) →
        ∃ hz' nodes', hashtable_list_insert fuel s bucket (nodeAddr m)
            = .ok (nodeAddr m, { s with hazard := hz', nodes := nodes' })
          ∧ hz'.length = s.hazard.length
          ∧ Chain nodes' (nodeAddr r0)
              ((r0 :: R).takeWhile (passes s.nodes nm.code nm.key) ++
                m :: (r0 :: R).dropWhile (passes s.nodes nm.code nm.key))
          ∧ (∀ i, i ≠ m → i ∉ r0 :: R → nodes'[i]? = s.nodes[i]?)
          ∧ (∀ i, codeAt nodes' i = codeAt s.nodes i ∧ keyAt nodes' i = keyAt s.nodes i
                ∧ valueAt nodes' i = valueAt s.nodes i)) := by
  obtain ⟨hz', hfind, hlen, _⟩ := list_find_spec fuel s bucket nm.key nm.code (r0 :: R)
    hdl hR hfuel hz
  obtain ⟨f, rfl⟩ : ∃ f, fuel = f + 1 := ⟨fuel - 1, by simp at hfuel; omega⟩
  have hpostalloc : ∀ i ∈ (r0 :: R).dropWhile (passes s.nodes nm.code nm.key),
      ∃ n, ({ s with hazard := hz' } : hash_table_t).nodes[i]? = some (some n) := by
    intro i hi
    exact seg_alloc _ _ _ hR i ((List.dropWhile_sublist _).subset hi)
  have hfound := list_insert_found_spec { s with hazard := hz' }
    ((r0 :: R).dropWhile (passes s.nodes nm.code nm.key)) m nm hm hpostalloc
  have hstart : hashtable_list_insert (f + 1) s bucket (nodeAddr m)
      = list_insert_loop (f + 1) bucket (nodeAddr m) nm.key nm.code (f + 1) s := by
    unfold hashtable_list_insert
    rw [load_key hm, load_code hm]
  constructor
  · intro i rest hpost hmatch
    refine ⟨hz', ?_, hlen⟩
    rw [hstart, list_insert_loop, hfind]
    rw [hpost] at hfound
    simp only [headPtr, headMatches, hmatch] at hfound
    simp only [hpost, headPtr, hfound]
  · intro hnomatch
    obtain ⟨X, jl, hpre⟩ := takeWhile_ne_nil_snoc (passes s.nodes nm.code nm.key) r0 R hfirst
    have hsplit : r0 :: R = (X ++ [jl]) ++ (r0 :: R).dropWhile (passes s.nodes nm.code nm.key) := by
      rw [← hpre]; exact (List.takeWhile_append_dropWhile _ _).symm
    generalize hpostdef : (r0 :: R).dropWhile (passes s.nodes nm.code nm.key) = post at *
    have hnd' : ((X ++ [jl]) ++ post).Nodup := hsplit ▸ hnd
    have hjlR : jl ∈ r0 :: R := by rw [hsplit]; simp
    have hjlm : jl ≠ m := fun e => hmR (e ▸ hjlR)
    obtain ⟨njl, hnjl⟩ := seg_alloc _ _ _ hR jl hjlR
    have hseg : Seg s.nodes (nodeAddr r0) ((X ++ [jl]) ++ post) 0 := hsplit ▸ hR
    obtain ⟨r, hseg1, hseg2⟩ := (seg_append (X ++ [jl]) post _ _).1 hseg
    have hr : r = headPtr post := seg_headPtr hseg2
    subst hr
    have hjlnext : njl.next = headPtr post := by
      obtain ⟨r', _, h2⟩ := (seg_append X [jl] _ _).1 hseg1
      obtain ⟨_, n', hn', hq⟩ := h2
      rw [hnjl] at hn'
      injection hn' with hn'
      injection hn' with hn'
      subst hn'
      exact hq
    have hjlX : jl ∉ X := by
      have := (List.nodup_append.1 (List.nodup_append.1 hnd').1).2.2
      intro hx
      exact this hx (List.mem_singleton_self jl)
    have hfoundF : list_insert_found { s with hazard := hz' } (headPtr post) (nodeAddr m)
        = .ok false := by
      rw [hfound]
      cases post with
      | nil => rfl
      | cons i rest => simp [headMatches, hnomatch i rest rfl]
    -- the two writes
    let nodes1 := s.nodes.set m (some { nm with next := headPtr post })
    have hn1jl : nodes1[jl]? = some (some njl) := by
      simp [nodes1, List.getElem?_set, Ne.symm hjlm, hnjl]
    have hml : m < s.nodes.length := getElem?_some_lt hm
    have hn1m : nodes1[m]? = some (some { nm with next := headPtr post }) := by
      simp [nodes1, List.getElem?_set, hml]
    let nodes2 := nodes1.set jl (some { njl with next := nodeAddr m })
    refine ⟨hz'.set 0 (nodeAddr m), nodes2, ?_, by simpa using hlen, ?_, ?_, ?_⟩
    · rw [hstart, list_insert_loop, hfind]
      simp only [hfoundF, hpre, lastSlot_append, headPtr_even, node_make_zero]
      rw [store_next (s := { s with hazard := hz' }) (headPtr post) hm]
      have hcas : hashtable_atomic_cas
          (hashtable_hazard_ptr_set
            { s with hazard := hz', nodes := nodes1 } (nodeAddr m) 0)
          (Slot.mem (nodeAddr jl + 24)) (headPtr post) (nodeAddr m)
          = .ok (true, { s with hazard := hz'.set 0 (nodeAddr m), nodes := nodes2 }) := by
        unfold hashtable_atomic_cas
        have h1 : slot_load (hashtable_hazard_ptr_set
            { s with hazard := hz', nodes := nodes1 } (nodeAddr m) 0)
            (Slot.mem (nodeAddr jl + 24)) = .ok njl.next :=
          load_next (s := hashtable_hazard_ptr_set
            { s with hazard := hz', nodes := nodes1 } (nodeAddr m) 0) hn1jl
        have h2 : slot_store (hashtable_hazard_ptr_set
            { s with hazard := hz', nodes := nodes1 } (nodeAddr m) 0)
            (Slot.mem (nodeAddr jl + 24)) (nodeAddr m)
            = .ok { s with hazard := hz'.set 0 (nodeAddr m), nodes := nodes2 } :=
          store_next (s := hashtable_hazard_ptr_set
            { s with hazard := hz', nodes := nodes1 } (nodeAddr m) 0) (nodeAddr m) hn1jl
        simp only [h1, h2, hjlnext, if_true]
      simp only [hcas]
    · -- the new chain
      rw [hpre]
      show Seg nodes2 (nodeAddr r0) ((X ++ [jl]) ++ m :: post) 0
      refine (seg_append (X ++ [jl]) (m :: post) _ _).2 ⟨nodeAddr m, ?_, ?_⟩
      · have hs1 : Seg nodes1 (nodeAddr r0) (X ++ [jl]) (headPtr post) := by
          apply seg_congr _ _ _ _ hseg1
          intro i hi
          have : m ≠ i := by
            intro e; subst e
            exact hmR (by rw [hsplit]; exact List.mem_append_left _ hi)
          simp [nodes1, List.getElem?_set, this]
        exact seg_snoc_set hs1 hjlX hn1jl
      · refine ⟨rfl, { nm with next := headPtr post }, ?_, ?_⟩
        · simp [nodes2, List.getElem?_set, hjlm, hn1m]
        · apply seg_congr _ _ _ _ hseg2
          intro i hi
          have h1 : m ≠ i := by
            intro e; subst e
            exact hmR (by rw [hsplit]; exact List.mem_append_right _ hi)
          have h2 : jl ≠ i := by
            intro e; subst e
            exact (List.nodup_append.1 hnd').2.2 (by simp) hi
          simp [nodes2, nodes1, List.getElem?_set, h1, h2]
    · intro i him hiR
      have h2 : jl ≠ i := fun e => hiR (e ▸ hjlR)
      simp [nodes2, nodes1, List.getElem?_set, Ne.symm him, h2]
    · intro i
      refine ⟨?_, ?_, ?_⟩
      · show codeAt nodes2 i = _
        rw [codeAt_set_next hn1jl, codeAt_set_next hm]
      · show keyAt nodes2 i = _
        rw [keyAt_set_next hn1jl, keyAt_set_next hm]
      · show valueAt nodes2 i = _
        rw [valueAt_set_next hn1jl, valueAt_set_next hm]

/-! ## `hashtable_list_delete` from an initialised bucket -/

theorem list_delete_spec (fuel : Nat) (s : hash_table_t) (bucket key code : Nat)
    (r0 : Nat) (R : List Nat)
    (hdl : dir_load s s.table bucket = .ok (nodeAddr r0))
    (hR : Chain s.nodes (nodeAddr r0) (r0 :: R)) (hnd : (r0 :: R).Nodup)
    (hfuel : (r0 :: R).length < fuel) (hz : 0 < s.hazard.length)
    (hfirst : passes s.nodes code key r0 = true) :
    (headMatches s.nodes code key ((r0 :: R).dropWhile (passes s.nodes code key)) = false →
        ∃ hz', hashtable_list_delete fuel s bucket key code
            = .ok (0, { s with hazard := hz' }) ∧ hz'.length = s.hazard.length) ∧
    (∀ i rest, (r0 :: R).dropWhile (passes s.nodes code key) = i :: rest →
        isMatch s.nodes code key i = true →
        ∃ hz' nodes', hashtable_list_delete fuel s bucket key code
            = .ok (nodeAddr i, { s with hazard := hz', nodes := nodes' })
          ∧ hz'.length = s.hazard.length
          ∧ Chain nodes' (nodeAddr r0) ((r0 :: R).takeWhile (passes s.nodes code key) ++ rest)
          ∧ (∀ k, k ∉ r0 :: R → nodes'[k]? = s.nodes[k]?)
          ∧ (∀ k, codeAt nodes' k = codeAt s.nodes k ∧ keyAt nodes' k = keyAt s.nodes k
                ∧ valueAt nodes' k = valueAt s.nodes k)
          ∧ (∃ n, nodes'[i]? = some (some n))) := by
  obtain ⟨hz', hfind, hlen, hhz⟩ := list_find_spec fuel s bucket key code (r0 :: R)
    hdl hR hfuel hz
  obtain ⟨f, rfl⟩ : ∃ f, fuel = f + 1 := ⟨fuel - 1, by simp at hfuel; omega⟩
  have hpostalloc : ∀ i ∈ (r0 :: R).dropWhile (passes s.nodes code key),
      ∃ n, s.nodes[i]? = some (some n) := by
    intro i hi
    exact seg_alloc _ _ _ hR i ((List.dropWhile_sublist _).subset hi)
  obtain ⟨X, jl, hpre⟩ := takeWhile_ne_nil_snoc (passes s.nodes code key) r0 R hfirst
  have hsplit : r0 :: R = (X ++ [jl]) ++ (r0 :: R).dropWhile (passes s.nodes code key) := by
    rw [← hpre]; exact (List.takeWhile_append_dropWhile _ _).symm
  generalize hpostdef : (r0 :: R).dropWhile (passes s.nodes code key) = post at *
  constructor
  · intro hno
    refine ⟨hz', ?_, hlen⟩
    unfold hashtable_list_delete
    rw [list_delete_loop, hfind]
    cases post with
    | nil => simp [headPtr]
    | cons i rest =>
      obtain ⟨n, hn⟩ := hpostalloc i (List.mem_cons_self _ _)
      simp only [headMatches, isMatch, codeAt_eq hn, keyAt_eq hn] at hno
      simp only [headPtr, nodeAddr_ne_zero, if_false,
        load_code (s := { s with hazard := hz' }) hn,
        load_key (s := { s with hazard := hz' }) hn]
      by_cases hc : n.code = code
      · have hk : n.key ≠ key := by
          intro hk; simp [hc, hk] at hno
        simp [hc, hk]
      · simp [hc]
  · intro i rest hpost hmatch
    subst hpost
    obtain ⟨n, hn⟩ := hpostalloc i (List.mem_cons_self _ _)
    simp only [isMatch, codeAt_eq hn, keyAt_eq hn, Bool.and_eq_true, decide_eq_true_eq] at hmatch
    obtain ⟨hcode, hkey⟩ := hmatch
    have hnd' : ((X ++ [jl]) ++ i :: rest).Nodup := hsplit ▸ hnd
    have hjlR : jl ∈ r0 :: R := by rw [hsplit]; simp
    have hiR : i ∈ r0 :: R := by rw [hsplit]; simp
    have hjli : jl ≠ i := by
      intro e; subst e
      exact (List.nodup_append.1 hnd').2.2 (by simp) (List.mem_cons_self _ _)
    obtain ⟨njl, hnjl⟩ := seg_alloc _ _ _ hR jl hjlR
    have hseg : Seg s.nodes (nodeAddr r0) ((X ++ [jl]) ++ i :: rest) 0 := hsplit ▸ hR
    obtain ⟨r, hseg1, hseg2⟩ := (seg_append (X ++ [jl]) (i :: rest) _ _).1 hseg
    have hr : r = nodeAddr i := hseg2.1
    subst hr
    have hjlnext : njl.next = nodeAddr i := by
      obtain ⟨r', _, h2⟩ := (seg_append X [jl] _ _).1 hseg1
      obtain ⟨_, n', hn', hq⟩ := h2
      rw [hnjl] at hn'
      injection hn' with hn'
      injection hn' with hn'
      subst hn'
      exact hq
    have hrest : Seg s.nodes n.next rest 0 := by
      obtain ⟨_, n', hn', hq⟩ := hseg2
      rw [hn] at hn'
      injection hn' with hn'
      injection hn' with hn'
      subst hn'
      exact hq
    have hinext : n.next = headPtr rest := seg_headPtr hrest
    have hjlX : jl ∉ X := by
      have := (List.nodup_append.1 (List.nodup_append.1 hnd').1).2.2
      intro hx
      exact this hx (List.mem_singleton_self jl)
    have hil : i < s.nodes.length := getElem?_some_lt hn
    let nodes1 := s.nodes.set i (some { n with next := hashtable_node_make (headPtr rest) 1 })
    have hn1jl : nodes1[jl]? = some (some njl) := by
      simp [nodes1, List.getElem?_set, Ne.symm hjli, hnjl]
    have hn1i : nodes1[i]? = some (some { n with next := hashtable_node_make (headPtr rest) 1 }) := by
      simp [nodes1, List.getElem?_set, hil]
    let nodes2 := nodes1.set jl (some { njl with next := headPtr rest })
    refine ⟨hz', nodes2, ?_, hlen, ?_, ?_, ?_, ?_⟩
    · unfold hashtable_list_delete
      rw [list_delete_loop, hfind]
      simp only [headPtr, nodeAddr_ne_zero, if_false,
        load_code (s := { s with hazard := hz' }) hn,
        load_key (s := { s with hazard := hz' }) hn, hcode, hkey, ne_eq, not_true_eq_false]
      have hcur : hashtable_hazard_ptr_get_current { s with hazard := hz' } 0
          = .ok (headPtr rest) := by
        unfold hashtable_hazard_ptr_get_current
        simp [hhz i rest rfl]
      simp only [hcur, headPtr_even, node_get_nodeAddr, node_make_zero]
      have hcas1 : hashtable_atomic_cas { s with hazard := hz' } (Slot.mem (nodeAddr i + 24))
          (headPtr rest) (hashtable_node_make (headPtr rest) 1)
          = .ok (true, { s with hazard := hz', nodes := nodes1 }) := by
        unfold hashtable_atomic_cas
        have h1 : slot_load { s with hazard := hz' } (Slot.mem (nodeAddr i + 24))
            = .ok n.next := load_next (s := { s with hazard := hz' }) hn
        have h2 : slot_store { s with hazard := hz' } (Slot.mem (nodeAddr i + 24))
            (hashtable_node_make (headPtr rest) 1)
            = .ok { s with hazard := hz', nodes := nodes1 } :=
          store_next (s := { s with hazard := hz' }) _ hn
        simp only [h1, h2, hinext, if_true]
      have hcas2 : hashtable_atomic_cas { s with hazard := hz', nodes := nodes1 }
          (lastSlot (Slot.dir s.table bucket) (X ++ [jl])) (nodeAddr i) (headPtr rest)
          = .ok (true, { s with hazard := hz', nodes := nodes2 }) := by
        rw [lastSlot_append]
        unfold hashtable_atomic_cas
        have h1 : slot_load { s with hazard := hz', nodes := nodes1 }
            (Slot.mem (nodeAddr jl + 24)) = .ok njl.next :=
          load_next (s := { s with hazard := hz', nodes := nodes1 }) hn1jl
        have h2 : slot_store { s with hazard := hz', nodes := nodes1 }
            (Slot.mem (nodeAddr jl + 24)) (headPtr rest)
            = .ok { s with hazard := hz', nodes := nodes2 } :=
          store_next (s := { s with hazard := hz', nodes := nodes1 }) _ hn1jl
        simp only [h1, h2, hjlnext, if_true]
      simp only [hcas1, hpre, hcas2, hashtable_node_destroy, node_bit_nodeAddr, ne_eq,
        not_true_eq_false, if_false]
    · rw [hpre]
      show Seg nodes2 (nodeAddr r0) ((X ++ [jl]) ++ rest) 0
      refine (seg_append (X ++ [jl]) rest _ _).2 ⟨headPtr rest, ?_, ?_⟩
      · have hs1 : Seg nodes1 (nodeAddr r0) (X ++ [jl]) (nodeAddr i) := by
          apply seg_congr _ _ _ _ hseg1
          intro k hk
          have : i ≠ k := by
            intro e; subst e
            exact (List.nodup_append.1 hnd').2.2 hk (List.mem_cons_self _ _)
          simp [nodes1, List.getElem?_set, this]
        exact seg_snoc_set hs1 hjlX hn1jl
      · rw [← hinext]
        apply seg_congr _ _ _ _ hrest
        intro k hk
        have h1 : i ≠ k := by
          intro e; subst e
          exact (List.nodup_cons.1 (List.nodup_append.1 hnd').2.1).1 hk
        have h2 : jl ≠ k := by
          intro e; subst e
          exact (List.nodup_append.1 hnd').2.2 (by simp) (List.mem_cons_of_mem _ hk)
        simp [nodes2, nodes1, List.getElem?_set, h1, h2]
    · intro k hk
      have h1 : i ≠ k := fun e => hk (e ▸ hiR)
      have h2 : jl ≠ k := fun e => hk (e ▸ hjlR)
      simp [nodes2, nodes1, List.getElem?_set, h1, h2]
    · intro k
      refine ⟨?_, ?_, ?_⟩
      · show codeAt nodes2 k = _
        rw [codeAt_set_next hn1jl, codeAt_set_next hn]
      · show keyAt nodes2 k = _
        rw [keyAt_set_next hn1jl, keyAt_set_next hn]
      · show valueAt nodes2 k = _
        rw [valueAt_set_next hn1jl, valueAt_set_next hn]
    · refine ⟨{ n with next := hashtable_node_make (headPtr rest) 1 }, ?_⟩
      simp [nodes2, List.getElem?_set, hjli, hn1i]

/-! ## Bit reversal -/

set_option maxRecDepth 100000 in
theorem byte_table :
    ∀ b < 256, byte b < 256 ∧ ∀ j < 8, (byte b).testBit j = b.testBit (7 - j) := by
  decide

theorem byte_testBit {X : Nat} (hX : X < 256) (t : Nat) :
    (byte X).testBit t = (decide (t < 8) && X.testBit (7 - t)) := by
  by_cases ht : t < 8
  · simp [ht, (byte_table X hX).2 t ht]
  · have h1 : byte X < 2 ^ t :=
      lt_of_lt_of_le (byte_table X hX).1
        (le_trans (by norm_num : 256 ≤ 2 ^ 8) (Nat.pow_le_pow_right (by norm_num) (by omega)))
    simp [ht, Nat.testBit_lt_two_pow h1]

theorem rvalue_testBit (k j : Nat) :
    (hashtable_rvalue k).testBit j = (decide (j < 32) && k.testBit (31 - j)) := by
  have h0 : (k &&& 0x000000ff) >>> 0 < 256 := by
    have := @Nat.and_le_right k 0x000000ff
    simp only [Nat.shiftRight_eq_div_pow]; omega
  have h1 : (k &&& 0x0000ff00) >>> 8 < 256 := by
    have := @Nat.and_le_right k 0x0000ff00
    simp only [Nat.shiftRight_eq_div_pow]; omega
  have h2 : (k &&& 0x00ff0000) >>> 16 < 256 := by
    have := @Nat.and_le_right k 0x00ff0000
    simp only [Nat.shiftRight_eq_div_pow]; omega
  have h3 : (k &&& 0xff000000) >>> 24 < 256 := by
    have := @Nat.and_le_right k 0xff000000
    simp only [Nat.shiftRight_eq_div_pow]; omega
  unfold hashtable_rvalue
  simp only [Nat.testBit_or, Nat.testBit_shiftLeft, byte_testBit h0, byte_testBit h1,
    byte_testBit h2, byte_testBit h3, Nat.testBit_shiftRight, Nat.testBit_and]
  by_cases hj : j < 32
  · interval_cases j <;> simp <;> intro _ <;> decide
  · have a1 : ¬ (j - 24 < 8) := by omega
    have a2 : ¬ (j - 16 < 8) := by omega
    have a3 : ¬ (j - 8 < 8) := by omega
    have a4 : ¬ (j < 8) := by omega
    simp [hj, a1, a2, a3, a4]

theorem le_of_testBit_imp {a b : Nat} (h : ∀ j, a.testBit j = true → b.testBit j = true) :
    a ≤ b := by
  have : a &&& b = a := by
    apply Nat.eq_of_testBit_eq
    intro i
    rw [Nat.testBit_and]
    cases ha : a.testBit i
    · simp
    · simp [h i ha]
  rw [← this]
  exact Nat.and_le_right

theorem rvalue_lt (k : Nat) : hashtable_rvalue k < 2 ^ 32 := by
  apply Nat.lt_pow_two_of_testBit
  intro i hi
  rw [rvalue_testBit]
  have : ¬ i < 32 := by omega
  simp [this]

theorem rvalue_mono {a b : Nat} (h : ∀ j, j < 32 → a.testBit j = true → b.testBit j = true) :
    hashtable_rvalue a ≤ hashtable_rvalue b := by
  apply le_of_testBit_imp
  intro j
  rw [rvalue_testBit, rvalue_testBit]
  by_cases hj : j < 32
  · simp only [hj, decide_True, Bool.true_and]
    exact h (31 - j) (by omega)
  · simp [hj]

theorem regular_odd (h : Nat) : hashtable_hash_key_regular h % 2 = 1 := by
  have := Nat.testBit_zero (hashtable_hash_key_regular h)
  unfold hashtable_hash_key_regular at this ⊢
  rw [rvalue_testBit, Nat.testBit_or] at this
  have h31 : Nat.testBit 0x80000000 31 = true := by decide
  simp [h31] at this
  exact this

theorem dummy_even (b : Nat) : hashtable_hash_key_dummy b % 2 = 0 := by
  have := Nat.testBit_zero (hashtable_hash_key_dummy b)
  unfold hashtable_hash_key_dummy at this ⊢
  rw [rvalue_testBit, Nat.testBit_and] at this
  have h31 : Nat.testBit 0x7fffffff 31 = false := by decide
  simp [h31] at this
  omega

theorem dummy_le_regular (h k : Nat) :
    hashtable_hash_key_dummy (h % 2 ^ k) ≤ hashtable_hash_key_regular h := by
  unfold hashtable_hash_key_dummy hashtable_hash_key_regular
  apply rvalue_mono
  intro j _ hj
  rw [Nat.testBit_and, Nat.testBit_mod_two_pow] at hj
  rw [Nat.testBit_or]
  simp only [Bool.and_eq_true, decide_eq_true_eq] at hj
  simp [hj.1.2]

theorem dummy_lt_regular (h k : Nat) :
    hashtable_hash_key_dummy (h % 2 ^ k) < hashtable_hash_key_regular h := by
  have h1 := dummy_le_regular h k
  have h2 := regular_odd h
  have h3 := dummy_even (h % 2 ^ k)
  omega

/-! ## Parent buckets -/

theorem bucket_parent_from_hit (b : Nat) :
    ∀ i, (∃ j, j ≤ i ∧ b &&& int_shl_one j ≠ 0) →
      ∃ j, j ≤ i ∧ b &&& int_shl_one j ≠ 0 ∧
        bucket_parent_from b i = .ok (b &&& int_not_shl_one j) := by
  intro i
  induction i with
  | zero =>
    rintro ⟨j, hj, hne⟩
    have : j = 0 := by omega
    subst this
    exact ⟨0, le_refl _, hne, by simp [bucket_parent_from, hne]⟩
  | succ i ih =>
    rintro ⟨j, hj, hne⟩
    by_cases h : b &&& int_shl_one (i + 1) ≠ 0
    · exact ⟨i + 1, le_refl _, h, by simp [bucket_parent_from, h]⟩
    · have hji : j ≤ i := by
        rcases Nat.lt_or_ge i j with hlt | hge
        · have : j = i + 1 := by omega
          subst this
          exact absurd hne h
        · exact hge
      obtain ⟨j', hj', hne', hrun⟩ := ih ⟨j, hji, hne⟩
      refine ⟨j', by omega, hne', ?_⟩
      rw [bucket_parent_from]
      simp only [h, if_false]
      exact hrun

theorem shl_one_hit (b : Nat) (hb : 0 < b) (hw : b < WORD) :
    ∃ j, j ≤ 31 ∧ b &&& int_shl_one j ≠ 0 := by
  obtain ⟨t, ht⟩ := Nat.ne_zero_implies_bit_true (Nat.pos_iff_ne_zero.1 hb)
  have ht64 : t < 64 := by
    by_contra hge
    have : b < 2 ^ t := lt_of_lt_of_le hw (Nat.pow_le_pow_right (by norm_num) (by omega))
    rw [Nat.testBit_lt_two_pow this] at ht
    exact Bool.noConfusion ht
  by_cases h31 : t < 31
  · refine ⟨t, by omega, ?_⟩
    intro h0
    have : (b &&& int_shl_one t).testBit t = true := by
      rw [Nat.testBit_and, ht]
      simp [int_shl_one, h31, Nat.testBit_two_pow]
    rw [h0] at this
    simp at this
  · refine ⟨31, le_refl _, ?_⟩
    intro h0
    have hm : (int_shl_one 31).testBit t = true := by
      have h31' : 31 ≤ t := by omega
      interval_cases t <;> decide
    have : (b &&& int_shl_one 31).testBit t = true := by
      rw [Nat.testBit_and, ht, hm]; rfl
    rw [h0] at this
    simp at this

theorem not_shl_and_shl (j : Nat) (hj : j ≤ 31) : int_not_shl_one j &&& int_shl_one j = 0 := by
  interval_cases j <;> decide

theorem bucket_parent_spec (b : Nat) (hb : 0 < b) (hw : b < WORD) :
    ∃ p, hashtable_bucket_parent b = .ok p ∧ p < b ∧
      hashtable_hash_key_dummy p ≤ hashtable_hash_key_dummy b := by
  obtain ⟨j, hj, hne, hrun⟩ := bucket_parent_from_hit b 31 (shl_one_hit b hb hw)
  refine ⟨b &&& int_not_shl_one j, hrun, ?_, ?_⟩
  · have hle : b &&& int_not_shl_one j ≤ b := Nat.and_le_left
    have hneq : b &&& int_not_shl_one j ≠ b := by
      intro heq
      apply hne
      rw [← heq, Nat.and_assoc, not_shl_and_shl j hj]
      simp
    omega
  · unfold hashtable_hash_key_dummy
    apply rvalue_mono
    intro t _ ht
    rw [Nat.testBit_and, Nat.testBit_and] at ht
    rw [Nat.testBit_and]
    simp only [Bool.and_eq_true] at ht ⊢
    exact ⟨ht.1.1, ht.2⟩

/-! ## Consequences of the invariant -/

theorem dirAddr_mod (j : Nat) : dirAddr j % 64 = 32 := by unfold dirAddr; omega

theorem dirAddr_div (j : Nat) : dirAddr j / 64 = j := by unfold dirAddr; omega

theorem dir_load_inv {s : hash_table_t} {d L : List Nat} (h : InvL s d L) {b v : Nat}
    (hb : d[b]? = some v) : dir_load s s.table b = .ok v := by
  obtain ⟨j, ht, hd⟩ := h.tbl
  unfold dir_load
  simp [ht, dirAddr_mod, dirAddr_div, hd, hb]

theorem headPtr_append_cons (A : List Nat) (r0 : Nat) (R : List Nat) :
    headPtr (A ++ r0 :: R) ≠ 0 := by
  cases A with
  | nil => exact nodeAddr_ne_zero r0
  | cons a A => exact nodeAddr_ne_zero a

theorem bucket_start {s : hash_table_t} {d L : List Nat} (h : InvL s d L) {b v : Nat}
    (hb : d[b]? = some v) (hv : v ≠ 0) :
    ∃ A r0 R, L = A ++ r0 :: R ∧ v = nodeAddr r0 ∧ Chain s.nodes (nodeAddr r0) (r0 :: R)
      ∧ Seg s.nodes (headPtr L) A (nodeAddr r0)
      ∧ codeAt s.nodes r0 = hashtable_hash_key_dummy b ∧ keyAt s.nodes r0 = b := by
  obtain ⟨i, hvi, hiL, hc, hk⟩ := h.slots b v hb hv
  obtain ⟨A, R, hL⟩ := List.append_of_mem hiL
  refine ⟨A, i, R, hL, hvi, ?_, ?_, hc, hk⟩
  · have hch := h.chain
    rw [hL] at hch
    obtain ⟨r, _, h2⟩ := (seg_append A (i :: R) _ _).1 hch
    have : r = nodeAddr i := h2.1
    subst this
    exact h2
  · have hch := h.chain
    have hch' : Seg s.nodes (headPtr L) (A ++ i :: R) 0 := by
      have := hch
      unfold Chain at this
      rw [hL] at this ⊢
      exact this
    obtain ⟨r, h1, h2⟩ := (seg_append A (i :: R) _ _).1 hch'
    have : r = nodeAddr i := h2.1
    subst this
    exact h1

theorem pairwise_insert_mid {α : Type} {r : α → α → Prop} (X Y : List α) (m : α)
    (h : (X ++ Y).Pairwise r) (hx : ∀ x ∈ X, r x m) (hy : ∀ y ∈ Y, r m y) :
    (X ++ m :: Y).Pairwise r := by
  rw [List.pairwise_append] at h ⊢
  obtain ⟨h1, h2, h3⟩ := h
  refine ⟨h1, List.pairwise_cons.2 ⟨hy, h2⟩, ?_⟩
  intro a ha b hb
  rcases List.mem_cons.1 hb with rfl | hb
  · exact hx a ha
  · exact h3 a ha b hb

theorem passes_le {nodes : List (Option hash_node_t)} {code key i : Nat}
    (h : passes nodes code key i = true) : codeAt nodes i ≤ code := by
  unfold passes at h
  simp only [Bool.not_eq_true', Bool.or_eq_false_iff, decide_eq_false_iff_not] at h
  omega

theorem passes_not_match {nodes : List (Option hash_node_t)} {code key i : Nat}
    (h : passes nodes code key i = true) : isMatch nodes code key i = false := by
  unfold passes at h
  unfold isMatch
  simp only [Bool.not_eq_true', Bool.or_eq_false_iff] at h
  exact h.2

theorem not_passes_not_match {nodes : List (Option hash_node_t)} {code key i : Nat}
    (h : passes nodes code key i = false) (hm : isMatch nodes code key i = false) :
    code < codeAt nodes i := by
  unfold passes at h
  unfold isMatch at hm
  simp only [Bool.not_eq_false', Bool.or_eq_true, decide_eq_true_eq] at h
  rcases h with h | h
  · exact h
  · rw [hm] at h; exact Bool.noConfusion h

theorem dropWhile_head_false {α : Type} (f : α → Bool) (l : List α) (a : α) (rest : List α)
    (h : l.dropWhile f = a :: rest) : f a = false := by
  have := List.head_dropWhile_not f l (by rw [h]; simp)
  simpa [h] using this

/-! ## Linking a node into the list of a table that satisfies the invariant -/

theorem insert_node_invL {s : hash_table_t} {d L : List Nat} (h : InvL s d L)
    (fuel b v m : Nat) (nm : hash_node_t)
    (hb : d[b]? = some v) (hv : v ≠ 0)
    (hm : s.nodes[m]? = some (some nm)) (hmL : m ∉ L)
    (hle : hashtable_hash_key_dummy b ≤ nm.code)
    (hne : ¬ (hashtable_hash_key_dummy b = nm.code ∧ b = nm.key))
    (hdata : nm.code % 2 = 1 →
      nm.code = hashtable_hash_key_regular (hashtable_hash_key nm.key))
    (hfuel : L.length < fuel) :
    (∃ i hz', i ∈ L ∧ isMatch s.nodes nm.code nm.key i = true ∧
        hashtable_list_insert fuel s b (nodeAddr m)
          = .ok (nodeAddr i, { s with hazard := hz' }) ∧ hz'.length = 3) ∨
    (∃ hz' nodes' L', hashtable_list_insert fuel s b (nodeAddr m)
          = .ok (nodeAddr m, { s with hazard := hz', nodes := nodes' }) ∧
        InvL { s with hazard := hz', nodes := nodes' } d L' ∧ L'.Perm (m :: L) ∧
        (nm.code % 2 = 1 → ∀ i ∈ L, isMatch s.nodes nm.code nm.key i = false) ∧
        (∀ k, k ≠ m → k ∉ L → nodes'[k]? = s.nodes[k]?) ∧
        (∀ k, codeAt nodes' k = codeAt s.nodes k ∧ keyAt nodes' k = keyAt s.nodes k
              ∧ valueAt nodes' k = valueAt s.nodes k)) := by
  obtain ⟨A, r0, R, hL, hvr, hR, hA, hc0, hk0⟩ := bucket_start h hb hv
  subst hvr
  have hnd : (A ++ r0 :: R).Nodup := hL ▸ h.nodup
  have hndR : (r0 :: R).Nodup := (List.nodup_append.1 hnd).2.1
  have hmR : m ∉ r0 :: R := fun hx => hmL (by rw [hL]; exact List.mem_append_right _ hx)
  have hfuelR : (r0 :: R).length < fuel := by
    have : (r0 :: R).length ≤ L.length := by rw [hL]; simp
    omega
  have hfirst : passes s.nodes nm.code nm.key r0 = true := by
    unfold passes
    rw [hc0, hk0]
    have h1 : ¬ (hashtable_hash_key_dummy b > nm.code) := by omega
    by_cases hceq : hashtable_hash_key_dummy b = nm.code
    · have : b ≠ nm.key := fun e => hne ⟨hceq, e⟩
      simp [h1, this]
    · simp [h1, hceq]
  obtain ⟨hfound, hnot⟩ := list_insert_spec fuel s b m nm r0 R (dir_load_inv h hb) hR hndR hm hmR
    hfuelR (by rw [h.hz]; decide) hfirst
  have hsplitR := (List.takeWhile_append_dropWhile (passes s.nodes nm.code nm.key) (r0 :: R))
  have hr0pre : ∃ pre', (r0 :: R).takeWhile (passes s.nodes nm.code nm.key) = r0 :: pre' :=
    ⟨R.takeWhile (passes s.nodes nm.code nm.key), by rw [List.takeWhile_cons, hfirst]; rfl⟩
  generalize hpre : (r0 :: R).takeWhile (passes s.nodes nm.code nm.key) = pre at *
  generalize hpost : (r0 :: R).dropWhile (passes s.nodes nm.code nm.key) = post at *
  have hprepass : ∀ i ∈ pre, passes s.nodes nm.code nm.key i = true := by
    intro i hi
    rw [← hpre] at hi
    exact (List.mem_takeWhile_imp hi)
  by_cases hhm : headMatches s.nodes nm.code nm.key post = true
  · left
    cases post with
    | nil => simp [headMatches] at hhm
    | cons i rest =>
      obtain ⟨hz', hrun, hlen⟩ := hfound i rest rfl hhm
      refine ⟨i, hz', ?_, hhm, hrun, by rw [hlen, h.hz]⟩
      rw [hL, ← hsplitR]
      simp
  · right
    have hnomatch : ∀ i rest, post = i :: rest → isMatch s.nodes nm.code nm.key i = false := by
      intro i rest hp
      subst hp
      simpa [headMatches] using hhm
    obtain ⟨hz', nodes', hrun, hlen, hchain, hframe, hfields⟩ := hnot hnomatch
    have hLsplit : L = (A ++ pre) ++ post := by
      rw [hL, ← hsplitR]; simp
    have hpostgt : ∀ y ∈ post, nm.code < codeAt s.nodes y := by
      intro y hy
      cases post with
      | nil => simp at hy
      | cons i rest =>
        have hi : nm.code < codeAt s.nodes i :=
          not_passes_not_match (dropWhile_head_false _ _ _ _ hpost) (hnomatch i rest rfl)
        rcases List.mem_cons.1 hy with rfl | hy
        · exact hi
        · have hs := h.sorted
          rw [hLsplit, List.pairwise_append] at hs
          have := (List.pairwise_cons.1 hs.2.1).1 y hy
          omega
    have hAle : ∀ a ∈ A, codeAt s.nodes a ≤ nm.code := by
      intro a ha
      have hs := h.sorted
      rw [hL, List.pairwise_append] at hs
      have := hs.2.2 a ha r0 (List.mem_cons_self _ _)
      rw [hc0] at this
      omega
    have hcm : codeAt nodes' m = nm.code := by
      rw [(hfields m).1]; exact codeAt_eq hm
    have hkm : keyAt nodes' m = nm.key := by
      rw [(hfields m).2.1]; exact keyAt_eq hm
    obtain ⟨pre', hpre'⟩ := hr0pre
    have hmemL' : ∀ i, i ∈ (A ++ pre) ++ m :: post ↔ i = m ∨ i ∈ L := by
      intro i
      rw [hLsplit]
      simp only [List.mem_append, List.mem_cons]
      constructor
      · rintro ((hx | hx) | (hx | hx))
        · exact Or.inr (Or.inl (Or.inl hx))
        · exact Or.inr (Or.inl (Or.inr hx))
        · exact Or.inl hx
        · exact Or.inr (Or.inr hx)
      · rintro (hx | ((hx | hx) | hx))
        · exact Or.inr (Or.inl hx)
        · exact Or.inl (Or.inl hx)
        · exact Or.inl (Or.inr hx)
        · exact Or.inr (Or.inr hx)
    have hnomatchL : nm.code % 2 = 1 → ∀ i ∈ L, isMatch s.nodes nm.code nm.key i = false := by
      intro hodd i hi
      rw [hLsplit] at hi
      rcases List.mem_append.1 hi with hi | hi
      · rcases List.mem_append.1 hi with hi | hi
        · -- before the bucket sentinel: the codes are at most an even code
          have hs := h.sorted
          rw [hL, List.pairwise_append] at hs
          have h1 := hs.2.2 i hi r0 (List.mem_cons_self _ _)
          rw [hc0] at h1
          have h2 := dummy_even b
          unfold isMatch
          have : codeAt s.nodes i ≠ nm.code := by omega
          simp [this]
        · exact passes_not_match (hprepass i hi)
      · have := hpostgt i hi
        unfold isMatch
        have : codeAt s.nodes i ≠ nm.code := by omega
        simp [this]
    refine ⟨hz', nodes', (A ++ pre) ++ m :: post, hrun, ?_, ?_, hnomatchL, ?_, hfields⟩
    · -- the invariant
      have hhead : headPtr ((A ++ pre) ++ m :: post) = headPtr L := by
        rw [hL, hpre']
        cases A <;> rfl
      constructor
      · show hz'.length = 3
        rw [hlen, h.hz]
      · exact h.tbl
      · exact h.dlen
      · exact h.szb
      · rw [hhead]; exact h.head
      · rw [hpre']; cases A <;> simp
      · rw [hhead]
        show Seg nodes' (headPtr L) ((A ++ pre) ++ m :: post) 0
        rw [List.append_assoc]
        refine (seg_append A (pre ++ m :: post) _ _).2 ⟨nodeAddr r0, ?_, hchain⟩
        apply seg_congr _ _ _ _ hA
        intro k hk
        apply hframe k
        · intro e; subst e
          exact hmL (by rw [hL]; exact List.mem_append_left _ hk)
        · intro hkR
          exact (List.nodup_append.1 hnd).2.2 hk hkR
      · have hp : ((A ++ pre) ++ m :: post).Perm (m :: ((A ++ pre) ++ post)) := List.perm_middle
        rw [hp.nodup_iff, ← hLsplit]
        exact List.nodup_cons.2 ⟨hmL, h.nodup⟩
      · show ((A ++ pre) ++ m :: post).Pairwise (fun a b => codeAt nodes' a ≤ codeAt nodes' b)
        have hs : ((A ++ pre) ++ post).Pairwise (fun a b => codeAt nodes' a ≤ codeAt nodes' b) := by
          rw [← hLsplit]
          refine h.sorted.imp ?_
          intro a b hab
          rw [(hfields a).1, (hfields b).1]; exact hab
        apply pairwise_insert_mid _ _ _ hs
        · intro x hx
          rw [(hfields x).1, hcm]
          rcases List.mem_append.1 hx with hx | hx
          · exact hAle x hx
          · exact passes_le (hprepass x hx)
        · intro y hy
          rw [(hfields y).1, hcm]
          exact le_of_lt (hpostgt y hy)
      · intro b' v' hb' hv'
        obtain ⟨i, hvi, hiL, hci, hki⟩ := h.slots b' v' hb' hv'
        refine ⟨i, hvi, (hmemL' i).2 (Or.inr hiL), ?_, ?_⟩
        · show codeAt nodes' i = _
          rw [(hfields i).1]; exact hci
        · show keyAt nodes' i = _
          rw [(hfields i).2.1]; exact hki
      · intro i hi hodd
        change codeAt nodes' i % 2 = 1 at hodd
        show codeAt nodes' i = hashtable_hash_key_regular (hashtable_hash_key (keyAt nodes' i))
        rcases (hmemL' i).1 hi with rfl | hiL
        · rw [hcm, hkm]
          rw [hcm] at hodd
          exact hdata hodd
        · rw [(hfields i).1, (hfields i).2.1]
          rw [(hfields i).1] at hodd
          exact h.data i hiL hodd
      · intro i hi i' hi' hodd hodd' hkey
        change codeAt nodes' i % 2 = 1 at hodd
        change codeAt nodes' i' % 2 = 1 at hodd'
        change keyAt nodes' i = keyAt nodes' i' at hkey
        rw [(hfields i).1] at hodd
        rw [(hfields i').1] at hodd'
        rw [(hfields i).2.1, (hfields i').2.1] at hkey
        have hmc : codeAt s.nodes m = nm.code := codeAt_eq hm
        have hmk : keyAt s.nodes m = nm.key := keyAt_eq hm
        rcases (hmemL' i).1 hi with rfl | hiL
        · rcases (hmemL' i').1 hi' with rfl | hiL'
          · rfl
          · exfalso
            rw [hmc] at hodd
            have hno := hnomatchL hodd i' hiL'
            have hc' := h.data i' hiL' hodd'
            rw [← hkey, hmk, ← hdata hodd] at hc'
            unfold isMatch at hno
            rw [hc', ← hkey, hmk] at hno
            simp at hno
        · rcases (hmemL' i').1 hi' with rfl | hiL'
          · exfalso
            rw [hmc] at hodd'
            have hno := hnomatchL hodd' i hiL
            have hc' := h.data i hiL hodd
            rw [hkey, hmk, ← hdata hodd'] at hc'
            unfold isMatch at hno
            rw [hc', hkey, hmk] at hno
            simp at hno
          · exact h.uniq i hiL i' hiL' hodd hodd' hkey
    · rw [hLsplit]
      exact List.perm_middle
    · intro k hkm hkL
      apply hframe k hkm
      intro hkR
      exact hkL (by rw [hL]; exact List.mem_append_right _ hkR)

/-! ## Parent buckets: the highest set bit is the one cleared -/

theorem bucket_parent_from_top (b : Nat) :
    ∀ i, (∃ j, j ≤ i ∧ b &&& int_shl_one j ≠ 0) →
      ∃ j, j ≤ i ∧ b &&& int_shl_one j ≠ 0 ∧
        (∀ j', j < j' → j' ≤ i → b &&& int_shl_one j' = 0) ∧
        bucket_parent_from b i = .ok (b &&& int_not_shl_one j) := by
  intro i
  induction i with
  | zero =>
    rintro ⟨j, hj, hne⟩
    have : j = 0 := by omega
    subst this
    exact ⟨0, le_refl _, hne, fun j' h1 h2 => by omega, by simp [bucket_parent_from, hne]⟩
  | succ i ih =>
    rintro ⟨j, hj, hne⟩
    by_cases h : b &&& int_shl_one (i + 1) ≠ 0
    · exact ⟨i + 1, le_refl _, h, fun j' h1 h2 => by omega, by simp [bucket_parent_from, h]⟩
    · have hji : j ≤ i := by
        rcases Nat.lt_or_ge i j with hlt | hge
        · have : j = i + 1 := by omega
          subst this
          exact absurd hne h
        · exact hge
      obtain ⟨j', hj', hne', htop, hrun⟩ := ih ⟨j, hji, hne⟩
      refine ⟨j', by omega, hne', ?_, ?_⟩
      · intro j'' h1 h2
        rcases Nat.lt_or_ge i j'' with hlt | hge
        · have : j'' = i + 1 := by omega
          subst this
          exact not_not.1 h
        · exact htop j'' h1 hge
      · rw [bucket_parent_from]
        simp only [h, if_false]
        exact hrun

theorem shl_one_testBit_low (t : Nat) (ht : t < 31) (j : Nat) :
    (int_shl_one t).testBit j = decide (t = j) := by
  simp [int_shl_one, ht, Nat.testBit_two_pow]

theorem shl_one_31_testBit (t : Nat) :
    (int_shl_one 31).testBit t = (decide (31 ≤ t) && decide (t < 64)) := by
  by_cases h : t < 64
  · interval_cases t <;> decide
  · have : int_shl_one 31 < 2 ^ t :=
      lt_of_lt_of_le (by decide : int_shl_one 31 < 2 ^ 64)
        (Nat.pow_le_pow_right (by norm_num) (by omega))
    simp [Nat.testBit_lt_two_pow this, h]

theorem not_shl_one_testBit_self (j : Nat) (hj : j < 31) :
    (int_not_shl_one j).testBit j = false := by
  interval_cases j <;> decide

theorem testBit_false_of_and_shl {b t : Nat} (hw : b < WORD)
    (hlow : t ≤ 30 → b &&& int_shl_one t = 0) (hhigh : 31 ≤ t → b &&& int_shl_one 31 = 0) :
    b.testBit t = false := by
  by_cases h30 : t ≤ 30
  · have := hlow h30
    have h2 : (b &&& int_shl_one t).testBit t = false := by rw [this]; simp
    rw [Nat.testBit_and, shl_one_testBit_low t (by omega)] at h2
    simpa using h2
  · have h31 : 31 ≤ t := by omega
    by_cases h64 : t < 64
    · have := hhigh h31
      have h2 : (b &&& int_shl_one 31).testBit t = false := by rw [this]; simp
      rw [Nat.testBit_and, shl_one_31_testBit] at h2
      simpa [h31, h64] using h2
    · have : b < 2 ^ t :=
        lt_of_lt_of_le hw (Nat.pow_le_pow_right (by norm_num) (by omega))
      exact Nat.testBit_lt_two_pow this

theorem bucket_parent_ok (b : Nat) (hb : 0 < b) (hw : b < WORD) :
    ∃ p, hashtable_bucket_parent b = .ok p ∧ p < b ∧
      hashtable_hash_key_dummy p ≤ hashtable_hash_key_dummy b ∧
      ∀ n, b < 2 ^ (n + 1) → p < 2 ^ n := by
  obtain ⟨j, hj, hne, htop, hrun⟩ := bucket_parent_from_top b 31 (shl_one_hit b hb hw)
  refine ⟨b &&& int_not_shl_one j, hrun, ?_, ?_, ?_⟩
  · have hle : b &&& int_not_shl_one j ≤ b := Nat.and_le_left
    have hneq : b &&& int_not_shl_one j ≠ b := by
      intro heq
      apply hne
      rw [← heq, Nat.and_assoc, not_shl_and_shl j hj]
      simp
    omega
  · unfold hashtable_hash_key_dummy
    apply rvalue_mono
    intro t _ ht
    rw [Nat.testBit_and, Nat.testBit_and] at ht
    rw [Nat.testBit_and]
    simp only [Bool.and_eq_true] at ht ⊢
    exact ⟨ht.1.1, ht.2⟩
  · intro n hn
    apply Nat.lt_pow_two_of_testBit
    intro t ht
    rw [Nat.testBit_and]
    by_cases hj31 : j < 31
    · -- bit `j` of `b` is set, so `j ≤ n`
      have hbj : b.testBit j = true := by
        by_contra hf
        apply hne
        apply Nat.eq_of_testBit_eq
        intro i
        rw [Nat.testBit_and, shl_one_testBit_low j hj31]
        by_cases hji : j = i
        · subst hji; simp [hf]
        · simp [hji]
      have hjn : j ≤ n := by
        by_contra hgt
        have : b < 2 ^ j := lt_of_lt_of_le hn (Nat.pow_le_pow_right (by norm_num) (by omega))
        rw [Nat.testBit_lt_two_pow this] at hbj
        exact Bool.noConfusion hbj
      by_cases htj : t = j
      · subst htj
        simp [not_shl_one_testBit_self t hj31]
      · have : b.testBit t = false := by
          apply testBit_false_of_and_shl hw
          · intro h30; exact htop t (by omega) (by omega)
          · intro h31; exact htop 31 (by omega) (le_refl _)
        simp [this]
    · have hj31' : j = 31 := by omega
      subst hj31'
      -- some bit at or above 31 is set, so `31 ≤ n`
      have hn31 : 31 ≤ n := by
        by_contra hlt
        apply hne
        apply Nat.eq_of_testBit_eq
        intro i
        rw [Nat.testBit_and, shl_one_31_testBit]
        by_cases hi : 31 ≤ i
        · have : b < 2 ^ i :=
            lt_of_lt_of_le hn (Nat.pow_le_pow_right (by norm_num) (by omega))
          simp [Nat.testBit_lt_two_pow this]
        · simp [hi]
      have hm : (int_not_shl_one 31).testBit t = false := by
        have : int_not_shl_one 31 < 2 ^ t :=
          lt_of_lt_of_le (by decide : int_not_shl_one 31 < 2 ^ 31)
            (Nat.pow_le_pow_right (by norm_num) (by omega))
        exact Nat.testBit_lt_two_pow this
      simp [hm]

/-! ## Frame lemmas for the invariant -/

theorem codeAt_congr {nodes nodes' : List (Option hash_node_t)} {i : Nat}
    (h : nodes'[i]? = nodes[i]?) : codeAt nodes' i = codeAt nodes i := by
  unfold codeAt; rw [h]

theorem keyAt_congr {nodes nodes' : List (Option hash_node_t)} {i : Nat}
    (h : nodes'[i]? = nodes[i]?) : keyAt nodes' i = keyAt nodes i := by
  unfold keyAt; rw [h]

theorem valueAt_congr {nodes nodes' : List (Option hash_node_t)} {i : Nat}
    (h : nodes'[i]? = nodes[i]?) : valueAt nodes' i = valueAt nodes i := by
  unfold valueAt; rw [h]

theorem InvL.lt_length {s : hash_table_t} {d L : List Nat} (h : InvL s d L) :
    ∀ i ∈ L, i < s.nodes.length :=
  seg_lt_length h.chain

theorem InvL.congr {s s' : hash_table_t} {d L : List Nat} (h : InvL s d L)
    (hhz : s'.hazard.length = 3) (ht : s'.table = s.table) (hd : s'.dirs = s.dirs)
    (hs : s'.size = s.size) (hn : ∀ i ∈ L, s'.nodes[i]? = s.nodes[i]?) : InvL s' d L := by
  have hc : ∀ i ∈ L, codeAt s'.nodes i = codeAt s.nodes i := fun i hi => codeAt_congr (hn i hi)
  have hk : ∀ i ∈ L, keyAt s'.nodes i = keyAt s.nodes i := fun i hi => keyAt_congr (hn i hi)
  constructor
  · exact hhz
  · rw [ht, hd]; exact h.tbl
  · rw [hs]; exact h.dlen
  · rw [hs]; exact h.szb
  · exact h.head
  · exact h.ne
  · exact seg_congr _ _ _ hn h.chain
  · exact h.nodup
  · refine (List.Pairwise.and_mem.1 h.sorted).imp ?_
    intro a b hab
    rw [hc a hab.1, hc b hab.2.1]; exact hab.2.2
  · intro b v hb hv
    obtain ⟨i, hvi, hiL, hci, hki⟩ := h.slots b v hb hv
    exact ⟨i, hvi, hiL, by rw [hc i hiL]; exact hci, by rw [hk i hiL]; exact hki⟩
  · intro i hi hodd
    rw [hc i hi] at hodd ⊢
    rw [hk i hi]
    exact h.data i hi hodd
  · intro i hi i' hi' hodd hodd' hkey
    rw [hc i hi] at hodd
    rw [hc i' hi'] at hodd'
    rw [hk i hi, hk i' hi'] at hkey
    exact h.uniq i hi i' hi' hodd hodd' hkey

theorem headPtr_ne_zero {L : List Nat} (h : L ≠ []) : headPtr L ≠ 0 := by
  cases L with
  | nil => exact absurd rfl h
  | cons a L => exact nodeAddr_ne_zero a

theorem InvL.dir_set {s s' : hash_table_t} {d L : List Nat} (h : InvL s d L) {j b i : Nat}
    (hj : s.table = dirAddr j) (hhz : s'.hazard.length = 3) (ht : s'.table = s.table)
    (hd : s'.dirs = s.dirs.set j (some (d.set b (nodeAddr i)))) (hs : s'.size = s.size)
    (hn : s'.nodes = s.nodes) (hb : 0 < b) (hiL : i ∈ L)
    (hci : codeAt s.nodes i = hashtable_hash_key_dummy b) (hki : keyAt s.nodes i = b) :
    InvL s' (d.set b (nodeAddr i)) L := by
  obtain ⟨j', hj', hdj⟩ := h.tbl
  have : j' = j := by
    rw [hj] at hj'; unfold dirAddr at hj'; omega
  subst this
  constructor
  · exact hhz
  · refine ⟨j', by rw [ht]; exact hj, ?_⟩
    rw [hd]
    simp [List.getElem?_set, getElem?_some_lt hdj]
  · rw [hs]; simpa using h.dlen
  · rw [hs]; exact h.szb
  · rw [List.getElem?_set_ne (by omega)]; exact h.head
  · exact h.ne
  · rw [hn]; exact h.chain
  · exact h.nodup
  · rw [hn]; exact h.sorted
  · intro b' v hb' hv
    rw [hn]
    by_cases hbb : b = b'
    · subst hbb
      have hlt : b < (d.set b (nodeAddr i)).length := getElem?_some_lt hb'
      rw [List.getElem?_set_self (by simpa using hlt)] at hb'
      injection hb' with hb'
      exact ⟨i, hb'.symm, hiL, hci, hki⟩
    · rw [List.getElem?_set_ne hbb] at hb'
      exact h.slots b' v hb' hv
  · rw [hn]; exact h.data
  · rw [hn]; exact h.uniq

theorem set_length_append {α : Type} (l : List α) (a b : α) :
    (l ++ [a]).set l.length b = l ++ [b] := by
  induction l with
  | nil => rfl
  | cons x l ih => simp [List.set, ih]

theorem getElem?_append_singleton_left {α : Type} (l : List α) (a : α) {i : Nat}
    (h : i < l.length) : (l ++ [a])[i]? = l[i]? := by
  rw [List.getElem?_append_left h]

/-! ## `Grows` is a preorder -/

theorem Grows.refl (s : hash_table_t) (L : List Nat) : Grows s L s L :=
  { perm := ⟨[], by simp, by simp⟩
    fields := fun _ _ => ⟨rfl, rfl, rfl⟩
    frame := fun _ _ _ => rfl
    count := rfl
    size := rfl
    lvalue := rfl
    table := rfl
    len := le_refl _ }

theorem Grows.trans {s s1 s2 : hash_table_t} {L L1 L2 : List Nat}
    (g1 : Grows s L s1 L1) (g2 : Grows s1 L1 s2 L2) (hL1 : ∀ i ∈ L1, i < s1.nodes.length) :
    Grows s L s2 L2 := by
  obtain ⟨S1, hp1, hS1⟩ := g1.perm
  obtain ⟨S2, hp2, hS2⟩ := g2.perm
  have hlen := g1.len
  constructor
  · refine ⟨S2 ++ S1, ?_, ?_⟩
    · rw [List.append_assoc]
      exact hp2.trans (List.Perm.append_left S2 hp1)
    · intro i hi
      rcases List.mem_append.1 hi with hi | hi
      · exact ⟨(hS2 i hi).1, le_trans hlen (hS2 i hi).2⟩
      · have hiL1 : i ∈ L1 := hp1.symm.subset (List.mem_append_left _ hi)
        refine ⟨?_, (hS1 i hi).2⟩
        rw [(g2.fields i (hL1 i hiL1)).1]
        exact (hS1 i hi).1
  · intro k hk
    have h1 := g1.fields k hk
    have h2 := g2.fields k (lt_of_lt_of_le hk hlen)
    exact ⟨h2.1.trans h1.1, h2.2.1.trans h1.2.1, h2.2.2.trans h1.2.2⟩
  · intro k hk hkL
    have hkL1 : k ∉ L1 := by
      intro hx
      rcases List.mem_append.1 (hp1.subset hx) with hx | hx
      · have := (hS1 k hx).2; omega
      · exact hkL hx
    rw [g2.frame k (lt_of_lt_of_le hk hlen) hkL1]
    exact g1.frame k hk hkL
  · rw [g2.count, g1.count]
  · rw [g2.size, g1.size]
  · rw [g2.lvalue, g1.lvalue]
  · rw [g2.table, g1.table]
  · exact le_trans g1.len g2.len

/-! ## Allocation of an initialised node -/

theorem store_fresh_code (t : Nat) (hz : List Nat) (c sz : Nat) (lv : Bool)
    (nodes : List (Option hash_node_t)) (dirs : List (Option (List Nat)))
    (c0 k0 v0 x0 v : Nat) :
    store ⟨t, hz, c, sz, lv, nodes ++ [some ⟨c0, k0, v0, x0⟩], dirs⟩ (nodeAddr nodes.length) v
      = .ok ⟨t, hz, c, sz, lv, nodes ++ [some ⟨v, k0, v0, x0⟩], dirs⟩ := by
  have h0 : (⟨t, hz, c, sz, lv, nodes ++ [some ⟨c0, k0, v0, x0⟩], dirs⟩ : hash_table_t).nodes[
      nodes.length]? = some (some ⟨c0, k0, v0, x0⟩) := by simp
  rw [store_code v h0]
  simp only [set_length_append]

theorem store_fresh_key (t : Nat) (hz : List Nat) (c sz : Nat) (lv : Bool)
    (nodes : List (Option hash_node_t)) (dirs : List (Option (List Nat)))
    (c0 k0 v0 x0 v : Nat) :
    store ⟨t, hz, c, sz, lv, nodes ++ [some ⟨c0, k0, v0, x0⟩], dirs⟩ (nodeAddr nodes.length + 8) v
      = .ok ⟨t, hz, c, sz, lv, nodes ++ [some ⟨c0, v, v0, x0⟩], dirs⟩ := by
  have h0 : (⟨t, hz, c, sz, lv, nodes ++ [some ⟨c0, k0, v0, x0⟩], dirs⟩ : hash_table_t).nodes[
      nodes.length]? = some (some ⟨c0, k0, v0, x0⟩) := by simp
  rw [store_key v h0]
  simp only [set_length_append]

theorem store_fresh_value (t : Nat) (hz : List Nat) (c sz : Nat) (lv : Bool)
    (nodes : List (Option hash_node_t)) (dirs : List (Option (List Nat)))
    (c0 k0 v0 x0 v : Nat) :
    store ⟨t, hz, c, sz, lv, nodes ++ [some ⟨c0, k0, v0, x0⟩], dirs⟩ (nodeAddr nodes.length + 16) v
      = .ok ⟨t, hz, c, sz, lv, nodes ++ [some ⟨c0, k0, v, x0⟩], dirs⟩ := by
  have h0 : (⟨t, hz, c, sz, lv, nodes ++ [some ⟨c0, k0, v0, x0⟩], dirs⟩ : hash_table_t).nodes[
      nodes.length]? = some (some ⟨c0, k0, v0, x0⟩) := by simp
  rw [store_value v h0]
  simp only [set_length_append]

/-! ## `hashtable_bucket_init` -/

theorem InvL.size_lt {s : hash_table_t} {d L : List Nat} (h : InvL s d L) :
    s.size < 2 ^ 61 :=
  h.szb.2

theorem InvL.size_pos {s : hash_table_t} {d L : List Nat} (h : InvL s d L) : 0 < s.size :=
  h.szb.1

theorem Inv.size_le {s : hash_table_t} {d L : List Nat} (h : Inv s d L) :
    s.size ≤ 2 ^ 60 := by
  obtain ⟨k, hk, hk60⟩ := h.pow
  rw [hk]
  exact Nat.pow_le_pow_right (by norm_num) hk60

theorem dir_store_inv {s : hash_table_t} {d L : List Nat} (h : InvL s d L) {j b : Nat}
    (hj : s.table = dirAddr j) (hb : b < d.length) (v : Nat) :
    dir_store s s.table b v = .ok { s with dirs := s.dirs.set j (some (d.set b v)) } := by
  obtain ⟨j', hj', hdj⟩ := h.tbl
  have : j' = j := by
    rw [hj] at hj'; unfold dirAddr at hj'; omega
  subst this
  unfold dir_store
  simp [hj, dirAddr_mod, dirAddr_div, hdj, hb]

theorem node_free_ok {s : hash_table_t} {m : Nat} {n : hash_node_t}
    (h : s.nodes[m]? = some (some n)) :
    node_free s (nodeAddr m) = .ok { s with nodes := s.nodes.set m none } := by
  have h1 : nodeAddr m / 64 = m + 1 := by unfold nodeAddr; omega
  have h2 : nodeAddr m % 64 = 0 := by unfold nodeAddr; omega
  simp [node_free, h1, h2, h]

theorem InvL.frame {s : hash_table_t} {d L : List Nat} (h : InvL s d L) (hz' : List Nat)
    (nodes' : List (Option hash_node_t)) (hhz : hz'.length = 3)
    (hn : ∀ i ∈ L, nodes'[i]? = s.nodes[i]?) :
    InvL { s with hazard := hz', nodes := nodes' } d L :=
  h.congr hhz rfl rfl rfl hn

theorem ParentsSet.set {d : List Nat} (h : ParentsSet d) {b a : Nat} (ha : a ≠ 0)
    (hp : ∃ p v, hashtable_bucket_parent b = .ok p ∧ d[p]? = some v ∧ v ≠ 0) :
    ParentsSet (d.set b a) := by
  intro b' v hb' hv hpos
  have key : ∀ (q w : Nat), d[q]? = some w → w ≠ 0 →
      ∃ w' : Nat, (d.set b a)[q]? = some w' ∧ w' ≠ 0 := by
    intro q w hq hw
    by_cases e : b = q
    · subst e
      exact ⟨a, by rw [List.getElem?_set_self (getElem?_some_lt hq)], ha⟩
    · exact ⟨w, by rw [List.getElem?_set_ne e]; exact hq, hw⟩
  by_cases e : b = b'
  · subst e
    obtain ⟨p, w, h1, h2, h3⟩ := hp
    obtain ⟨w', h4, h5⟩ := key p w h2 h3
    exact ⟨p, w', h1, h4, h5⟩
  · rw [List.getElem?_set_ne e] at hb'
    obtain ⟨p, w, h1, h2, h3⟩ := h b' v hb' hv hpos
    obtain ⟨w', h4, h5⟩ := key p w h2 h3
    exact ⟨p, w', h1, h4, h5⟩

theorem ParentsSet.append_zeros {d : List Nat} (h : ParentsSet d) (n : Nat) :
    ParentsSet (d ++ List.replicate n 0) := by
  intro b v hb hv hpos
  have hbd : b < d.length := by
    by_contra hge
    rw [List.getElem?_append_right (by omega)] at hb
    have hm : v ∈ List.replicate n 0 := List.mem_iff_getElem?.2 ⟨_, hb⟩
    rw [List.mem_replicate] at hm
    exact hv hm.2
  rw [List.getElem?_append_left hbd] at hb
  obtain ⟨p, w, h1, h2, h3⟩ := h b v hb hv hpos
  exact ⟨p, w, h1, by rw [List.getElem?_append_left (getElem?_some_lt h2)]; exact h2, h3⟩

theorem bucket_init_spec (fuel : Nat) :
    ∀ (n depth : Nat) (s : hash_table_t) (d L : List Nat) (b : Nat),
      InvL s d L → 0 < b → b < s.size → b < 2 ^ n → n ≤ depth → L.length + n < fuel →
      d[b]? = some 0 →
      ∃ s' d' L', hashtable_bucket_init fuel depth s s.table b = .ok s' ∧ InvL s' d' L' ∧
        Grows s L s' L' ∧ (∃ v, d'[b]? = some v ∧ v ≠ 0) ∧
        L'.length ≤ L.length + n ∧
        (∀ (b' v : Nat), d[b']? = some v → v ≠ 0 → d'[b']? = some v) ∧
        (ParentsSet d → ParentsSet d') := by
  intro n
  induction n with
  | zero =>
    intro depth s d L b _ hb _ hbp _ _ _
    simp at hbp
    omega
  | succ n ih =>
    intro depth' s d L b hI hb hbs hbp hnd hf hunset
    obtain ⟨depth, rfl⟩ : ∃ depth, depth' = depth + 1 := ⟨depth' - 1, by omega⟩
    have hw : b < WORD := by
      have := hI.size_lt
      unfold WORD
      have : (2:Nat) ^ 61 < 2 ^ 64 := by norm_num
      omega
    obtain ⟨p, hpar, hpb, hdle, hplt⟩ := bucket_parent_ok b hb hw
    have hp2 : p < 2 ^ n := hplt n hbp
    have hpd : p < d.length := by rw [hI.dlen]; omega
    obtain ⟨tp, htp⟩ : ∃ tp, d[p]? = some tp := ⟨d[p], List.getElem?_eq_getElem hpd⟩
    have hdl : dir_load s s.table p = .ok tp := dir_load_inv hI htp
    -- the parent bucket is initialised first
    obtain ⟨s1, d1, L1, hrunA, hI1, hG1, ⟨vp, hvp, hvp0⟩, hlen1, hkeep1, hcl1⟩ :
        ∃ s1 d1 L1, (if tp = 0 then hashtable_bucket_init fuel depth s s.table p else .ok s)
            = .ok s1 ∧ InvL s1 d1 L1 ∧ Grows s L s1 L1 ∧ (∃ v, d1[p]? = some v ∧ v ≠ 0) ∧
            L1.length ≤ L.length + n ∧
            (∀ (b' v : Nat), d[b']? = some v → v ≠ 0 → d1[b']? = some v) ∧
            (ParentsSet d → ParentsSet d1) := by
      by_cases htp0 : tp = 0
      · have hp0 : 0 < p := by
          rcases Nat.eq_zero_or_pos p with h0 | h0
          · subst h0
            rw [hI.head] at htp
            injection htp with htp
            exact absurd (htp.trans htp0) (headPtr_ne_zero hI.ne)
          · exact h0
        obtain ⟨s1, d1, L1, hr, hI1, hG1, hv, hl, hk⟩ :=
          ih depth s d L p hI hp0 (by omega) hp2 (by omega) (by omega) (htp0 ▸ htp)
        exact ⟨s1, d1, L1, by simp only [htp0, if_true]; exact hr, hI1, hG1, hv, hl, hk⟩
      · exact ⟨s, d, L, by simp only [htp0, if_false], hI, Grows.refl s L, ⟨tp, htp, htp0⟩,
          by omega, fun _ _ hx _ => hx, fun hP => hP⟩
    have hclosed : ∀ (a : Nat), a ≠ 0 → ParentsSet d → ParentsSet (d1.set b a) :=
      fun a ha hP => (hcl1 hP).set ha ⟨p, vp, hpar, hvp, hvp0⟩
    have hkeep : ∀ (a : Nat) (b' v : Nat), d[b']? = some v → v ≠ 0 →
        (d1.set b a)[b']? = some v := by
      intro a b' v hx hv
      have hbb : b ≠ b' := by
        intro e
        subst e
        rw [hunset] at hx
        injection hx with hx
        exact hv hx.symm
      rw [List.getElem?_set_ne hbb]
      exact hkeep1 b' v hx hv
    have hI1' := hI1
    obtain ⟨j, hj, hdj⟩ := hI1.tbl
    have hbd1 : b < d1.length := by rw [hI1.dlen, hG1.size]; exact hbs
    -- the new sentinel
    have hmL1 : s1.nodes.length ∉ L1 := fun hx => by
      have := hI1.lt_length _ hx; omega
    have hI4 : InvL { s1 with nodes := s1.nodes ++
        [some (hash_node_t.mk (hashtable_hash_key_dummy b) b 0 0)] } d1 L1 := by
      refine hI1.frame _ _ hI1.hz ?_
      intro i hi
      exact List.getElem?_append_left (hI1.lt_length i hi)
    have hm4 : ({ s1 with nodes := s1.nodes ++
        [some (hash_node_t.mk (hashtable_hash_key_dummy b) b 0 0)] } : hash_table_t).nodes[s1.nodes.length]?
        = some (some (hash_node_t.mk (hashtable_hash_key_dummy b) b 0 0)) := by simp
    have hins := insert_node_invL hI4 fuel p vp s1.nodes.length
      (hash_node_t.mk (hashtable_hash_key_dummy b) b 0 0) hvp hvp0 hm4 hmL1 hdle
      (by intro hx; have := hx.2; simp at this; omega)
      (by intro hx; have := dummy_even b; simp at hx; omega)
      (by omega)
    have hstart : hashtable_bucket_init fuel (depth + 1) s s.table b =
        (match hashtable_list_insert fuel { s1 with nodes := s1.nodes ++
              [some (hash_node_t.mk (hashtable_hash_key_dummy b) b 0 0)] } p (nodeAddr s1.nodes.length) with
          | .error e => .error e
          | .ok (result, s5) =>
            match (if hashtable_node_get result ≠ nodeAddr s1.nodes.length
                   then node_free s5 (nodeAddr s1.nodes.length) else .ok s5) with
            | .error e => .error e
            | .ok s6 =>
              dir_store (hashtable_hazard_ptr_set s6 s6.table 1) s6.table b
                (hashtable_node_make
                  (if hashtable_node_get result ≠ nodeAddr s1.nodes.length
                   then hashtable_node_get result else nodeAddr s1.nodes.length) 0)) := by
      rw [hashtable_bucket_init]
      simp only [hpar, hdl, hrunA, node_calloc, store_fresh_key, store_fresh_code]
    rcases hins with ⟨i, hz', hiL1, hmatch, hrun, hlenz⟩ | ⟨hz', nodes', L', hrun, hI5, hperm, _, hframe, hfields⟩
    · -- a sentinel for the bucket is already linked
      have him : i ≠ s1.nodes.length := fun e => hmL1 (e ▸ hiL1)
      have hne : nodeAddr i ≠ nodeAddr s1.nodes.length := fun e => him (nodeAddr_inj e)
      simp only [isMatch, Bool.and_eq_true, decide_eq_true_eq] at hmatch
      have hci : codeAt s1.nodes i = hashtable_hash_key_dummy b := by
        rw [← hmatch.1]
        exact (codeAt_congr (List.getElem?_append_left (hI1.lt_length i hiL1))).symm
      have hki : keyAt s1.nodes i = b := by
        rw [← hmatch.2]
        exact (keyAt_congr (List.getElem?_append_left (hI1.lt_length i hiL1))).symm
      refine ⟨{ s1 with hazard := hz'.set 1 s1.table,
                        nodes := (s1.nodes ++ [some (hash_node_t.mk (hashtable_hash_key_dummy b) b 0 0)]).set
                          s1.nodes.length none,
                        dirs := s1.dirs.set j (some (d1.set b (nodeAddr i))) },
              d1.set b (nodeAddr i), L1, ?_, ?_, ?_, ?_, by omega, hkeep _,
              hclosed _ (nodeAddr_ne_zero i)⟩
      · rw [hstart, hrun]
        simp only [node_get_nodeAddr, ne_eq, hne, not_false_eq_true, if_true, node_make_zero]
        rw [node_free_ok (s := { s1 with hazard := hz', nodes := s1.nodes ++
          [some (hash_node_t.mk (hashtable_hash_key_dummy b) b 0 0)] }) hm4]
        simp only []
        have hI6 : InvL (hashtable_hazard_ptr_set
            { s1 with
              hazard := hz'
              nodes := (s1.nodes ++ [some (hash_node_t.mk (hashtable_hash_key_dummy b) b 0 0)]).set
                s1.nodes.length none } s1.table 1) d1 L1 := by
          refine hI1.frame _ _ (by simp [hlenz]) ?_
          intro k hk
          have hkl := hI1.lt_length k hk
          show ((s1.nodes ++ _).set s1.nodes.length none)[k]? = _
          rw [List.getElem?_set_ne (by omega), List.getElem?_append_left hkl]
        exact dir_store_inv hI6 hj hbd1 (nodeAddr i)
      · have hI6 : InvL
            { s1 with
              hazard := hz'.set 1 s1.table
              nodes := (s1.nodes ++ [some (hash_node_t.mk (hashtable_hash_key_dummy b) b 0 0)]).set
                s1.nodes.length none } d1 L1 := by
          refine hI1.frame _ _ (by simp [hlenz]) ?_
          intro k hk
          have hkl := hI1.lt_length k hk
          show ((s1.nodes ++ _).set s1.nodes.length none)[k]? = _
          rw [List.getElem?_set_ne (by omega), List.getElem?_append_left hkl]
        refine hI6.dir_set hj (by simp [hlenz]) rfl rfl rfl rfl hb hiL1 ?_ ?_
        · rw [← hci]
          apply codeAt_congr
          have hkl := hI1.lt_length i hiL1
          show ((s1.nodes ++ _).set s1.nodes.length none)[i]? = _
          rw [List.getElem?_set_ne (by omega), List.getElem?_append_left hkl]
        · rw [← hki]
          apply keyAt_congr
          have hkl := hI1.lt_length i hiL1
          show ((s1.nodes ++ _).set s1.nodes.length none)[i]? = _
          rw [List.getElem?_set_ne (by omega), List.getElem?_append_left hkl]
      · apply hG1.trans _ hI1.lt_length
        have hfr : ∀ k, k < s1.nodes.length →
            ((s1.nodes ++ [some (hash_node_t.mk (hashtable_hash_key_dummy b) b 0 0)]).set
              s1.nodes.length none)[k]? = s1.nodes[k]? := by
          intro k hk
          rw [List.getElem?_set_ne (by omega), List.getElem?_append_left hk]
        exact ⟨⟨[], by simp, by simp⟩,
          fun k hk => ⟨codeAt_congr (hfr k hk), keyAt_congr (hfr k hk), valueAt_congr (hfr k hk)⟩,
          fun k hk _ => hfr k hk, rfl, rfl, rfl, rfl, by simp⟩
      · exact ⟨nodeAddr i, by simp [List.getElem?_set_self hbd1], nodeAddr_ne_zero i⟩
    · -- the new sentinel is linked
      have hmL' : s1.nodes.length ∈ L' := hperm.symm.subset (List.mem_cons_self _ _)
      have hcm : codeAt nodes' s1.nodes.length = hashtable_hash_key_dummy b := by
        rw [(hfields _).1]; exact codeAt_eq hm4
      have hkm : keyAt nodes' s1.nodes.length = b := by
        rw [(hfields _).2.1]; exact keyAt_eq hm4
      refine ⟨{ s1 with hazard := hz'.set 1 s1.table, nodes := nodes',
                        dirs := s1.dirs.set j (some (d1.set b (nodeAddr s1.nodes.length))) },
              d1.set b (nodeAddr s1.nodes.length), L', ?_, ?_, ?_, ?_, ?_, hkeep _,
              hclosed _ (nodeAddr_ne_zero _)⟩
      · rw [hstart, hrun]
        simp only [node_get_nodeAddr, ne_eq, not_true_eq_false, if_false, node_make_zero]
        have hI6 : InvL (hashtable_hazard_ptr_set { s1 with hazard := hz', nodes := nodes' }
            s1.table 1) d1 L' := by
          refine hI5.frame _ _ (by simp; exact hI5.hz) ?_
          intro k _; rfl
        exact dir_store_inv hI6 hj hbd1 (nodeAddr s1.nodes.length)
      · have hI6 : InvL { s1 with hazard := hz'.set 1 s1.table, nodes := nodes' } d1 L' := by
          refine hI5.frame _ _ (by simp; exact hI5.hz) ?_
          intro k _; rfl
        exact hI6.dir_set hj (by simp [hI5.hz]) rfl rfl rfl rfl hb hmL' hcm hkm
      · apply hG1.trans _ hI1.lt_length
        have hfr : ∀ k, k < s1.nodes.length → k ∉ L1 → nodes'[k]? = s1.nodes[k]? := by
          intro k hk hkL
          rw [hframe k (by omega) hkL]
          exact List.getElem?_append_left hk
        have hfl : ∀ k, k < s1.nodes.length →
            codeAt nodes' k = codeAt s1.nodes k ∧ keyAt nodes' k = keyAt s1.nodes k ∧
              valueAt nodes' k = valueAt s1.nodes k := by
          intro k hk
          have e : (s1.nodes ++ [some (hash_node_t.mk (hashtable_hash_key_dummy b) b 0 0)])[k]? = s1.nodes[k]? :=
            List.getElem?_append_left hk
          exact ⟨(hfields k).1.trans (codeAt_congr e), (hfields k).2.1.trans (keyAt_congr e),
            (hfields k).2.2.trans (valueAt_congr e)⟩
        have hSm : ∀ i ∈ [s1.nodes.length], codeAt nodes' i % 2 = 0 ∧ s1.nodes.length ≤ i := by
          intro i hi
          rw [List.mem_singleton] at hi
          subst hi
          exact ⟨by rw [hcm]; exact dummy_even b, le_refl _⟩
        have hlen' : s1.nodes.length ≤ nodes'.length := le_of_lt (hI5.lt_length _ hmL')
        exact ⟨⟨[s1.nodes.length], hperm, hSm⟩, hfl, hfr, rfl, rfl, rfl, rfl, hlen'⟩
      · exact ⟨nodeAddr s1.nodes.length, by simp [List.getElem?_set_self hbd1],
          nodeAddr_ne_zero _⟩
      · have := hperm.length_eq
        simp at this
        omega

/-! ## The abstract view of a table that satisfies the invariant -/

theorem walk_chain {nodes : List (Option hash_node_t)} :
    ∀ (L : List Nat) (fuel p : Nat), Chain nodes p L → L.length ≤ fuel → walk nodes fuel p = L := by
  intro L
  induction L with
  | nil =>
    intro fuel p hc _
    have hp : p = 0 := hc
    subst hp
    cases fuel with
    | zero => rfl
    | succ f => simp [walk, node_get_zero]
  | cons i L ih =>
    intro fuel p hc hf
    obtain ⟨hp, n, hn, hrest⟩ := hc
    subst hp
    obtain ⟨f, rfl⟩ : ∃ f, fuel = f + 1 := ⟨fuel - 1, by simp at hf; omega⟩
    have h1 : nodeAddr i / 64 = i + 1 := by unfold nodeAddr; omega
    have h2 : nodeAddr i % 64 = 0 := by unfold nodeAddr; omega
    rw [walk]
    simp only [node_get_nodeAddr, h1, h2]
    simp only [Nat.add_one_ne_zero, ne_eq, not_true_eq_false, or_self, if_false,
      Nat.add_sub_cancel, hn]
    rw [ih f n.next hrest (by simp at hf; omega)]

theorem InvL.length_le {s : hash_table_t} {d L : List Nat} (h : InvL s d L) :
    L.length ≤ s.nodes.length := by
  have hsub : L ⊆ List.range s.nodes.length := by
    intro i hi
    exact List.mem_range.2 (h.lt_length i hi)
  have := (h.nodup.subperm hsub).length_le
  simpa using this

theorem InvL.slotOf_zero {s : hash_table_t} {d L : List Nat} (h : InvL s d L) :
    slotOf s 0 = headPtr L := by
  obtain ⟨j, hj, hdj⟩ := h.tbl
  unfold slotOf
  rw [hj, dirAddr_div, hdj]
  have := h.head
  simp only [List.getD_eq_getElem?_getD, this, Option.getD_some]

theorem InvL.reachable_eq {s : hash_table_t} {d L : List Nat} (h : InvL s d L) :
    reachable s = L := by
  unfold reachable
  rw [h.slotOf_zero]
  exact walk_chain L _ _ h.chain h.length_le

theorem lookup_map_some {α : Type} (f : α → Nat × Nat) :
    ∀ (l : List α) (k v : Nat), (l.map f).lookup k = some v →
      ∃ a ∈ l, (f a).1 = k ∧ (f a).2 = v := by
  intro l
  induction l with
  | nil => intro k v h; simp at h
  | cons a l ih =>
    intro k v h
    rw [List.map_cons] at h
    by_cases hk : k = (f a).1
    · have : List.lookup k (f a :: List.map f l) = some (f a).2 := by
        rw [show f a = ((f a).1, (f a).2) from rfl, List.lookup_cons]
        simp [hk]
      rw [this] at h
      injection h with h
      exact ⟨a, List.mem_cons_self _ _, hk.symm, h⟩
    · have : List.lookup k (f a :: List.map f l) = List.lookup k (List.map f l) := by
        rw [show f a = ((f a).1, (f a).2) from rfl, List.lookup_cons]
        have : (k == (f a).1) = false := by simpa using hk
        simp [this]
      rw [this] at h
      obtain ⟨a', ha', h1, h2⟩ := ih k v h
      exact ⟨a', List.mem_cons_of_mem _ ha', h1, h2⟩

theorem lookup_map_none {α : Type} (f : α → Nat × Nat) :
    ∀ (l : List α) (k : Nat), (l.map f).lookup k = none → ∀ a ∈ l, (f a).1 ≠ k := by
  intro l
  induction l with
  | nil => intro k _ a ha; simp at ha
  | cons a l ih =>
    intro k h
    rw [List.map_cons] at h
    by_cases hk : k = (f a).1
    · have : List.lookup k (f a :: List.map f l) = some (f a).2 := by
        rw [show f a = ((f a).1, (f a).2) from rfl, List.lookup_cons]
        simp [hk]
      rw [this] at h
      exact Option.noConfusion h
    · have : List.lookup k (f a :: List.map f l) = List.lookup k (List.map f l) := by
        rw [show f a = ((f a).1, (f a).2) from rfl, List.lookup_cons]
        have : (k == (f a).1) = false := by simpa using hk
        simp [this]
      rw [this] at h
      intro a' ha'
      rcases List.mem_cons.1 ha' with rfl | ha'
      · exact fun e => hk e.symm
      · exact ih k h a' ha'

/-- In a table that satisfies the invariant, `lookup` finds the value of the
unique data node that carries the key. -/
theorem InvL.lookup_some {s : hash_table_t} {d L : List Nat} (h : InvL s d L) (k v : Nat) :
    lookup s k = some v ↔
      ∃ i ∈ L, codeAt s.nodes i % 2 = 1 ∧ keyAt s.nodes i = k ∧ valueAt s.nodes i = v := by
  unfold lookup entries
  rw [h.reachable_eq]
  constructor
  · intro hl
    obtain ⟨i, hi, h1, h2⟩ := lookup_map_some _ _ k v hl
    rw [List.mem_filter] at hi
    exact ⟨i, hi.1, by simpa [isData] using hi.2, h1, h2⟩
  · rintro ⟨i, hi, hodd, hk, hv⟩
    cases hl : List.lookup k (List.map (fun i => (keyAt s.nodes i, valueAt s.nodes i))
        (List.filter (isData s.nodes) L)) with
    | none =>
      have := lookup_map_none _ _ k hl i (List.mem_filter.2 ⟨hi, by simpa [isData] using hodd⟩)
      exact absurd hk this
    | some v' =>
      obtain ⟨i', hi', h1, h2⟩ := lookup_map_some _ _ k v' hl
      rw [List.mem_filter] at hi'
      have hodd' : codeAt s.nodes i' % 2 = 1 := by simpa [isData] using hi'.2
      have : i = i' := h.uniq i hi i' hi'.1 hodd hodd' (hk.trans h1.symm)
      subst this
      rw [← h2, ← hv]

theorem InvL.lookup_none {s : hash_table_t} {d L : List Nat} (h : InvL s d L) (k : Nat) :
    lookup s k = none ↔ ∀ i ∈ L, codeAt s.nodes i % 2 = 1 → keyAt s.nodes i ≠ k := by
  constructor
  · intro hl i hi hodd hk
    have := (h.lookup_some k (valueAt s.nodes i)).2 ⟨i, hi, hodd, hk, rfl⟩
    rw [hl] at this
    exact Option.noConfusion this
  · intro hno
    cases hl : lookup s k with
    | none => rfl
    | some v =>
      obtain ⟨i, hi, hodd, hk, _⟩ := (h.lookup_some k v).1 hl
      exact absurd hk (hno i hi hodd)

/-- Linking sentinels does not change what `lookup` finds. -/
theorem Grows.lookup_eq {s s' : hash_table_t} {d d' L L' : List Nat} (h : InvL s d L)
    (h' : InvL s' d' L') (g : Grows s L s' L') (k : Nat) : lookup s' k = lookup s k := by
  obtain ⟨S, hp, hS⟩ := g.perm
  have hmem : ∀ i, i ∈ L' ↔ i ∈ S ∨ i ∈ L := by
    intro i; rw [hp.mem_iff, List.mem_append]
  cases hl : lookup s k with
  | none =>
    rw [h.lookup_none] at hl
    rw [h'.lookup_none]
    intro i hi hodd hk
    rcases (hmem i).1 hi with hiS | hiL
    · have := (hS i hiS).1; omega
    · have hf := g.fields i (h.lt_length i hiL)
      rw [hf.1] at hodd
      rw [hf.2.1] at hk
      exact hl i hiL hodd hk
  | some v =>
    obtain ⟨i, hi, hodd, hk, hv⟩ := (h.lookup_some k v).1 hl
    have hf := g.fields i (h.lt_length i hi)
    exact (h'.lookup_some k v).2 ⟨i, (hmem i).2 (Or.inr hi), by rw [hf.1]; exact hodd,
      by rw [hf.2.1]; exact hk, by rw [hf.2.2]; exact hv⟩

theorem Grows.filter_length {s s' : hash_table_t} {L L' : List Nat} (g : Grows s L s' L')
    (hL : ∀ i ∈ L, i < s.nodes.length) :
    (L'.filter (isData s'.nodes)).length = (L.filter (isData s.nodes)).length := by
  obtain ⟨S, hp, hS⟩ := g.perm
  rw [(hp.filter _).length_eq, List.filter_append, List.length_append]
  have h1 : S.filter (isData s'.nodes) = [] := by
    rw [List.filter_eq_nil_iff]
    intro i hi
    have := (hS i hi).1
    simp [isData, this]
  have h2 : L.filter (isData s'.nodes) = L.filter (isData s.nodes) := by
    apply List.filter_congr
    intro i hi
    unfold isData
    rw [(g.fields i (hL i hi)).1]
  rw [h1, h2]
  simp

/-! ## Making sure the bucket of a hash is initialised -/

theorem Grows.keeps {s s' : hash_table_t} {d d' L L' : List Nat} (g : Grows s L s' L')
    (h : InvL s d L) (hd : ∀ (b v : Nat), d[b]? = some v → v ≠ 0 → d'[b]? = some v)
    (hc : ParentsSet d → ParentsSet d') :
    Keeps s d L s' d' L' := by
  refine ⟨hd, ?_, hc⟩
  intro i hi _
  obtain ⟨S, hperm, _⟩ := g.perm
  have hf := g.fields i (h.lt_length i hi)
  exact ⟨hperm.symm.subset (List.mem_append_right _ hi), hf.1, hf.2.1⟩

theorem ensure_bucket {s : hash_table_t} {d L : List Nat} (h : InvL s d L) (fuel hash : Nat)
    (hfuel : L.length + 62 ≤ fuel) :
    ∃ tb, dir_load s s.table (hash % s.size) = .ok tb ∧
      ∃ s2 d2 L2, (if tb = 0 then hashtable_bucket_init fuel fuel s s.table (hash % s.size)
                   else .ok s) = .ok s2 ∧
        InvL s2 d2 L2 ∧ Grows s L s2 L2 ∧ (∃ v, d2[hash % s.size]? = some v ∧ v ≠ 0) ∧
        L2.length ≤ L.length + 61 ∧
        (∀ (b' v : Nat), d[b']? = some v → v ≠ 0 → d2[b']? = some v) ∧
        (ParentsSet d → ParentsSet d2) := by
  have hpos := h.size_pos
  have hb : hash % s.size < s.size := Nat.mod_lt _ hpos
  have hbd : hash % s.size < d.length := by rw [h.dlen]; exact hb
  obtain ⟨tb, htb⟩ : ∃ tb, d[hash % s.size]? = some tb := ⟨_, List.getElem?_eq_getElem hbd⟩
  refine ⟨tb, dir_load_inv h htb, ?_⟩
  by_cases htb0 : tb = 0
  · have hb0 : 0 < hash % s.size := by
      rcases Nat.eq_zero_or_pos (hash % s.size) with h0 | h0
      · rw [h0, h.head] at htb
        injection htb with htb
        exact absurd (htb.trans htb0) (headPtr_ne_zero h.ne)
      · exact h0
    have hb61 : hash % s.size < 2 ^ 61 := lt_trans hb h.size_lt
    obtain ⟨s2, d2, L2, hr, hI2, hG2, hv, hl, hk⟩ :=
      bucket_init_spec fuel 61 fuel s d L (hash % s.size) h hb0 hb hb61 (by omega) (by omega)
        (htb0 ▸ htb)
    exact ⟨s2, d2, L2, by simp only [htb0, if_true]; exact hr, hI2, hG2, hv, hl, hk⟩
  · exact ⟨s, d, L, by simp only [htb0, if_false], h, Grows.refl s L, ⟨tb, htb, htb0⟩, by omega,
      fun _ _ hx _ => hx, fun hP => hP⟩

/-! ## Where the walk stops -/

/-- From the sentinel of the bucket of a hash, the walk for the data key of this
hash stops on the matching node whenever the list holds one. -/
theorem head_matches_of_mem {s : hash_table_t} {d L : List Nat} (h : InvL s d L)
    {A R : List Nat} {r0 code key : Nat} (hL : L = A ++ r0 :: R)
    (hr0 : codeAt s.nodes r0 % 2 = 0) (hle : codeAt s.nodes r0 ≤ code) (hodd : code % 2 = 1)
    {i : Nat} (hi : i ∈ L) (hm : isMatch s.nodes code key i = true) :
    ∃ rest, (r0 :: R).dropWhile (passes s.nodes code key) = i :: rest := by
  simp only [isMatch, Bool.and_eq_true, decide_eq_true_eq] at hm
  have hs := h.sorted
  rw [hL, List.pairwise_append] at hs
  have hiR : i ∈ r0 :: R := by
    rw [hL] at hi
    rcases List.mem_append.1 hi with hiA | hiR
    · have := hs.2.2 i hiA r0 (List.mem_cons_self _ _)
      omega
    · exact hiR
  have hsplit := List.takeWhile_append_dropWhile (passes s.nodes code key) (r0 :: R)
  have hsR : ((r0 :: R).takeWhile (passes s.nodes code key) ++
      (r0 :: R).dropWhile (passes s.nodes code key)).Pairwise
      (fun a b => codeAt s.nodes a ≤ codeAt s.nodes b) := by
    rw [hsplit]; exact hs.2.1
  have hndR : ((r0 :: R).takeWhile (passes s.nodes code key) ++
      (r0 :: R).dropWhile (passes s.nodes code key)).Nodup := by
    rw [hsplit]
    have := h.nodup
    rw [hL] at this
    exact (List.nodup_append.1 this).2.1
  rw [← hsplit] at hiR
  have hprepass : ∀ x ∈ (r0 :: R).takeWhile (passes s.nodes code key),
      passes s.nodes code key x = true := fun x hx => List.mem_takeWhile_imp hx
  have hpostL : ∀ x ∈ (r0 :: R).dropWhile (passes s.nodes code key), x ∈ L := by
    intro x hx
    rw [hL]
    exact List.mem_append_right _ ((List.dropWhile_sublist _).subset hx)
  generalize (r0 :: R).takeWhile (passes s.nodes code key) = pre at *
  generalize hpostdef : (r0 :: R).dropWhile (passes s.nodes code key) = post at *
  rcases List.mem_append.1 hiR with hipre | hipost
  · have := passes_not_match (hprepass i hipre)
    simp [isMatch, hm.1, hm.2] at this
  · cases post with
    | nil => simp at hipost
    | cons h0 rest =>
      have hnp := dropWhile_head_false _ _ _ _ hpostdef
      rcases List.mem_cons.1 hipost with rfl | hirest
      · exact ⟨rest, rfl⟩
      · exfalso
        have hle2 : codeAt s.nodes h0 ≤ codeAt s.nodes i :=
          (List.pairwise_cons.1 (List.pairwise_append.1 hsR).2.1).1 i hirest
        by_cases hm0 : isMatch s.nodes code key h0 = true
        · simp only [isMatch, Bool.and_eq_true, decide_eq_true_eq] at hm0
          have hh0L : h0 ∈ L := hpostL h0 (List.mem_cons_self _ _)
          have := h.uniq h0 hh0L i hi (by omega) (by omega) (hm0.2.trans hm.2.symm)
          subst this
          exact (List.nodup_cons.1 (List.nodup_append.1 hndR).2.1).1 hirest
        · have := not_passes_not_match hnp (by simpa using hm0)
          omega


/-! ## `hashtable_find` -/

theorem find_spec {s : hash_table_t} {d L : List Nat} (h : InvL s d L) (fuel key : Nat)
    (hfuel : L.length + 63 ≤ fuel) (hp : (∃ k, s.size = 2 ^ k) ∨ lookup s key = none) :
    ∃ s' d' L', hashtable_find fuel s key = .ok ((lookup s key).getD 0, s') ∧
      InvL s' d' L' ∧ Grows s L s' L' ∧ Keeps s d L s' d' L' := by
  have hI0 : InvL (hashtable_hazard_ptr_set s s.table 0) d L :=
    h.frame _ _ (by simp [h.hz]) (fun _ _ => rfl)
  obtain ⟨tb, hdl, s2, d2, L2, hens, hI2, hG2, ⟨v, hv, hv0⟩, hlen2, hkeep2, hcl2⟩ :=
    ensure_bucket hI0 fuel (hashtable_hash_key key) (by omega)
  have hG2' : Grows s L s2 L2 :=
    ⟨hG2.perm, hG2.fields, hG2.frame, hG2.count, hG2.size, hG2.lvalue, hG2.table, hG2.len⟩
  have hsz : s2.size = s.size := hG2'.size
  replace hv : d2[hashtable_hash_key key % s.size]? = some v := hv
  obtain ⟨A, r0, R, hL2, hvr, hR, _, hc0, hk0⟩ := bucket_start hI2 hv hv0
  subst hvr
  have hdl2 : dir_load s2 s2.table (hashtable_hash_key key % s.size) = .ok (nodeAddr r0) :=
    dir_load_inv hI2 hv
  obtain ⟨hz', hfind, hlenz, _⟩ := list_find_spec fuel s2 (hashtable_hash_key key % s.size) key
    (hashtable_hash_key_regular (hashtable_hash_key key)) (r0 :: R) hdl2 hR
    (by have : (r0 :: R).length ≤ L2.length := by rw [hL2]; simp
        omega)
    (by rw [hI2.hz]; decide)
  have hne : s.size ≠ 0 := Nat.pos_iff_ne_zero.1 h.size_pos
  have e1 : dir_load (hashtable_hazard_ptr_set s s.table 0) s.table
      (hashtable_hash_key key % s.size) = .ok tb := hdl
  have e2 : (if tb = 0 then hashtable_bucket_init fuel fuel (hashtable_hazard_ptr_set s s.table 0)
      s.table (hashtable_hash_key key % s.size)
      else .ok (hashtable_hazard_ptr_set s s.table 0)) = .ok s2 := hens
  have hlk : lookup s2 key = lookup s key := hG2'.lookup_eq h hI2 key
  have hpostL : ∀ x ∈ (r0 :: R).dropWhile
      (passes s2.nodes (hashtable_hash_key_regular (hashtable_hash_key key)) key), x ∈ L2 := by
    intro x hx
    rw [hL2]
    exact List.mem_append_right _ ((List.dropWhile_sublist _).subset hx)
  have hr0even : codeAt s2.nodes r0 % 2 = 0 := by rw [hc0]; exact dummy_even _
  have hK2 : Keeps s d L s2 d2 L2 := hG2'.keeps h hkeep2 hcl2
  have hfin : ∀ hz'' : List Nat, hz''.length = 3 →
      InvL { s2 with hazard := hz'' } d2 L2 ∧ Grows s L { s2 with hazard := hz'' } L2 ∧
        Keeps s d L { s2 with hazard := hz'' } d2 L2 :=
    fun hz'' hl => ⟨hI2.frame _ _ hl (fun _ _ => rfl),
      ⟨hG2'.perm, hG2'.fields, hG2'.frame, hG2'.count, hG2'.size, hG2'.lvalue, hG2'.table,
        hG2'.len⟩, ⟨hK2.slot, hK2.sentinel, hK2.closed⟩⟩
  unfold hashtable_find
  simp only [hne, if_false, e1, e2, hfind]
  by_cases hex : ∃ i ∈ L2, isMatch s2.nodes
      (hashtable_hash_key_regular (hashtable_hash_key key)) key i = true
  · obtain ⟨i, hiL2, hm0⟩ := hex
    obtain ⟨n, hn⟩ := seg_alloc _ _ _ hI2.chain i hiL2
    have hm := hm0
    simp only [isMatch, Bool.and_eq_true, decide_eq_true_eq, codeAt_eq hn, keyAt_eq hn] at hm
    have hval : lookup s key = some n.value := by
      rw [← hlk]
      exact (hI2.lookup_some key n.value).2 ⟨i, hiL2, by
        rw [codeAt_eq hn, hm.1]; exact regular_odd _, by rw [keyAt_eq hn]; exact hm.2,
        valueAt_eq hn⟩
    have hr0le : codeAt s2.nodes r0 ≤ hashtable_hash_key_regular (hashtable_hash_key key) := by
      rcases hp with ⟨k, hk⟩ | hnone
      · rw [hc0, hk]
        exact dummy_le_regular _ k
      · rw [hval] at hnone
        exact Option.noConfusion hnone
    obtain ⟨rest, hpost⟩ := head_matches_of_mem hI2 hL2 hr0even hr0le (regular_odd _) hiL2 hm0
    rw [hval, hpost]
    simp only [headPtr, node_get_nodeAddr, nodeAddr_ne_zero, if_false, Option.getD_some,
      load_code (s := { s2 with hazard := hz' }) hn,
      load_key (s := { s2 with hazard := hz' }) hn, hm.1, hm.2, ne_eq, not_true_eq_false]
    by_cases hlv : s2.lvalue = true
    swap
    · rw [if_neg hlv]
      simp only [load_value (s := { s2 with hazard := hz' }) hn]
      exact ⟨_, d2, L2, rfl, hfin _ (by simp [hashtable_hazard_ptr_clear_all,
        hashtable_hazard_ptr_clear, hashtable_hazard_ptr_set, hlenz, hI2.hz])⟩
    · have hgm : hashtable_hazard_ptr_get_with_mask { s2 with hazard := hz' } (nodeAddr i + 16) 0
          = .ok (n.value, hashtable_hazard_ptr_set_with_mask { s2 with hazard := hz' }
              n.value 0) := by
        unfold hashtable_hazard_ptr_get_with_mask
        rw [unmask_nodeAddr_add i 16 (by decide), load_value (s := { s2 with hazard := hz' }) hn]
      rw [if_pos hlv]
      simp only [hgm]
      exact ⟨_, d2, L2, rfl, hfin _ (by simp [hashtable_hazard_ptr_set_with_mask,
        hashtable_hazard_ptr_clear, hashtable_hazard_ptr_set, hlenz, hI2.hz])⟩
  · have hnone : lookup s key = none := by
      rw [← hlk, hI2.lookup_none]
      intro i hi hodd hk
      apply hex
      refine ⟨i, hi, ?_⟩
      have := hI2.data i hi hodd
      rw [hk] at this
      simp [isMatch, this, hk]
    rw [hnone]
    simp only [Option.getD_none]
    have h3 := (hfin hz' (by rw [hlenz, hI2.hz]))
    generalize hpostdef : (r0 :: R).dropWhile
      (passes s2.nodes (hashtable_hash_key_regular (hashtable_hash_key key)) key) = post at *
    cases post with
    | nil =>
      simp only [headPtr, node_get_zero, if_true]
      exact ⟨_, d2, L2, rfl, h3⟩
    | cons i rest =>
      have hiL2 := hpostL i (List.mem_cons_self _ _)
      obtain ⟨n, hn⟩ := seg_alloc _ _ _ hI2.chain i hiL2
      have hnm : ¬ (n.code = hashtable_hash_key_regular (hashtable_hash_key key) ∧ n.key = key) := by
        intro hx
        apply hex
        exact ⟨i, hiL2, by simp [isMatch, codeAt_eq hn, keyAt_eq hn, hx.1, hx.2]⟩
      simp only [headPtr, node_get_nodeAddr, nodeAddr_ne_zero, if_false,
        load_code (s := { s2 with hazard := hz' }) hn,
        load_key (s := { s2 with hazard := hz' }) hn]
      by_cases hc : n.code = hashtable_hash_key_regular (hashtable_hash_key key)
      · have hk : n.key ≠ key := fun e => hnm ⟨hc, e⟩
        simp only [hc, ne_eq, not_true_eq_false, if_false, hk, not_false_eq_true, if_true]
        exact ⟨_, d2, L2, rfl, h3⟩
      · simp only [ne_eq, hc, not_false_eq_true, if_true]
        exact ⟨_, d2, L2, rfl, h3⟩

/-! ## The `float` conversion of a power of two is exact -/

theorem f32_of_nat_two_pow (k : Nat) : f32_of_nat (2 ^ k) = 2 ^ k := by
  unfold f32_of_nat
  by_cases h : 2 ^ k < 2 ^ 24
  · rw [if_pos h]
  · have hk : 24 ≤ k := by
      by_contra hlt
      exact h (Nat.pow_lt_pow_right (by norm_num) (by omega))
    rw [if_neg h]
    have hlog : Nat.log2 (2 ^ k) = k := Nat.log2_two_pow
    simp only [hlog]
    have hq : 2 ^ k / 2 ^ (k - 23) = 2 ^ 23 := by
      rw [Nat.pow_div (by omega) (by norm_num)]
      congr 1; omega
    have hr : 2 ^ k % 2 ^ (k - 23) = 0 :=
      Nat.mod_eq_zero_of_dvd (Nat.pow_dvd_pow 2 (by omega))
    have hh : 0 < 2 ^ (k - 23 - 1) := Nat.pos_pow_of_pos _ (by norm_num)
    rw [hq, hr]
    have hc : ¬ (0 > 2 ^ (k - 23 - 1) ∨ 0 = 2 ^ (k - 23 - 1) ∧ 2 ^ 23 % 2 = 1) := by
      rintro (hx | ⟨hx, _⟩) <;> omega
    rw [if_neg hc, ← pow_add]
    congr 1; omega

/-! ## `hashtable_resize` -/

theorem resize_spec {s : hash_table_t} {d L : List Nat} (h : InvL s d L)
    (hsz : s.size < 2 ^ 60) :
    ∃ s', hashtable_resize s s.size = .ok s' ∧ InvL s' (d ++ List.replicate s.size 0) L ∧
      s'.nodes = s.nodes ∧ s'.count = s.count ∧ s'.size = 2 * s.size ∧ s'.lvalue = s.lvalue ∧
      s'.table = dirAddr s.dirs.length ∧
      s'.dirs = s.dirs ++ [some (d ++ List.replicate s.size 0)] := by
  obtain ⟨j, hj, hdj⟩ := h.tbl
  have hjl : j < s.dirs.length := getElem?_some_lt hdj
  have hw1 : s.size * 2 % WORD = 2 * s.size := by unfold WORD; omega
  have hw2 : 8 * (2 * s.size) % WORD / 8 = 2 * s.size := by unfold WORD; omega
  have hw3 : 8 * s.size % WORD / 8 = s.size := by unfold WORD; omega
  have hdl := h.dlen
  refine ⟨{ s with hazard := s.hazard.set 0 s.table, size := 2 * s.size,
                   table := dirAddr s.dirs.length,
                   dirs := s.dirs ++ [some (d ++ List.replicate s.size 0)] }, ?_, ?_,
          rfl, rfl, rfl, rfl, rfl, rfl⟩
  · unfold hashtable_resize
    simp only [dir_calloc, hashtable_hazard_ptr_set, hw1, hw2]
    have hmc : dir_memcpy
        { s with hazard := s.hazard.set 0 s.table,
                 dirs := s.dirs ++ [some (List.replicate (2 * s.size) 0)] }
        (dirAddr s.dirs.length) s.table s.size
        = .ok { s with hazard := s.hazard.set 0 s.table,
                       dirs := s.dirs ++ [some (d ++ List.replicate s.size 0)] } := by
      unfold dir_memcpy
      have e1 : (s.dirs ++ [some (List.replicate (2 * s.size) 0)])[s.dirs.length]?
          = some (some (List.replicate (2 * s.size) 0)) := by simp
      have e2 : (s.dirs ++ [some (List.replicate (2 * s.size) 0)])[j]? = some (some d) := by
        rw [List.getElem?_append_left hjl]; exact hdj
      simp only [dirAddr_mod, hj, dirAddr_div, ne_eq, not_true_eq_false, or_self, if_false,
        e1, e2, hw3]
      have hc : s.size ≤ d.length ∧ s.size ≤ (List.replicate (2 * s.size) 0).length := by
        simp; omega
      rw [if_pos hc]
      have e3 : List.take s.size d = d := List.take_of_length_le (by omega)
      have e4 : List.drop s.size (List.replicate (2 * s.size) 0) = List.replicate s.size 0 := by
        rw [List.drop_replicate]; congr 1; omega
      rw [e3, e4, set_length_append]
    simp only [hmc, ne_eq, not_true_eq_false, if_false]
  · have htake : ∀ b, b < d.length → (d ++ List.replicate s.size 0)[b]? = d[b]? :=
      fun b hb => List.getElem?_append_left hb
    constructor
    · simp [h.hz]
    · exact ⟨s.dirs.length, rfl, by simp⟩
    · simp; omega
    · have hpos := h.size_pos
      have e61 : (2 : Nat) ^ 61 = 2 * 2 ^ 60 := by norm_num
      show 0 < 2 * s.size ∧ 2 * s.size < 2 ^ 61
      constructor <;> omega
    · rw [htake 0 (by rw [hdl]; exact h.size_pos)]; exact h.head
    · exact h.ne
    · exact h.chain
    · exact h.nodup
    · exact h.sorted
    · intro b v hb hv
      by_cases hbd : b < d.length
      · rw [htake b hbd] at hb
        exact h.slots b v hb hv
      · rw [List.getElem?_append_right (by omega)] at hb
        have := List.getElem?_replicate (a := 0) (n := s.size) (m := b - d.length) ▸ hb
        split at this
        · injection this with this; exact absurd this.symm hv
        · exact Option.noConfusion this
    · exact h.data
    · exact h.uniq

theorem resize_top {s : hash_table_t} {d L : List Nat} (h : InvL s d L)
    (hsz : s.size = 2 ^ 60) : hashtable_resize s s.size = .error .ub := by
  obtain ⟨j, hj, hdj⟩ := h.tbl
  have hjl : j < s.dirs.length := getElem?_some_lt hdj
  have hw1 : s.size * 2 % WORD = 2 ^ 61 := by rw [hsz]; unfold WORD; norm_num
  have hw2 : 8 * 2 ^ 61 % WORD / 8 = 0 := by unfold WORD; norm_num
  have hw3 : 8 * s.size % WORD / 8 = s.size := by rw [hsz]; unfold WORD; norm_num
  unfold hashtable_resize
  simp only [dir_calloc, hashtable_hazard_ptr_set, hw1, hw2]
  have hmc : dir_memcpy
      { s with hazard := s.hazard.set 0 s.table,
               dirs := s.dirs ++ [some (List.replicate 0 0)] }
      (dirAddr s.dirs.length) s.table s.size = .error .ub := by
    unfold dir_memcpy
    have e1 : (s.dirs ++ [some (List.replicate 0 0)])[s.dirs.length]?
        = some (some (List.replicate 0 0)) := by simp
    have e2 : (s.dirs ++ [some (List.replicate 0 0)])[j]? = some (some d) := by
      rw [List.getElem?_append_left hjl]; exact hdj
    simp only [dirAddr_mod, hj, dirAddr_div, ne_eq, not_true_eq_false, or_self, if_false,
      e1, e2, hw3]
    have hc : ¬ (s.size ≤ d.length ∧ s.size ≤ (List.replicate 0 0).length) := by
      have := h.size_pos
      simp
      intro _
      omega
    rw [if_neg hc]
  simp only [hmc]

/-! ## `hashtable_insert` -/

theorem Grows.of_append {s : hash_table_t} {L : List Nat} (hz : List Nat) (n : hash_node_t) :
    Grows s L { s with hazard := hz, nodes := s.nodes ++ [some n] } L :=
  ⟨⟨[], by simp, by simp⟩,
    fun k hk => by
      have e : (s.nodes ++ [some n])[k]? = s.nodes[k]? := List.getElem?_append_left hk
      exact ⟨codeAt_congr e, keyAt_congr e, valueAt_congr e⟩,
    fun k hk _ => List.getElem?_append_left hk, rfl, rfl, rfl, rfl, by simp⟩

theorem Grows.hazard {s s' : hash_table_t} {L L' : List Nat} (g : Grows s L s' L')
    (hz : List Nat) : Grows s L { s' with hazard := hz } L' :=
  ⟨g.perm, g.fields, g.frame, g.count, g.size, g.lvalue, g.table, g.len⟩

theorem lookup_after_link {s6 s' : hash_table_t} {d6 d' L6 L7 : List Nat} {m : Nat}
    {nm : hash_node_t} (hI6 : InvL s6 d6 L6) (hI' : InvL s' d' L7) (hperm : L7.Perm (m :: L6))
    (hfields : ∀ k, codeAt s'.nodes k = codeAt s6.nodes k ∧ keyAt s'.nodes k = keyAt s6.nodes k
      ∧ valueAt s'.nodes k = valueAt s6.nodes k)
    (hm : s6.nodes[m]? = some (some nm)) (hodd : nm.code % 2 = 1) :
    lookup s' nm.key = some nm.value ∧ (∀ k, k ≠ nm.key → lookup s' k = lookup s6 k) ∧
      (L7.filter (isData s'.nodes)).length = (L6.filter (isData s6.nodes)).length + 1 := by
  have hmem : ∀ i, i ∈ L7 ↔ i = m ∨ i ∈ L6 := by
    intro i; rw [hperm.mem_iff, List.mem_cons]
  have hcm : codeAt s'.nodes m = nm.code := by rw [(hfields m).1]; exact codeAt_eq hm
  have hkm : keyAt s'.nodes m = nm.key := by rw [(hfields m).2.1]; exact keyAt_eq hm
  have hvm : valueAt s'.nodes m = nm.value := by rw [(hfields m).2.2]; exact valueAt_eq hm
  refine ⟨?_, ?_, ?_⟩
  · exact (hI'.lookup_some _ _).2 ⟨m, (hmem m).2 (Or.inl rfl), by rw [hcm]; exact hodd, hkm, hvm⟩
  · intro k hk
    cases hl : lookup s6 k with
    | none =>
      rw [hI6.lookup_none] at hl
      rw [hI'.lookup_none]
      intro i hi hio hik
      rcases (hmem i).1 hi with rfl | hiL
      · rw [hkm] at hik; exact hk hik.symm
      · rw [(hfields i).1] at hio
        rw [(hfields i).2.1] at hik
        exact hl i hiL hio hik
    | some v =>
      obtain ⟨i, hi, hio, hik, hiv⟩ := (hI6.lookup_some k v).1 hl
      exact (hI'.lookup_some k v).2 ⟨i, (hmem i).2 (Or.inr hi), by rw [(hfields i).1]; exact hio,
        by rw [(hfields i).2.1]; exact hik, by rw [(hfields i).2.2]; exact hiv⟩
  · rw [(hperm.filter _).length_eq, List.filter_cons]
    have h1 : isData s'.nodes m = true := by simp [isData, hcm, hodd]
    have h2 : L6.filter (isData s'.nodes) = L6.filter (isData s6.nodes) := by
      apply List.filter_congr
      intro i _
      unfold isData
      rw [(hfields i).1]
    rw [h1, h2]
    simp

theorem insert_spec {s : hash_table_t} {d L : List Nat} (h : Inv s d L)
    (fuel key value : Nat) (hfuel : L.length + 64 ≤ fuel) :
    (lookup s key = none ∧ load_factor_exceeded s.count s.size = true ∧ s.size = 2 ^ 60 ∧
      hashtable_insert fuel s key value = .error .ub) ∨
    ∃ s' d' L', hashtable_insert fuel s key value = .ok (decide (lookup s key = none), s') ∧
      Inv s' d' L' ∧ s'.lvalue = s.lvalue ∧
      (lookup s key = none →
        lookup s' key = some value ∧ (∀ k, k ≠ key → lookup s' k = lookup s k) ∧
        s'.count = (s.count + 1) % WORD ∧
        s'.size = (if load_factor_exceeded s.count s.size then 2 * s.size else s.size)) ∧
      (lookup s key ≠ none →
        (∀ k, lookup s' k = lookup s k) ∧ s'.count = s.count ∧ s'.size = s.size) ∧
      Keeps s d L s' d' L' := by
  have hI := h.toInvL
  have hne0 : s.size ≠ 0 := Nat.pos_iff_ne_zero.1 hI.size_pos
  have hI5 : InvL ⟨s.table, s.hazard.set 0 s.table, s.count, s.size, s.lvalue,
      s.nodes ++ [some (hash_node_t.mk (hashtable_hash_key_regular (hashtable_hash_key key))
        key value 0)], s.dirs⟩ d L :=
    hI.frame _ _ (by simp [hI.hz])
      (fun i hi => List.getElem?_append_left (hI.lt_length i hi))
  have hG05 : Grows s L ⟨s.table, s.hazard.set 0 s.table, s.count, s.size, s.lvalue,
      s.nodes ++ [some (hash_node_t.mk (hashtable_hash_key_regular (hashtable_hash_key key))
        key value 0)], s.dirs⟩ L := Grows.of_append _ _
  obtain ⟨tb, hdl, s6, d6, L6, hens, hI6, hG6, ⟨v, hv, hv0⟩, hlen6, hkeep6, hcl6⟩ :=
    ensure_bucket hI5 fuel (hashtable_hash_key key) (by omega)
  replace hv : d6[hashtable_hash_key key % s.size]? = some v := hv
  have hG06 : Grows s L s6 L6 := hG05.trans hG6 hI5.lt_length
  have hK6 : Keeps s d L s6 d6 L6 := hG06.keeps hI hkeep6 hcl6
  have hpow6 : ∃ k, s6.size = 2 ^ k ∧ k ≤ 60 := by rw [hG06.size]; exact h.pow
  have hmL : s.nodes.length ∉ L := fun hx => by have := hI.lt_length _ hx; omega
  have hm6 : s6.nodes[s.nodes.length]? = some (some (hash_node_t.mk
      (hashtable_hash_key_regular (hashtable_hash_key key)) key value 0)) := by
    rw [hG6.frame s.nodes.length (by simp) hmL]
    simp
  have hmL6 : s.nodes.length ∉ L6 := by
    intro hx
    obtain ⟨S, hp, hS⟩ := hG6.perm
    rcases List.mem_append.1 (hp.subset hx) with hx | hx
    · have := (hS _ hx).2
      simp at this
    · exact hmL hx
  have hle : hashtable_hash_key_dummy (hashtable_hash_key key % s.size) ≤
      hashtable_hash_key_regular (hashtable_hash_key key) := by
    obtain ⟨k, hk, _⟩ := h.pow
    rw [hk]
    exact dummy_le_regular _ k
  have hins := insert_node_invL hI6 fuel (hashtable_hash_key key % s.size) v s.nodes.length
    (hash_node_t.mk (hashtable_hash_key_regular (hashtable_hash_key key)) key value 0)
    hv hv0 hm6 hmL6 hle
    (by intro hx
        have h1 := dummy_even (hashtable_hash_key key % s.size)
        have h2 := regular_odd (hashtable_hash_key key)
        have := hx.1
        simp only at this
        omega)
    (fun _ => rfl) (by omega)
  have hlk6 : ∀ k, lookup s6 k = lookup s k := fun k => hG06.lookup_eq hI hI6 k
  have hcnt6 : (L6.filter (isData s6.nodes)).length = (L.filter (isData s.nodes)).length :=
    hG06.filter_length hI.lt_length
  have e1 : dir_load ⟨s.table, s.hazard.set 0 s.table, s.count, s.size, s.lvalue,
      s.nodes ++ [some (hash_node_t.mk (hashtable_hash_key_regular (hashtable_hash_key key))
        key value 0)], s.dirs⟩ s.table (hashtable_hash_key key % s.size) = .ok tb := hdl
  have e2 : (if tb = 0 then hashtable_bucket_init fuel fuel
      ⟨s.table, s.hazard.set 0 s.table, s.count, s.size, s.lvalue,
        s.nodes ++ [some (hash_node_t.mk (hashtable_hash_key_regular (hashtable_hash_key key))
          key value 0)], s.dirs⟩ s.table (hashtable_hash_key key % s.size)
      else .ok ⟨s.table, s.hazard.set 0 s.table, s.count, s.size, s.lvalue,
        s.nodes ++ [some (hash_node_t.mk (hashtable_hash_key_regular (hashtable_hash_key key))
          key value 0)], s.dirs⟩) = .ok s6 := hens
  unfold hashtable_insert
  simp only [node_calloc, hashtable_hazard_ptr_set, store_fresh_code, store_fresh_key,
    store_fresh_value, hne0, if_false, e1, e2]
  rcases hins with ⟨i, hz', hiL6, hmatch, hrun, hlenz⟩ |
    ⟨hz', nodes', L7, hrun, hI7, hperm, hnomatch, hframe, hfields⟩
  · -- the key is already present
    have him : i ≠ s.nodes.length := fun e => hmL6 (e ▸ hiL6)
    have hnea : nodeAddr i ≠ nodeAddr s.nodes.length := fun e => him (nodeAddr_inj e)
    simp only [isMatch, Bool.and_eq_true, decide_eq_true_eq] at hmatch
    have hsome : lookup s key = some (valueAt s6.nodes i) := by
      rw [← hlk6]
      exact (hI6.lookup_some key _).2 ⟨i, hiL6, by rw [hmatch.1]; exact regular_odd _,
        hmatch.2, rfl⟩
    have hdec : decide (lookup s key = none) = false := by simp [hsome]
    rw [hdec, hrun]
    simp only [node_get_nodeAddr, ne_eq, hnea, not_false_eq_true, if_true]
    rw [node_free_ok (s := { s6 with hazard := hz' }) hm6]
    have hfr : ∀ k ∈ L6, (s6.nodes.set s.nodes.length none)[k]? = s6.nodes[k]? := by
      intro k hk
      rw [List.getElem?_set_ne (fun e => hmL6 (by rw [e]; exact hk))]
    have hI8 : InvL (hashtable_hazard_ptr_clear_all
        { s6 with hazard := hz', nodes := s6.nodes.set s.nodes.length none }) d6 L6 :=
      hI6.frame _ _ (by simp [hashtable_hazard_ptr_clear_all, hashtable_hazard_ptr_clear,
        hashtable_hazard_ptr_set, hlenz]) hfr
    have hfl8 : ∀ k, k < s.nodes.length → (s6.nodes.set s.nodes.length none)[k]? = s6.nodes[k]? := by
      intro k hk
      rw [List.getElem?_set_ne (by omega)]
    have hG8 : Grows s L (hashtable_hazard_ptr_clear_all
        { s6 with hazard := hz', nodes := s6.nodes.set s.nodes.length none }) L6 := by
      obtain ⟨S, hp, hS⟩ := hG06.perm
      refine ⟨⟨S, hp, ?_⟩, ?_, ?_, hG06.count, hG06.size, hG06.lvalue, hG06.table, ?_⟩
      · intro x hx
        have hxL6 : x ∈ L6 := hp.symm.subset (List.mem_append_left _ hx)
        refine ⟨?_, (hS x hx).2⟩
        show codeAt (s6.nodes.set s.nodes.length none) x % 2 = 0
        rw [codeAt_congr (hfr x hxL6)]
        exact (hS x hx).1
      · intro k hk
        have e := hfl8 k hk
        have f := hG06.fields k hk
        exact ⟨(codeAt_congr e).trans f.1, (keyAt_congr e).trans f.2.1,
          (valueAt_congr e).trans f.2.2⟩
      · intro k hk hkL
        show (s6.nodes.set s.nodes.length none)[k]? = _
        rw [hfl8 k hk]
        exact hG06.frame k hk hkL
      · show s.nodes.length ≤ (s6.nodes.set s.nodes.length none).length
        simp
        exact hG06.len
    refine Or.inr ⟨_, d6, L6, rfl, ⟨hI8, ?_, hpow6⟩, hG06.lvalue, ?_, ?_, hG8.keeps hI hkeep6 hcl6⟩
    · show s6.count = (List.filter (isData (s6.nodes.set s.nodes.length none)) L6).length % WORD
      have e := hG8.filter_length hI.lt_length
      change (List.filter (isData (s6.nodes.set s.nodes.length none)) L6).length = _ at e
      rw [e, hG06.count, h.cnt]
    · intro hn; rw [hsome] at hn; exact Option.noConfusion hn
    · intro _
      exact ⟨fun k => hG8.lookup_eq hI hI8 k, hG06.count, hG06.size⟩
  · -- the node is linked
    have hnone : lookup s key = none := by
      rw [← hlk6, hI6.lookup_none]
      intro i hi hio hik
      have hc := hI6.data i hi hio
      rw [hik] at hc
      have := hnomatch (regular_odd _) i hi
      simp [isMatch, hc, hik] at this
    have hdec : decide (lookup s key = none) = true := by simp [hnone]
    have hsz6 : s6.size = s.size := hG06.size
    have hc6 : s6.count = s.count := hG06.count
    have hf32 : f32_of_nat s6.size = s6.size := by
      obtain ⟨k, hk, _⟩ := h.pow
      rw [hsz6, hk]
      exact f32_of_nat_two_pow k
    have hsent7 : ∀ i ∈ L, codeAt s.nodes i % 2 = 0 →
        i ∈ L7 ∧ codeAt nodes' i = codeAt s.nodes i ∧ keyAt nodes' i = keyAt s.nodes i := by
      intro i hi hev
      obtain ⟨hi6, hc, hk⟩ := hK6.sentinel i hi hev
      exact ⟨hperm.symm.subset (List.mem_cons_of_mem _ hi6), (hfields i).1.trans hc,
        (hfields i).2.1.trans hk⟩
    have hI8 : InvL { s6 with hazard := hz', nodes := nodes', count := (s6.count + 1) % WORD }
        d6 L7 := hI7.congr hI7.hz rfl rfl rfl (fun _ _ => rfl)
    obtain ⟨hl1, hl2, hl3⟩ := lookup_after_link hI6 hI8 hperm hfields hm6 (regular_odd _)
    have hcnt8 : (s6.count + 1) % WORD
        = (L7.filter (isData nodes')).length % WORD := by
      have e : (L7.filter (isData nodes')).length = (L6.filter (isData s6.nodes)).length + 1 := hl3
      rw [e, hcnt6, hc6, h.cnt]
      unfold WORD
      omega
    rw [hdec, hrun]
    simp only [node_get_nodeAddr, ne_eq, not_true_eq_false, if_false, hf32]
    by_cases hlf : load_factor_exceeded s6.count s6.size = true
    · have hlt : s6.size < WORD := by
        have := h.size_le
        rw [hsz6]; unfold WORD
        have : (2:Nat) ^ 60 < 2 ^ 64 := by norm_num
        omega
      rw [if_pos hlf, if_pos hlt]
      by_cases hsz : s.size < 2 ^ 60
      swap
      · have hsz60 : s.size = 2 ^ 60 := by
          have := h.size_le
          omega
        have hrs : hashtable_resize
            { s6 with hazard := hz', nodes := nodes', count := (s6.count + 1) % WORD } s6.size
            = .error .ub := resize_top hI8 (by show s6.size = 2 ^ 60; rw [hsz6]; exact hsz60)
        simp only [hrs]
        exact Or.inl ⟨hnone, by rw [← hc6, ← hsz6]; exact hlf, hsz60, trivial⟩
      obtain ⟨s9, hrs, hI9, hn9, hc9, hs9, hlv9, _, _⟩ := resize_spec hI8 (by
        show s6.size < 2 ^ 60
        rw [hsz6]; exact hsz)
      replace hrs : hashtable_resize
          { s6 with hazard := hz', nodes := nodes', count := (s6.count + 1) % WORD } s6.size
          = .ok s9 := hrs
      simp only [hrs]
      have hfields9 : ∀ k, codeAt s9.nodes k = codeAt s6.nodes k ∧
          keyAt s9.nodes k = keyAt s6.nodes k ∧ valueAt s9.nodes k = valueAt s6.nodes k := by
        intro k; rw [hn9]; exact hfields k
      obtain ⟨hl1', hl2', _⟩ := lookup_after_link hI6 hI9 hperm hfields9 hm6 (regular_odd _)
      have hpow9 : ∃ k, s9.size = 2 ^ k ∧ k ≤ 60 := by
        obtain ⟨k, hk, _⟩ := hpow6
        refine ⟨k + 1, ?_, ?_⟩
        · rw [hs9]
          show 2 * s6.size = 2 ^ (k + 1)
          rw [hk, pow_succ]; ring
        · by_contra hgt
          have hk60 : k = 60 := by omega
          rw [hsz6, hk60] at hk
          omega
      refine Or.inr ⟨s9, _, L7, rfl, ⟨hI9, ?_, hpow9⟩, ?_, ?_, ?_, ?_, ?_, ?_⟩
      · rw [hc9, hn9]; exact hcnt8
      · rw [hlv9]; exact hG06.lvalue
      · intro _
        refine ⟨hl1', fun k hk => (hl2' k hk).trans (hlk6 k), ?_, ?_⟩
        · rw [hc9]; show (s6.count + 1) % WORD = _; rw [hc6]
        · rw [hs9]
          show 2 * s6.size = _
          rw [← hc6, ← hsz6, if_pos hlf]
      · intro hx; exact absurd hnone hx
      · intro b v hb hv
        have hb6 := hK6.slot b v hb hv
        rw [List.getElem?_append_left (getElem?_some_lt hb6)]
        exact hb6
      · intro i hi hev
        rw [hn9]
        exact hsent7 i hi hev
      · exact fun hP => (hK6.closed hP).append_zeros _
    · rw [if_neg hlf]
      refine Or.inr ⟨_, d6, L7, rfl, ⟨hI8, hcnt8, hpow6⟩, hG06.lvalue, ?_, ?_, ⟨hK6.slot, hsent7, hK6.closed⟩⟩
      · intro _
        refine ⟨hl1, fun k hk => (hl2 k hk).trans (hlk6 k), ?_, ?_⟩
        · show (s6.count + 1) % WORD = _; rw [hc6]
        · show s6.size = _
          rw [← hc6, ← hsz6, if_neg hlf]
      · intro hx; exact absurd hnone hx

/-! ## Unlinking the node of a key -/

theorem delete_node_invL {s : hash_table_t} {d L : List Nat} (h : InvL s d L)
    (fuel v key b : Nat) (hbk : b = hashtable_hash_key key % s.size)
    (hb : d[b]? = some v) (hv : v ≠ 0)
    (hfuel : L.length < fuel) (hp : ∃ k, s.size = 2 ^ k) :
    ((∀ i ∈ L, isMatch s.nodes (hashtable_hash_key_regular (hashtable_hash_key key)) key i
        = false) ∧
      ∃ hz', hashtable_list_delete fuel s b key
          (hashtable_hash_key_regular (hashtable_hash_key key))
          = .ok (0, { s with hazard := hz' }) ∧ hz'.length = 3) ∨
    (∃ i hz' nodes' L' n', i ∈ L ∧
        isMatch s.nodes (hashtable_hash_key_regular (hashtable_hash_key key)) key i = true ∧
        hashtable_list_delete fuel s b key
          (hashtable_hash_key_regular (hashtable_hash_key key))
          = .ok (nodeAddr i, { s with hazard := hz', nodes := nodes' }) ∧
        InvL { s with hazard := hz', nodes := nodes' } d L' ∧ L.Perm (i :: L') ∧
        (∀ k, codeAt nodes' k = codeAt s.nodes k ∧ keyAt nodes' k = keyAt s.nodes k
              ∧ valueAt nodes' k = valueAt s.nodes k) ∧
        (∀ k, k ∉ L → nodes'[k]? = s.nodes[k]?) ∧
        nodes'[i]? = some (some n')) := by
  subst hbk
  obtain ⟨A, r0, R, hL, hvr, hR, hA, hc0, hk0⟩ := bucket_start h hb hv
  subst hvr
  have hnd : (A ++ r0 :: R).Nodup := hL ▸ h.nodup
  have hndR : (r0 :: R).Nodup := (List.nodup_append.1 hnd).2.1
  have hfuelR : (r0 :: R).length < fuel := by
    have : (r0 :: R).length ≤ L.length := by rw [hL]; simp
    omega
  have hr0even : codeAt s.nodes r0 % 2 = 0 := by rw [hc0]; exact dummy_even _
  have hr0le : codeAt s.nodes r0 ≤ hashtable_hash_key_regular (hashtable_hash_key key) := by
    rw [hc0]
    obtain ⟨k, hk⟩ := hp
    rw [hk]
    exact dummy_le_regular _ k
  have hfirst : passes s.nodes (hashtable_hash_key_regular (hashtable_hash_key key)) key r0
      = true := by
    unfold passes
    have h1 : ¬ (codeAt s.nodes r0 > hashtable_hash_key_regular (hashtable_hash_key key)) := by
      omega
    have h2 : codeAt s.nodes r0 ≠ hashtable_hash_key_regular (hashtable_hash_key key) := by
      have := regular_odd (hashtable_hash_key key)
      omega
    simp [h1, h2]
  obtain ⟨hnone, hsome⟩ := list_delete_spec fuel s (hashtable_hash_key key % s.size) key
    (hashtable_hash_key_regular (hashtable_hash_key key)) r0 R (dir_load_inv h hb) hR hndR
    hfuelR (by rw [h.hz]; decide) hfirst
  have hsplitR := List.takeWhile_append_dropWhile
    (passes s.nodes (hashtable_hash_key_regular (hashtable_hash_key key)) key) (r0 :: R)
  have hr0pre : ∃ pre', (r0 :: R).takeWhile
      (passes s.nodes (hashtable_hash_key_regular (hashtable_hash_key key)) key) = r0 :: pre' :=
    ⟨R.takeWhile (passes s.nodes (hashtable_hash_key_regular (hashtable_hash_key key)) key),
      by rw [List.takeWhile_cons, hfirst]; rfl⟩
  by_cases hhm : headMatches s.nodes (hashtable_hash_key_regular (hashtable_hash_key key)) key
      ((r0 :: R).dropWhile (passes s.nodes
        (hashtable_hash_key_regular (hashtable_hash_key key)) key)) = true
  · right
    generalize hpre : (r0 :: R).takeWhile
      (passes s.nodes (hashtable_hash_key_regular (hashtable_hash_key key)) key) = pre at *
    generalize hpost : (r0 :: R).dropWhile
      (passes s.nodes (hashtable_hash_key_regular (hashtable_hash_key key)) key) = post at *
    cases post with
    | nil => simp [headMatches] at hhm
    | cons i rest =>
      have hmatch : isMatch s.nodes (hashtable_hash_key_regular (hashtable_hash_key key)) key i
          = true := hhm
      obtain ⟨hz', nodes', hrun, hlen, hchain, hframe, hfields, n', hn'⟩ := hsome i rest rfl hmatch
      obtain ⟨pre', hpre'⟩ := hr0pre
      have hLsplit : L = (A ++ pre) ++ i :: rest := by
        rw [hL, ← hsplitR]; simp
      have hiL : i ∈ L := by rw [hLsplit]; simp
      have hperm : L.Perm (i :: ((A ++ pre) ++ rest)) := by
        rw [hLsplit]; exact List.perm_middle
      have hsub : ((A ++ pre) ++ rest).Sublist L := by
        rw [hLsplit]
        exact List.Sublist.append (List.Sublist.refl _) (List.sublist_cons_self _ _)
      have hiodd : codeAt s.nodes i % 2 = 1 := by
        simp only [isMatch, Bool.and_eq_true, decide_eq_true_eq] at hmatch
        rw [hmatch.1]; exact regular_odd _
      have hinot : i ∉ (A ++ pre) ++ rest := by
        have := hperm.nodup_iff.1 h.nodup
        exact (List.nodup_cons.1 this).1
      refine ⟨i, hz', nodes', (A ++ pre) ++ rest, n', hiL, hmatch, hrun, ?_, hperm, hfields, ?_,
        hn'⟩
      · have hhead : headPtr ((A ++ pre) ++ rest) = headPtr L := by
          rw [hL, hpre']
          cases A <;> rfl
        constructor
        · show hz'.length = 3
          rw [hlen, h.hz]
        · exact h.tbl
        · exact h.dlen
        · exact h.szb
        · rw [hhead]; exact h.head
        · rw [hpre']; cases A <;> simp
        · rw [hhead]
          show Seg nodes' (headPtr L) ((A ++ pre) ++ rest) 0
          rw [List.append_assoc]
          refine (seg_append A (pre ++ rest) _ _).2 ⟨nodeAddr r0, ?_, hchain⟩
          apply seg_congr _ _ _ _ hA
          intro k hk
          apply hframe k
          intro hkR
          exact (List.nodup_append.1 hnd).2.2 hk hkR
        · exact h.nodup.sublist hsub
        · show ((A ++ pre) ++ rest).Pairwise (fun a b => codeAt nodes' a ≤ codeAt nodes' b)
          refine (h.sorted.sublist hsub).imp ?_
          intro a b hab
          rw [(hfields a).1, (hfields b).1]; exact hab
        · intro b' v' hb' hv'
          obtain ⟨i', hvi, hiL', hci, hki⟩ := h.slots b' v' hb' hv'
          have hne : i' ≠ i := by
            intro e; subst e
            have := dummy_even b'
            omega
          have hi'L3 : i' ∈ (A ++ pre) ++ rest := by
            rcases List.mem_cons.1 (hperm.subset hiL') with e | hx
            · exact absurd e hne
            · exact hx
          refine ⟨i', hvi, hi'L3, ?_, ?_⟩
          · show codeAt nodes' i' = _
            rw [(hfields i').1]; exact hci
          · show keyAt nodes' i' = _
            rw [(hfields i').2.1]; exact hki
        · intro k hk hodd
          change codeAt nodes' k % 2 = 1 at hodd
          show codeAt nodes' k = hashtable_hash_key_regular (hashtable_hash_key (keyAt nodes' k))
          rw [(hfields k).1, (hfields k).2.1]
          rw [(hfields k).1] at hodd
          exact h.data k (hsub.subset hk) hodd
        · intro k hk k' hk' hodd hodd' hkey
          change codeAt nodes' k % 2 = 1 at hodd
          change codeAt nodes' k' % 2 = 1 at hodd'
          change keyAt nodes' k = keyAt nodes' k' at hkey
          rw [(hfields k).1] at hodd
          rw [(hfields k').1] at hodd'
          rw [(hfields k).2.1, (hfields k').2.1] at hkey
          exact h.uniq k (hsub.subset hk) k' (hsub.subset hk') hodd hodd' hkey
      · intro k hkL
        apply hframe k
        intro hkR
        exact hkL (by rw [hL]; exact List.mem_append_right _ hkR)
  · left
    have hhm' : headMatches s.nodes (hashtable_hash_key_regular (hashtable_hash_key key)) key
        ((r0 :: R).dropWhile (passes s.nodes
          (hashtable_hash_key_regular (hashtable_hash_key key)) key)) = false := by
      simpa using hhm
    obtain ⟨hz', hrun, hlen⟩ := hnone hhm'
    refine ⟨?_, hz', hrun, by rw [hlen, h.hz]⟩
    intro i hi
    by_contra hm
    have hm' : isMatch s.nodes (hashtable_hash_key_regular (hashtable_hash_key key)) key i
        = true := by simpa using hm
    obtain ⟨rest, hpost⟩ := head_matches_of_mem h hL hr0even hr0le (regular_odd _) hi hm'
    rw [hpost] at hhm'
    simp [headMatches, hm'] at hhm'

/-! ## `hashtable_delete` -/

theorem lookup_after_unlink {s2 s' : hash_table_t} {d2 d' L2 L3 : List Nat} {i key : Nat}
    (hI2 : InvL s2 d2 L2) (hI' : InvL s' d' L3) (hperm : L2.Perm (i :: L3))
    (hfields : ∀ k ∈ L3, codeAt s'.nodes k = codeAt s2.nodes k ∧
      keyAt s'.nodes k = keyAt s2.nodes k ∧ valueAt s'.nodes k = valueAt s2.nodes k)
    (hodd : codeAt s2.nodes i % 2 = 1) (hkey : keyAt s2.nodes i = key) :
    lookup s' key = none ∧ (∀ k, k ≠ key → lookup s' k = lookup s2 k) ∧
      (L3.filter (isData s'.nodes)).length + 1 = (L2.filter (isData s2.nodes)).length := by
  have hmem : ∀ x, x ∈ L2 ↔ x = i ∨ x ∈ L3 := by
    intro x; rw [hperm.mem_iff, List.mem_cons]
  have hiL3 : i ∉ L3 := (List.nodup_cons.1 (hperm.nodup_iff.1 hI2.nodup)).1
  refine ⟨?_, ?_, ?_⟩
  · rw [hI'.lookup_none]
    intro x hx hxo hxk
    have hf := hfields x hx
    rw [hf.1] at hxo
    rw [hf.2.1] at hxk
    have := hI2.uniq x ((hmem x).2 (Or.inr hx)) i ((hmem i).2 (Or.inl rfl)) hxo hodd
      (hxk.trans hkey.symm)
    subst this
    exact hiL3 hx
  · intro k hk
    cases hl : lookup s2 k with
    | none =>
      rw [hI2.lookup_none] at hl
      rw [hI'.lookup_none]
      intro x hx hxo hxk
      have hf := hfields x hx
      rw [hf.1] at hxo
      rw [hf.2.1] at hxk
      exact hl x ((hmem x).2 (Or.inr hx)) hxo hxk
    | some v =>
      obtain ⟨x, hx, hxo, hxk, hxv⟩ := (hI2.lookup_some k v).1 hl
      rcases (hmem x).1 hx with rfl | hx3
      · exact absurd (hxk.symm.trans hkey) hk
      · have hf := hfields x hx3
        exact (hI'.lookup_some k v).2 ⟨x, hx3, by rw [hf.1]; exact hxo, by rw [hf.2.1]; exact hxk,
          by rw [hf.2.2]; exact hxv⟩
  · rw [(hperm.filter _).length_eq, List.filter_cons]
    have h1 : isData s2.nodes i = true := by simp [isData, hodd]
    have h2 : L3.filter (isData s'.nodes) = L3.filter (isData s2.nodes) := by
      apply List.filter_congr
      intro x hx
      unfold isData
      rw [(hfields x hx).1]
    rw [h1, h2]
    simp

theorem InvL.entries_length {s : hash_table_t} {d L : List Nat} (h : InvL s d L) :
    (entries s).length = (L.filter (isData s.nodes)).length := by
  unfold entries
  rw [h.reachable_eq]
  simp

theorem delete_spec {s : hash_table_t} {d L : List Nat} (h : Inv s d L)
    (fuel key : Nat) (hfuel : L.length + 63 ≤ fuel) :
    ∃ s' d' L', hashtable_delete fuel s key = .ok ((lookup s key).getD 0, s') ∧
      Inv s' d' L' ∧ s'.lvalue = s.lvalue ∧ s'.size = s.size ∧
      lookup s' key = none ∧ (∀ k, k ≠ key → lookup s' k = lookup s k) ∧
      (lookup s key = none → s'.count = s.count ∧ (entries s').length = (entries s).length) ∧
      (lookup s key ≠ none → s'.count = (s.count + WORD - 1) % WORD ∧
        (entries s').length + 1 = (entries s).length) ∧
      Keeps s d L s' d' L' := by
  have hI := h.toInvL
  have hI0 : InvL (hashtable_hazard_ptr_set s s.table 0) d L :=
    hI.frame _ _ (by simp [hI.hz]) (fun _ _ => rfl)
  obtain ⟨tb, hdl, s2, d2, L2, hens, hI2, hG2, ⟨v, hv, hv0⟩, hlen2, hkeep2, hcl2⟩ :=
    ensure_bucket hI0 fuel (hashtable_hash_key key) (by omega)
  have hG2' : Grows s L s2 L2 :=
    ⟨hG2.perm, hG2.fields, hG2.frame, hG2.count, hG2.size, hG2.lvalue, hG2.table, hG2.len⟩
  have hsz : s2.size = s.size := hG2'.size
  have hK2 : Keeps s d L s2 d2 L2 := hG2'.keeps hI hkeep2 hcl2
  have hpow2 : ∃ k, s2.size = 2 ^ k ∧ k ≤ 60 := by rw [hsz]; exact h.pow
  replace hv : d2[hashtable_hash_key key % s.size]? = some v := hv
  have hne : s.size ≠ 0 := Nat.pos_iff_ne_zero.1 hI.size_pos
  have e1 : dir_load (hashtable_hazard_ptr_set s s.table 0) s.table
      (hashtable_hash_key key % s.size) = .ok tb := hdl
  have e2 : (if tb = 0 then hashtable_bucket_init fuel fuel (hashtable_hazard_ptr_set s s.table 0)
      s.table (hashtable_hash_key key % s.size)
      else .ok (hashtable_hazard_ptr_set s s.table 0)) = .ok s2 := hens
  have hlk : ∀ k, lookup s2 k = lookup s k := fun k => hG2'.lookup_eq hI hI2 k
  have hcnt2 : (L2.filter (isData s2.nodes)).length = (L.filter (isData s.nodes)).length :=
    hG2'.filter_length hI.lt_length
  have hdel := delete_node_invL hI2 fuel v key (hashtable_hash_key key % s.size)
    (by rw [hsz]) hv hv0 (by omega) (by obtain ⟨k, hk, _⟩ := hpow2; exact ⟨k, hk⟩)
  unfold hashtable_delete
  simp only [hne, if_false, e1, e2]
  rcases hdel with ⟨hno, hz', hrun, hlenz⟩ |
    ⟨i, hz', nodes', L3, n', hiL2, hmatch, hrun, hI3, hperm, hfields, hframe, hn'⟩
  · have hnone : lookup s key = none := by
      rw [← hlk, hI2.lookup_none]
      intro x hx hxo hxk
      have hc := hI2.data x hx hxo
      rw [hxk] at hc
      have := hno x hx
      simp [isMatch, hc, hxk] at this
    have hI3 : InvL { s2 with hazard := hz' } d2 L2 := hI2.frame _ _ hlenz (fun _ _ => rfl)
    have hG3 : Grows s L { s2 with hazard := hz' } L2 := hG2'.hazard hz'
    rw [hrun, hnone]
    simp only [if_true, Option.getD_none]
    refine ⟨_, d2, L2, rfl, ⟨hI3, ?_, hpow2⟩, hG2'.lvalue, hsz, ?_, ?_, ?_, ?_,
      ⟨hK2.slot, hK2.sentinel, hK2.closed⟩⟩
    · show s2.count = _
      rw [hG2'.count, h.cnt, ← hcnt2]
    · rw [hG3.lookup_eq hI hI3]; exact hnone
    · intro k _; exact hG3.lookup_eq hI hI3 k
    · intro _
      refine ⟨hG2'.count, ?_⟩
      rw [hI3.entries_length, hI.entries_length]
      exact hcnt2
    · intro hx; exact absurd rfl hx
  · simp only [isMatch, Bool.and_eq_true, decide_eq_true_eq] at hmatch
    have hiodd : codeAt s2.nodes i % 2 = 1 := by rw [hmatch.1]; exact regular_odd _
    have hval : valueAt s2.nodes i = n'.value := by
      rw [← (hfields i).2.2]; exact valueAt_eq hn'
    have hsome : lookup s key = some n'.value := by
      rw [← hlk]
      exact (hI2.lookup_some key _).2 ⟨i, hiL2, hiodd, hmatch.2, hval⟩
    have hiL3 : i ∉ L3 := (List.nodup_cons.1 (hperm.nodup_iff.1 hI2.nodup)).1
    have hfr : ∀ k ∈ L3, (nodes'.set i (some { n' with value := 0 }))[k]? = nodes'[k]? := by
      intro k hk
      rw [List.getElem?_set_ne (fun e => hiL3 (by rw [e]; exact hk))]
    have hfin : ∀ hz'' : List Nat, hz''.length = 3 →
        ∀ s', s' = ({ s2 with
                      hazard := hz''
                      nodes := nodes'.set i (some { n' with value := 0 })
                      count := (s2.count + WORD - 1) % WORD } : hash_table_t) →
        Inv s' d2 L3 ∧ lookup s' key = none ∧ (∀ k, k ≠ key → lookup s' k = lookup s k) ∧
        (entries s').length + 1 = (entries s).length ∧ Keeps s d L s' d2 L3 := by
      intro hz'' hl s' hs'
      subst hs'
      have hI4 : InvL
          { s2 with
            hazard := hz''
            nodes := nodes'.set i (some { n' with value := 0 })
            count := (s2.count + WORD - 1) % WORD } d2 L3 :=
        hI3.congr hl rfl rfl rfl hfr
      have hf4 : ∀ k ∈ L3, codeAt (nodes'.set i (some { n' with value := 0 })) k
          = codeAt s2.nodes k ∧ keyAt (nodes'.set i (some { n' with value := 0 })) k
          = keyAt s2.nodes k ∧ valueAt (nodes'.set i (some { n' with value := 0 })) k
          = valueAt s2.nodes k := by
        intro k hk
        have e := hfr k hk
        exact ⟨(codeAt_congr e).trans (hfields k).1, (keyAt_congr e).trans (hfields k).2.1,
          (valueAt_congr e).trans (hfields k).2.2⟩
      obtain ⟨l1, l2, l3⟩ := lookup_after_unlink hI2 hI4 hperm hf4 hiodd hmatch.2
      refine ⟨⟨hI4, ?_, hpow2⟩, l1, fun k hk => (l2 k hk).trans (hlk k), ?_, hK2.slot, ?_, hK2.closed⟩
      · show (s2.count + WORD - 1) % WORD = _
        have l3' : (L3.filter (isData (nodes'.set i (some { n' with value := 0 })))).length + 1
            = (L2.filter (isData s2.nodes)).length := l3
        have hc2 : s2.count
            = ((L3.filter (isData (nodes'.set i (some { n' with value := 0 })))).length + 1)
              % WORD := by
          rw [l3', hcnt2, ← h.cnt]; exact hG2'.count
        rw [hc2]
        show _ = (L3.filter (isData (nodes'.set i (some { n' with value := 0 })))).length % WORD
        generalize (L3.filter (isData (nodes'.set i (some { n' with value := 0 })))).length = n
        unfold WORD
        omega
      · rw [hI4.entries_length, hI.entries_length, ← hcnt2]
        exact l3
      · intro x hx hev
        obtain ⟨hx2, hcx, hkx⟩ := hK2.sentinel x hx hev
        have hx3 : x ∈ L3 := by
          rcases List.mem_cons.1 (hperm.subset hx2) with e | hx3
          · subst e
            rw [hcx] at hiodd
            omega
          · exact hx3
        exact ⟨hx3, (hf4 x hx3).1.trans hcx, (hf4 x hx3).2.1.trans hkx⟩
    rw [hrun, hsome]
    simp only [nodeAddr_ne_zero, if_false, node_get_nodeAddr, Option.getD_some]
    by_cases hlv : s2.lvalue = true
    · rw [if_pos hlv]
      have hgm : hashtable_hazard_ptr_get_with_mask
          { s2 with hazard := hz', nodes := nodes', count := (s2.count + WORD - 1) % WORD }
          (nodeAddr i + 16) 0
          = .ok (n'.value, hashtable_hazard_ptr_set_with_mask
              { s2 with hazard := hz', nodes := nodes', count := (s2.count + WORD - 1) % WORD }
              n'.value 0) := by
        unfold hashtable_hazard_ptr_get_with_mask
        rw [unmask_nodeAddr_add i 16 (by decide)]
        rw [load_value
          (s := { s2 with hazard := hz', nodes := nodes', count := (s2.count + WORD - 1) % WORD })
          hn']
      simp only [hgm]
      rw [store_value (s := hashtable_hazard_ptr_clear (hashtable_hazard_ptr_clear
        (hashtable_hazard_ptr_set_with_mask
          { s2 with hazard := hz', nodes := nodes', count := (s2.count + WORD - 1) % WORD }
          n'.value 0) 1) 2) 0 hn']
      obtain ⟨f1, f2, f3, f4, f5⟩ := hfin
        (((hz'.set 0 (hashtable_hazard_ptr_unmask n'.value)).set 1 0).set 2 0)
        (by simp [hI3.hz]) _ rfl
      refine ⟨_, d2, L3, rfl, f1, hG2'.lvalue, hsz, f2, f3, ?_, ?_, f5⟩
      · intro hx; exact Option.noConfusion hx
      · intro _
        exact ⟨by show (s2.count + WORD - 1) % WORD = _; rw [hG2'.count], f4⟩
    · rw [if_neg hlv]
      rw [load_value
        (s := { s2 with hazard := hz', nodes := nodes', count := (s2.count + WORD - 1) % WORD })
        hn']
      simp only []
      rw [store_value (s := hashtable_hazard_ptr_clear_all
          { s2 with hazard := hz', nodes := nodes', count := (s2.count + WORD - 1) % WORD })
        0 hn']
      obtain ⟨f1, f2, f3, f4, f5⟩ := hfin (((hz'.set 0 0).set 1 0).set 2 0) (by simp [hI3.hz])
        _ rfl
      refine ⟨_, d2, L3, rfl, f1, hG2'.lvalue, hsz, f2, f3, ?_, ?_, f5⟩
      · intro hx; exact Option.noConfusion hx
      · intro _
        exact ⟨by show (s2.count + WORD - 1) % WORD = _; rw [hG2'.count], f4⟩

/-! ## `hashtable_create` -/

theorem dummy_zero : hashtable_hash_key_dummy 0 = 0 := by decide

theorem create_eq_size (lvalue : Bool) (size : Nat) (hpos : 0 < size) (hlt : size < 2 ^ 61) :
    hashtable_create lvalue (size)
      = .ok ⟨dirAddr 0, [0, 0, 0], 0, size, lvalue, [some ⟨0, 0, 0, 0⟩],
             [some (nodeAddr 0 :: List.replicate (size - 1) 0)]⟩ := by
  have hw : 8 * size % WORD / 8 = size := by
    unfold WORD
    have : (2:Nat) ^ 61 * 8 = 2 ^ 64 := by norm_num
    omega
  have hrep : (List.replicate (size) 0).set 0 (nodeAddr 0)
      = nodeAddr 0 :: List.replicate (size - 1) 0 := by
    obtain ⟨n, hn⟩ : ∃ n, size = n + 1 := ⟨size - 1, by omega⟩
    rw [hn]
    simp [List.replicate_succ]
  unfold hashtable_create
  simp only [dir_calloc, node_calloc, hw, List.length_nil, List.nil_append]
  have e1 : dir_store ⟨dirAddr 0, [0, 0, 0], 0, size, lvalue, [some ⟨0, 0, 0, 0⟩],
      [some (List.replicate (size) 0)]⟩ (dirAddr 0) 0 (nodeAddr 0)
      = .ok ⟨dirAddr 0, [0, 0, 0], 0, size, lvalue, [some ⟨0, 0, 0, 0⟩],
          [some (nodeAddr 0 :: List.replicate (size - 1) 0)]⟩ := by
    unfold dir_store
    simp [dirAddr_mod, dirAddr_div, hpos, hrep]
  simp only [e1]
  have h0 : ∀ (nodes : List (Option hash_node_t)) (n : hash_node_t), nodes = [some n] →
      nodes[0]? = some (some n) := by
    intro nodes n h; rw [h]; rfl
  rw [store_code (s := ⟨dirAddr 0, [0, 0, 0], 0, size, lvalue, [some ⟨0, 0, 0, 0⟩],
      [some (nodeAddr 0 :: List.replicate (size - 1) 0)]⟩) (hashtable_hash_key_dummy 0)
      (h0 _ _ rfl)]
  simp only [dummy_zero, List.set_cons_zero]
  rw [store_key (s := ⟨dirAddr 0, [0, 0, 0], 0, size, lvalue, [some ⟨0, 0, 0, 0⟩],
      [some (nodeAddr 0 :: List.replicate (size - 1) 0)]⟩) 0 (h0 _ _ rfl)]
  simp only [List.set_cons_zero]

theorem create_eq (lvalue : Bool) (k : Nat) (hk : k ≤ 60) :
    hashtable_create lvalue (2 ^ k)
      = .ok ⟨dirAddr 0, [0, 0, 0], 0, 2 ^ k, lvalue, [some ⟨0, 0, 0, 0⟩],
             [some (nodeAddr 0 :: List.replicate (2 ^ k - 1) 0)]⟩ := by
  have hle : 2 ^ k ≤ 2 ^ 60 := Nat.pow_le_pow_right (by norm_num) hk
  have h61 : (2 : Nat) ^ 60 < 2 ^ 61 := by norm_num
  exact create_eq_size lvalue (2 ^ k) (Nat.pos_pow_of_pos k (by norm_num)) (by omega)

theorem create_top (lvalue : Bool) (k : Nat) (hk : 60 < k) :
    hashtable_create lvalue (2 ^ k) = .error .ub := by
  have hw : 8 * 2 ^ k % WORD / 8 = 0 := by
    have hd : WORD ∣ 8 * 2 ^ k := by
      unfold WORD
      have : 8 * 2 ^ k = 2 ^ 64 * 2 ^ (k - 61) := by
        rw [show (8 : Nat) = 2 ^ 3 by norm_num, ← pow_add, ← pow_add]
        congr 1; omega
      rw [this]
      exact Nat.dvd_mul_right _ _
    rw [Nat.mod_eq_zero_of_dvd hd]
  unfold hashtable_create
  simp only [dir_calloc, node_calloc, hw, List.length_nil, List.nil_append, List.replicate_zero]
  have e1 : dir_store ⟨dirAddr 0, [0, 0, 0], 0, 2 ^ k, lvalue, [some ⟨0, 0, 0, 0⟩],
      [some []]⟩ (dirAddr 0) 0 (nodeAddr 0) = .error .ub := by
    unfold dir_store
    simp [dirAddr_mod, dirAddr_div]
  simp only [e1]

theorem create_invL (lvalue : Bool) (size : Nat) (hpos : 0 < size) (hlt : size < 2 ^ 61) :
    InvL ⟨dirAddr 0, [0, 0, 0], 0, size, lvalue, [some ⟨0, 0, 0, 0⟩],
         [some (nodeAddr 0 :: List.replicate (size - 1) 0)]⟩
      (nodeAddr 0 :: List.replicate (size - 1) 0) [0] := by
  have hc0 : codeAt [some (hash_node_t.mk 0 0 0 0)] 0 = 0 := rfl
  have hk0 : keyAt [some (hash_node_t.mk 0 0 0 0)] 0 = 0 := rfl
  refine ⟨rfl, ⟨0, rfl, rfl⟩, ?_, ⟨hpos, hlt⟩, by simp [headPtr], by simp, ?_, by simp,
    by simp, ?_, ?_, ?_⟩
  · simp; omega
  · exact ⟨rfl, ⟨0, 0, 0, 0⟩, rfl, rfl⟩
  · intro b v hb hv
    cases b with
    | zero =>
      simp at hb
      exact ⟨0, hb.symm, by simp, by rw [hc0, dummy_zero], hk0⟩
    | succ b =>
      simp only [List.getElem?_cons_succ] at hb
      rw [List.getElem?_replicate] at hb
      split at hb
      · injection hb with hb; exact absurd hb.symm hv
      · exact Option.noConfusion hb
  · intro i hi hodd
    simp at hi
    subst hi
    rw [hc0] at hodd
    omega
  · intro i hi i' hi' _ _ _
    simp at hi hi'
    rw [hi, hi']

theorem create_inv (lvalue : Bool) (k : Nat) (hk : k ≤ 60) :
    Inv ⟨dirAddr 0, [0, 0, 0], 0, 2 ^ k, lvalue, [some ⟨0, 0, 0, 0⟩],
         [some (nodeAddr 0 :: List.replicate (2 ^ k - 1) 0)]⟩
      (nodeAddr 0 :: List.replicate (2 ^ k - 1) 0) [0] := by
  have hle : 2 ^ k ≤ 2 ^ 60 := Nat.pow_le_pow_right (by norm_num) hk
  have h61 : (2 : Nat) ^ 60 < 2 ^ 61 := by norm_num
  have hc0 : codeAt [some (hash_node_t.mk 0 0 0 0)] 0 = 0 := rfl
  refine ⟨create_invL lvalue (2 ^ k) (Nat.pos_pow_of_pos k (by norm_num)) (by omega), ?_,
    ⟨k, rfl, hk⟩⟩
  show 0 = _
  simp [isData, hc0]

/-! ## Every reachable state satisfies the invariant -/

theorem Inv.budget_ok {s : hash_table_t} {d L : List Nat} (h : Inv s d L) {fuel : Nat}
    (hf : budget s ≤ fuel) : L.length + 64 ≤ fuel := by
  have := h.toInvL.length_le
  unfold budget at hf
  omega

theorem Inv.pow2 {s : hash_table_t} {d L : List Nat} (h : Inv s d L) : ∃ k, s.size = 2 ^ k := by
  obtain ⟨k, hk, _⟩ := h.pow
  exact ⟨k, hk⟩

theorem Inv.of_grows {s s' : hash_table_t} {d d' L L' : List Nat} (h : Inv s d L)
    (h' : InvL s' d' L') (g : Grows s L s' L') : Inv s' d' L' := by
  refine ⟨h', ?_, ?_⟩
  · rw [g.count, h.cnt, g.filter_length h.toInvL.lt_length]
  · rw [g.size]; exact h.pow

theorem Inv.double {s s' : hash_table_t} {d d' L : List Nat} (h : Inv s d L)
    (hsz : s.size < 2 ^ 60) (h' : InvL s' d' L) (hn : s'.nodes = s.nodes)
    (hc : s'.count = s.count) (hs : s'.size = 2 * s.size) : Inv s' d' L := by
  refine ⟨h', by rw [hc, hn]; exact h.cnt, ?_⟩
  obtain ⟨k, hk, _⟩ := h.pow
  refine ⟨k + 1, ?_, ?_⟩
  · rw [hs, hk, pow_succ]; ring
  · by_contra hgt
    have hk60 : k = 60 := by omega
    rw [hk60] at hk
    omega

theorem reach_inv {s : hash_table_t} (hr : Reach s) : ∃ d L, Inv s d L := by
  induction hr with
  | create lvalue k s hrun =>
    by_cases hk : k ≤ 60
    · rw [create_eq lvalue k hk] at hrun
      injection hrun with hrun
      subst hrun
      exact ⟨_, _, create_inv lvalue k hk⟩
    · rw [create_top lvalue k (by omega)] at hrun
      exact Except.noConfusion hrun
  | insert s fuel key value r s' _ hf hrun ih =>
    obtain ⟨d, L, h⟩ := ih
    rcases insert_spec h fuel key value (h.budget_ok hf) with ⟨_, _, _, herr⟩ |
      ⟨s1, d1, L1, hrun1, h1, _⟩
    · rw [herr] at hrun
      exact Except.noConfusion hrun
    · rw [hrun1] at hrun
      injection hrun with hrun
      injection hrun with _ hs
      subst hs
      exact ⟨d1, L1, h1⟩
  | find s fuel key r s' _ hf hrun ih =>
    obtain ⟨d, L, h⟩ := ih
    obtain ⟨s1, d1, L1, hrun1, h1, hG, _⟩ := find_spec h.toInvL fuel key
      (by have := h.budget_ok hf; omega) (Or.inl h.pow2)
    rw [hrun1] at hrun
    injection hrun with hrun
    injection hrun with _ hs
    subst hs
    exact ⟨d1, L1, h.of_grows h1 hG⟩
  | delete s fuel key r s' _ hf hrun ih =>
    obtain ⟨d, L, h⟩ := ih
    obtain ⟨s1, d1, L1, hrun1, h1, _⟩ := delete_spec h fuel key
      (by have := h.budget_ok hf; omega)
    rw [hrun1] at hrun
    injection hrun with hrun
    injection hrun with _ hs
    subst hs
    exact ⟨d1, L1, h1⟩
  | resize s s' _ hrun ih =>
    obtain ⟨d, L, h⟩ := ih
    by_cases hsz : s.size < 2 ^ 60
    · obtain ⟨s1, hrun1, h1, hn, hc, hs, _⟩ := resize_spec h.toInvL hsz
      rw [hrun1] at hrun
      injection hrun with hrun
      subst hrun
      exact ⟨_, L, h.double hsz h1 hn hc hs⟩
    · have hsz60 : s.size = 2 ^ 60 := by
        have := h.size_le
        omega
      rw [resize_top h.toInvL hsz60] at hrun
      exact Except.noConfusion hrun

/-! ## Concrete reachable states -/

theorem reach_fresh16 (lvalue : Bool) : Reach (fresh16 lvalue) :=
  Reach.create lvalue 4 (fresh16 lvalue) (create_eq lvalue 4 (by decide))

theorem reach_run_inserts :
    ∀ (kvs : List (Nat × Nat)) (s : hash_table_t) (rs : List (Bool × Nat)) (s' : hash_table_t),
      Reach s → run_inserts kvs s = .ok (rs, s') → Reach s' := by
  intro kvs
  induction kvs with
  | nil =>
    intro s rs s' hr h
    simp only [run_inserts] at h
    injection h with h
    injection h with _ h
    subst h
    exact hr
  | cons kv rest ih =>
    intro s rs s' hr h
    obtain ⟨key, value⟩ := kv
    rw [run_inserts] at h
    cases h1 : hashtable_insert (budget s) s key value with
    | error e => rw [h1] at h; exact Except.noConfusion h
    | ok p =>
      obtain ⟨r, s1⟩ := p
      rw [h1] at h
      simp only [] at h
      cases h2 : run_inserts rest s1 with
      | error e => rw [h2] at h; exact Except.noConfusion h
      | ok q =>
        obtain ⟨rs2, s2⟩ := q
        rw [h2] at h
        simp only [] at h
        injection h with h
        injection h with _ h
        subst h
        exact ih s1 rs2 s2 (Reach.insert s (budget s) key value r s1 hr (le_refl _) h1) h2

theorem reach_one16 : Reach one16 :=
  Reach.insert (fresh16 false) 100 5 50 true one16 (reach_fresh16 false) (by decide) (by rfl)

theorem reach_eleven16 : Reach eleven16 :=
  reach_run_inserts ((List.range 11).map (fun i => (i, 10 * i + 1))) (fresh16 false)
    (List.replicate 11 (true, 16)) eleven16 (reach_fresh16 false) (by rfl)

/-! ## The load-factor test in integers -/

theorem f32_of_nat_small {c : Nat} (h : c < 2 ^ 24) : f32_of_nat c = c := by
  unfold f32_of_nat
  rw [if_pos h]

theorem f32_of_nat_large {c : Nat} (h : 2 ^ 24 ≤ c) : 2 ^ 24 ≤ f32_of_nat c := by
  unfold f32_of_nat
  rw [if_neg (by omega)]
  have hc0 : c ≠ 0 := by
    have : 0 < 2 ^ 24 := by norm_num
    omega
  have hlog : 24 ≤ Nat.log2 c := (Nat.le_log2 hc0).2 h
  have hself : 2 ^ Nat.log2 c ≤ c := Nat.log2_self_le hc0
  obtain ⟨e, he⟩ : ∃ e, Nat.log2 c = e + 24 := ⟨Nat.log2 c - 24, by omega⟩
  have he23 : Nat.log2 c - 23 = e + 1 := by omega
  simp only [he23]
  have hq : 2 ^ 23 ≤ c / 2 ^ (e + 1) := by
    rw [Nat.le_div_iff_mul_le (Nat.pos_pow_of_pos _ (by norm_num)), ← pow_add]
    have : 23 + (e + 1) = Nat.log2 c := by omega
    rw [this]; exact hself
  have hpe : 2 ≤ 2 ^ (e + 1) := by
    have := Nat.pow_le_pow_right (by norm_num : 0 < 2) (show 1 ≤ e + 1 by omega)
    simpa using this
  have hq' : 2 ^ 23 ≤ (if c % 2 ^ (e + 1) > 2 ^ (e + 1 - 1) ∨
      c % 2 ^ (e + 1) = 2 ^ (e + 1 - 1) ∧ c / 2 ^ (e + 1) % 2 = 1
      then c / 2 ^ (e + 1) + 1 else c / 2 ^ (e + 1)) := by
    split <;> omega
  calc 2 ^ 24 = 2 ^ 23 * 2 := by norm_num
    _ ≤ _ := Nat.mul_le_mul hq' hpe

/-- For a directory of at most `2^23` slots the `float` test of line 530 is the
integer comparison `7 * size < 10 * count`. -/
theorem load_factor_exceeded_iff (c k : Nat) (hk : k ≤ 23) :
    load_factor_exceeded c (2 ^ k) = true ↔ 7 * 2 ^ k < 10 * c := by
  have hpos : 0 < 2 ^ k := Nat.pos_pow_of_pos k (by norm_num)
  have hle : 2 ^ k ≤ 2 ^ 23 := Nat.pow_le_pow_right (by norm_num) hk
  unfold load_factor_exceeded
  rw [if_neg (by omega)]
  simp only [decide_eq_true_eq]
  by_cases hc : c < 2 ^ 24
  · rw [f32_of_nat_small hc]
    interval_cases k <;> omega
  · have h1 := f32_of_nat_large (c := c) (by omega)
    constructor
    · intro _
      have : (2:Nat) ^ 24 = 16777216 := by norm_num
      have : (2:Nat) ^ 23 = 8388608 := by norm_num
      omega
    · intro _
      have e1 : 23488103 * 2 ^ k ≤ 23488103 * 2 ^ 23 := Nat.mul_le_mul_left _ hle
      have e2 : 2 ^ 24 * 2 ^ 25 ≤ f32_of_nat c * 2 ^ 25 := Nat.mul_le_mul_right _ h1
      have e3 : 23488103 * 2 ^ 23 ≤ 2 ^ 24 * 2 ^ 25 := by norm_num
      omega

/-! # The public contract on reachable tables -/

theorem resize_lookup {s s1 : hash_table_t} {d d1 L : List Nat} (h : InvL s d L)
    (h1 : InvL s1 d1 L) (hn : s1.nodes = s.nodes) (k : Nat) : lookup s1 k = lookup s k := by
  unfold lookup entries
  rw [h1.reachable_eq, h.reachable_eq, hn]

/-- C1: on every reachable table whose directory can still be doubled, inserting
a key that is not present returns true, and the find that follows (with any
sufficient budget) returns the inserted value. -/
theorem insert_then_find (s : hash_table_t) (hr : Reach s) (hsz : s.size < 2 ^ 60)
    (key value fuel : Nat) (hf : budget s ≤ fuel) (habs : lookup s key = none) :
    ∃ s1, hashtable_insert fuel s key value = .ok (true, s1) ∧
      ∀ fuel1, budget s1 ≤ fuel1 → ∃ s2, hashtable_find fuel1 s1 key = .ok (value, s2) := by
  obtain ⟨d, L, h⟩ := reach_inv hr
  rcases insert_spec h fuel key value (h.budget_ok hf) with ⟨_, _, h60, _⟩ |
    ⟨s1, d1, L1, hrun, h1, _, hnew, _⟩
  · omega
  · refine ⟨s1, by rw [hrun]; simp [habs], ?_⟩
    intro fuel1 hf1
    obtain ⟨s2, _, _, hfind, _⟩ := find_spec h1.toInvL fuel1 key
      (by have := h1.budget_ok hf1; omega) (Or.inl h1.pow2)
    refine ⟨s2, ?_⟩
    rw [hfind, (hnew habs).1]
    rfl

/-- Witness of C1 on a fresh table of size 16. -/
theorem insert_then_find_witness :
    Reach (fresh16 false) ∧ (fresh16 false).size < 2 ^ 60 ∧ budget (fresh16 false) ≤ 100 ∧
      lookup (fresh16 false) 5 = none ∧
      ∃ s1, hashtable_insert 100 (fresh16 false) 5 50 = .ok (true, s1) ∧
        ∀ fuel1, budget s1 ≤ fuel1 → ∃ s2, hashtable_find fuel1 s1 5 = .ok (50, s2) :=
  ⟨reach_fresh16 false, by decide, by decide, by decide,
    insert_then_find (fresh16 false) (reach_fresh16 false) (by decide) 5 50 100 (by decide)
      (by decide)⟩

/-- C2: on every reachable table, inserting a key that is present with value
`v` returns false, leaves count and size unchanged, and the find that follows
still returns `v`. -/
theorem insert_duplicate (s : hash_table_t) (hr : Reach s) (key v v2 fuel : Nat)
    (hf : budget s ≤ fuel) (hpres : lookup s key = some v) :
    ∃ s1, hashtable_insert fuel s key v2 = .ok (false, s1) ∧ s1.count = s.count ∧
      s1.size = s.size ∧
      ∀ fuel1, budget s1 ≤ fuel1 → ∃ s2, hashtable_find fuel1 s1 key = .ok (v, s2) := by
  obtain ⟨d, L, h⟩ := reach_inv hr
  have hne : lookup s key ≠ none := by rw [hpres]; exact fun e => Option.noConfusion e
  rcases insert_spec h fuel key v2 (h.budget_ok hf) with ⟨hnone, _⟩ |
    ⟨s1, d1, L1, hrun, h1, _, _, hold, _⟩
  · exact absurd hnone hne
  · obtain ⟨hlk, hc, hs⟩ := hold hne
    refine ⟨s1, by rw [hrun]; simp [hpres], hc, hs, ?_⟩
    intro fuel1 hf1
    obtain ⟨s2, _, _, hfind, _⟩ := find_spec h1.toInvL fuel1 key
      (by have := h1.budget_ok hf1; omega) (Or.inl h1.pow2)
    refine ⟨s2, ?_⟩
    rw [hfind, hlk key, hpres]
    rfl

/-- Witness of C2: key 5 is present with value 50. -/
theorem insert_duplicate_witness :
    Reach one16 ∧ budget one16 ≤ 100 ∧ lookup one16 5 = some 50 ∧
      ∃ s1, hashtable_insert 100 one16 5 60 = .ok (false, s1) ∧ s1.count = one16.count ∧
        s1.size = one16.size ∧
        ∀ fuel1, budget s1 ≤ fuel1 → ∃ s2, hashtable_find fuel1 s1 5 = .ok (50, s2) :=
  ⟨reach_one16, by decide, by decide,
    insert_duplicate one16 reach_one16 5 50 60 100 (by decide) (by decide)⟩

/-- C3: on every reachable table and for every key, present or not,
`hashtable_delete` returns, and the find that follows returns `NULL`. -/
theorem delete_then_find (s : hash_table_t) (hr : Reach s) (key fuel : Nat)
    (hf : budget s ≤ fuel) :
    ∃ r s1, hashtable_delete fuel s key = .ok (r, s1) ∧
      ∀ fuel1, budget s1 ≤ fuel1 → ∃ s2, hashtable_find fuel1 s1 key = .ok (0, s2) := by
  obtain ⟨d, L, h⟩ := reach_inv hr
  obtain ⟨s1, d1, L1, hrun, h1, _, _, hnone, _⟩ := delete_spec h fuel key
    (by have := h.budget_ok hf; omega)
  refine ⟨_, s1, hrun, ?_⟩
  intro fuel1 hf1
  obtain ⟨s2, _, _, hfind, _⟩ := find_spec h1.toInvL fuel1 key
    (by have := h1.budget_ok hf1; omega) (Or.inl h1.pow2)
  refine ⟨s2, ?_⟩
  rw [hfind, hnone]
  rfl

/-- Witness of C3 on a table that holds key 5. -/
theorem delete_then_find_witness :
    Reach one16 ∧ budget one16 ≤ 100 ∧
      ∃ r s1, hashtable_delete 100 one16 5 = .ok (r, s1) ∧
        ∀ fuel1, budget s1 ≤ fuel1 → ∃ s2, hashtable_find fuel1 s1 5 = .ok (0, s2) :=
  ⟨reach_one16, by decide, delete_then_find one16 reach_one16 5 100 (by decide)⟩

/-- C4: on every reachable table, deleting a present key returns its value and
decrements the count by one (in 64-bit arithmetic; the count is the number of
stored entries modulo `2^64`); deleting an absent key returns `NULL` and leaves
count, size and every stored key/value pair unchanged. -/
theorem delete_result (s : hash_table_t) (hr : Reach s) (key fuel : Nat)
    (hf : budget s ≤ fuel) :
    s.count = (entries s).length % WORD ∧
    (∀ v, lookup s key = some v →
      ∃ s1, hashtable_delete fuel s key = .ok (v, s1) ∧
        s1.count = (s.count + WORD - 1) % WORD ∧ (0 < s.count → s1.count + 1 = s.count) ∧
        (entries s1).length + 1 = (entries s).length) ∧
    (lookup s key = none →
      ∃ s1, hashtable_delete fuel s key = .ok (0, s1) ∧ s1.count = s.count ∧
        s1.size = s.size ∧ (entries s1).length = (entries s).length ∧
        ∀ k, lookup s1 k = lookup s k) := by
  obtain ⟨d, L, h⟩ := reach_inv hr
  have hcnt : s.count = (entries s).length % WORD := by
    rw [h.toInvL.entries_length]; exact h.cnt
  obtain ⟨s1, d1, L1, hrun, h1, _, hsize, hnone, hother, habs, hpres, _⟩ := delete_spec h fuel key
    (by have := h.budget_ok hf; omega)
  refine ⟨hcnt, ?_, ?_⟩
  · intro v hv
    have hne : lookup s key ≠ none := by rw [hv]; exact fun e => Option.noConfusion e
    obtain ⟨hc, hlen⟩ := hpres hne
    refine ⟨s1, by rw [hrun, hv]; rfl, hc, ?_, hlen⟩
    intro hpos
    have hlt : s.count < WORD := by
      rw [hcnt]; exact Nat.mod_lt _ (by unfold WORD; norm_num)
    rw [hc]
    unfold WORD at hlt ⊢
    omega
  · intro hn
    obtain ⟨hc, hlen⟩ := habs hn
    refine ⟨s1, by rw [hrun, hn]; rfl, hc, hsize, hlen, ?_⟩
    intro k
    by_cases hk : k = key
    · rw [hk, hnone, hn]
    · exact hother k hk

/-- Witness of C4 on a table that holds exactly key 5. -/
theorem delete_result_witness :
    Reach one16 ∧ budget one16 ≤ 100 ∧
      (one16.count = (entries one16).length % WORD ∧
      (∀ v, lookup one16 5 = some v →
        ∃ s1, hashtable_delete 100 one16 5 = .ok (v, s1) ∧
          s1.count = (one16.count + WORD - 1) % WORD ∧
          (0 < one16.count → s1.count + 1 = one16.count) ∧
          (entries s1).length + 1 = (entries one16).length) ∧
      (lookup one16 5 = none →
        ∃ s1, hashtable_delete 100 one16 5 = .ok (0, s1) ∧ s1.count = one16.count ∧
          s1.size = one16.size ∧ (entries s1).length = (entries one16).length ∧
          ∀ k, lookup s1 k = lookup one16 k)) :=
  ⟨reach_one16, by decide, delete_result one16 reach_one16 5 100 (by decide)⟩

/-- C5: on every reachable table whose directory can still be doubled, after
deleting a present key an insert of the same key returns true and the find that
follows returns the new value. -/
theorem reinsert_after_delete (s : hash_table_t) (hr : Reach s) (hsz : s.size < 2 ^ 60)
    (key v v2 fuel : Nat) (hf : budget s ≤ fuel) (hpres : lookup s key = some v) :
    ∃ s1, hashtable_delete fuel s key = .ok (v, s1) ∧
      ∀ fuel1, budget s1 ≤ fuel1 →
        ∃ s2, hashtable_insert fuel1 s1 key v2 = .ok (true, s2) ∧
          ∀ fuel2, budget s2 ≤ fuel2 → ∃ s3, hashtable_find fuel2 s2 key = .ok (v2, s3) := by
  obtain ⟨d, L, h⟩ := reach_inv hr
  obtain ⟨s1, d1, L1, hrun, h1, _, hsize, hnone, _⟩ := delete_spec h fuel key
    (by have := h.budget_ok hf; omega)
  refine ⟨s1, by rw [hrun, hpres]; rfl, ?_⟩
  intro fuel1 hf1
  rcases insert_spec h1 fuel1 key v2 (h1.budget_ok hf1) with ⟨_, _, h60, _⟩ |
    ⟨s2, d2, L2, hrun2, h2, _, hnew, _⟩
  · omega
  · refine ⟨s2, by rw [hrun2]; simp [hnone], ?_⟩
    intro fuel2 hf2
    obtain ⟨s3, _, _, hfind, _⟩ := find_spec h2.toInvL fuel2 key
      (by have := h2.budget_ok hf2; omega) (Or.inl h2.pow2)
    refine ⟨s3, ?_⟩
    rw [hfind, (hnew hnone).1]
    rfl

/-- Witness of C5 on a table that holds key 5 with value 50. -/
theorem reinsert_after_delete_witness :
    Reach one16 ∧ one16.size < 2 ^ 60 ∧ budget one16 ≤ 100 ∧ lookup one16 5 = some 50 ∧
      ∃ s1, hashtable_delete 100 one16 5 = .ok (50, s1) ∧
        ∀ fuel1, budget s1 ≤ fuel1 →
          ∃ s2, hashtable_insert fuel1 s1 5 60 = .ok (true, s2) ∧
            ∀ fuel2, budget s2 ≤ fuel2 → ∃ s3, hashtable_find fuel2 s2 5 = .ok (60, s3) :=
  ⟨reach_one16, by decide, by decide, by decide,
    reinsert_after_delete one16 reach_one16 (by decide) 5 50 60 100 (by decide) (by decide)⟩

/-- C6: on every reachable table whose directory can still be doubled,
`hashtable_resize(t, t.size)` doubles the size, and every key is found with the
same value (or the same `NULL`) immediately before and immediately after. -/
theorem resize_keeps_entries (s : hash_table_t) (hr : Reach s) (hsz : s.size < 2 ^ 60) :
    ∃ s1, hashtable_resize s s.size = .ok s1 ∧ s1.size = 2 * s.size ∧
      ∀ key fuel fuel1, budget s ≤ fuel → budget s1 ≤ fuel1 →
        ∃ v s2 s3, hashtable_find fuel s key = .ok (v, s2) ∧
          hashtable_find fuel1 s1 key = .ok (v, s3) := by
  obtain ⟨d, L, h⟩ := reach_inv hr
  obtain ⟨s1, hrun, h1, hn, hc, hs, _⟩ := resize_spec h.toInvL hsz
  refine ⟨s1, hrun, hs, ?_⟩
  intro key fuel fuel1 hf hf1
  obtain ⟨s2, _, _, hfind, _⟩ := find_spec h.toInvL fuel key
    (by have := h.budget_ok hf; omega) (Or.inl h.pow2)
  have hI1 : Inv s1 (d ++ List.replicate s.size 0) L := h.double hsz h1 hn hc hs
  obtain ⟨s3, _, _, hfind1, _⟩ := find_spec h1 fuel1 key
    (by have := hI1.budget_ok hf1; omega) (Or.inl hI1.pow2)
  refine ⟨_, s2, s3, hfind, ?_⟩
  rw [hfind1, resize_lookup h.toInvL h1 hn key]

/-- Witness of C6 on the table that holds the keys 0..10. -/
theorem resize_keeps_entries_witness :
    Reach eleven16 ∧ eleven16.size < 2 ^ 60 ∧
      ∃ s1, hashtable_resize eleven16 eleven16.size = .ok s1 ∧ s1.size = 2 * eleven16.size ∧
        ∀ key fuel fuel1, budget eleven16 ≤ fuel → budget s1 ≤ fuel1 →
          ∃ v s2 s3, hashtable_find fuel eleven16 key = .ok (v, s2) ∧
            hashtable_find fuel1 s1 key = .ok (v, s3) :=
  ⟨reach_eleven16, by decide, resize_keeps_entries eleven16 reach_eleven16 (by decide)⟩

/-! # Resize trigger, scenarios and the sorted list -/

set_option maxRecDepth 100000

/-- C7, refuted as stated: the table holding the keys 0..10 has size 16 and
count 11; inserting key 11 succeeds and makes the live count 12, so that
`(c + 1) / s = 12 / 16 > 0.7`, and yet the size stays 16. -/
theorem resize_trigger_counterexample :
    Reach eleven16 ∧ lookup eleven16 11 = none ∧ eleven16.size = 16 ∧ eleven16.count = 11 ∧
      ∃ s1, hashtable_insert 100 eleven16 11 111 = .ok (true, s1) ∧ s1.count = 12 ∧
        ¬ (s1.size = 2 * eleven16.size ↔ 7 * eleven16.size < 10 * (eleven16.count + 1)) :=
  ⟨reach_eleven16, by decide, by decide, by decide,
    final_state (hashtable_insert 100 eleven16 11 111) eleven16, by rfl, by decide, by decide⟩

/-- C7, amended: on every reachable table whose directory can still be doubled,
a successful insert of an absent key doubles the size exactly when the `float`
test of the code holds for the count `c` read before the increment (the value
returned by the fetch-and-add), and leaves the size unchanged otherwise; for
sizes up to `2^23` the test is `c / s > 0.7`, that is `7 * s < 10 * c`. -/
theorem resize_trigger (s : hash_table_t) (hr : Reach s) (hsz : s.size < 2 ^ 60)
    (key value fuel : Nat) (hf : budget s ≤ fuel) (habs : lookup s key = none) :
    ∃ s1, hashtable_insert fuel s key value = .ok (true, s1) ∧
      s1.count = (s.count + 1) % WORD ∧
      (s1.size = 2 * s.size ↔ load_factor_exceeded s.count s.size = true) ∧
      (s1.size = s.size ↔ load_factor_exceeded s.count s.size = false) ∧
      (s.size ≤ 2 ^ 23 → (s1.size = 2 * s.size ↔ 7 * s.size < 10 * s.count)) := by
  obtain ⟨d, L, h⟩ := reach_inv hr
  have hpos := h.toInvL.size_pos
  rcases insert_spec h fuel key value (h.budget_ok hf) with ⟨_, _, h60, _⟩ |
    ⟨s1, d1, L1, hrun, h1, _, hnew, _⟩
  · omega
  · obtain ⟨_, _, hc, hs⟩ := hnew habs
    have hiff : s1.size = 2 * s.size ↔ load_factor_exceeded s.count s.size = true := by
      rw [hs]
      by_cases hl : load_factor_exceeded s.count s.size = true
      · rw [if_pos hl]
        exact ⟨fun _ => hl, fun _ => rfl⟩
      · rw [if_neg hl]
        constructor
        · intro e; omega
        · intro e; exact absurd e hl
    refine ⟨s1, by rw [hrun]; simp [habs], hc, hiff, ?_, ?_⟩
    · rw [hs]
      by_cases hl : load_factor_exceeded s.count s.size = true
      · rw [if_pos hl]
        constructor
        · intro e; omega
        · intro e; rw [hl] at e; exact Bool.noConfusion e
      · rw [if_neg hl]
        exact ⟨fun _ => by simpa using hl, fun _ => rfl⟩
    · intro h23
      rw [hiff]
      obtain ⟨k, hk, _⟩ := h.pow
      have hk23 : k ≤ 23 := by
        by_contra hgt
        have : 2 ^ 24 ≤ 2 ^ k := Nat.pow_le_pow_right (by norm_num) (by omega)
        have : (2:Nat) ^ 23 < 2 ^ 24 := by norm_num
        omega
      rw [hk]
      exact load_factor_exceeded_iff s.count k hk23

/-- Witness of the amended C7 on the table holding the keys 0..10. -/
theorem resize_trigger_witness :
    Reach eleven16 ∧ eleven16.size < 2 ^ 60 ∧ budget eleven16 ≤ 100 ∧
      lookup eleven16 11 = none ∧
      ∃ s1, hashtable_insert 100 eleven16 11 111 = .ok (true, s1) ∧
        s1.count = (eleven16.count + 1) % WORD ∧
        (s1.size = 2 * eleven16.size ↔
          load_factor_exceeded eleven16.count eleven16.size = true) ∧
        (s1.size = eleven16.size ↔
          load_factor_exceeded eleven16.count eleven16.size = false) ∧
        (eleven16.size ≤ 2 ^ 23 →
          (s1.size = 2 * eleven16.size ↔ 7 * eleven16.size < 10 * eleven16.count)) :=
  ⟨reach_eleven16, by decide, by decide, by decide,
    resize_trigger eleven16 reach_eleven16 (by decide) 11 111 100 (by decide) (by decide)⟩

/-- C8, refuted as stated: after inserting the keys 0..11 into
`hashtable_create(false, 16)` the size is 16, not 32: no resize has occurred. -/
theorem scenarioB_counterexample :
    ∃ rs vs n, scenarioB false = .ok (rs, vs, 16, n) ∧ (16 : Nat) ≠ 32 ∧
      rs.map Prod.snd = List.replicate 12 16 :=
  ⟨List.replicate 12 (true, 16), (List.range 12).map (fun i => 10 * i + 1), 32, by rfl,
    by decide, by decide⟩

/-- C8, amended: starting from `hashtable_create(_, 16)` and inserting the keys
0..11 in order (with value `10 * key + 1`), every insert returns true, the size
after each of them is 16 (no resize occurs), all twelve keys are then found with
their values, and the first resize happens on the thirteenth insert, to 32. -/
theorem scenarioB_result :
    scenarioB false
        = .ok (List.replicate 12 (true, 16), (List.range 12).map (fun i => 10 * i + 1), 16, 32) ∧
    scenarioB true
        = .ok (List.replicate 12 (true, 16), (List.range 12).map (fun i => 10 * i + 1), 16, 32) :=
  ⟨by rfl, by rfl⟩

/-- C9: scenario A: after `hashtable_create(_, 16)` and inserting the keys 0..11
with value `key * 10`, `find(7)` returns 70, `delete(7)` returns 70, the find
that follows returns `NULL`, and the count is 11. -/
theorem scenarioA_result :
    scenarioA false = .ok (70, 70, 0, 11) ∧ scenarioA true = .ok (70, 70, 0, 11) :=
  ⟨by rfl, by rfl⟩

/-- C10: in every reachable state the chain from directory slot 0 is a
`NULL`-terminated list of allocated nodes with untagged links, it is what
`reachable` computes, and its split-order keys are in non-decreasing order. -/
theorem list_sorted (s : hash_table_t) (hr : Reach s) :
    Chain s.nodes (slotOf s 0) (reachable s) ∧ (codes s).Pairwise (fun a b => a ≤ b) := by
  obtain ⟨d, L, h⟩ := reach_inv hr
  have hI := h.toInvL
  constructor
  · rw [hI.reachable_eq, hI.slotOf_zero]
    exact hI.chain
  · unfold codes
    rw [hI.reachable_eq, List.pairwise_map]
    exact hI.sorted

/-- Witness of C10 on the table holding the keys 0..10. -/
theorem list_sorted_witness :
    Reach eleven16 ∧ Chain eleven16.nodes (slotOf eleven16 0) (reachable eleven16) ∧
      (codes eleven16).Pairwise (fun a b => a ≤ b) :=
  ⟨reach_eleven16, list_sorted eleven16 reach_eleven16⟩

/-! # Order keys -/

theorem bit_reverse_testBit (x : Nat) :
    ∀ n j, (bit_reverse n x).testBit j = (decide (j < n) && x.testBit (n - 1 - j)) := by
  intro n
  induction n with
  | zero => intro j; simp [bit_reverse]
  | succ n ih =>
    intro j
    have hb : x / 2 ^ n % 2 = (x.testBit n).toNat := by
      rw [Nat.testBit_to_div_mod]
      rcases Nat.mod_two_eq_zero_or_one (x / 2 ^ n) with h | h <;> simp [h]
    have hform : bit_reverse (n + 1) x = Nat.bit (x.testBit n) (bit_reverse n x) := by
      rw [Nat.bit_val, ← hb]
      rfl
    rw [hform]
    cases j with
    | zero => simp [Nat.testBit_bit_zero]
    | succ j =>
      rw [Nat.testBit_bit_succ, ih j]
      have e : n + 1 - 1 - (j + 1) = n - 1 - j := by omega
      rw [e]
      by_cases hj : j < n
      · simp [hj]
      · simp [hj]

theorem rvalue_eq_bit_reverse (k : Nat) : hashtable_rvalue k = bit_reverse 32 k := by
  apply Nat.eq_of_testBit_eq
  intro j
  rw [rvalue_testBit, bit_reverse_testBit]

theorem bit_reverse_congr {x y : Nat} (n : Nat) (h : ∀ j, j < n → x.testBit j = y.testBit j) :
    bit_reverse n x = bit_reverse n y := by
  apply Nat.eq_of_testBit_eq
  intro j
  rw [bit_reverse_testBit, bit_reverse_testBit]
  by_cases hj : j < n
  · simp [hj, h (n - 1 - j) (by omega)]
  · simp [hj]

theorem with_bit31_set_testBit (x j : Nat) (hj : j < 32) :
    (with_bit31_set x).testBit j = (x ||| 0x80000000).testBit j := by
  have h31 : (0x80000000 : Nat) = 2 ^ 31 := by norm_num
  rw [Nat.testBit_or, h31, Nat.testBit_two_pow]
  unfold with_bit31_set
  by_cases hx : x.testBit 31 = true
  · rw [if_pos hx]
    by_cases e : 31 = j
    · subst e; simp [hx]
    · simp [e]
  · rw [if_neg hx, Nat.add_comm]
    by_cases e : 31 = j
    · subst e
      rw [Nat.testBit_two_pow_add_eq]
      simp [hx]
    · rw [Nat.testBit_two_pow_add_gt (by omega)]
      simp [e]

theorem with_bit31_clear_testBit (x j : Nat) (hj : j < 32) :
    (with_bit31_clear x).testBit j = (x &&& 0x7fffffff).testBit j := by
  have hmask : ∀ i, Nat.testBit 0x7fffffff i = decide (i < 31) := by
    intro i
    have : (0x7fffffff : Nat) = 2 ^ 31 - 1 := by norm_num
    rw [this, Nat.testBit_two_pow_sub_one]
  rw [Nat.testBit_and, hmask]
  unfold with_bit31_clear
  by_cases hx : x.testBit 31 = true
  · rw [if_pos hx]
    have hge : 2 ^ 31 ≤ x := by
      by_contra hlt
      have := Nat.testBit_lt_two_pow (Nat.lt_of_not_le hlt)
      rw [this] at hx
      exact Bool.noConfusion hx
    obtain ⟨y, hy⟩ : ∃ y, x = 2 ^ 31 + y := ⟨x - 2 ^ 31, by omega⟩
    have hsub : x - 2 ^ 31 = y := by omega
    rw [hsub, hy]
    by_cases e : j = 31
    · subst e
      rw [hy, Nat.testBit_two_pow_add_eq] at hx
      have hy31 : y.testBit 31 = false := by simpa using hx
      simp [hy31]
    · have hlt : j < 31 := by omega
      rw [Nat.testBit_two_pow_add_gt hlt]
      simp [hlt]
  · rw [if_neg hx]
    have hx' : x.testBit 31 = false := by simpa using hx
    by_cases e : j = 31
    · subst e; simp [hx']
    · have hlt : j < 31 := by omega
      simp [hlt]

theorem dummy_inj {a b : Nat} (ha : a < 2 ^ 31) (hb : b < 2 ^ 31)
    (h : hashtable_hash_key_dummy a = hashtable_hash_key_dummy b) : a = b := by
  have hmask : ∀ i, Nat.testBit 0x7fffffff i = decide (i < 31) := by
    intro i
    have : (0x7fffffff : Nat) = 2 ^ 31 - 1 := by norm_num
    rw [this, Nat.testBit_two_pow_sub_one]
  apply Nat.eq_of_testBit_eq
  intro i
  by_cases hi : i < 31
  · have := congrArg (fun x => x.testBit (31 - i)) h
    simp only [hashtable_hash_key_dummy, rvalue_testBit, Nat.testBit_and, hmask] at this
    have e : 31 - (31 - i) = i := by omega
    have h32 : 31 - i < 32 := by omega
    simpa [e, h32, hi] using this
  · have h1 : a < 2 ^ i := lt_of_lt_of_le ha (Nat.pow_le_pow_right (by norm_num) (by omega))
    have h2 : b < 2 ^ i := lt_of_lt_of_le hb (Nat.pow_le_pow_right (by norm_num) (by omega))
    rw [Nat.testBit_lt_two_pow h1, Nat.testBit_lt_two_pow h2]

theorem regular_bit_reverse (h : Nat) :
    hashtable_hash_key_regular h = bit_reverse 32 (with_bit31_set h) := by
  unfold hashtable_hash_key_regular
  rw [rvalue_eq_bit_reverse]
  exact bit_reverse_congr 32 (fun j hj => (with_bit31_set_testBit h j hj).symm)

theorem dummy_bit_reverse (b : Nat) :
    hashtable_hash_key_dummy b = bit_reverse 32 (with_bit31_clear b) := by
  unfold hashtable_hash_key_dummy
  rw [rvalue_eq_bit_reverse]
  exact bit_reverse_congr 32 (fun j hj => (with_bit31_clear_testBit b j hj).symm)

theorem with_bit31_clear_small {b : Nat} (hb : b < 2 ^ 31) : with_bit31_clear b = b := by
  unfold with_bit31_clear
  rw [Nat.testBit_lt_two_pow hb]
  rfl

/-- C14: the data encoder is the 32-bit bit reversal of the hash with bit 31
set and gives an odd key, which `hashtable_node_regular` accepts; the sentinel
encoder is the 32-bit bit reversal of the bucket index with bit 31 cleared and
gives an even key, which `hashtable_node_regular` rejects. -/
theorem encoder_kind_bit (h b : Nat) :
    hashtable_hash_key_regular h = bit_reverse 32 (with_bit31_set h) ∧
    hashtable_hash_key_regular h % 2 = 1 ∧
    hashtable_node_regular (hashtable_hash_key_regular h) = true ∧
    hashtable_hash_key_dummy b = bit_reverse 32 (with_bit31_clear b) ∧
    hashtable_hash_key_dummy b % 2 = 0 ∧
    hashtable_node_regular (hashtable_hash_key_dummy b) = false := by
  refine ⟨regular_bit_reverse h, regular_odd h, ?_, dummy_bit_reverse b, dummy_even b, ?_⟩
  · unfold hashtable_node_regular
    simp [regular_odd h]
  · unfold hashtable_node_regular
    simp [dummy_even b]

/-- C15: for `n ≤ 31`, a bucket index `b < 2^n` and a hash `h` with
`h mod 2^n = b`, the sentinel key of `b` is below the data key of `h`. -/
theorem sentinel_before_data (n b h : Nat) (_hn : n ≤ 31) (_hb : b < 2 ^ n) (hh : h % 2 ^ n = b) :
    hashtable_hash_key_dummy b < hashtable_hash_key_regular h := by
  rw [← hh]
  exact dummy_lt_regular h n

/-- Witness of C15: bucket 5 of a table of size 16 and the hash 21. -/
theorem sentinel_before_data_witness :
    (4 : Nat) ≤ 31 ∧ 5 < 2 ^ 4 ∧ 21 % 2 ^ 4 = 5 ∧
      hashtable_hash_key_dummy 5 < hashtable_hash_key_regular 21 :=
  ⟨by decide, by decide, by decide, sentinel_before_data 4 5 21 (by decide) (by decide) (by decide)⟩

/-- C16: for a bucket index `0 < b < 2^31`, `hashtable_bucket_parent` returns a
smaller index whose sentinel key is strictly below the sentinel key of `b`; and
no other index below `2^31` has the sentinel key of `b`. -/
theorem parent_sentinel_lt (b : Nat) (hb : 0 < b) (hlt : b < 2 ^ 31) :
    (∃ p, hashtable_bucket_parent b = .ok p ∧ p < b ∧
      hashtable_hash_key_dummy p < hashtable_hash_key_dummy b) ∧
    ∀ a, a < 2 ^ 31 → hashtable_hash_key_dummy a = hashtable_hash_key_dummy b → a = b := by
  have hw : b < WORD := by unfold WORD; omega
  obtain ⟨p, hrun, hpb, hle, _⟩ := bucket_parent_ok b hb hw
  refine ⟨⟨p, hrun, hpb, ?_⟩, fun a ha h => dummy_inj ha hlt h⟩
  rcases Nat.lt_or_ge (hashtable_hash_key_dummy p) (hashtable_hash_key_dummy b) with h | h
  · exact h
  · have := dummy_inj (by omega) hlt (le_antisymm hle h)
    omega

/-- Witness of C16: bucket 6, whose parent is bucket 2. -/
theorem parent_sentinel_lt_witness :
    (0 : Nat) < 6 ∧ 6 < 2 ^ 31 ∧
      ((∃ p, hashtable_bucket_parent 6 = .ok p ∧ p < 6 ∧
        hashtable_hash_key_dummy p < hashtable_hash_key_dummy 6) ∧
      ∀ a, a < 2 ^ 31 → hashtable_hash_key_dummy a = hashtable_hash_key_dummy 6 → a = 6) :=
  ⟨by decide, by decide, parent_sentinel_lt 6 (by decide) (by decide)⟩

/-! # Invariants of the directory and of the live count -/

theorem InvL.slotOf_eq {s : hash_table_t} {d L : List Nat} (h : InvL s d L) (b : Nat) :
    slotOf s b = d.getD b 0 := by
  obtain ⟨j, hj, hdj⟩ := h.tbl
  unfold slotOf
  rw [hj, dirAddr_div, hdj]

theorem InvL.slot_set {s : hash_table_t} {d L : List Nat} (h : InvL s d L) {b : Nat}
    (hb : slotOf s b ≠ 0) : d[b]? = some (slotOf s b) := by
  rw [h.slotOf_eq] at hb ⊢
  cases hd : d[b]? with
  | none => simp [List.getD_eq_getElem?_getD, hd] at hb
  | some v => simp [List.getD_eq_getElem?_getD, hd]

theorem InvL.slot_unset {s : hash_table_t} {d L : List Nat} (h : InvL s d L) {b : Nat}
    (hb : slotOf s b = 0) (hlt : b < s.size) : d[b]? = some 0 := by
  rw [h.slotOf_eq] at hb
  have hbd : b < d.length := by rw [h.dlen]; exact hlt
  rw [List.getElem?_eq_getElem hbd]
  rw [List.getD_eq_getElem?_getD, List.getElem?_eq_getElem hbd] at hb
  exact congrArg some hb

theorem Keeps.slot_kept {s s' : hash_table_t} {d d' L L' : List Nat}
    (k : Keeps s d L s' d' L') (h : InvL s d L) (h' : InvL s' d' L') {b : Nat}
    (hb : slotOf s b ≠ 0) : slotOf s' b = slotOf s b := by
  have h1 := k.slot b _ (h.slot_set hb) hb
  rw [h'.slotOf_eq, List.getD_eq_getElem?_getD, h1]
  rfl

theorem chain_next_bit {nodes : List (Option hash_node_t)} :
    ∀ (X : List Nat) (p : Nat), Chain nodes p X →
      ∀ i ∈ X, ∀ n, nodes[i]? = some (some n) → hashtable_node_bit n.next = 0 := by
  intro X
  induction X with
  | nil => intro p _ i hi; simp at hi
  | cons a X ih =>
    intro p h i hi n hn
    obtain ⟨_, m, hm, hrest⟩ := h
    rcases List.mem_cons.1 hi with rfl | hi
    · rw [hm] at hn
      injection hn with hn
      injection hn with hn
      subst hn
      have : m.next = headPtr X := seg_headPtr hrest
      rw [this]
      exact headPtr_bit X
    · exact ih m.next hrest i hi n hn

theorem reach_step {s s' : hash_table_t} (hr : Reach s) (st : Step s s') : Reach s' := by
  cases st with
  | insert fuel key value r _ hf hrun => exact Reach.insert s fuel key value r s' hr hf hrun
  | find fuel key r _ hf hrun => exact Reach.find s fuel key r s' hr hf hrun
  | delete fuel key r _ hf hrun => exact Reach.delete s fuel key r s' hr hf hrun
  | resize _ hrun => exact Reach.resize s s' hr hrun

theorem step_spec {s s' : hash_table_t} {d L : List Nat} (h : Inv s d L) (st : Step s s') :
    ∃ d' L', Inv s' d' L' ∧ Keeps s d L s' d' L' ∧ s.size ≤ s'.size := by
  cases st with
  | insert fuel key value r _ hf hrun =>
    rcases insert_spec h fuel key value (h.budget_ok hf) with ⟨_, _, _, herr⟩ |
      ⟨s1, d1, L1, hrun1, h1, _, hnew, hold, hK⟩
    · rw [herr] at hrun
      exact Except.noConfusion hrun
    · rw [hrun1] at hrun
      injection hrun with hrun
      injection hrun with _ hs
      subst hs
      refine ⟨d1, L1, h1, hK, ?_⟩
      by_cases hl : lookup s key = none
      · rw [(hnew hl).2.2.2]
        split <;> omega
      · rw [(hold hl).2.2]
  | find fuel key r _ hf hrun =>
    obtain ⟨s1, d1, L1, hrun1, h1, hG, hK⟩ := find_spec h.toInvL fuel key
      (by have := h.budget_ok hf; omega) (Or.inl h.pow2)
    rw [hrun1] at hrun
    injection hrun with hrun
    injection hrun with _ hs
    subst hs
    exact ⟨d1, L1, h.of_grows h1 hG, hK, by rw [hG.size]⟩
  | delete fuel key r _ hf hrun =>
    obtain ⟨s1, d1, L1, hrun1, h1, _, hsize, _, _, _, _, hK⟩ := delete_spec h fuel key
      (by have := h.budget_ok hf; omega)
    rw [hrun1] at hrun
    injection hrun with hrun
    injection hrun with _ hs
    subst hs
    exact ⟨d1, L1, h1, hK, by rw [hsize]⟩
  | resize _ hrun =>
    by_cases hsz : s.size < 2 ^ 60
    · obtain ⟨s1, hrun1, h1, hn, hc, hs, _⟩ := resize_spec h.toInvL hsz
      rw [hrun1] at hrun
      injection hrun with hrun
      subst hrun
      refine ⟨_, L, h.double hsz h1 hn hc hs, ⟨?_, ?_, ?_⟩, by rw [hs]; omega⟩
      · intro b v hb _
        rw [List.getElem?_append_left (getElem?_some_lt hb)]
        exact hb
      · intro i hi _
        rw [hn]
        exact ⟨hi, rfl, rfl⟩
      · exact fun hP => hP.append_zeros _
    · have hsz60 : s.size = 2 ^ 60 := by
        have := h.size_le
        omega
      rw [resize_top h.toInvL hsz60] at hrun
      exact Except.noConfusion hrun

/-- C11: in every reachable state a set directory slot `b` holds an untagged
pointer to an allocated node that is reachable from slot 0, has the sentinel key
`hashtable_hash_key_dummy b` (an even key; the 32-bit bit reversal of `b` for
`b < 2^31`) and an untagged `next` field; and no operation changes a set slot or
removes a sentinel from the list. -/
theorem directory_slots (s : hash_table_t) (hr : Reach s) :
    (∀ b, slotOf s b ≠ 0 → ∃ i n, slotOf s b = nodeAddr i ∧
      hashtable_node_bit (slotOf s b) = 0 ∧ i ∈ reachable s ∧
      s.nodes[i]? = some (some n) ∧ n.code = hashtable_hash_key_dummy b ∧
      (b < 2 ^ 31 → n.code = bit_reverse 32 b) ∧
      hashtable_node_regular n.code = false ∧ hashtable_node_bit n.next = 0) ∧
    ∀ s', Step s s' →
      (∀ b, slotOf s b ≠ 0 → slotOf s' b = slotOf s b) ∧
      (∀ i ∈ reachable s, isData s.nodes i = false →
        i ∈ reachable s' ∧ codeAt s'.nodes i = codeAt s.nodes i) := by
  obtain ⟨d, L, h⟩ := reach_inv hr
  have hI := h.toInvL
  constructor
  · intro b hb
    obtain ⟨i, hvi, hiL, hci, _⟩ := hI.slots b _ (hI.slot_set hb) hb
    obtain ⟨n, hn⟩ := seg_alloc _ _ _ hI.chain i hiL
    rw [codeAt_eq hn] at hci
    refine ⟨i, n, hvi, by rw [hvi]; exact node_bit_nodeAddr i, by rw [hI.reachable_eq]; exact hiL,
      hn, hci, ?_, ?_, chain_next_bit L _ hI.chain i hiL n hn⟩
    · intro hb31
      rw [hci, dummy_bit_reverse, with_bit31_clear_small hb31]
    · rw [hci]
      unfold hashtable_node_regular
      simp [dummy_even b]
  · intro s' st
    obtain ⟨d', L', h', hK, _⟩ := step_spec h st
    constructor
    · intro b hb
      exact hK.slot_kept hI h'.toInvL hb
    · intro i hi hev
      rw [hI.reachable_eq] at hi
      rw [h'.toInvL.reachable_eq]
      have hev' : codeAt s.nodes i % 2 = 0 := by
        unfold isData at hev
        simp at hev
        omega
      obtain ⟨hi', hc, _⟩ := hK.sentinel i hi hev'
      exact ⟨hi', hc⟩

/-- Witness of C11 on the table holding the keys 0..10. -/
theorem directory_slots_witness :
    Reach eleven16 ∧
    ((∀ b, slotOf eleven16 b ≠ 0 → ∃ i n, slotOf eleven16 b = nodeAddr i ∧
      hashtable_node_bit (slotOf eleven16 b) = 0 ∧ i ∈ reachable eleven16 ∧
      eleven16.nodes[i]? = some (some n) ∧ n.code = hashtable_hash_key_dummy b ∧
      (b < 2 ^ 31 → n.code = bit_reverse 32 b) ∧
      hashtable_node_regular n.code = false ∧ hashtable_node_bit n.next = 0) ∧
    ∀ s', Step eleven16 s' →
      (∀ b, slotOf eleven16 b ≠ 0 → slotOf s' b = slotOf eleven16 b) ∧
      (∀ i ∈ reachable eleven16, isData eleven16.nodes i = false →
        i ∈ reachable s' ∧ codeAt s'.nodes i = codeAt eleven16.nodes i)) :=
  ⟨reach_eleven16, directory_slots eleven16 reach_eleven16⟩

/-- C12: in every reachable state the size is a power of two, hence non-zero
(so that `hash % size` is defined and below the size), directory slot 0 is set,
and no operation decreases the size. -/
theorem directory_shape (s : hash_table_t) (hr : Reach s) :
    (∃ k, s.size = 2 ^ k) ∧ s.size ≠ 0 ∧ (∀ hash, hash % s.size < s.size) ∧
    slotOf s 0 ≠ 0 ∧ (∃ v, dir_load s s.table 0 = .ok v ∧ v ≠ 0) ∧
    ∀ s', Step s s' → s.size ≤ s'.size := by
  obtain ⟨d, L, h⟩ := reach_inv hr
  have hI := h.toInvL
  have hpos := hI.size_pos
  refine ⟨h.pow2, by omega, fun hash => Nat.mod_lt _ hpos, ?_, ?_, ?_⟩
  · rw [hI.slotOf_zero]
    exact headPtr_ne_zero hI.ne
  · exact ⟨headPtr L, dir_load_inv hI hI.head, headPtr_ne_zero hI.ne⟩
  · intro s' st
    obtain ⟨_, _, _, _, hle⟩ := step_spec h st
    exact hle

/-- Witness of C12 on the table holding the keys 0..10. -/
theorem directory_shape_witness :
    Reach eleven16 ∧
    ((∃ k, eleven16.size = 2 ^ k) ∧ eleven16.size ≠ 0 ∧
    (∀ hash, hash % eleven16.size < eleven16.size) ∧
    slotOf eleven16 0 ≠ 0 ∧ (∃ v, dir_load eleven16 eleven16.table 0 = .ok v ∧ v ≠ 0) ∧
    ∀ s', Step eleven16 s' → eleven16.size ≤ s'.size) :=
  ⟨reach_eleven16, directory_shape eleven16 reach_eleven16⟩

/-- C13: in every reachable state the count field is the number of data nodes
reachable from slot 0 (as a 64-bit word); a find, an insert that returns false,
a delete of an absent key, and the initialisation of an unset bucket leave it
unchanged. -/
theorem live_count (s : hash_table_t) (hr : Reach s) :
    s.count = live_nodes s % WORD ∧ (live_nodes s < WORD → s.count = live_nodes s) ∧
    (∀ fuel key r s', budget s ≤ fuel → hashtable_find fuel s key = .ok (r, s') →
      s'.count = s.count ∧ live_nodes s' = live_nodes s) ∧
    (∀ fuel key value s', budget s ≤ fuel →
      hashtable_insert fuel s key value = .ok (false, s') → s'.count = s.count) ∧
    (∀ fuel key r s', budget s ≤ fuel → lookup s key = none →
      hashtable_delete fuel s key = .ok (r, s') →
      r = 0 ∧ s'.count = s.count ∧ live_nodes s' = live_nodes s) ∧
    (∀ fuel b, budget s ≤ fuel → b < s.size → slotOf s b = 0 →
      ∃ s', hashtable_bucket_init fuel fuel s s.table b = .ok s' ∧ slotOf s' b ≠ 0 ∧
        s'.count = s.count ∧ live_nodes s' = live_nodes s) := by
  obtain ⟨d, L, h⟩ := reach_inv hr
  have hI := h.toInvL
  have hlive : ∀ {t : hash_table_t} {dt Lt : List Nat}, InvL t dt Lt →
      live_nodes t = (Lt.filter (isData t.nodes)).length := by
    intro t dt Lt ht
    unfold live_nodes
    rw [ht.reachable_eq]
  have hcnt : s.count = live_nodes s % WORD := by rw [hlive hI]; exact h.cnt
  refine ⟨hcnt, ?_, ?_, ?_, ?_, ?_⟩
  · intro hlt
    rw [hcnt]
    exact Nat.mod_eq_of_lt hlt
  · intro fuel key r s' hf hrun
    obtain ⟨s1, d1, L1, hrun1, h1, hG, _⟩ := find_spec hI fuel key
      (by have := h.budget_ok hf; omega) (Or.inl h.pow2)
    rw [hrun1] at hrun
    injection hrun with hrun
    injection hrun with _ hs
    subst hs
    exact ⟨hG.count, by rw [hlive h1, hlive hI]; exact hG.filter_length hI.lt_length⟩
  · intro fuel key value s' hf hrun
    rcases insert_spec h fuel key value (h.budget_ok hf) with ⟨_, _, _, herr⟩ |
      ⟨s1, d1, L1, hrun1, h1, _, _, hold, _⟩
    · rw [herr] at hrun
      exact Except.noConfusion hrun
    · rw [hrun1] at hrun
      injection hrun with hrun
      injection hrun with hr1 hs
      subst hs
      have hne : lookup s key ≠ none := by
        intro hx
        rw [hx] at hr1
        simp at hr1
      exact (hold hne).2.1
  · intro fuel key r s' hf habs hrun
    obtain ⟨s1, d1, L1, hrun1, h1, _, _, _, _, hno, _, _⟩ := delete_spec h fuel key
      (by have := h.budget_ok hf; omega)
    rw [hrun1] at hrun
    injection hrun with hrun
    injection hrun with hr1 hs
    subst hs
    obtain ⟨hc, hlen⟩ := hno habs
    refine ⟨?_, hc, ?_⟩
    · rw [← hr1, habs]
      rfl
    · rw [hlive h1.toInvL, hlive hI, ← h1.toInvL.entries_length, ← hI.entries_length]
      exact hlen
  · intro fuel b hf hlt hunset
    have hb0 : 0 < b := by
      rcases Nat.eq_zero_or_pos b with h0 | h0
      · subst h0
        rw [hI.slotOf_zero] at hunset
        exact absurd hunset (headPtr_ne_zero hI.ne)
      · exact h0
    have hf' := h.budget_ok hf
    obtain ⟨s1, d1, L1, hrun1, h1, hG, ⟨v, hv, hv0⟩, _, _⟩ :=
      bucket_init_spec fuel 61 fuel s d L b hI hb0 hlt (lt_trans hlt hI.size_lt) (by omega)
        (by omega) (hI.slot_unset hunset hlt)
    refine ⟨s1, hrun1, ?_, hG.count, ?_⟩
    · rw [h1.slotOf_eq, List.getD_eq_getElem?_getD, hv]
      exact hv0
    · rw [hlive h1, hlive hI]
      exact hG.filter_length hI.lt_length

/-- Witness of C13 on the table holding the keys 0..10. -/
theorem live_count_witness :
    Reach eleven16 ∧
    (eleven16.count = live_nodes eleven16 % WORD ∧
    (live_nodes eleven16 < WORD → eleven16.count = live_nodes eleven16) ∧
    (∀ fuel key r s', budget eleven16 ≤ fuel → hashtable_find fuel eleven16 key = .ok (r, s') →
      s'.count = eleven16.count ∧ live_nodes s' = live_nodes eleven16) ∧
    (∀ fuel key value s', budget eleven16 ≤ fuel →
      hashtable_insert fuel eleven16 key value = .ok (false, s') → s'.count = eleven16.count) ∧
    (∀ fuel key r s', budget eleven16 ≤ fuel → lookup eleven16 key = none →
      hashtable_delete fuel eleven16 key = .ok (r, s') →
      r = 0 ∧ s'.count = eleven16.count ∧ live_nodes s' = live_nodes eleven16) ∧
    (∀ fuel b, budget eleven16 ≤ fuel → b < eleven16.size → slotOf eleven16 b = 0 →
      ∃ s', hashtable_bucket_init fuel fuel eleven16 eleven16.table b = .ok s' ∧
        slotOf s' b ≠ 0 ∧ s'.count = eleven16.count ∧ live_nodes s' = live_nodes eleven16)) :=
  ⟨reach_eleven16, live_count eleven16 reach_eleven16⟩

/-- C17: on a reachable table whose directory can still be doubled,
`hashtable_resize(t, t.size)` returns with the size doubled; the slots below the
old size hold the pointers they held, the slots from the old size up to the new
size are unset, and the node memory (every code, key, value and next), the list
reachable from slot 0 and the count are unchanged. -/
theorem resize_post (s : hash_table_t) (hr : Reach s) (hsz : s.size < 2 ^ 60) :
    ∃ s', hashtable_resize s s.size = .ok s' ∧ s'.size = 2 * s.size ∧
      (∀ b, b < s.size → ∃ v, dir_load s s.table b = .ok v ∧ dir_load s' s'.table b = .ok v) ∧
      (∀ b, s.size ≤ b → b < 2 * s.size → dir_load s' s'.table b = .ok 0) ∧
      s'.nodes = s.nodes ∧ reachable s' = reachable s ∧ s'.count = s.count ∧
      s'.lvalue = s.lvalue := by
  obtain ⟨d, L, h⟩ := reach_inv hr
  have hI := h.toInvL
  obtain ⟨s1, hrun1, h1, hn, hc, hs, hlv, _⟩ := resize_spec hI hsz
  refine ⟨s1, hrun1, hs, ?_, ?_, hn, by rw [h1.reachable_eq, hI.reachable_eq], hc, hlv⟩
  · intro b hb
    have hbd : b < d.length := by rw [hI.dlen]; exact hb
    refine ⟨d[b], dir_load_inv hI (List.getElem?_eq_getElem hbd), dir_load_inv h1 ?_⟩
    rw [List.getElem?_append_left hbd]
    exact List.getElem?_eq_getElem hbd
  · intro b hb1 hb2
    apply dir_load_inv h1
    rw [List.getElem?_append_right (by rw [hI.dlen]; exact hb1), List.getElem?_replicate]
    have : b - d.length < s.size := by rw [hI.dlen]; omega
    simp [this]

/-- Witness of C17 on the table holding the keys 0..10. -/
theorem resize_post_witness :
    Reach eleven16 ∧ eleven16.size < 2 ^ 60 ∧
    ∃ s', hashtable_resize eleven16 eleven16.size = .ok s' ∧ s'.size = 2 * eleven16.size ∧
      (∀ b, b < eleven16.size →
        ∃ v, dir_load eleven16 eleven16.table b = .ok v ∧ dir_load s' s'.table b = .ok v) ∧
      (∀ b, eleven16.size ≤ b → b < 2 * eleven16.size → dir_load s' s'.table b = .ok 0) ∧
      s'.nodes = eleven16.nodes ∧ reachable s' = reachable eleven16 ∧
      s'.count = eleven16.count ∧ s'.lvalue = eleven16.lvalue :=
  ⟨reach_eleven16, by decide, resize_post eleven16 reach_eleven16 (by decide)⟩

/-- C18: for every size from 1 up to the largest whose directory byte count fits
a 64-bit word, `hashtable_create` returns a table with that size and flag,
count 0, slot 0 pointing to a sentinel with code 0, key 0 and no successor,
every other slot unset; and `hashtable_find` of any key on it returns `NULL`. -/
theorem create_post (m : Bool) (size : Nat) (hpos : 1 ≤ size) (hlt : size < 2 ^ 61) :
    ∃ s, hashtable_create m size = .ok s ∧ s.size = size ∧ s.lvalue = m ∧ s.count = 0 ∧
      (∃ i n, dir_load s s.table 0 = .ok (nodeAddr i) ∧ s.nodes[i]? = some (some n) ∧
        n.code = 0 ∧ n.key = 0 ∧ n.next = 0) ∧
      (∀ b, 0 < b → b < size → dir_load s s.table b = .ok 0) ∧
      ∀ key fuel, budget s ≤ fuel → ∃ s', hashtable_find fuel s key = .ok (0, s') := by
  have hI := create_invL m size hpos hlt
  refine ⟨_, create_eq_size m size hpos hlt, rfl, rfl, rfl, ?_, ?_, ?_⟩
  · exact ⟨0, ⟨0, 0, 0, 0⟩, dir_load_inv hI hI.head, rfl, rfl, rfl, rfl⟩
  · intro b hb0 hb
    apply dir_load_inv hI
    obtain ⟨b', rfl⟩ : ∃ b', b = b' + 1 := ⟨b - 1, by omega⟩
    rw [List.getElem?_cons_succ, List.getElem?_replicate]
    have : b' < size - 1 := by omega
    simp [this]
  · intro key fuel hf
    have hnone : lookup (⟨dirAddr 0, [0, 0, 0], 0, size, m, [some ⟨0, 0, 0, 0⟩],
        [some (nodeAddr 0 :: List.replicate (size - 1) 0)]⟩ : hash_table_t) key = none := by
      rw [hI.lookup_none]
      intro i hi hodd
      simp at hi
      subst hi
      have : codeAt [some (hash_node_t.mk 0 0 0 0)] 0 = 0 := rfl
      rw [this] at hodd
      omega
    obtain ⟨s', _, _, hrun, _⟩ := find_spec hI fuel key
      (by unfold budget at hf; simp at hf ⊢; omega) (Or.inr hnone)
    rw [hnone] at hrun
    exact ⟨s', hrun⟩

/-- Witness of C18 at size 3 in `lvalue` mode. -/
theorem create_post_witness :
    (1 : Nat) ≤ 3 ∧ 3 < 2 ^ 61 ∧
    ∃ s, hashtable_create true 3 = .ok s ∧ s.size = 3 ∧ s.lvalue = true ∧ s.count = 0 ∧
      (∃ i n, dir_load s s.table 0 = .ok (nodeAddr i) ∧ s.nodes[i]? = some (some n) ∧
        n.code = 0 ∧ n.key = 0 ∧ n.next = 0) ∧
      (∀ b, 0 < b → b < 3 → dir_load s s.table b = .ok 0) ∧
      ∀ key fuel, budget s ≤ fuel → ∃ s', hashtable_find fuel s key = .ok (0, s') :=
  ⟨by decide, by decide, create_post true 3 (by decide) (by decide)⟩

/-! # Teardown -/

theorem destroy_visit_spec (n : Nat) (hn : 0 < n) (s : hash_table_t) (i : Nat) (nd : hash_node_t)
    (X : List Nat) (hi : s.nodes[i]? = some (some nd)) (hnext : nd.next = headPtr X) :
    ∃ hz' nodes' nd', destroy_visit n s (nodeAddr i) nd.next
        = .ok (nd.next, { s with hazard := hz', nodes := nodes' }) ∧
      nodes'[i]? = some (some nd') ∧ ∀ k, k ≠ i → nodes'[k]? = s.nodes[k]? := by
  have hself : ∃ hz' nodes' nd', (Except.ok (nd.next, s) : M (Nat × hash_table_t))
        = .ok (nd.next, { s with hazard := hz', nodes := nodes' }) ∧
      nodes'[i]? = some (some nd') ∧ ∀ k, k ≠ i → nodes'[k]? = s.nodes[k]? :=
    ⟨s.hazard, s.nodes, nd, rfl, hi, fun _ _ => rfl⟩
  unfold destroy_visit
  cases X with
  | cons a X =>
    have hne : hashtable_node_get nd.next ≠ 0 := by
      rw [hnext]
      show hashtable_node_get (nodeAddr a) ≠ 0
      rw [node_get_nodeAddr]
      exact nodeAddr_ne_zero a
    rw [if_pos hne]
    exact hself
  | nil =>
    have h0 : nd.next = 0 := hnext
    have hz : ¬ (hashtable_node_get nd.next ≠ 0) := by
      rw [h0, node_get_zero]
      exact fun h => h rfl
    rw [if_neg hz, load_code hi]
    simp only []
    by_cases hreg : hashtable_node_regular nd.code = true
    swap
    · rw [if_neg hreg]
      exact hself
    rw [if_pos hreg]
    have hread : ∃ hz1, destroy_read_value s (nodeAddr i)
        = .ok (nd.value, { s with hazard := hz1 }) := by
      unfold destroy_read_value
      by_cases hlv : s.lvalue = true
      · rw [if_pos hlv]
        unfold hashtable_hazard_ptr_get_with_mask
        rw [unmask_nodeAddr_add i 16 (by decide), load_value hi]
        exact ⟨_, rfl⟩
      · rw [if_neg hlv, load_value hi]
        exact ⟨s.hazard, rfl⟩
    obtain ⟨hz1, hread⟩ := hread
    rw [hread]
    simp only []
    by_cases hv : nd.value ≠ 0
    swap
    · rw [if_neg hv]
      exact ⟨hz1, s.nodes, nd, rfl, hi, fun _ _ => rfl⟩
    rw [if_pos hv]
    obtain ⟨m, rfl⟩ : ∃ m, n = m + 1 := ⟨n - 1, by omega⟩
    have hi1 : ({ s with hazard := hz1 } : hash_table_t).nodes[i]? = some (some nd) := hi
    have hcas : hashtable_atomic_cas { s with hazard := hz1 } (Slot.mem (nodeAddr i + 24))
        (hashtable_node_make (hashtable_node_get nd.next) 0)
        (hashtable_node_make (hashtable_node_get nd.next) 1)
        = .ok (true, { s with hazard := hz1,
                              nodes := s.nodes.set i (some { nd with next := 1 }) }) := by
      unfold hashtable_atomic_cas slot_load slot_store
      simp only []
      rw [load_next hi1, h0]
      simp only [node_get_zero, hashtable_node_make, Nat.zero_or, if_true]
      rw [store_next 1 hi1]
    rw [destroy_mark_loop, hcas]
    simp only []
    have hlt : i < s.nodes.length := getElem?_some_lt hi
    refine ⟨hz1, s.nodes.set i (some { nd with next := 1 }), { nd with next := 1 }, rfl, ?_, ?_⟩
    · rw [List.getElem?_set_self hlt]
    · intro k hk
      rw [List.getElem?_set_ne (fun e => hk e.symm)]

theorem destroy_loop_spec (n : Nat) (hn : 0 < n) :
    ∀ (X : List Nat) (fuel : Nat) (s : hash_table_t) (p : Nat),
      Chain s.nodes p X → X.Nodup → X.length < fuel →
      ∃ hz' nodes', destroy_loop n fuel s p = .ok { s with hazard := hz', nodes := nodes' } ∧
        (∀ i ∈ X, nodes'[i]? = some none) ∧ (∀ i, i ∉ X → nodes'[i]? = s.nodes[i]?) := by
  intro X
  induction X with
  | nil =>
    intro fuel s p hc _ hf
    have hp : p = 0 := hc
    subst hp
    obtain ⟨f, rfl⟩ : ∃ f, fuel = f + 1 := ⟨fuel - 1, by simp at hf; omega⟩
    refine ⟨s.hazard, s.nodes, ?_, ?_, fun _ _ => rfl⟩
    · simp [destroy_loop]
    · intro i hi; simp at hi
  | cons i X ih =>
    intro fuel s p hc hnd hf
    obtain ⟨hp, nd, hi, hrest⟩ := hc
    subst hp
    obtain ⟨f, rfl⟩ : ∃ f, fuel = f + 1 := ⟨fuel - 1, by simp at hf; omega⟩
    have hnext : nd.next = headPtr X := seg_headPtr hrest
    have hiX : i ∉ X := (List.nodup_cons.1 hnd).1
    obtain ⟨hz2, hgm⟩ : ∃ hz2, hashtable_hazard_ptr_get_with_mask
        (hashtable_hazard_ptr_set_with_mask s (nodeAddr i) 1) (nodeAddr i + 24) 0
        = .ok (nd.next, { s with hazard := hz2 }) := by
      unfold hashtable_hazard_ptr_get_with_mask
      rw [unmask_nodeAddr_add i 24 (by decide)]
      rw [load_next (s := hashtable_hazard_ptr_set_with_mask s (nodeAddr i) 1) hi]
      exact ⟨_, rfl⟩
    obtain ⟨hz3, nodes3, nd3, hvisit, hi3, hfr3⟩ := destroy_visit_spec n hn
      { s with hazard := hz2 } i nd X hi hnext
    have hfree : node_free { s with hazard := hz3, nodes := nodes3 } (nodeAddr i)
        = .ok { s with hazard := hz3, nodes := nodes3.set i none } :=
      node_free_ok (s := { s with hazard := hz3, nodes := nodes3 }) hi3
    have hchain : Chain (nodes3.set i none) (headPtr X) X := by
      apply seg_congr _ _ _ _ (hnext ▸ hrest)
      intro k hk
      have hki : k ≠ i := fun e => hiX (e ▸ hk)
      rw [List.getElem?_set_ne (fun e => hki e.symm)]
      exact hfr3 k hki
    obtain ⟨hz', nodes', hrun, hfreed, hkept⟩ := ih f
      { s with hazard := hz3, nodes := nodes3.set i none } (headPtr X) hchain
      (List.nodup_cons.1 hnd).2 (by simp at hf; omega)
    refine ⟨hz', nodes', ?_, ?_, ?_⟩
    · rw [destroy_loop]
      simp only [nodeAddr_ne_zero, if_false, hgm]
      rw [hvisit]
      simp only []
      rw [hfree]
      simp only []
      rw [hnext, headPtr_even]
      exact hrun
    · intro k hk
      rcases List.mem_cons.1 hk with rfl | hk
      · rw [hkept k hiX]
        show (nodes3.set k none)[k]? = some none
        rw [List.getElem?_set_self (getElem?_some_lt hi3)]
      · exact hfreed k hk
    · intro k hk
      have hki : k ≠ i := fun e => hk (e ▸ List.mem_cons_self _ _)
      have hkX : k ∉ X := fun e => hk (List.mem_cons_of_mem _ e)
      rw [hkept k hkX]
      show (nodes3.set i none)[k]? = _
      rw [List.getElem?_set_ne (fun e => hki e.symm)]
      exact hfr3 k hki

theorem destroy_spec {s : hash_table_t} {d L : List Nat} (h : InvL s d L) (fuel : Nat)
    (hf : L.length < fuel) :
    ∃ s', hashtable_destroy fuel s = .ok s' ∧
      (∀ i ∈ L, s'.nodes[i]? = some none) ∧ (∀ i, i ∉ L → s'.nodes[i]? = s.nodes[i]?) ∧
      s'.dirs = s.dirs.set (s.table / 64) none := by
  obtain ⟨j, hj, hdj⟩ := h.tbl
  have hhead : dir_load (hashtable_hazard_ptr_set s s.table 2) s.table 0 = .ok (headPtr L) :=
    dir_load_inv (h.frame _ _ (by simp [h.hz]) (fun _ _ => rfl)) h.head
  obtain ⟨hz', nodes', hrun, hfreed, hkept⟩ := destroy_loop_spec fuel (by omega) L fuel
    (hashtable_hazard_ptr_set (hashtable_hazard_ptr_set s s.table 2) (headPtr L) 0)
    (headPtr L) h.chain h.nodup hf
  refine ⟨{ s with hazard := [], nodes := nodes', dirs := s.dirs.set (s.table / 64) none },
    ?_, hfreed, hkept, rfl⟩
  unfold hashtable_destroy
  simp only [hhead, headPtr_even]
  rw [hrun]
  simp only []
  have hfree : dir_free { s with hazard := hz', nodes := nodes' } s.table
      = .ok { s with hazard := hz', nodes := nodes', dirs := s.dirs.set (s.table / 64) none } := by
    unfold dir_free
    simp [hj, dirAddr_mod, dirAddr_div, hdj]
  simp only [hashtable_hazard_ptr_set] at hfree ⊢
  rw [hfree]

theorem reach_deleted16 (lvalue : Bool) : Reach (deleted16 lvalue) := by
  have h1 : Reach (final_state (hashtable_insert 100 (fresh16 lvalue) 5 50) (fresh16 lvalue)) := by
    cases lvalue
    · exact Reach.insert (fresh16 false) 100 5 50 true _ (reach_fresh16 false) (by decide)
        (by rfl)
    · exact Reach.insert (fresh16 true) 100 5 50 true _ (reach_fresh16 true) (by decide)
        (by rfl)
  cases lvalue
  · exact Reach.delete _ 100 5 50 _ h1 (by decide) (by rfl)
  · exact Reach.delete _ 100 5 50 _ h1 (by decide) (by rfl)

/-- C20, refuted as stated: after `insert(5, 50)` and `delete(5)` on a fresh
table of size 16 the data node (node 1) is allocated, not released and not
reachable from slot 0, and it is still allocated after `hashtable_destroy`. -/
theorem teardown_counterexample :
    Reach (deleted16 false) ∧ allocated (deleted16 false) 1 = true ∧
      1 ∉ reachable (deleted16 false) ∧
      ∃ s', hashtable_destroy 100 (deleted16 false) = .ok s' ∧ allocated s' 1 = true :=
  ⟨reach_deleted16 false, by decide, by decide,
    final_state ((hashtable_destroy 100 (deleted16 false)).map (fun s => ((), s)))
      (deleted16 false), by rfl, by decide⟩

/-- C20, amended: on every reachable table `hashtable_destroy` returns, having
released exactly the nodes reachable from slot 0 (the sentinels and the live
data nodes, all of them allocated before) and the current directory; every
other node is left as it was, so that a data node unlinked by
`hashtable_delete` stays allocated. -/
theorem teardown_frees_reachable (s : hash_table_t) (hr : Reach s) (fuel : Nat)
    (hf : budget s ≤ fuel) :
    ∃ s', hashtable_destroy fuel s = .ok s' ∧
      (∀ i ∈ reachable s, allocated s i = true ∧ allocated s' i = false ∧
        s'.nodes[i]? = some none) ∧
      (∀ i, i ∉ reachable s → s'.nodes[i]? = s.nodes[i]? ∧ allocated s' i = allocated s i) ∧
      s'.dirs[s.table / 64]? = some none := by
  obtain ⟨d, L, h⟩ := reach_inv hr
  have hI := h.toInvL
  obtain ⟨s', hrun, hfreed, hkept, hdirs⟩ := destroy_spec hI fuel
    (by have := h.budget_ok hf; omega)
  refine ⟨s', hrun, ?_, ?_, ?_⟩
  · intro i hi
    rw [hI.reachable_eq] at hi
    obtain ⟨n, hn⟩ := seg_alloc _ _ _ hI.chain i hi
    refine ⟨by simp [allocated, hn], by simp [allocated, hfreed i hi], hfreed i hi⟩
  · intro i hi
    rw [hI.reachable_eq] at hi
    exact ⟨hkept i hi, by simp [allocated, hkept i hi]⟩
  · obtain ⟨j, hj, hdj⟩ := hI.tbl
    rw [hdirs, hj, dirAddr_div]
    rw [List.getElem?_set_self (getElem?_some_lt hdj)]

/-- Witness of the amended C20 on the table holding the keys 0..10. -/
theorem teardown_frees_reachable_witness :
    Reach eleven16 ∧ budget eleven16 ≤ 100 ∧
    ∃ s', hashtable_destroy 100 eleven16 = .ok s' ∧
      (∀ i ∈ reachable eleven16, allocated eleven16 i = true ∧ allocated s' i = false ∧
        s'.nodes[i]? = some none) ∧
      (∀ i, i ∉ reachable eleven16 →
        s'.nodes[i]? = eleven16.nodes[i]? ∧ allocated s' i = allocated eleven16 i) ∧
      s'.dirs[eleven16.table / 64]? = some none :=
  ⟨reach_eleven16, by decide, teardown_frees_reachable eleven16 reach_eleven16 100 (by decide)⟩

/-! # Keys do not interfere; the split of a bucket; parents -/

/-- C21: on every reachable table and for keys `k ≠ k2`, `hashtable_find(k2)`
returns, and it returns the same result after `hashtable_insert(k, v)` (which
returns whenever the directory can still be doubled, and doubles it when the
load test fires) and after `hashtable_delete(k)`. -/
theorem keys_independent (s : hash_table_t) (hr : Reach s) (k k2 v fuel : Nat) (hk : k ≠ k2)
    (hf : budget s ≤ fuel) :
    ∃ r0 s0, hashtable_find fuel s k2 = .ok (r0, s0) ∧
      (s.size < 2 ^ 60 → ∃ r s1, hashtable_insert fuel s k v = .ok (r, s1) ∧
        s1.size = (if lookup s k = none ∧ load_factor_exceeded s.count s.size = true
                   then 2 * s.size else s.size) ∧
        ∀ fuel1, budget s1 ≤ fuel1 → ∃ s2, hashtable_find fuel1 s1 k2 = .ok (r0, s2)) ∧
      (∃ r s1, hashtable_delete fuel s k = .ok (r, s1) ∧
        ∀ fuel1, budget s1 ≤ fuel1 → ∃ s2, hashtable_find fuel1 s1 k2 = .ok (r0, s2)) := by
  obtain ⟨d, L, h⟩ := reach_inv hr
  have hb := h.budget_ok hf
  obtain ⟨s0, _, _, hfind0, _⟩ := find_spec h.toInvL fuel k2 (by omega) (Or.inl h.pow2)
  refine ⟨_, s0, hfind0, ?_, ?_⟩
  · intro hsz
    rcases insert_spec h fuel k v hb with ⟨_, _, h60, _⟩ | ⟨s1, d1, L1, hrun, h1, _, hnew, hold, _⟩
    · omega
    · have hlk : lookup s1 k2 = lookup s k2 := by
        by_cases hl : lookup s k = none
        · exact (hnew hl).2.1 k2 (fun e => hk e.symm)
        · exact (hold hl).1 k2
      refine ⟨_, s1, hrun, ?_, ?_⟩
      · by_cases hl : lookup s k = none
        · rw [(hnew hl).2.2.2]
          by_cases hlf : load_factor_exceeded s.count s.size = true
          · simp [hl, hlf]
          · simp [hlf]
        · rw [(hold hl).2.2]
          simp [hl]
      · intro fuel1 hf1
        obtain ⟨s2, _, _, hfind, _⟩ := find_spec h1.toInvL fuel1 k2
          (by have := h1.budget_ok hf1; omega) (Or.inl h1.pow2)
        exact ⟨s2, by rw [hfind, hlk]⟩
  · obtain ⟨s1, d1, L1, hrun, h1, _, _, _, hother, _⟩ := delete_spec h fuel k (by omega)
    refine ⟨_, s1, hrun, ?_⟩
    intro fuel1 hf1
    obtain ⟨s2, _, _, hfind, _⟩ := find_spec h1.toInvL fuel1 k2
      (by have := h1.budget_ok hf1; omega) (Or.inl h1.pow2)
    exact ⟨s2, by rw [hfind, hother k2 (fun e => hk e.symm)]⟩

/-- Witness of C21 on the table holding the keys 0..10, with `k = 3` and `k2 = 7`. -/
theorem keys_independent_witness :
    Reach eleven16 ∧ (3 : Nat) ≠ 7 ∧ budget eleven16 ≤ 100 ∧
    ∃ r0 s0, hashtable_find 100 eleven16 7 = .ok (r0, s0) ∧
      (eleven16.size < 2 ^ 60 → ∃ r s1, hashtable_insert 100 eleven16 3 99 = .ok (r, s1) ∧
        s1.size = (if lookup eleven16 3 = none ∧
                      load_factor_exceeded eleven16.count eleven16.size = true
                   then 2 * eleven16.size else eleven16.size) ∧
        ∀ fuel1, budget s1 ≤ fuel1 → ∃ s2, hashtable_find fuel1 s1 7 = .ok (r0, s2)) ∧
      (∃ r s1, hashtable_delete 100 eleven16 3 = .ok (r, s1) ∧
        ∀ fuel1, budget s1 ≤ fuel1 → ∃ s2, hashtable_find fuel1 s1 7 = .ok (r0, s2)) :=
  ⟨reach_eleven16, by decide, by decide,
    keys_independent eleven16 reach_eleven16 3 7 99 100 (by decide) (by decide)⟩

theorem testBit_of_mod_succ {h n b : Nat} (hh : h % 2 ^ n = b) :
    h % 2 ^ (n + 1) = b + 2 ^ n * (h.testBit n).toNat := by
  rw [Nat.mod_pow_succ, hh, Nat.testBit_to_div_mod]
  rcases Nat.mod_two_eq_zero_or_one (h / 2 ^ n) with e | e <;> simp [e]

/-- C29: for `n < 31`, a bucket `b < 2^n` and a hash `h` with `h mod 2^n = b`:
if `h mod 2^(n+1) = b + 2^n` the data key of `h` is above the sentinel key of
bucket `b + 2^n`, and otherwise it is below it. -/
theorem split_property (n b h : Nat) (hn : n < 31) (hb : b < 2 ^ n) (hh : h % 2 ^ n = b) :
    (h % 2 ^ (n + 1) = b + 2 ^ n →
      hashtable_hash_key_dummy (b + 2 ^ n) < hashtable_hash_key_regular h) ∧
    (h % 2 ^ (n + 1) ≠ b + 2 ^ n →
      hashtable_hash_key_regular h < hashtable_hash_key_dummy (b + 2 ^ n)) := by
  have hmod := testBit_of_mod_succ hh
  constructor
  · intro he
    rw [← he]
    exact dummy_lt_regular h (n + 1)
  · intro hne
    have hbit : h.testBit n = false := by
      cases hc : h.testBit n with
      | false => rfl
      | true => rw [hc] at hmod; simp at hmod; exact absurd hmod hne
    have hmask : ∀ i, Nat.testBit 0x7fffffff i = decide (i < 31) := by
      intro i
      have : (0x7fffffff : Nat) = 2 ^ 31 - 1 := by norm_num
      rw [this, Nat.testBit_two_pow_sub_one]
    have h31 : (0x80000000 : Nat) = 2 ^ 31 := by norm_num
    -- the bits of `b + 2^n`
    have hy : ∀ t, (b + 2 ^ n).testBit t = if t = n then true else b.testBit t := by
      intro t
      rw [Nat.add_comm]
      by_cases htn : t = n
      · subst htn
        rw [Nat.testBit_two_pow_add_eq, Nat.testBit_lt_two_pow hb]
        simp
      · rw [if_neg htn]
        rcases Nat.lt_or_gt_of_ne htn with hlt | hgt
        · exact Nat.testBit_two_pow_add_gt hlt b
        · have h1 : 2 ^ n + b < 2 ^ t := by
            have : 2 ^ (n + 1) ≤ 2 ^ t := Nat.pow_le_pow_right (by norm_num) hgt
            rw [pow_succ] at this
            omega
          have h2 : b < 2 ^ t := by omega
          rw [Nat.testBit_lt_two_pow h1, Nat.testBit_lt_two_pow h2]
    have hbt : ∀ t, t < n → b.testBit t = h.testBit t := by
      intro t ht
      rw [← hh, Nat.testBit_mod_two_pow]
      simp [ht]
    unfold hashtable_hash_key_regular hashtable_hash_key_dummy
    apply Nat.lt_of_testBit (31 - n)
    · rw [rvalue_testBit, Nat.testBit_or, h31, Nat.testBit_two_pow]
      have e : 31 - (31 - n) = n := by omega
      have e2 : ¬ (31 = n) := by omega
      simp [e, hbit, e2]
    · rw [rvalue_testBit, Nat.testBit_and, hmask, hy]
      have e : 31 - (31 - n) = n := by omega
      have e3 : 31 - n < 32 := by omega
      simp [e, e3, hn]
    · intro j hj
      rw [rvalue_testBit, rvalue_testBit, Nat.testBit_or, Nat.testBit_and, hmask, hy, h31,
        Nat.testBit_two_pow]
      by_cases hj32 : j < 32
      · have e1 : 31 - j < n := by omega
        have e2 : ¬ (31 - j = n) := by omega
        have e3 : ¬ (31 = 31 - j) := by omega
        have e4 : 31 - j < 31 := by omega
        simp [hj32, e2, e3, e4, hbt (31 - j) e1]
      · simp [hj32]

/-- Witness of C29: bucket 5 of a table of size 16 and the hash 21, which moves
to bucket 21 when the table grows to size 32. -/
theorem split_property_witness :
    (4 : Nat) < 31 ∧ 5 < 2 ^ 4 ∧ 21 % 2 ^ 4 = 5 ∧
    ((21 % 2 ^ (4 + 1) = 5 + 2 ^ 4 →
      hashtable_hash_key_dummy (5 + 2 ^ 4) < hashtable_hash_key_regular 21) ∧
    (21 % 2 ^ (4 + 1) ≠ 5 + 2 ^ 4 →
      hashtable_hash_key_regular 21 < hashtable_hash_key_dummy (5 + 2 ^ 4))) :=
  ⟨by decide, by decide, by decide, split_property 4 5 21 (by decide) (by decide) (by decide)⟩

theorem not_shl_one_testBit (j : Nat) (hj : j < 31) (t : Nat) :
    (int_not_shl_one j).testBit t = (decide (t < 64) && !decide (j = t)) := by
  have e : int_not_shl_one j = 2 ^ 64 - (2 ^ j + 1) := by
    unfold int_not_shl_one int_shl_one WORD
    rw [if_pos hj]
    omega
  have hlt : 2 ^ j < 2 ^ 64 := Nat.pow_lt_pow_right (by norm_num) (by omega)
  rw [e, Nat.testBit_two_pow_sub_succ hlt, Nat.testBit_two_pow]

theorem bucket_parent_top_bit (b : Nat) (hb : 0 < b) (hlt : b < 2 ^ 31) :
    hashtable_bucket_parent b = .ok (b - 2 ^ Nat.log2 b) := by
  have hw : b < WORD := by unfold WORD; omega
  obtain ⟨j, hj, hne, htop, hrun⟩ := bucket_parent_from_top b 31 (shl_one_hit b hb hw)
  have hj31 : j < 31 := by
    by_contra hge
    have hj' : j = 31 := by omega
    subst hj'
    apply hne
    apply Nat.eq_of_testBit_eq
    intro i
    rw [Nat.testBit_and, shl_one_31_testBit]
    by_cases hi : 31 ≤ i
    · have : b < 2 ^ i := lt_of_lt_of_le hlt (Nat.pow_le_pow_right (by norm_num) hi)
      simp [Nat.testBit_lt_two_pow this]
    · simp [hi]
  have hbj : b.testBit j = true := by
    by_contra hf
    apply hne
    apply Nat.eq_of_testBit_eq
    intro i
    rw [Nat.testBit_and, shl_one_testBit_low j hj31]
    by_cases hji : j = i
    · subst hji; simp [hf]
    · simp [hji]
  have habove : ∀ t, j < t → b.testBit t = false := by
    intro t ht
    apply testBit_false_of_and_shl hw
    · intro h30; exact htop t ht (by omega)
    · intro _; exact htop 31 (by omega) (le_refl _)
  have hge : 2 ^ j ≤ b := Nat.testBit_implies_ge hbj
  have hlt2 : b < 2 ^ (j + 1) := by
    apply Nat.lt_pow_two_of_testBit
    intro t ht
    exact habove t (by omega)
  have hlog : Nat.log2 b = j := by
    have hb0 : b ≠ 0 := by omega
    have h1 := Nat.log2_self_le hb0
    have h2 := @Nat.lt_log2_self b
    have a1 : j < Nat.log2 b + 1 :=
      (Nat.pow_lt_pow_iff_right (by norm_num : 1 < 2)).1 (lt_of_le_of_lt hge h2)
    have a2 : Nat.log2 b < j + 1 :=
      (Nat.pow_lt_pow_iff_right (by norm_num : 1 < 2)).1 (lt_of_le_of_lt h1 hlt2)
    omega
  unfold hashtable_bucket_parent
  rw [hrun, hlog]
  congr 1
  obtain ⟨r, hr⟩ : ∃ r, b = 2 ^ j + r := ⟨b - 2 ^ j, by omega⟩
  have hr2 : r < 2 ^ j := by rw [pow_succ] at hlt2; omega
  have hsub : b - 2 ^ j = r := by omega
  rw [hsub]
  apply Nat.eq_of_testBit_eq
  intro t
  rw [Nat.testBit_and, not_shl_one_testBit j hj31]
  rcases Nat.lt_trichotomy t j with h1 | h1 | h1
  · have e : b.testBit t = r.testBit t := by rw [hr]; exact Nat.testBit_two_pow_add_gt h1 r
    have e1 : t < 64 := by omega
    have e2 : ¬ (j = t) := by omega
    simp [e, e1, e2]
  · subst h1
    simp [Nat.testBit_lt_two_pow hr2]
  · have : r < 2 ^ t := lt_trans hr2 (Nat.pow_lt_pow_right (by norm_num) h1)
    simp [habove t h1, Nat.testBit_lt_two_pow this]

theorem bucket_parent_iter_zero :
    ∀ (n b : Nat), n ≤ 64 → b < 2 ^ n → ∃ k, k ≤ n ∧ bucket_parent_iter k b = .ok 0 := by
  intro n
  induction n with
  | zero =>
    intro b _ hb
    have : b = 0 := by simpa using hb
    subst this
    exact ⟨0, le_refl _, rfl⟩
  | succ n ih =>
    intro b hn hb
    rcases Nat.eq_zero_or_pos b with h0 | hpos
    · subst h0
      exact ⟨0, by omega, rfl⟩
    · have hw : b < WORD :=
        lt_of_lt_of_le hb (by unfold WORD; exact Nat.pow_le_pow_right (by norm_num) hn)
      obtain ⟨p, hrun, _, _, hp⟩ := bucket_parent_ok b hpos hw
      obtain ⟨k, hk, hit⟩ := ih p (by omega) (hp n hb)
      refine ⟨k + 1, by omega, ?_⟩
      rw [bucket_parent_iter, hrun]
      exact hit

/-- C30: for a bucket index `0 < i < 2^31`, `hashtable_bucket_parent` returns
`i` with its highest set bit cleared, `i - 2^(log2 i)`, which is below `i`; and
applying it repeatedly reaches 0 in at most 31 steps. -/
theorem parent_clears_top_bit (i : Nat) (hpos : 0 < i) (hlt : i < 2 ^ 31) :
    hashtable_bucket_parent i = .ok (i - 2 ^ Nat.log2 i) ∧ i - 2 ^ Nat.log2 i < i ∧
    ∃ k, k ≤ 31 ∧ bucket_parent_iter k i = .ok 0 := by
  refine ⟨bucket_parent_top_bit i hpos hlt, ?_, bucket_parent_iter_zero 31 i (by omega) hlt⟩
  have : 0 < 2 ^ Nat.log2 i := Nat.pos_pow_of_pos _ (by norm_num)
  omega

/-- Witness of C30: bucket 6, whose parent is bucket 2. -/
theorem parent_clears_top_bit_witness :
    (0 : Nat) < 6 ∧ 6 < 2 ^ 31 ∧
    (hashtable_bucket_parent 6 = .ok (6 - 2 ^ Nat.log2 6) ∧ 6 - 2 ^ Nat.log2 6 < 6 ∧
    ∃ k, k ≤ 31 ∧ bucket_parent_iter k 6 = .ok 0) :=
  ⟨by decide, by decide, parent_clears_top_bit 6 (by decide) (by decide)⟩

/-! # Bucket initialisation -/

theorem bucket_parent_zero : hashtable_bucket_parent 0 = .error .ub := by
  simp [hashtable_bucket_parent, bucket_parent_from]

theorem parents_create (n a : Nat) : ParentsSet (a :: List.replicate n 0) := by
  intro b v hb hv hpos
  obtain ⟨b', rfl⟩ : ∃ b', b = b' + 1 := ⟨b - 1, by omega⟩
  rw [List.getElem?_cons_succ] at hb
  have hm : v ∈ List.replicate n 0 := List.mem_iff_getElem?.2 ⟨_, hb⟩
  rw [List.mem_replicate] at hm
  exact absurd hm.2 hv

/-- In every reachable state the directory is closed under `hashtable_bucket_parent`. -/
theorem reach_parents {s : hash_table_t} (hr : Reach s) : ∃ d L, Inv s d L ∧ ParentsSet d := by
  induction hr with
  | create lvalue k s hrun =>
    by_cases hk : k ≤ 60
    · rw [create_eq lvalue k hk] at hrun
      injection hrun with hrun
      subst hrun
      exact ⟨_, _, create_inv lvalue k hk, parents_create _ _⟩
    · rw [create_top lvalue k (by omega)] at hrun
      exact Except.noConfusion hrun
  | insert s fuel key value r s' _ hf hrun ih =>
    obtain ⟨d, L, h, hP⟩ := ih
    obtain ⟨d', L', h', hK, _⟩ := step_spec h (Step.insert s fuel key value r s' hf hrun)
    exact ⟨d', L', h', hK.closed hP⟩
  | find s fuel key r s' _ hf hrun ih =>
    obtain ⟨d, L, h, hP⟩ := ih
    obtain ⟨d', L', h', hK, _⟩ := step_spec h (Step.find s fuel key r s' hf hrun)
    exact ⟨d', L', h', hK.closed hP⟩
  | delete s fuel key r s' _ hf hrun ih =>
    obtain ⟨d, L, h, hP⟩ := ih
    obtain ⟨d', L', h', hK, _⟩ := step_spec h (Step.delete s fuel key r s' hf hrun)
    exact ⟨d', L', h', hK.closed hP⟩
  | resize s s' _ hrun ih =>
    obtain ⟨d, L, h, hP⟩ := ih
    obtain ⟨d', L', h', hK, _⟩ := step_spec h (Step.resize s s' hrun)
    exact ⟨d', L', h', hK.closed hP⟩

theorem parents_iter {d : List Nat} (hP : ParentsSet d) :
    ∀ (k b p : Nat), (∃ v, d[b]? = some v ∧ v ≠ 0) → bucket_parent_iter k b = .ok p →
      ∃ v, d[p]? = some v ∧ v ≠ 0 := by
  intro k
  induction k with
  | zero =>
    intro b p hb hit
    simp only [bucket_parent_iter] at hit
    injection hit with hit
    subst hit
    exact hb
  | succ k ih =>
    intro b p hb hit
    obtain ⟨v, hv, hv0⟩ := hb
    rw [bucket_parent_iter] at hit
    rcases Nat.eq_zero_or_pos b with h0 | hpos
    · subst h0
      rw [bucket_parent_zero] at hit
      exact Except.noConfusion hit
    · obtain ⟨q, w, hq, hw, hw0⟩ := hP b v hv hv0 hpos
      rw [hq] at hit
      exact ih q p ⟨w, hw, hw0⟩ hit

/-- C27: on every reachable table and for every bucket `0 < i < size` whose
slot is unset, `hashtable_bucket_init(i)` returns; afterwards the slot of `i` and
of every ancestor (every iterate of `hashtable_bucket_parent`, bucket 0 being
one of them) is set, slot `i` points to a node with code
`hashtable_hash_key_dummy i` and key `i` that is reachable from slot 0 in a
list that is sorted by code, and the data nodes of the list, the code, key and
value of every node, every lookup, the count and the size are unchanged. -/
theorem bucket_init_post (s : hash_table_t) (hr : Reach s) (i : Nat) (hpos : 0 < i)
    (hlt : i < s.size) (hun : slotOf s i = 0) (fuel depth : Nat) (hf : budget s ≤ fuel)
    (hdepth : 61 ≤ depth) :
    ∃ s', hashtable_bucket_init fuel depth s s.table i = .ok s' ∧
      (∀ k p, bucket_parent_iter k i = .ok p → slotOf s' p ≠ 0) ∧
      (∃ k, bucket_parent_iter k i = .ok 0) ∧
      (∃ j n, slotOf s' i = nodeAddr j ∧ j ∈ reachable s' ∧ s'.nodes[j]? = some (some n) ∧
        n.code = hashtable_hash_key_dummy i ∧ n.key = i) ∧
      (reachable s').Pairwise (fun a b => codeAt s'.nodes a ≤ codeAt s'.nodes b) ∧
      (∀ j, (j ∈ reachable s' ∧ isData s'.nodes j = true) ↔
        (j ∈ reachable s ∧ isData s.nodes j = true)) ∧
      (∀ j, j < s.nodes.length → codeAt s'.nodes j = codeAt s.nodes j ∧
        keyAt s'.nodes j = keyAt s.nodes j ∧ valueAt s'.nodes j = valueAt s.nodes j) ∧
      (∀ key, lookup s' key = lookup s key) ∧
      s'.count = s.count ∧ s'.size = s.size := by
  obtain ⟨d, L, h, hP⟩ := reach_parents hr
  have hI := h.toInvL
  have hb := h.budget_ok hf
  have hi61 : i < 2 ^ 61 := lt_trans hlt hI.size_lt
  obtain ⟨s', d', L', hrun, hI', hG, ⟨v, hv, hv0⟩, _, _, hcl⟩ :=
    bucket_init_spec fuel 61 depth s d L i hI hpos hlt hi61 hdepth (by omega)
      (hI.slot_unset hun hlt)
  have hP' := hcl hP
  have hslot : ∀ p, (∃ w, d'[p]? = some w ∧ w ≠ 0) → slotOf s' p ≠ 0 := by
    rintro p ⟨w, hw, hw0⟩
    rw [hI'.slotOf_eq, List.getD_eq_getElem?_getD, hw]
    exact hw0
  refine ⟨s', hrun, ?_, ?_, ?_, ?_, ?_, hG.fields, fun key => hG.lookup_eq hI hI' key,
    hG.count, hG.size⟩
  · intro k p hit
    exact hslot p (parents_iter hP' k i p ⟨v, hv, hv0⟩ hit)
  · obtain ⟨k, _, hk⟩ := bucket_parent_iter_zero 61 i (by omega) hi61
    exact ⟨k, hk⟩
  · obtain ⟨j, hvj, hjL, hc, hk⟩ := hI'.slots i v hv hv0
    obtain ⟨n, hn⟩ := seg_alloc _ _ _ hI'.chain j hjL
    refine ⟨j, n, ?_, by rw [hI'.reachable_eq]; exact hjL, hn, ?_, ?_⟩
    · rw [hI'.slotOf_eq, List.getD_eq_getElem?_getD, hv]
      exact hvj
    · rw [← codeAt_eq hn]; exact hc
    · rw [← keyAt_eq hn]; exact hk
  · rw [hI'.reachable_eq]
    exact hI'.sorted
  · intro j
    rw [hI'.reachable_eq, hI.reachable_eq]
    obtain ⟨S, hperm, hS⟩ := hG.perm
    constructor
    · rintro ⟨hj, hd⟩
      rcases List.mem_append.1 (hperm.subset hj) with hjS | hjL
      · have := (hS j hjS).1
        simp [isData, this] at hd
      · refine ⟨hjL, ?_⟩
        unfold isData at hd ⊢
        rw [(hG.fields j (hI.lt_length j hjL)).1] at hd
        exact hd
    · rintro ⟨hj, hd⟩
      refine ⟨hperm.symm.subset (List.mem_append_right _ hj), ?_⟩
      unfold isData at hd ⊢
      rw [(hG.fields j (hI.lt_length j hj)).1]
      exact hd

/-- Witness of C27: bucket 6 of the table holding key 5; its ancestors are the
buckets 2 and 0. -/
theorem bucket_init_post_witness :
    Reach one16 ∧ 0 < 6 ∧ 6 < one16.size ∧ slotOf one16 6 = 0 ∧ budget one16 ≤ 100 ∧
    (61 : Nat) ≤ 100 ∧
    ∃ s', hashtable_bucket_init 100 100 one16 one16.table 6 = .ok s' ∧
      (∀ k p, bucket_parent_iter k 6 = .ok p → slotOf s' p ≠ 0) ∧
      (∃ k, bucket_parent_iter k 6 = .ok 0) ∧
      (∃ j n, slotOf s' 6 = nodeAddr j ∧ j ∈ reachable s' ∧ s'.nodes[j]? = some (some n) ∧
        n.code = hashtable_hash_key_dummy 6 ∧ n.key = 6) ∧
      (reachable s').Pairwise (fun a b => codeAt s'.nodes a ≤ codeAt s'.nodes b) ∧
      (∀ j, (j ∈ reachable s' ∧ isData s'.nodes j = true) ↔
        (j ∈ reachable one16 ∧ isData one16.nodes j = true)) ∧
      (∀ j, j < one16.nodes.length → codeAt s'.nodes j = codeAt one16.nodes j ∧
        keyAt s'.nodes j = keyAt one16.nodes j ∧ valueAt s'.nodes j = valueAt one16.nodes j) ∧
      (∀ key, lookup s' key = lookup one16 key) ∧
      s'.count = one16.count ∧ s'.size = one16.size :=
  ⟨reach_one16, by decide, by decide, by decide, by decide, by decide,
    bucket_init_post one16 reach_one16 6 (by decide) (by decide) (by decide) 100 100
      (by decide) (by decide)⟩

theorem dropWhile_match {nodes : List (Option hash_node_t)} {code key : Nat} :
    ∀ (l : List Nat), l.Pairwise (fun a b => codeAt nodes a ≤ codeAt nodes b) →
      ∀ j ∈ l, isMatch nodes code key j = true →
      ∃ i rest, l.dropWhile (passes nodes code key) = i :: rest ∧
        isMatch nodes code key i = true ∧ i ∈ l := by
  intro l
  induction l with
  | nil => intro _ j hj; simp at hj
  | cons a l ih =>
    intro hs j hj hm
    rw [List.pairwise_cons] at hs
    by_cases hpa : passes nodes code key a = true
    · have hja : j ≠ a := by
        intro e
        subst e
        rw [passes_not_match hpa] at hm
        exact Bool.noConfusion hm
      have hjl : j ∈ l := by
        rcases List.mem_cons.1 hj with e | e
        · exact absurd e hja
        · exact e
      obtain ⟨i, rest, hd, hmi, hil⟩ := ih hs.2 j hjl hm
      exact ⟨i, rest, by rw [List.dropWhile_cons_of_pos hpa]; exact hd, hmi,
        List.mem_cons_of_mem _ hil⟩
    · have hpa' : passes nodes code key a = false := by simpa using hpa
      refine ⟨a, l, by rw [List.dropWhile_cons_of_neg hpa], ?_, List.mem_cons_self _ _⟩
      by_contra hma
      have hma' : isMatch nodes code key a = false := by simpa using hma
      have hlt := not_passes_not_match hpa' hma'
      simp only [isMatch, Bool.and_eq_true, decide_eq_true_eq] at hm
      rcases List.mem_cons.1 hj with e | e
      · subst e; omega
      · have := hs.1 j e
        omega

theorem InvL.dir_clear {s s' : hash_table_t} {d L : List Nat} (h : InvL s d L) {j b : Nat}
    (hj : s.table = dirAddr j) (hhz : s'.hazard.length = 3) (ht : s'.table = s.table)
    (hd : s'.dirs = s.dirs.set j (some (d.set b 0))) (hs : s'.size = s.size)
    (hn : s'.nodes = s.nodes) (hb : 0 < b) : InvL s' (d.set b 0) L := by
  obtain ⟨j', hj', hdj⟩ := h.tbl
  have : j' = j := by
    rw [hj] at hj'; unfold dirAddr at hj'; omega
  subst this
  constructor
  · exact hhz
  · refine ⟨j', by rw [ht]; exact hj, ?_⟩
    rw [hd]
    simp [List.getElem?_set, getElem?_some_lt hdj]
  · rw [hs]; simpa using h.dlen
  · rw [hs]; exact h.szb
  · rw [List.getElem?_set_ne (by omega)]; exact h.head
  · exact h.ne
  · rw [hn]; exact h.chain
  · exact h.nodup
  · rw [hn]; exact h.sorted
  · intro b' v hb' hv
    rw [hn]
    by_cases hbb : b = b'
    · subst hbb
      have hlt : b < (d.set b 0).length := getElem?_some_lt hb'
      rw [List.getElem?_set_self (by simpa using hlt)] at hb'
      injection hb' with hb'
      exact absurd hb'.symm hv
    · rw [List.getElem?_set_ne hbb] at hb'
      exact h.slots b' v hb' hv
  · rw [hn]; exact h.data
  · rw [hn]; exact h.uniq

/-- C28: in a well-formed table in which the parent bucket of `i < 2^31` is
initialised and a node with code `hashtable_hash_key_dummy i` and key `i` is
linked in the list, `hashtable_bucket_init(i)` returns without changing the
list or any node that existed before, publishes the address of a linked node
with that code and key in slot `i`, leaves every other slot as it was, and
frees the node it had allocated. -/
theorem bucket_init_idempotent (s : hash_table_t) (d L : List Nat) (h : InvL s d L) (i : Nat)
    (hlt : i < s.size) (h31 : i < 2 ^ 31)
    (hpar : ∃ p, hashtable_bucket_parent i = .ok p ∧ slotOf s p ≠ 0)
    (hlinked : ∃ j ∈ reachable s,
      codeAt s.nodes j = hashtable_hash_key_dummy i ∧ keyAt s.nodes j = i)
    (fuel depth : Nat) (hf : budget s ≤ fuel) (hdepth : 0 < depth) :
    ∃ s' j, hashtable_bucket_init fuel depth s s.table i = .ok s' ∧
      reachable s' = reachable s ∧
      (∀ k, k < s.nodes.length → s'.nodes[k]? = s.nodes[k]?) ∧
      j ∈ reachable s ∧ codeAt s.nodes j = hashtable_hash_key_dummy i ∧ keyAt s.nodes j = i ∧
      slotOf s' i = nodeAddr j ∧ (∀ b, b ≠ i → slotOf s' b = slotOf s b) ∧
      s'.nodes.length = s.nodes.length + 1 ∧ allocated s' s.nodes.length = false := by
  have hI := h
  obtain ⟨p, hparent, hps⟩ := hpar
  have hpos : 0 < i := by
    rcases Nat.eq_zero_or_pos i with h0 | h0
    · subst h0
      rw [bucket_parent_zero] at hparent
      exact Except.noConfusion hparent
    · exact h0
  have hw : i < WORD := by unfold WORD; omega
  obtain ⟨p', hpar', hpb, hdle, _⟩ := bucket_parent_ok i hpos hw
  have hpp : p' = p := by
    rw [hparent] at hpar'
    injection hpar' with e
    exact e.symm
  subst hpp
  have hvp : d[p']? = some (slotOf s p') := hI.slot_set hps
  obtain ⟨depth', rfl⟩ : ∃ depth', depth = depth' + 1 := ⟨depth - 1, by omega⟩
  obtain ⟨jd, hjd, hdj⟩ := hI.tbl
  have hbd : i < d.length := by rw [hI.dlen]; exact hlt
  have hmL : s.nodes.length ∉ L := fun hx => by
    have := hI.lt_length _ hx; omega
  have hfr4 : ∀ k, k < s.nodes.length →
      (s.nodes ++ [some (hash_node_t.mk (hashtable_hash_key_dummy i) i 0 0)])[k]? = s.nodes[k]? :=
    fun k hk => List.getElem?_append_left hk
  have hI4 : InvL { s with nodes := s.nodes ++
      [some (hash_node_t.mk (hashtable_hash_key_dummy i) i 0 0)] } d L := by
    refine hI.frame _ _ hI.hz ?_
    intro k hk
    exact hfr4 k (hI.lt_length k hk)
  have hm4 : ({ s with nodes := s.nodes ++
      [some (hash_node_t.mk (hashtable_hash_key_dummy i) i 0 0)] } : hash_table_t).nodes[s.nodes.length]?
      = some (some (hash_node_t.mk (hashtable_hash_key_dummy i) i 0 0)) := by simp
  obtain ⟨A, r0, R, hL, hvr, hR, _, hc0, hk0⟩ := bucket_start hI4 hvp hps
  obtain ⟨j, hjL, hcj, hkj⟩ := hlinked
  rw [hI.reachable_eq] at hjL
  have hcj4 : codeAt (s.nodes ++ [some (hash_node_t.mk (hashtable_hash_key_dummy i) i 0 0)]) j
      = hashtable_hash_key_dummy i :=
    (codeAt_congr (hfr4 j (hI.lt_length j hjL))).trans hcj
  have hkj4 : keyAt (s.nodes ++ [some (hash_node_t.mk (hashtable_hash_key_dummy i) i 0 0)]) j
      = i :=
    (keyAt_congr (hfr4 j (hI.lt_length j hjL))).trans hkj
  have hs4 := hI4.sorted
  rw [hL, List.pairwise_append] at hs4
  have hjR : j ∈ r0 :: R := by
    have hjL' := hjL
    rw [hL] at hjL'
    rcases List.mem_append.1 hjL' with hjA | hjR
    · exfalso
      have hle := hs4.2.2 j hjA r0 (List.mem_cons_self _ _)
      change codeAt (s.nodes ++ _) j ≤ codeAt (s.nodes ++ _) r0 at hle
      rw [hcj4] at hle
      change _ ≤ codeAt (s.nodes ++ _) r0 at hle
      have hc0' : codeAt (s.nodes ++
          [some (hash_node_t.mk (hashtable_hash_key_dummy i) i 0 0)]) r0
          = hashtable_hash_key_dummy p' := hc0
      rw [hc0'] at hle
      have := dummy_inj (by omega) h31 (le_antisymm hdle hle)
      omega
    · exact hjR
  have hmj : isMatch (s.nodes ++ [some (hash_node_t.mk (hashtable_hash_key_dummy i) i 0 0)])
      (hashtable_hash_key_dummy i) i j = true := by
    simp [isMatch, hcj4, hkj4]
  obtain ⟨i0, rest, hdw, hmi0, hi0R⟩ := dropWhile_match (r0 :: R) hs4.2.1 j hjR hmj
  have hi0L : i0 ∈ L := by rw [hL]; exact List.mem_append_right _ hi0R
  have hnd : (r0 :: R).Nodup := by
    have := hI4.nodup
    rw [hL] at this
    exact (List.nodup_append.1 this).2.1
  have hmR : s.nodes.length ∉ r0 :: R := fun hx => hmL (by rw [hL]; exact List.mem_append_right _ hx)
  have hlenL := hI.length_le
  have hRlen : (r0 :: R).length ≤ L.length := by rw [hL]; simp
  have hdl4 : dir_load { s with nodes := s.nodes ++
      [some (hash_node_t.mk (hashtable_hash_key_dummy i) i 0 0)] } s.table p'
      = .ok (nodeAddr r0) := by
    rw [← hvr]; exact dir_load_inv hI4 hvp
  have hfirst : passes (s.nodes ++ [some (hash_node_t.mk (hashtable_hash_key_dummy i) i 0 0)])
      (hashtable_hash_key_dummy i) i r0 = true := by
    have hc0' : codeAt (s.nodes ++
        [some (hash_node_t.mk (hashtable_hash_key_dummy i) i 0 0)]) r0
        = hashtable_hash_key_dummy p' := hc0
    have hk0' : keyAt (s.nodes ++
        [some (hash_node_t.mk (hashtable_hash_key_dummy i) i 0 0)]) r0 = p' := hk0
    unfold passes
    rw [hc0', hk0']
    have e1 : ¬ (hashtable_hash_key_dummy p' > hashtable_hash_key_dummy i) := by omega
    have e2 : ¬ (p' = i) := by omega
    simp [e1, e2]
  obtain ⟨hz', hrun, hlenz⟩ := (list_insert_spec fuel
    { s with nodes := s.nodes ++ [some (hash_node_t.mk (hashtable_hash_key_dummy i) i 0 0)] }
    p' s.nodes.length (hash_node_t.mk (hashtable_hash_key_dummy i) i 0 0) r0 R hdl4 hR hnd hm4 hmR
    (by unfold budget at hf; omega) (by show 0 < s.hazard.length; rw [hI.hz]; decide)
    hfirst).1 i0 rest hdw hmi0
  have hlenz3 : hz'.length = 3 := by rw [hlenz]; exact hI.hz
  have hdl : dir_load s s.table p' = .ok (slotOf s p') := dir_load_inv hI hvp
  have him : i0 ≠ s.nodes.length := fun e => hmL (e ▸ hi0L)
  have hne : nodeAddr i0 ≠ nodeAddr s.nodes.length := fun e => him (nodeAddr_inj e)
  have hstart : hashtable_bucket_init fuel (depth' + 1) s s.table i =
      (match hashtable_list_insert fuel { s with nodes := s.nodes ++
            [some (hash_node_t.mk (hashtable_hash_key_dummy i) i 0 0)] } p' (nodeAddr s.nodes.length) with
        | .error e => .error e
        | .ok (result, s5) =>
          match (if hashtable_node_get result ≠ nodeAddr s.nodes.length
                 then node_free s5 (nodeAddr s.nodes.length) else .ok s5) with
          | .error e => .error e
          | .ok s6 =>
            dir_store (hashtable_hazard_ptr_set s6 s6.table 1) s6.table i
              (hashtable_node_make
                (if hashtable_node_get result ≠ nodeAddr s.nodes.length
                 then hashtable_node_get result else nodeAddr s.nodes.length) 0)) := by
    rw [hashtable_bucket_init]
    simp only [hparent, hdl, hps, if_false, node_calloc, store_fresh_key, store_fresh_code]
  have hfr6 : ∀ k, k < s.nodes.length →
      ((s.nodes ++ [some (hash_node_t.mk (hashtable_hash_key_dummy i) i 0 0)]).set
        s.nodes.length none)[k]? = s.nodes[k]? := by
    intro k hk
    rw [List.getElem?_set_ne (by omega), List.getElem?_append_left hk]
  have hI6 : InvL
      { s with
        hazard := hz'.set 1 s.table
        nodes := (s.nodes ++ [some (hash_node_t.mk (hashtable_hash_key_dummy i) i 0 0)]).set
          s.nodes.length none } d L := by
    refine hI.frame _ _ (by simp [hlenz3]) ?_
    intro k hk
    exact hfr6 k (hI.lt_length k hk)
  have hci0 : codeAt s.nodes i0 = hashtable_hash_key_dummy i := by
    simp only [isMatch, Bool.and_eq_true, decide_eq_true_eq] at hmi0
    exact (codeAt_congr (hfr4 i0 (hI.lt_length i0 hi0L))).symm.trans hmi0.1
  have hki0 : keyAt s.nodes i0 = i := by
    simp only [isMatch, Bool.and_eq_true, decide_eq_true_eq] at hmi0
    exact (keyAt_congr (hfr4 i0 (hI.lt_length i0 hi0L))).symm.trans hmi0.2
  have hI7 : InvL
      { s with
        hazard := hz'.set 1 s.table
        nodes := (s.nodes ++ [some (hash_node_t.mk (hashtable_hash_key_dummy i) i 0 0)]).set
          s.nodes.length none
        dirs := s.dirs.set jd (some (d.set i (nodeAddr i0))) } (d.set i (nodeAddr i0)) L := by
    refine hI6.dir_set hjd (by simp [hlenz3]) rfl rfl rfl rfl hpos hi0L ?_ ?_
    · exact (codeAt_congr (hfr6 i0 (hI.lt_length i0 hi0L))).trans hci0
    · exact (keyAt_congr (hfr6 i0 (hI.lt_length i0 hi0L))).trans hki0
  refine ⟨{ s with hazard := hz'.set 1 s.table,
                    nodes := (s.nodes ++ [some (hash_node_t.mk (hashtable_hash_key_dummy i) i 0 0)]).set
                      s.nodes.length none,
                    dirs := s.dirs.set jd (some (d.set i (nodeAddr i0))) },
          i0, ?_, ?_, ?_, by rw [hI.reachable_eq]; exact hi0L, hci0, hki0, ?_, ?_, ?_, ?_⟩
  · rw [hstart, hrun]
    simp only [node_get_nodeAddr, ne_eq, hne, not_false_eq_true, if_true, node_make_zero]
    rw [node_free_ok (s := { s with hazard := hz', nodes := s.nodes ++
      [some (hash_node_t.mk (hashtable_hash_key_dummy i) i 0 0)] }) hm4]
    simp only []
    have hI6' : InvL (hashtable_hazard_ptr_set
        { s with
          hazard := hz'
          nodes := (s.nodes ++ [some (hash_node_t.mk (hashtable_hash_key_dummy i) i 0 0)]).set
            s.nodes.length none } s.table 1) d L := hI6
    exact dir_store_inv hI6' hjd hbd (nodeAddr i0)
  · rw [hI7.reachable_eq, hI.reachable_eq]
  · exact hfr6
  · rw [hI7.slotOf_eq, List.getD_eq_getElem?_getD, List.getElem?_set_self hbd]
    rfl
  · intro b hb
    rw [hI7.slotOf_eq, hI.slotOf_eq, List.getD_eq_getElem?_getD, List.getD_eq_getElem?_getD,
      List.getElem?_set_ne (fun e => hb e.symm)]
  · simp
  · simp [allocated]

theorem invL_unpublished16 :
    InvL unpublished16
      (nodeAddr 0 :: nodeAddr 2 :: List.replicate 14 0) [0, 2, 3, 1] := by
  obtain ⟨d, L, h⟩ := reach_inv reach_one16
  have hI := h.toInvL
  obtain ⟨j, hj, hdj⟩ := hI.tbl
  have hj0 : j = 0 := by
    have : one16.table = dirAddr 0 := by decide
    rw [this] at hj
    unfold dirAddr at hj
    omega
  subst hj0
  have hd : d = nodeAddr 0 :: nodeAddr 2 :: 0 :: 0 :: 0 :: nodeAddr 3 :: List.replicate 10 0 := by
    have e : one16.dirs[0]? = some (some
        (nodeAddr 0 :: nodeAddr 2 :: 0 :: 0 :: 0 :: nodeAddr 3 :: List.replicate 10 0)) := by
      decide
    rw [e] at hdj
    injection hdj with hdj
    injection hdj with hdj
    exact hdj.symm
  have hLe : L = [0, 2, 3, 1] := by
    rw [← hI.reachable_eq]
    decide
  subst hd
  subst hLe
  exact @InvL.dir_clear one16 unpublished16 _ _ hI 0 5 hj (by decide) (by decide) (by decide)
    (by decide) (by decide) (by decide)

/-- Witness of C28: bucket 5 of `unpublished16`; its sentinel is node 3 and its
parent is bucket 1. -/
theorem bucket_init_idempotent_witness :
    InvL unpublished16 (nodeAddr 0 :: nodeAddr 2 :: List.replicate 14 0) [0, 2, 3, 1] ∧
    5 < unpublished16.size ∧ 5 < 2 ^ 31 ∧
    (∃ p, hashtable_bucket_parent 5 = .ok p ∧ slotOf unpublished16 p ≠ 0) ∧
    (∃ j ∈ reachable unpublished16,
      codeAt unpublished16.nodes j = hashtable_hash_key_dummy 5 ∧
      keyAt unpublished16.nodes j = 5) ∧
    budget unpublished16 ≤ 100 ∧ 0 < 100 ∧
    ∃ s' j, hashtable_bucket_init 100 100 unpublished16 unpublished16.table 5 = .ok s' ∧
      reachable s' = reachable unpublished16 ∧
      (∀ k, k < unpublished16.nodes.length → s'.nodes[k]? = unpublished16.nodes[k]?) ∧
      j ∈ reachable unpublished16 ∧
      codeAt unpublished16.nodes j = hashtable_hash_key_dummy 5 ∧
      keyAt unpublished16.nodes j = 5 ∧
      slotOf s' 5 = nodeAddr j ∧ (∀ b, b ≠ 5 → slotOf s' b = slotOf unpublished16 b) ∧
      s'.nodes.length = unpublished16.nodes.length + 1 ∧
      allocated s' unpublished16.nodes.length = false :=
  ⟨invL_unpublished16, by decide, by decide, ⟨1, rfl, by decide⟩,
    ⟨3, by decide, by decide, by decide⟩, by decide, by decide,
    bucket_init_idempotent unpublished16 _ _ invL_unpublished16 5 (by decide) (by decide)
      ⟨1, rfl, by decide⟩ ⟨3, by decide, by decide, by decide⟩ 100 100 (by decide) (by decide)⟩

/-! # The walk of `hashtable_list_find` over a node that is marked deleted

After `hashtable_list_find` has unlinked a marked node, line 316 (`current =
next`) keeps the tag bit of `next`, and the next round of the loop reads
`current->code` and `current->key` (lines 293-294) through the tagged pointer.
`hashtable_list_insert` (line 445) and `hashtable_list_delete` (line 401) read
`result->code` through the pointer that `hashtable_list_find` returned. -/

/-- C22, failing input: in `marked_mid16` the list from slot 0 is sorted, the
slot of bucket 5 is set and the node of key 21 (node 4) is marked and followed by
the unmarked node of key 5 (node 1); `hashtable_list_find(5, 5, code 5)` does
not return: it reads `current->code` through a tagged pointer.  In
`marked_last16`, where the marked node is the last one, it returns the tagged
null pointer 1 as `current`.  In `two16`, without marks, it returns the
untagged address of the node of key 5. -/
theorem list_find_tagged :
    reachable marked_mid16 = [0, 2, 3, 4, 1] ∧
    codes marked_mid16 = [0, 2147483648, 2684354560, 2715758943, 2919672041] ∧
    (reachable marked_mid16).map (isMarked marked_mid16.nodes)
      = [false, false, false, true, false] ∧
    slotOf marked_mid16 5 = nodeAddr 3 ∧
    hashtable_list_find 100 marked_mid16 5 5 (hashtable_hash_key_regular (hashtable_hash_key 5))
      = .error .ub ∧
    (hashtable_list_find 100 marked_last16 5 5
      (hashtable_hash_key_regular (hashtable_hash_key 5))).map (fun r => r.1) = .ok 1 ∧
    (hashtable_list_find 100 two16 5 5
      (hashtable_hash_key_regular (hashtable_hash_key 5))).map (fun r => r.1)
      = .ok (nodeAddr 1) :=
  ⟨by rfl, by rfl, by rfl, by rfl, by rfl, by rfl, by rfl⟩

/-- C23, failing input: in `marked_mid16` the node holding key 21 is marked
deleted and still linked, and its successor is the node of key 5;
`hashtable_find(21)` does not return absent: after unlinking the marked node
the walk reads the successor's code through a tagged pointer.  In
`marked_last16`, where the marked node of key 5 has no successor,
`hashtable_find(5)` returns absent and the marked node is unlinked. -/
theorem find_marked_tagged :
    reachable marked_mid16 = [0, 2, 3, 4, 1] ∧ keyAt marked_mid16.nodes 4 = 21 ∧
    isMarked marked_mid16.nodes 4 = true ∧ isMarked marked_mid16.nodes 1 = false ∧
    hashtable_find 100 marked_mid16 21 = .error .ub ∧
    (hashtable_find 100 marked_last16 5).map (fun r => (r.1, reachable r.2))
      = .ok (0, [0, 2, 3, 4]) :=
  ⟨by rfl, by rfl, by rfl, by rfl, by rfl, by rfl⟩

/-- C24, failing input: the bucket 5 of `marked_mid16` is initialised, the new
node for key 37 has a code above the code of the sentinel of bucket 5, and no
node of the list has its code and key; `hashtable_list_insert` does not return:
the walk passes the marked node of key 21 and reads the next code through a
tagged pointer.  In `marked_last16` the walk returns the tagged null pointer and
line 445 reads `result->code` at address 1.  In `two16`, without marks, the
node is linked between the nodes of the keys 21 and 5. -/
theorem list_insert_tagged :
    reachable marked_mid16 = [0, 2, 3, 4, 1] ∧
    hashtable_hash_key_dummy 5 ≤ hashtable_hash_key_regular (hashtable_hash_key 37) ∧
    (∀ i ∈ reachable marked_mid16, keyAt marked_mid16.nodes i ≠ 37) ∧
    hashtable_list_insert 100 (with_node marked_mid16 37 370).2 5
      (with_node marked_mid16 37 370).1 = .error .ub ∧
    hashtable_list_insert 100 (with_node marked_last16 37 370).2 5
      (with_node marked_last16 37 370).1 = .error .ub ∧
    (hashtable_list_insert 100 (with_node two16 37 370).2 5
      (with_node two16 37 370).1).map (fun r => (r.1, reachable r.2))
      = .ok (nodeAddr 5, [0, 2, 3, 4, 5, 1]) :=
  ⟨by rfl, by decide, by decide, by rfl, by rfl, by rfl⟩

/-- C25, failing input: in `marked_mid16` the unmarked node of key 5 (node 1)
is reachable from the sentinel of bucket 5, behind the marked node of key 21;
`hashtable_list_delete(5, 5, code 5)` does not return the node: the walk reads
its code through a tagged pointer.  The same happens for the key 37, which no
node carries.  In `two16`, without marks, the node of key 5 is returned,
marked and unlinked. -/
theorem list_delete_tagged :
    reachable marked_mid16 = [0, 2, 3, 4, 1] ∧ slotOf marked_mid16 5 = nodeAddr 3 ∧
    keyAt marked_mid16.nodes 1 = 5 ∧
    codeAt marked_mid16.nodes 1 = hashtable_hash_key_regular (hashtable_hash_key 5) ∧
    isMarked marked_mid16.nodes 1 = false ∧
    hashtable_list_delete 100 marked_mid16 5 5
      (hashtable_hash_key_regular (hashtable_hash_key 5)) = .error .ub ∧
    hashtable_list_delete 100 marked_mid16 5 37
      (hashtable_hash_key_regular (hashtable_hash_key 37)) = .error .ub ∧
    (hashtable_list_delete 100 two16 5 5
      (hashtable_hash_key_regular (hashtable_hash_key 5))).map
        (fun r => (r.1, reachable r.2, isMarked r.2.nodes 1))
      = .ok (nodeAddr 1, [0, 2, 3, 4], true) :=
  ⟨by rfl, by rfl, by rfl, by rfl, by rfl, by rfl, by rfl, by rfl⟩

/-! # `hashtable_list_sweep` -/

theorem mchain_headPtr {nodes : List (Option hash_node_t)} {p : Nat} {l : List Nat}
    (h : MChain nodes p l) : p = headPtr l := by
  cases l with
  | nil => exact h
  | cons i l => exact h.1

theorem mchain_congr {nodes nodes' : List (Option hash_node_t)} :
    ∀ (X : List Nat) (p : Nat), (∀ i ∈ X, nodes'[i]? = nodes[i]?) →
      MChain nodes p X → MChain nodes' p X := by
  intro X
  induction X with
  | nil => intro p _ h; exact h
  | cons i X ih =>
    intro p hi h
    obtain ⟨hp, n, hn, hrest⟩ := h
    exact ⟨hp, n, by rw [hi i (List.mem_cons_self _ _)]; exact hn,
      ih _ (fun k hk => hi k (List.mem_cons_of_mem _ hk)) hrest⟩

theorem mchain_det {nodes : List (Option hash_node_t)} :
    ∀ (l1 l2 : List Nat) (p : Nat), MChain nodes p l1 → MChain nodes p l2 → l1 = l2 := by
  intro l1
  induction l1 with
  | nil =>
    intro l2 p h1 h2
    cases l2 with
    | nil => rfl
    | cons k l2 =>
      have e1 : p = 0 := h1
      have e2 : p = nodeAddr k := h2.1
      exact absurd (e2.symm.trans e1) (nodeAddr_ne_zero k)
  | cons i l1 ih =>
    intro l2 p h1 h2
    obtain ⟨hp, n, hn, hrest⟩ := h1
    cases l2 with
    | nil =>
      have e2 : p = 0 := h2
      exact absurd (hp.symm.trans e2) (nodeAddr_ne_zero i)
    | cons k l2 =>
      obtain ⟨hp2, n2, hn2, hrest2⟩ := h2
      have hik : i = k := nodeAddr_inj (hp.symm.trans hp2)
      subst hik
      rw [hn] at hn2
      injection hn2 with hn2
      injection hn2 with hn2
      subst hn2
      rw [ih l2 _ hrest hrest2]

theorem mchain_suffix {nodes : List (Option hash_node_t)} :
    ∀ (X Y : List Nat) (p : Nat), MChain nodes p (X ++ Y) → ∃ r, MChain nodes r Y := by
  intro X
  induction X with
  | nil => intro Y p h; exact ⟨p, h⟩
  | cons i X ih =>
    intro Y p h
    obtain ⟨_, n, _, hrest⟩ := h
    exact ih Y _ hrest

theorem mchain_alloc {nodes : List (Option hash_node_t)} :
    ∀ (X : List Nat) (p : Nat), MChain nodes p X → ∀ i ∈ X, ∃ n, nodes[i]? = some (some n) := by
  intro X
  induction X with
  | nil => intro p _ i hi; simp at hi
  | cons a X ih =>
    intro p h i hi
    obtain ⟨_, n, hn, hrest⟩ := h
    rcases List.mem_cons.1 hi with rfl | hi
    · exact ⟨n, hn⟩
    · exact ih _ hrest i hi

theorem mchain_nodup {nodes : List (Option hash_node_t)} :
    ∀ (l : List Nat) (p : Nat), MChain nodes p l → l.Nodup := by
  intro l
  induction l with
  | nil => intro p _; exact List.nodup_nil
  | cons i l ih =>
    intro p h
    obtain ⟨hp, n, hn, hrest⟩ := h
    refine List.nodup_cons.2 ⟨?_, ih _ hrest⟩
    intro hi
    obtain ⟨X, Y, hXY⟩ := List.append_of_mem hi
    have hrest' := hrest
    rw [hXY] at hrest'
    obtain ⟨r, hr⟩ := mchain_suffix X (i :: Y) _ hrest'
    obtain ⟨_, n', hn', hY⟩ := hr
    rw [hn] at hn'
    injection hn' with hn'
    injection hn' with hn'
    subst hn'
    have := mchain_det _ _ _ hrest hY
    rw [hXY] at this
    have hl := congrArg List.length this
    simp at hl
    omega

theorem mchain_length_le {nodes : List (Option hash_node_t)} {l : List Nat} {p : Nat}
    (h : MChain nodes p l) : l.length ≤ nodes.length := by
  have hsub : l ⊆ List.range nodes.length := by
    intro i hi
    obtain ⟨n, hn⟩ := mchain_alloc l p h i hi
    exact List.mem_range.2 (getElem?_some_lt hn)
  have := ((mchain_nodup l p h).subperm hsub).length_le
  simpa using this

theorem walk_mchain {nodes : List (Option hash_node_t)} :
    ∀ (L : List Nat) (fuel p : Nat), MChain nodes (hashtable_node_get p) L → L.length ≤ fuel →
      walk nodes fuel p = L := by
  intro L
  induction L with
  | nil =>
    intro fuel p hc _
    have hp : hashtable_node_get p = 0 := hc
    cases fuel with
    | zero => rfl
    | succ f => simp [walk, hp]
  | cons i L ih =>
    intro fuel p hc hf
    obtain ⟨hp, n, hn, hrest⟩ := hc
    obtain ⟨f, rfl⟩ : ∃ f, fuel = f + 1 := ⟨fuel - 1, by simp at hf; omega⟩
    have h1 : nodeAddr i / 64 = i + 1 := by unfold nodeAddr; omega
    have h2 : nodeAddr i % 64 = 0 := by unfold nodeAddr; omega
    rw [walk]
    simp only [hp, h1, h2]
    simp only [Nat.add_one_ne_zero, ne_eq, not_true_eq_false, or_self, if_false,
      Nat.add_sub_cancel, hn]
    rw [ih f n.next hrest (by simp at hf; omega)]

theorem load_next_inv {s : hash_table_t} {q v : Nat} (h : load s (nodeAddr q + 24) = .ok v) :
    ∃ n, s.nodes[q]? = some (some n) ∧ n.next = v := by
  have h1 : (nodeAddr q + 24) / 64 = q + 1 := by unfold nodeAddr; omega
  have h2 : (nodeAddr q + 24) % 64 = 24 := by unfold nodeAddr; omega
  unfold load at h
  simp only [h1, h2, Nat.add_one_ne_zero, if_false, Nat.add_sub_cancel] at h
  cases hq : s.nodes[q]? with
  | none =>
    rw [hq] at h
    exact Except.noConfusion h
  | some o =>
    cases o with
    | none =>
      rw [hq] at h
      exact Except.noConfusion h
    | some n =>
      rw [hq] at h
      simp at h
      exact ⟨n, rfl, h⟩

theorem dir_load_ok {s : hash_table_t} {t b v : Nat} (h : dir_load s t b = .ok v) :
    t % 64 = 32 ∧ ∃ d, s.dirs[t / 64]? = some (some d) ∧ d[b]? = some v := by
  unfold dir_load at h
  by_cases ht : t % 64 = 32
  · refine ⟨ht, ?_⟩
    simp only [ht, ne_eq, not_true_eq_false, if_false] at h
    cases hq : s.dirs[t / 64]? with
    | none =>
      rw [hq] at h
      exact Except.noConfusion h
    | some o =>
      cases o with
      | none =>
        rw [hq] at h
        exact Except.noConfusion h
      | some d =>
        rw [hq] at h
        simp only [] at h
        cases hb : d[b]? with
        | none =>
          rw [hb] at h
          exact Except.noConfusion h
        | some w =>
          rw [hb] at h
          injection h with h
          subst h
          exact ⟨d, rfl, hb⟩
  · simp [ht] at h

theorem dir_load_dirs {s s' : hash_table_t} (h : s'.dirs = s.dirs) (t b : Nat) :
    dir_load s' t b = dir_load s t b := by
  unfold dir_load
  rw [h]

/-- A compare-and-swap on the `prev` cell of a walk, which holds the expected
value: it succeeds and changes nothing but this cell. -/
theorem cas_prev {s : hash_table_t} {prev : Slot} {old : Nat} (v : Nat)
    (hload : slot_load s prev = .ok old)
    (hform : (∃ b, prev = Slot.dir s.table b) ∨ (∃ q, prev = Slot.mem (nodeAddr q + 24))) :
    ∃ s2, hashtable_atomic_cas s prev old v = .ok (true, s2) ∧
      slot_load s2 prev = .ok v ∧ s2.table = s.table ∧ s2.nodes.length = s.nodes.length ∧
      (∀ k, prev ≠ Slot.mem (nodeAddr k + 24) → s2.nodes[k]? = s.nodes[k]?) ∧
      ((∀ b, prev ≠ Slot.dir s.table b) → s2.dirs = s.dirs) ∧
      (∀ k, codeAt s2.nodes k = codeAt s.nodes k ∧ keyAt s2.nodes k = keyAt s.nodes k ∧
        valueAt s2.nodes k = valueAt s.nodes k) := by
  rcases hform with ⟨b, rfl⟩ | ⟨q, rfl⟩
  · have hl : dir_load s s.table b = .ok old := hload
    obtain ⟨ht, d, hd, hb⟩ := dir_load_ok hl
    have hbl : b < d.length := getElem?_some_lt hb
    have hjl : s.table / 64 < s.dirs.length := getElem?_some_lt hd
    refine ⟨{ s with dirs := s.dirs.set (s.table / 64) (some (d.set b v)) }, ?_, ?_, rfl, rfl,
      fun _ _ => rfl, fun hne => absurd rfl (hne b), fun _ => ⟨rfl, rfl, rfl⟩⟩
    · unfold hashtable_atomic_cas
      rw [hload]
      simp only [if_true, slot_store, dir_store, ht, ne_eq, not_true_eq_false, if_false, hd, hbl]
    · show dir_load _ s.table b = .ok v
      unfold dir_load
      simp [ht, List.getElem?_set_self hjl, List.getElem?_set_self hbl]
  · have hl : load s (nodeAddr q + 24) = .ok old := hload
    obtain ⟨n, hn, hnx⟩ := load_next_inv hl
    have hql : q < s.nodes.length := getElem?_some_lt hn
    refine ⟨{ s with nodes := s.nodes.set q (some { n with next := v }) }, ?_, ?_, rfl, by simp,
      ?_, fun _ => rfl, fun k => ⟨codeAt_set_next hn v k, keyAt_set_next hn v k,
        valueAt_set_next hn v k⟩⟩
    · unfold hashtable_atomic_cas
      rw [hload]
      simp only [if_true, slot_store, store_next v hn]
    · show load _ (nodeAddr q + 24) = .ok v
      have : ({ s with nodes := s.nodes.set q (some { n with next := v }) } : hash_table_t).nodes[q]?
          = some (some { n with next := v }) := List.getElem?_set_self hql
      rw [load_next this]
    · intro k hk
      have hqk : q ≠ k := fun e => hk (by rw [e])
      exact List.getElem?_set_ne hqk

theorem unmask_next_field {current i : Nat} (h : hashtable_node_get current = nodeAddr i) :
    hashtable_hazard_ptr_unmask (current + 24) = nodeAddr i + 24 := by
  unfold hashtable_node_get nodeAddr at h
  unfold hashtable_hazard_ptr_unmask nodeAddr
  omega

theorem filter_unmarked_congr {nodes nodes' : List (Option hash_node_t)} (R : List Nat)
    (h : ∀ i ∈ R, nodes'[i]? = nodes[i]?) :
    R.filter (fun i => !isMarked nodes' i) = R.filter (fun i => !isMarked nodes i) := by
  apply List.filter_congr
  intro i hi
  unfold isMarked
  rw [h i hi]

/-- The loop of `hashtable_list_sweep` from the cell `prev`, which holds the
untagged address of the first node of the marked chain `R`: it returns, `prev`
then heads the chain of the unmarked nodes of `R`, all links of this chain are
untagged, and nothing else has changed but the `prev` cell and the `next`
fields of the nodes of `R`. -/
theorem sweep_loop_spec :
    ∀ (R : List Nat) (fuel : Nat) (s : hash_table_t) (prev : Slot) (current : Nat),
      MChain s.nodes (hashtable_node_get current) R →
      slot_load s prev = .ok (hashtable_node_get current) →
      ((∃ b, prev = Slot.dir s.table b) ∨ (∃ q, prev = Slot.mem (nodeAddr q + 24))) →
      (∀ i ∈ R, prev ≠ Slot.mem (nodeAddr i + 24)) →
      R.length < fuel →
      ∃ s', list_sweep_loop fuel s prev current = .ok s' ∧
        slot_load s' prev = .ok (headPtr (R.filter (fun i => !isMarked s.nodes i))) ∧
        Chain s'.nodes (headPtr (R.filter (fun i => !isMarked s.nodes i)))
          (R.filter (fun i => !isMarked s.nodes i)) ∧
        s'.table = s.table ∧ s'.nodes.length = s.nodes.length ∧
        (∀ k, k ∉ R → prev ≠ Slot.mem (nodeAddr k + 24) → s'.nodes[k]? = s.nodes[k]?) ∧
        ((∀ b, prev ≠ Slot.dir s.table b) → s'.dirs = s.dirs) ∧
        (∀ k, codeAt s'.nodes k = codeAt s.nodes k ∧ keyAt s'.nodes k = keyAt s.nodes k ∧
          valueAt s'.nodes k = valueAt s.nodes k) := by
  intro R
  induction R with
  | nil =>
    intro fuel s prev current hc hload _ _ hf
    have hp : hashtable_node_get current = 0 := hc
    obtain ⟨f, rfl⟩ : ∃ f, fuel = f + 1 := ⟨fuel - 1, by simp at hf; omega⟩
    refine ⟨s, ?_, ?_, ?_, rfl, rfl, fun _ _ _ => rfl, fun _ => rfl, fun _ => ⟨rfl, rfl, rfl⟩⟩
    · rw [list_sweep_loop]
      simp [hp]
    · rw [hload, hp]
      rfl
    · exact (rfl : (0 : Nat) = 0)
  | cons i R ih =>
    intro fuel s prev current hc hload hform hnot hf
    have hnd := mchain_nodup (i :: R) _ hc
    have hiR : i ∉ R := (List.nodup_cons.1 hnd).1
    obtain ⟨hp, n, hn, hrest⟩ := hc
    obtain ⟨f, rfl⟩ : ∃ f, fuel = f + 1 := ⟨fuel - 1, by simp at hf; omega⟩
    have hfR : R.length < f := by simp at hf; omega
    have hne0 : hashtable_node_get current ≠ 0 := by rw [hp]; exact nodeAddr_ne_zero i
    have hgm : hashtable_hazard_ptr_get_with_mask s (current + 24) 0
        = .ok (n.next, hashtable_hazard_ptr_set_with_mask s n.next 0) := by
      unfold hashtable_hazard_ptr_get_with_mask
      rw [unmask_next_field hp, load_next hn]
    have hslot1 : slot_load (hashtable_hazard_ptr_set_with_mask s n.next 0) prev
        = .ok (hashtable_node_get current) := by
      rw [← hload]
      exact slot_load_hazard s _ prev
    have hprevi : prev ≠ Slot.mem (nodeAddr i + 24) := hnot i (List.mem_cons_self _ _)
    have hcell : ∀ k, k ≠ i → Slot.mem (nodeAddr i + 24) ≠ Slot.mem (nodeAddr k + 24) := by
      intro k hk e
      injection e with e
      exact hk (nodeAddr_inj (by omega)).symm
    by_cases hbit : hashtable_node_bit n.next = 0
    · -- the node is not marked: the walk moves on
      have him : isMarked s.nodes i = false := by simp [isMarked, hn, hbit]
      have hnext : hashtable_node_get n.next = n.next := by
        unfold hashtable_node_bit at hbit
        unfold hashtable_node_get
        omega
      have hload2 : slot_load (hashtable_hazard_ptr_set_with_mask
          (hashtable_hazard_ptr_set_with_mask (hashtable_hazard_ptr_set_with_mask s n.next 0)
            current 2) n.next 1) (Slot.mem (nodeAddr i + 24))
          = .ok (hashtable_node_get n.next) := by
        rw [hnext]
        exact load_next (s := hashtable_hazard_ptr_set_with_mask
          (hashtable_hazard_ptr_set_with_mask (hashtable_hazard_ptr_set_with_mask s n.next 0)
            current 2) n.next 1) hn
      obtain ⟨s', hrun', hload', hchain', htab', hlen', hfr', hdirs', hfld'⟩ :=
        ih f (hashtable_hazard_ptr_set_with_mask
          (hashtable_hazard_ptr_set_with_mask (hashtable_hazard_ptr_set_with_mask s n.next 0)
            current 2) n.next 1) (Slot.mem (nodeAddr i + 24)) n.next hrest hload2 (Or.inr ⟨i, rfl⟩)
          (fun k hk => hcell k (fun e => hiR (e ▸ hk))) hfR
      have hfilter : (i :: R).filter (fun i => !isMarked s.nodes i)
          = i :: R.filter (fun i => !isMarked s.nodes i) := by
        rw [List.filter_cons_of_pos (by simp [him])]
      have hdirs0 : s'.dirs = s.dirs := hdirs' (fun b e => Slot.noConfusion e)
      obtain ⟨n', hn', hnx'⟩ := load_next_inv hload'
      refine ⟨s', ?_, ?_, ?_, htab', hlen', ?_, fun _ => hdirs0, hfld'⟩
      · rw [list_sweep_loop]
        simp only [hne0, if_false, hgm, hslot1, node_make_zero, ne_eq, not_true_eq_false, hbit,
          if_true, hp, nodeAddr_ne_zero]
        exact hrun'
      · rw [hfilter]
        show slot_load s' prev = .ok (nodeAddr i)
        rw [← hp, ← hload]
        rcases hform with ⟨b, rfl⟩ | ⟨q, rfl⟩
        · exact dir_load_dirs hdirs0 _ _
        · have hl : load s (nodeAddr q + 24) = .ok (hashtable_node_get current) := hload
          obtain ⟨nq, hnq, hnqx⟩ := load_next_inv hl
          have hqi : q ≠ i := fun e => hprevi (by rw [e])
          have hqR : q ∉ R := fun hq => hnot q (List.mem_cons_of_mem _ hq) rfl
          have e : s'.nodes[q]? = some (some nq) := by
            rw [hfr' q hqR (hcell q hqi)]
            exact hnq
          show load s' _ = load s _
          rw [load_next e, load_next hnq]
      · rw [hfilter]
        exact ⟨rfl, n', hn', by rw [hnx']; exact hchain'⟩
      · intro k hk hpk
        have hki : k ≠ i := fun e => hk (e ▸ List.mem_cons_self _ _)
        have hkR : k ∉ R := fun h => hk (List.mem_cons_of_mem _ h)
        exact hfr' k hkR (hcell k hki)
    · -- the node is marked: it is unlinked from `prev`
      have him : isMarked s.nodes i = true := by
        have : hashtable_node_bit n.next = 1 := by
          unfold hashtable_node_bit at hbit ⊢
          omega
        simp [isMarked, hn, this]
      obtain ⟨s2, hcas, hload2, htab2, hlen2, hfr2, hdirs2, hfld2⟩ :=
        cas_prev (s := hashtable_hazard_ptr_set_with_mask s n.next 0)
          (hashtable_node_get n.next) hslot1 hform
      have hdestroy : hashtable_node_destroy (hashtable_node_get current) = .ok () := by
        unfold hashtable_node_destroy hashtable_node_bit
        rw [hp]
        have : nodeAddr i % 2 = 0 := by unfold nodeAddr; omega
        simp [this]
      have hnodesR : ∀ k ∈ R, (hashtable_hazard_ptr_set_with_mask s2 n.next 1).nodes[k]?
          = s.nodes[k]? :=
        fun k hk => hfr2 k (hnot k (List.mem_cons_of_mem _ hk))
      have hload3 : slot_load (hashtable_hazard_ptr_set_with_mask s2 n.next 1) prev
          = .ok (hashtable_node_get n.next) := by
        rw [← hload2]
        exact slot_load_hazard s2 _ prev
      have hform3 : (∃ b, prev = Slot.dir (hashtable_hazard_ptr_set_with_mask s2 n.next 1).table b)
          ∨ (∃ q, prev = Slot.mem (nodeAddr q + 24)) := by
        rcases hform with ⟨b, hb⟩ | hq
        · exact Or.inl ⟨b, by rw [hb]; show _ = Slot.dir s2.table b; rw [htab2]; rfl⟩
        · exact Or.inr hq
      obtain ⟨s', hrun', hload', hchain', htab', hlen', hfr', hdirs', hfld'⟩ :=
        ih f (hashtable_hazard_ptr_set_with_mask s2 n.next 1) prev n.next
          (mchain_congr R _ hnodesR hrest) hload3 hform3
          (fun k hk => hnot k (List.mem_cons_of_mem _ hk)) hfR
      have hfilter : (i :: R).filter (fun i => !isMarked s.nodes i)
          = R.filter (fun i => !isMarked (hashtable_hazard_ptr_set_with_mask s2 n.next 1).nodes i) := by
        rw [List.filter_cons_of_neg (by simp [him])]
        exact (filter_unmarked_congr R hnodesR).symm
      refine ⟨s', ?_, ?_, ?_, ?_, ?_, ?_, ?_, ?_⟩
      · rw [list_sweep_loop]
        simp only [hne0, if_false, hgm, hslot1, node_make_zero, ne_eq, not_true_eq_false, hbit,
          hcas, hdestroy, nodeAddr_ne_zero]
        exact hrun'
      · rw [hfilter]; exact hload'
      · rw [hfilter]; exact hchain'
      · rw [htab']; exact htab2
      · rw [hlen']; exact hlen2
      · intro k hk hpk
        have hkR : k ∉ R := fun h => hk (List.mem_cons_of_mem _ h)
        rw [hfr' k hkR hpk]
        exact hfr2 k hpk
      · intro hb
        have hb2 : ∀ b, prev ≠ Slot.dir (hashtable_hazard_ptr_set_with_mask s2 n.next 1).table b := by
          intro b
          show prev ≠ Slot.dir s2.table b
          rw [htab2]
          exact hb b
        rw [hdirs' hb2]
        exact hdirs2 hb
      · intro k
        obtain ⟨a1, a2, a3⟩ := hfld' k
        obtain ⟨b1, b2, b3⟩ := hfld2 k
        exact ⟨a1.trans b1, a2.trans b2, a3.trans b3⟩

/-- C26: in every table whose directory pointer is valid and whose slot 0 heads
a `NULL`-terminated list `L` of allocated nodes, any number of which are marked
deleted, `hashtable_list_sweep` returns; afterwards the nodes reachable from
slot 0 are the unmarked nodes of `L` in the same order, none of them is marked,
and no code, key or value has changed. -/
theorem sweep_removes_marked (s : hash_table_t) (j : Nat) (d L : List Nat) (fuel : Nat)
    (ht : s.table = dirAddr j) (hdj : s.dirs[j]? = some (some d))
    (hhead : d[0]? = some (headPtr L)) (hchain : MChain s.nodes (headPtr L) L)
    (hfuel : L.length < fuel) :
    ∃ s', hashtable_list_sweep fuel s = .ok s' ∧ reachable s = L ∧
      reachable s' = (reachable s).filter (fun i => !isMarked s.nodes i) ∧
      (∀ i ∈ reachable s', isMarked s'.nodes i = false) ∧
      (∀ k, codeAt s'.nodes k = codeAt s.nodes k ∧ keyAt s'.nodes k = keyAt s.nodes k ∧
        valueAt s'.nodes k = valueAt s.nodes k) := by
  have hreach : reachable s = L := by
    unfold reachable slotOf
    rw [ht, dirAddr_div, hdj]
    simp only [List.getD_eq_getElem?_getD, hhead, Option.getD_some]
    exact walk_mchain L _ _ (by rw [headPtr_even]; exact hchain) (mchain_length_le hchain)
  have hdl : dir_load (hashtable_hazard_ptr_set s s.table 0) s.table 0 = .ok (headPtr L) := by
    unfold dir_load
    simp [hashtable_hazard_ptr_set, ht, dirAddr_mod, dirAddr_div, hdj, hhead]
  have hentry : list_find_entry s 0 = .ok (hashtable_hazard_ptr_set
      (hashtable_hazard_ptr_set s s.table 0) (headPtr L) 1, Slot.dir s.table 0, headPtr L) := by
    unfold list_find_entry
    simp only [slot_load, hdl]
  obtain ⟨s', hrun, hload', hchain', htab', hlen', _, _, hfld'⟩ :=
    sweep_loop_spec L fuel
      (hashtable_hazard_ptr_set (hashtable_hazard_ptr_set s s.table 0) (headPtr L) 1)
      (Slot.dir s.table 0) (headPtr L)
      (by rw [headPtr_even]; exact hchain)
      (by rw [headPtr_even]; exact hdl)
      (Or.inl ⟨0, rfl⟩) (fun _ _ e => Slot.noConfusion e) hfuel
  have hK : (L.filter (fun i =>
      !isMarked (hashtable_hazard_ptr_set (hashtable_hazard_ptr_set s s.table 0)
        (headPtr L) 1).nodes i)) = L.filter (fun i => !isMarked s.nodes i) := rfl
  rw [hK] at hload' hchain'
  have hreach' : reachable s' = L.filter (fun i => !isMarked s.nodes i) := by
    have hl : dir_load s' s.table 0 = .ok (headPtr (L.filter (fun i => !isMarked s.nodes i))) :=
      hload'
    obtain ⟨_, d', hd', h0⟩ := dir_load_ok hl
    have htab : s'.table = s.table := htab'
    unfold reachable slotOf
    rw [htab, hd']
    simp only [List.getD_eq_getElem?_getD, h0, Option.getD_some]
    apply walk_chain _ _ _ hchain'
    have h1 := mchain_length_le hchain
    have h2 := List.length_filter_le (fun i => !isMarked s.nodes i) L
    have h3 : s'.nodes.length = s.nodes.length := hlen'
    omega
  refine ⟨s', ?_, hreach, by rw [hreach', hreach], ?_, hfld'⟩
  · unfold hashtable_list_sweep
    rw [hentry]
    exact hrun
  · intro i hi
    rw [hreach'] at hi
    obtain ⟨n, hn⟩ := seg_alloc _ _ _ hchain' i hi
    have := chain_next_bit _ _ hchain' i hi n hn
    simp [isMarked, hn, this]

/-- Witness of C26: the table `marked_both16`, whose last two nodes (the nodes
of the keys 21 and 5) are marked, one after the other. -/
theorem sweep_removes_marked_witness :
    marked_both16.table = dirAddr 0 ∧
    marked_both16.dirs[0]? = some (some
      (nodeAddr 0 :: nodeAddr 2 :: 0 :: 0 :: 0 :: nodeAddr 3 :: List.replicate 10 0)) ∧
    (nodeAddr 0 :: nodeAddr 2 :: 0 :: 0 :: 0 :: nodeAddr 3 :: List.replicate 10 0)[0]?
      = some (headPtr [0, 2, 3, 4, 1]) ∧
    MChain marked_both16.nodes (headPtr [0, 2, 3, 4, 1]) [0, 2, 3, 4, 1] ∧
    [0, 2, 3, 4, 1].length < 100 ∧
    ∃ s', hashtable_list_sweep 100 marked_both16 = .ok s' ∧
      reachable marked_both16 = [0, 2, 3, 4, 1] ∧
      reachable s' = (reachable marked_both16).filter (fun i => !isMarked marked_both16.nodes i) ∧
      (∀ i ∈ reachable s', isMarked s'.nodes i = false) ∧
      (∀ k, codeAt s'.nodes k = codeAt marked_both16.nodes k ∧
        keyAt s'.nodes k = keyAt marked_both16.nodes k ∧
        valueAt s'.nodes k = valueAt marked_both16.nodes k) :=
  ⟨by rfl, by rfl, by rfl,
    ⟨rfl, ⟨0, 0, 0, 192⟩, by rfl, rfl, ⟨2147483648, 1, 0, 256⟩, by rfl, rfl,
      ⟨2684354560, 5, 0, 320⟩, by rfl, rfl, ⟨2715758943, 21, 210, 129⟩, by rfl, rfl,
      ⟨2919672041, 5, 50, 1⟩, by rfl, rfl⟩,
    by decide,
    sweep_removes_marked marked_both16 0 _ [0, 2, 3, 4, 1] 100 (by rfl) (by rfl) (by rfl)
      ⟨rfl, ⟨0, 0, 0, 192⟩, by rfl, rfl, ⟨2147483648, 1, 0, 256⟩, by rfl, rfl,
        ⟨2684354560, 5, 0, 320⟩, by rfl, rfl, ⟨2715758943, 21, 210, 129⟩, by rfl, rfl,
        ⟨2919672041, 5, 50, 1⟩, by rfl, rfl⟩
      (by decide)⟩

/-! # The parent loop at bucket 0 -/

/-- C31, failing input: bucket 0.  No round `i = 31, ..., 0` of the loop of
`hashtable_bucket_parent` finds a set bit; the index is a `size_t`, so the test
`i >= 0` holds after the round `i = 0` too, and the function does not reach its
`return 0`: the next round shifts the `int` 1 by `2^64 - 1` places.  For every
other word the function returns. -/
theorem parent_of_zero_wraps :
    hashtable_bucket_parent 0 = .error .ub ∧
    (∀ i, i ≤ 31 → 0 &&& int_shl_one i = 0) ∧
    ∀ b, 0 < b → b < WORD → ∃ p, hashtable_bucket_parent b = .ok p := by
  refine ⟨by simp [hashtable_bucket_parent, bucket_parent_from], fun i _ => Nat.zero_and _, ?_⟩
  intro b hb hw
  obtain ⟨p, hp, _⟩ := bucket_parent_ok b hb hw
  exact ⟨p, hp⟩

/-! # The reference bit reversal -/

theorem foldl_range_succ {α : Type} (f : α → Nat → α) (a : α) (n : Nat) :
    (List.range (n + 1)).foldl f a = f ((List.range n).foldl f a) n := by
  rw [List.range_succ, List.foldl_append]
  rfl

theorem ref_round_term_testBit {k : Nat} (hk : k < 2 ^ 32) (n : Nat) (hn : n ≤ 31) (j : Nat) :
    ((((k &&& int_shl_one n) >>> n) <<< (31 - n)) % WORD).testBit j
      = (decide (j = 31 - n) && k.testBit n) := by
  have hW : WORD = 2 ^ 64 := rfl
  rw [hW, Nat.testBit_mod_two_pow, Nat.testBit_shiftLeft, Nat.testBit_shiftRight,
    Nat.testBit_and]
  by_cases hn31 : n < 31
  · rw [shl_one_testBit_low n hn31]
    by_cases hj : j = 31 - n
    · subst hj
      have e1 : 31 - n < 64 := by omega
      have e2 : 31 - n ≥ 31 - n := le_refl _
      have e3 : n + (31 - n - (31 - n)) = n := by omega
      simp [e1, e3]
    · by_cases hge : j ≥ 31 - n
      · have e3 : ¬ (n = n + (j - (31 - n))) := by omega
        simp [hj, e3]
      · simp [hj, hge]
  · have hn' : n = 31 := by omega
    subst hn'
    rw [shl_one_31_testBit]
    by_cases hj : j = 0
    · subst hj
      simp
    · have hgt : k < 2 ^ (31 + j) :=
        lt_of_lt_of_le hk (Nat.pow_le_pow_right (by norm_num) (by omega))
      simp [Nat.testBit_lt_two_pow hgt, hj]

theorem ref_fold_testBit {k : Nat} (hk : k < 2 ^ 32) :
    ∀ n, n ≤ 32 → ∀ j,
      ((List.range n).foldl (rvalue_ref_round WORD int_shl_one k) 0).testBit j
        = (decide (31 < j + n ∧ j ≤ 31) && k.testBit (31 - j)) := by
  intro n
  induction n with
  | zero =>
    intro _ j
    have : ¬ (31 < j + 0 ∧ j ≤ 31) := by omega
    simp [this]
  | succ n ih =>
    intro hn j
    rw [foldl_range_succ, rvalue_ref_round, Nat.testBit_or, ih (by omega) j,
      ref_round_term_testBit hk n (by omega) j]
    by_cases hj : j = 31 - n
    · subst hj
      have e1 : ¬ (31 < 31 - n + n ∧ 31 - n ≤ 31) := by omega
      have e2 : 31 < 31 - n + (n + 1) ∧ 31 - n ≤ 31 := by omega
      have e3 : 31 - (31 - n) = n := by omega
      simp [e1, e2, e3]
    · by_cases hc : 31 < j + n ∧ j ≤ 31
      · have e2 : 31 < j + (n + 1) ∧ j ≤ 31 := by omega
        simp [hc, e2, hj]
      · have e2 : ¬ (31 < j + (n + 1) ∧ j ≤ 31) := by omega
        simp [hc, e2, hj]

theorem rvalue_ref_testBit {k : Nat} (hk : k < 2 ^ 32) (j : Nat) :
    (hashtable_rvalue_ref k).testBit j = (decide (j < 32) && k.testBit (31 - j)) := by
  unfold hashtable_rvalue_ref
  rw [ref_fold_testBit hk 32 (le_refl _) j]
  by_cases hj : j < 32
  · have : 31 < j + 32 ∧ j ≤ 31 := by omega
    simp [hj, this]
  · have : ¬ (31 < j + 32 ∧ j ≤ 31) := by omega
    have h2 : ¬ (j ≤ 31) := by omega
    simp [hj, h2]

theorem rvalue_involutive {k : Nat} (hk : k < 2 ^ 32) :
    hashtable_rvalue (hashtable_rvalue k) = k := by
  apply Nat.eq_of_testBit_eq
  intro j
  rw [rvalue_testBit, rvalue_testBit]
  by_cases hj : j < 32
  · have e1 : 31 - j < 32 := by omega
    have e2 : 31 - (31 - j) = j := by omega
    simp [hj, e1, e2]
  · have : k < 2 ^ j := lt_of_lt_of_le hk (Nat.pow_le_pow_right (by norm_num) (by omega))
    simp [hj, Nat.testBit_lt_two_pow this]

/-- C32: with the 64-bit `byte()`, for every word `k` the value of
`hashtable_rvalue` is the value of the reference loop of lines 106-110 on the
low 32 bits of `k`; bit `i` of `k` is bit `31 - i` of the result for `i < 32`;
the result is below `2^32`; and for `k < 2^32` reversing twice gives `k`. -/
theorem rvalue_refines_reference (k : Nat) :
    hashtable_rvalue k = hashtable_rvalue_ref (k % 2 ^ 32) ∧
    (∀ i, i < 32 → (hashtable_rvalue k).testBit (31 - i) = k.testBit i) ∧
    hashtable_rvalue k < 2 ^ 32 ∧
    (k < 2 ^ 32 → hashtable_rvalue (hashtable_rvalue k) = k) := by
  refine ⟨?_, ?_, rvalue_lt k, fun hk => rvalue_involutive hk⟩
  · apply Nat.eq_of_testBit_eq
    intro j
    rw [rvalue_testBit, rvalue_ref_testBit (Nat.mod_lt _ (by norm_num)),
      Nat.testBit_mod_two_pow]
    by_cases hj : j < 32
    · have : 31 - j < 32 := by omega
      simp [hj, this]
    · simp [hj]
  · intro i hi
    rw [rvalue_testBit]
    have e1 : 31 - i < 32 := by omega
    have e2 : 31 - (31 - i) = i := by omega
    simp [e1, e2]

/-- Witness of C32: the word `0x12345678`. -/
theorem rvalue_refines_reference_witness :
    (0x12345678 : Nat) < 2 ^ 32 ∧
    (hashtable_rvalue 0x12345678 = hashtable_rvalue_ref (0x12345678 % 2 ^ 32) ∧
    (∀ i, i < 32 → (hashtable_rvalue 0x12345678).testBit (31 - i) = Nat.testBit 0x12345678 i) ∧
    hashtable_rvalue 0x12345678 < 2 ^ 32 ∧
    ((0x12345678 : Nat) < 2 ^ 32 → hashtable_rvalue (hashtable_rvalue 0x12345678) = 0x12345678)) :=
  ⟨by decide, rvalue_refines_reference 0x12345678⟩

/-- C33, failing input: `k = 0x100`.  The 32-bit `byte()` of line 95 is not
reduced to 8 bits (`byte32 1 = 0x8080`), so in `hashtable_rvalue32` the bits 8-15
of the reversed second byte land on the bits 24-31 of the result: the result
is `0x80800000`, the bit reversal is `0x00800000`.  The low 8 bits of `byte32`
are those of the 64-bit `byte`. -/
theorem rvalue32_not_reversal :
    hashtable_rvalue32 0x100 = 0x80800000 ∧ hashtable_rvalue_ref32 0x100 = 0x00800000 ∧
    hashtable_rvalue 0x100 = 0x00800000 ∧ bit_reverse 32 0x100 = 0x00800000 ∧
    byte32 1 = 0x8080 ∧ (∀ b < 256, byte32 b % 256 = byte b) :=
  ⟨by decide, by decide, by decide, by decide, by decide, by decide⟩

/-! # Keys with the same split-order key -/

theorem regular_congr {h1 h2 : Nat} (h : h1 % 2 ^ 31 = h2 % 2 ^ 31) :
    hashtable_hash_key_regular h1 = hashtable_hash_key_regular h2 := by
  have h31 : (0x80000000 : Nat) = 2 ^ 31 := by norm_num
  apply Nat.eq_of_testBit_eq
  intro j
  unfold hashtable_hash_key_regular
  rw [rvalue_testBit, rvalue_testBit, Nat.testBit_or, Nat.testBit_or, h31, Nat.testBit_two_pow]
  by_cases hj : j < 32
  · by_cases h0 : j = 0
    · subst h0; simp
    · have hlt : 31 - j < 31 := by omega
      have e : h1.testBit (31 - j) = h2.testBit (31 - j) := by
        have a1 := Nat.testBit_mod_two_pow h1 31 (31 - j)
        have a2 := Nat.testBit_mod_two_pow h2 31 (31 - j)
        rw [h] at a1
        simp only [hlt, decide_True, Bool.true_and] at a1 a2
        rw [← a1, ← a2]
      simp [hj, e]
  · simp [hj]

/-- C34: on every reachable table of size at most `2^31` and for distinct
absent keys `k1`, `k2` whose hashes agree in their low 31 bits, the two keys
have the same split-order key; both inserts return true; afterwards each key is
found with its own value; and after deleting either of them the other one is
still found and the deleted one is not. -/
theorem equal_codes_coexist (s : hash_table_t) (hr : Reach s) (hsz : s.size ≤ 2 ^ 31)
    (k1 k2 v1 v2 fuel : Nat) (hk : k1 ≠ k2)
    (hh : hashtable_hash_key k1 % 2 ^ 31 = hashtable_hash_key k2 % 2 ^ 31)
    (h1 : lookup s k1 = none) (h2 : lookup s k2 = none) (hf : budget s ≤ fuel) :
    hashtable_hash_key_regular (hashtable_hash_key k1)
      = hashtable_hash_key_regular (hashtable_hash_key k2) ∧
    ∃ s1, hashtable_insert fuel s k1 v1 = .ok (true, s1) ∧
      ∀ f1, budget s1 ≤ f1 → ∃ s2, hashtable_insert f1 s1 k2 v2 = .ok (true, s2) ∧
        ∀ f2, budget s2 ≤ f2 →
          (∃ t, hashtable_find f2 s2 k1 = .ok (v1, t)) ∧
          (∃ t, hashtable_find f2 s2 k2 = .ok (v2, t)) ∧
          (∃ s3, hashtable_delete f2 s2 k1 = .ok (v1, s3) ∧
            ∀ f3, budget s3 ≤ f3 → (∃ t, hashtable_find f3 s3 k2 = .ok (v2, t)) ∧
              ∃ t, hashtable_find f3 s3 k1 = .ok (0, t)) ∧
          (∃ s3, hashtable_delete f2 s2 k2 = .ok (v2, s3) ∧
            ∀ f3, budget s3 ≤ f3 → (∃ t, hashtable_find f3 s3 k1 = .ok (v1, t)) ∧
              ∃ t, hashtable_find f3 s3 k2 = .ok (0, t)) := by
  refine ⟨regular_congr hh, ?_⟩
  obtain ⟨d, L, h⟩ := reach_inv hr
  have hfind : ∀ {t : hash_table_t} {dt Lt : List Nat} (ht : Inv t dt Lt) (f key : Nat),
      budget t ≤ f → ∃ t', hashtable_find f t key = .ok ((lookup t key).getD 0, t') := by
    intro t dt Lt ht f key hb
    obtain ⟨t', _, _, hrun, _⟩ := find_spec ht.toInvL f key
      (by have := ht.budget_ok hb; omega) (Or.inl ht.pow2)
    exact ⟨t', hrun⟩
  rcases insert_spec h fuel k1 v1 (h.budget_ok hf) with ⟨_, _, h60, _⟩ |
    ⟨s1, d1, L1, hrun1, hI1, _, hnew1, _, _⟩
  · rw [h60] at hsz
    exact absurd hsz (by norm_num)
  obtain ⟨hl1, hoth1, _, hsize1⟩ := hnew1 h1
  have hs1 : s1.size ≤ 2 ^ 32 := by
    rw [hsize1]
    split <;> omega
  refine ⟨s1, by rw [hrun1]; simp [h1], ?_⟩
  intro f1 hf1
  have h2' : lookup s1 k2 = none := by rw [hoth1 k2 (fun e => hk e.symm)]; exact h2
  rcases insert_spec hI1 f1 k2 v2 (hI1.budget_ok hf1) with ⟨_, _, h60, _⟩ |
    ⟨s2, d2, L2, hrun2, hI2, _, hnew2, _, _⟩
  · rw [h60] at hs1
    exact absurd hs1 (by norm_num)
  obtain ⟨hl2, hoth2, _, _⟩ := hnew2 h2'
  have hl21 : lookup s2 k1 = some v1 := by rw [hoth2 k1 hk]; exact hl1
  refine ⟨s2, by rw [hrun2]; simp [h2'], ?_⟩
  intro f2 hf2
  refine ⟨?_, ?_, ?_, ?_⟩
  · obtain ⟨t, ht⟩ := hfind hI2 f2 k1 hf2
    exact ⟨t, by rw [ht, hl21]; rfl⟩
  · obtain ⟨t, ht⟩ := hfind hI2 f2 k2 hf2
    exact ⟨t, by rw [ht, hl2]; rfl⟩
  · obtain ⟨s3, d3, L3, hrun3, hI3, _, _, hgone, hoth3, _⟩ := delete_spec hI2 f2 k1
      (by have := hI2.budget_ok hf2; omega)
    refine ⟨s3, by rw [hrun3, hl21]; rfl, ?_⟩
    intro f3 hf3
    constructor
    · obtain ⟨t, ht⟩ := hfind hI3 f3 k2 hf3
      exact ⟨t, by rw [ht, hoth3 k2 (fun e => hk e.symm), hl2]; rfl⟩
    · obtain ⟨t, ht⟩ := hfind hI3 f3 k1 hf3
      exact ⟨t, by rw [ht, hgone]; rfl⟩
  · obtain ⟨s3, d3, L3, hrun3, hI3, _, _, hgone, hoth3, _⟩ := delete_spec hI2 f2 k2
      (by have := hI2.budget_ok hf2; omega)
    refine ⟨s3, by rw [hrun3, hl2]; rfl, ?_⟩
    intro f3 hf3
    constructor
    · obtain ⟨t, ht⟩ := hfind hI3 f3 k1 hf3
      exact ⟨t, by rw [ht, hoth3 k1 hk, hl21]; rfl⟩
    · obtain ⟨t, ht⟩ := hfind hI3 f3 k2 hf3
      exact ⟨t, by rw [ht, hgone]; rfl⟩

/-- Witness of C34 on a fresh table of size 16: the keys 5 and `5 + 2^31`. -/
theorem equal_codes_coexist_witness :
    Reach (fresh16 false) ∧ (fresh16 false).size ≤ 2 ^ 31 ∧ (5 : Nat) ≠ 5 + 2 ^ 31 ∧
    hashtable_hash_key 5 % 2 ^ 31 = hashtable_hash_key (5 + 2 ^ 31) % 2 ^ 31 ∧
    lookup (fresh16 false) 5 = none ∧ lookup (fresh16 false) (5 + 2 ^ 31) = none ∧
    budget (fresh16 false) ≤ 100 ∧
    (hashtable_hash_key_regular (hashtable_hash_key 5)
      = hashtable_hash_key_regular (hashtable_hash_key (5 + 2 ^ 31)) ∧
    ∃ s1, hashtable_insert 100 (fresh16 false) 5 50 = .ok (true, s1) ∧
      ∀ f1, budget s1 ≤ f1 → ∃ s2, hashtable_insert f1 s1 (5 + 2 ^ 31) 70 = .ok (true, s2) ∧
        ∀ f2, budget s2 ≤ f2 →
          (∃ t, hashtable_find f2 s2 5 = .ok (50, t)) ∧
          (∃ t, hashtable_find f2 s2 (5 + 2 ^ 31) = .ok (70, t)) ∧
          (∃ s3, hashtable_delete f2 s2 5 = .ok (50, s3) ∧
            ∀ f3, budget s3 ≤ f3 → (∃ t, hashtable_find f3 s3 (5 + 2 ^ 31) = .ok (70, t)) ∧
              ∃ t, hashtable_find f3 s3 5 = .ok (0, t)) ∧
          (∃ s3, hashtable_delete f2 s2 (5 + 2 ^ 31) = .ok (70, s3) ∧
            ∀ f3, budget s3 ≤ f3 → (∃ t, hashtable_find f3 s3 5 = .ok (50, t)) ∧
              ∃ t, hashtable_find f3 s3 (5 + 2 ^ 31) = .ok (0, t))) :=
  ⟨reach_fresh16 false, by decide, by decide, by decide, by decide, by decide, by decide,
    equal_codes_coexist (fresh16 false) (reach_fresh16 false) (by decide) 5 (5 + 2 ^ 31) 50 70 100
      (by decide) (by decide) (by decide) (by decide) (by decide)⟩

/-! # `hashtable_find` does not change the data -/

/-- C38: on every reachable table `hashtable_find` returns; the size, the
count, the directory pointer and the flag are unchanged; the data nodes of the
list are the same and every node that existed keeps its code, key and value, so
that every lookup gives what it gave; every node of the list stays in the list,
and a node that is new in the list is a sentinel allocated by the call; and a
directory slot that was set holds the same pointer. -/
theorem find_read_only (s : hash_table_t) (hr : Reach s) (key fuel : Nat)
    (hf : budget s ≤ fuel) :
    ∃ r s', hashtable_find fuel s key = .ok (r, s') ∧
      s'.size = s.size ∧ s'.count = s.count ∧ s'.table = s.table ∧ s'.lvalue = s.lvalue ∧
      (∀ j, (j ∈ reachable s' ∧ isData s'.nodes j = true) ↔
        (j ∈ reachable s ∧ isData s.nodes j = true)) ∧
      (∀ j, j < s.nodes.length → codeAt s'.nodes j = codeAt s.nodes j ∧
        keyAt s'.nodes j = keyAt s.nodes j ∧ valueAt s'.nodes j = valueAt s.nodes j) ∧
      (∀ k, lookup s' k = lookup s k) ∧
      (∀ j ∈ reachable s, j ∈ reachable s') ∧
      (∀ j ∈ reachable s', j ∉ reachable s →
        isData s'.nodes j = false ∧ s.nodes.length ≤ j) ∧
      (∀ b, slotOf s b ≠ 0 → slotOf s' b = slotOf s b) := by
  obtain ⟨d, L, h⟩ := reach_inv hr
  have hI := h.toInvL
  obtain ⟨s', d', L', hrun, hI', hG, hK⟩ := find_spec hI fuel key
    (by have := h.budget_ok hf; omega) (Or.inl h.pow2)
  obtain ⟨S, hperm, hS⟩ := hG.perm
  refine ⟨_, s', hrun, hG.size, hG.count, hG.table, hG.lvalue, ?_, hG.fields,
    fun k => hG.lookup_eq hI hI' k, ?_, ?_, fun b hb => hK.slot_kept hI hI' hb⟩
  · intro j
    rw [hI'.reachable_eq, hI.reachable_eq]
    constructor
    · rintro ⟨hj, hd⟩
      rcases List.mem_append.1 (hperm.subset hj) with hjS | hjL
      · have := (hS j hjS).1
        simp [isData, this] at hd
      · refine ⟨hjL, ?_⟩
        unfold isData at hd ⊢
        rw [(hG.fields j (hI.lt_length j hjL)).1] at hd
        exact hd
    · rintro ⟨hj, hd⟩
      refine ⟨hperm.symm.subset (List.mem_append_right _ hj), ?_⟩
      unfold isData at hd ⊢
      rw [(hG.fields j (hI.lt_length j hj)).1]
      exact hd
  · intro j hj
    rw [hI.reachable_eq] at hj
    rw [hI'.reachable_eq]
    exact hperm.symm.subset (List.mem_append_right _ hj)
  · intro j hj hnj
    rw [hI'.reachable_eq] at hj
    rw [hI.reachable_eq] at hnj
    rcases List.mem_append.1 (hperm.subset hj) with hjS | hjL
    · have := hS j hjS
      exact ⟨by simp [isData, this.1], this.2⟩
    · exact absurd hjL hnj

/-- Witness of C38: a find of key 7 on the table holding the key 5, which
initialises the buckets 3 and 7. -/
theorem find_read_only_witness :
    Reach one16 ∧ budget one16 ≤ 100 ∧
    ∃ r s', hashtable_find 100 one16 7 = .ok (r, s') ∧
      s'.size = one16.size ∧ s'.count = one16.count ∧ s'.table = one16.table ∧
      s'.lvalue = one16.lvalue ∧
      (∀ j, (j ∈ reachable s' ∧ isData s'.nodes j = true) ↔
        (j ∈ reachable one16 ∧ isData one16.nodes j = true)) ∧
      (∀ j, j < one16.nodes.length → codeAt s'.nodes j = codeAt one16.nodes j ∧
        keyAt s'.nodes j = keyAt one16.nodes j ∧ valueAt s'.nodes j = valueAt one16.nodes j) ∧
      (∀ k, lookup s' k = lookup one16 k) ∧
      (∀ j ∈ reachable one16, j ∈ reachable s') ∧
      (∀ j ∈ reachable s', j ∉ reachable one16 →
        isData s'.nodes j = false ∧ one16.nodes.length ≤ j) ∧
      (∀ b, slotOf one16 b ≠ 0 → slotOf s' b = slotOf one16 b) :=
  ⟨reach_one16, by decide, find_read_only one16 reach_one16 7 100 (by decide)⟩

/-! # The assertion of `hashtable_node_destroy` -/

theorem node_destroy_get (m : Nat) :
    hashtable_node_destroy (hashtable_node_get m) = .ok () := by
  unfold hashtable_node_destroy hashtable_node_bit hashtable_node_get
  have : m / 2 * 2 % 2 = 0 := by omega
  simp [this]

theorem load_ne_abort (s : hash_table_t) (a : Nat) : load s a ≠ .error .abort := by
  unfold load
  repeat' split
  all_goals simp

theorem store_ne_abort (s : hash_table_t) (a v : Nat) : store s a v ≠ .error .abort := by
  unfold store
  repeat' split
  all_goals simp

theorem dir_load_ne_abort (s : hash_table_t) (t b : Nat) : dir_load s t b ≠ .error .abort := by
  unfold dir_load
  repeat' split
  all_goals simp

theorem dir_store_ne_abort (s : hash_table_t) (t b v : Nat) :
    dir_store s t b v ≠ .error .abort := by
  unfold dir_store
  repeat' split
  all_goals simp

theorem slot_load_ne_abort (s : hash_table_t) (p : Slot) : slot_load s p ≠ .error .abort := by
  cases p with
  | dir t b => exact dir_load_ne_abort s t b
  | mem a => exact load_ne_abort s a

theorem slot_store_ne_abort (s : hash_table_t) (p : Slot) (v : Nat) :
    slot_store s p v ≠ .error .abort := by
  cases p with
  | dir t b => exact dir_store_ne_abort s t b v
  | mem a => exact store_ne_abort s a v

theorem cas_ne_abort (s : hash_table_t) (p : Slot) (old new : Nat) :
    hashtable_atomic_cas s p old new ≠ .error .abort := by
  unfold hashtable_atomic_cas
  have h1 := slot_load_ne_abort s p
  have h2 := slot_store_ne_abort s p new
  repeat' split
  all_goals simp_all

theorem get_with_mask_ne_abort (s : hash_table_t) (p i : Nat) :
    hashtable_hazard_ptr_get_with_mask s p i ≠ .error .abort := by
  unfold hashtable_hazard_ptr_get_with_mask
  have h1 := load_ne_abort s (hashtable_hazard_ptr_unmask p)
  repeat' split
  all_goals simp_all

theorem get_current_ne_abort (s : hash_table_t) (i : Nat) :
    hashtable_hazard_ptr_get_current s i ≠ .error .abort := by
  unfold hashtable_hazard_ptr_get_current
  repeat' split
  all_goals simp

theorem list_find_entry_ne_abort (s : hash_table_t) (b : Nat) :
    list_find_entry s b ≠ .error .abort := by
  unfold list_find_entry
  have h1 := slot_load_ne_abort (hashtable_hazard_ptr_set s s.table 0) (Slot.dir s.table b)
  cases h : slot_load (hashtable_hazard_ptr_set s s.table 0) (Slot.dir s.table b) with
  | error e =>
    simp only [h]
    intro he
    injection he with he
    subst he
    exact h1 h
  | ok c =>
    simp only [h]
    exact fun e => Except.noConfusion e

theorem list_find_loop_ne_abort (bucket key code : Nat) :
    ∀ (fuel : Nat) (s : hash_table_t) (prev : Slot) (current : Nat),
      list_find_loop bucket key code fuel s prev current ≠ .error .abort := by
  intro fuel
  induction fuel with
  | zero => intro s prev current; simp [list_find_loop]
  | succ f ih =>
    intro s prev current
    rw [list_find_loop]
    repeat' split
    all_goals first
      | exact ih _ _ _
      | (simp; done)
      | (intro h
         injection h with h
         subst h
         first
           | exact absurd ‹hashtable_hazard_ptr_get_with_mask _ _ _ = _›
               (get_with_mask_ne_abort _ _ _)
           | exact absurd ‹load _ _ = _› (load_ne_abort _ _)
           | exact absurd ‹slot_load _ _ = _› (slot_load_ne_abort _ _)
           | exact absurd ‹list_find_entry _ _ = _› (list_find_entry_ne_abort _ _)
           | exact absurd ‹hashtable_atomic_cas _ _ _ _ = _› (cas_ne_abort _ _ _ _)
           | exact absurd ‹hashtable_node_destroy _ = _›
               (by rw [node_destroy_get]; exact fun e => Except.noConfusion e))

theorem list_find_ne_abort (fuel : Nat) (s : hash_table_t) (bucket key code : Nat) :
    hashtable_list_find fuel s bucket key code ≠ .error .abort := by
  unfold hashtable_list_find
  have h1 := list_find_entry_ne_abort s bucket
  split
  · simp_all
  · exact list_find_loop_ne_abort _ _ _ _ _ _ _

theorem list_sweep_loop_ne_abort :
    ∀ (fuel : Nat) (s : hash_table_t) (prev : Slot) (current : Nat),
      list_sweep_loop fuel s prev current ≠ .error .abort := by
  intro fuel
  induction fuel with
  | zero => intro s prev current; simp [list_sweep_loop]
  | succ f ih =>
    intro s prev current
    rw [list_sweep_loop]
    repeat' split
    all_goals first
      | exact ih _ _ _
      | (simp; done)
      | (intro h
         injection h with h
         subst h
         first
           | exact absurd ‹hashtable_hazard_ptr_get_with_mask _ _ _ = _›
               (get_with_mask_ne_abort _ _ _)
           | exact absurd ‹slot_load _ _ = _› (slot_load_ne_abort _ _)
           | exact absurd ‹list_find_entry _ _ = _› (list_find_entry_ne_abort _ _)
           | exact absurd ‹hashtable_atomic_cas _ _ _ _ = _› (cas_ne_abort _ _ _ _)
           | exact absurd ‹hashtable_node_destroy _ = _›
               (by rw [node_destroy_get]; exact fun e => Except.noConfusion e))

theorem list_sweep_ne_abort (fuel : Nat) (s : hash_table_t) :
    hashtable_list_sweep fuel s ≠ .error .abort := by
  unfold hashtable_list_sweep
  have h1 := list_find_entry_ne_abort s 0
  split
  · simp_all
  · exact list_sweep_loop_ne_abort _ _ _ _

theorem list_delete_loop_ne_abort (n bucket key code : Nat) :
    ∀ (fuel : Nat) (s : hash_table_t),
      list_delete_loop n bucket key code fuel s ≠ .error .abort := by
  intro fuel
  induction fuel with
  | zero => intro s; simp [list_delete_loop]
  | succ f ih =>
    intro s
    rw [list_delete_loop]
    repeat' split
    all_goals first
      | exact ih _
      | (simp; done)
      | (intro h
         injection h with h
         subst h
         first
           | exact absurd ‹hashtable_list_find _ _ _ _ _ = _› (list_find_ne_abort _ _ _ _ _)
           | exact absurd ‹load _ _ = _› (load_ne_abort _ _)
           | exact absurd ‹hashtable_hazard_ptr_get_current _ _ = _›
               (get_current_ne_abort _ _)
           | exact absurd ‹hashtable_atomic_cas _ _ _ _ = _› (cas_ne_abort _ _ _ _)
           | exact absurd ‹hashtable_node_destroy _ = _›
               (by rw [node_destroy_get]; exact fun e => Except.noConfusion e))

/-- C39: for every word `m`, `hashtable_node_destroy(hashtable_node_get(m))`
returns without aborting; and `hashtable_list_find`, `hashtable_list_sweep` and
`hashtable_list_delete`, the three callers, never abort, on any table and
whatever the marks of the nodes they unlink. -/
theorem unlink_never_aborts :
    (∀ m, hashtable_node_destroy (hashtable_node_get m) = .ok ()) ∧
    (∀ fuel s bucket key code, hashtable_list_find fuel s bucket key code ≠ .error .abort) ∧
    (∀ fuel s, hashtable_list_sweep fuel s ≠ .error .abort) ∧
    (∀ fuel s bucket key code, hashtable_list_delete fuel s bucket key code ≠ .error .abort) :=
  ⟨node_destroy_get, list_find_ne_abort, list_sweep_ne_abort,
    fun fuel s bucket key code => list_delete_loop_ne_abort fuel bucket key code fuel s⟩

/-! # A resize with a stale size -/

/-- C35: on every reachable table, `hashtable_resize` called with a stale size
(a size below the current one, sizes only grow) returns, and the size, the
directory pointer, every directory that existed (so every slot), the node
memory (so the list), the count and the flag are unchanged; the directory it
had allocated is freed again, and hazard slot 0 holds the directory pointer. -/
theorem stale_resize_noop (s : hash_table_t) (hr : Reach s) (size : Nat)
    (hlt : size < s.size) :
    ∃ s', hashtable_resize s size = .ok s' ∧
      s'.size = s.size ∧ s'.table = s.table ∧ s'.count = s.count ∧ s'.nodes = s.nodes ∧
      s'.lvalue = s.lvalue ∧ s'.dirs = s.dirs ++ [none] ∧
      (∀ b, slotOf s' b = slotOf s b) ∧ reachable s' = reachable s ∧
      s'.hazard = s.hazard.set 0 s.table := by
  obtain ⟨d, L, h⟩ := reach_inv hr
  have hI := h.toInvL
  obtain ⟨j, hj, hdj⟩ := hI.tbl
  have hjl : j < s.dirs.length := getElem?_some_lt hdj
  have hle := h.size_le
  have hw1 : size * 2 % WORD = 2 * size := by unfold WORD; omega
  have hw2 : 8 * (2 * size) % WORD / 8 = 2 * size := by unfold WORD; omega
  have hw3 : 8 * size % WORD / 8 = size := by unfold WORD; omega
  have hdl := hI.dlen
  have hdirs : ((s.dirs ++ [some (List.replicate (2 * size) 0)]).set s.dirs.length
      (some (List.take size d ++ List.drop size (List.replicate (2 * size) 0)))).set
        s.dirs.length none = s.dirs ++ [none] := by
    rw [set_length_append, set_length_append]
  have hrun : hashtable_resize s size
      = .ok { s with hazard := s.hazard.set 0 s.table, dirs := s.dirs ++ [none] } := by
    unfold hashtable_resize
    simp only [dir_calloc, hashtable_hazard_ptr_set, hw1, hw2]
    have hmc : dir_memcpy
        { s with hazard := s.hazard.set 0 s.table,
                 dirs := s.dirs ++ [some (List.replicate (2 * size) 0)] }
        (dirAddr s.dirs.length) s.table size
        = .ok { s with hazard := s.hazard.set 0 s.table,
                       dirs := (s.dirs ++ [some (List.replicate (2 * size) 0)]).set s.dirs.length
                         (some (List.take size d ++
                           List.drop size (List.replicate (2 * size) 0))) } := by
      unfold dir_memcpy
      have e1 : (s.dirs ++ [some (List.replicate (2 * size) 0)])[s.dirs.length]?
          = some (some (List.replicate (2 * size) 0)) := by simp
      have e2 : (s.dirs ++ [some (List.replicate (2 * size) 0)])[j]? = some (some d) := by
        rw [List.getElem?_append_left hjl]; exact hdj
      simp only [dirAddr_mod, hj, dirAddr_div, ne_eq, not_true_eq_false, or_self, if_false,
        e1, e2, hw3]
      have hc : size ≤ d.length ∧ size ≤ (List.replicate (2 * size) 0).length := by
        simp; omega
      rw [if_pos hc]
    have hsne : s.size ≠ size := by omega
    simp only [hmc, ne_eq, hsne, not_false_eq_true, if_true]
    unfold dir_free
    have e3 : ((s.dirs ++ [some (List.replicate (2 * size) 0)]).set s.dirs.length
        (some (List.take size d ++ List.drop size (List.replicate (2 * size) 0))))[s.dirs.length]?
        = some (some (List.take size d ++ List.drop size (List.replicate (2 * size) 0))) := by
      rw [set_length_append]; simp
    simp only [dirAddr_mod, dirAddr_div, ne_eq, not_true_eq_false, if_false, e3, hdirs]
  have hslot : ∀ b, slotOf { s with hazard := s.hazard.set 0 s.table, dirs := s.dirs ++ [none] } b
      = slotOf s b := by
    intro b
    unfold slotOf
    show (match (s.dirs ++ [none])[s.table / 64]? with
      | some (some d) => d.getD b 0
      | _ => 0) = _
    rw [hj, dirAddr_div, List.getElem?_append_left hjl, hdj]
  refine ⟨_, hrun, rfl, rfl, rfl, rfl, rfl, rfl, hslot, ?_, rfl⟩
  unfold reachable
  rw [hslot 0]

/-- Witness of C35: a resize with the stale size 8 on a table of size 16. -/
theorem stale_resize_noop_witness :
    Reach one16 ∧ 8 < one16.size ∧
    ∃ s', hashtable_resize one16 8 = .ok s' ∧
      s'.size = one16.size ∧ s'.table = one16.table ∧ s'.count = one16.count ∧
      s'.nodes = one16.nodes ∧ s'.lvalue = one16.lvalue ∧ s'.dirs = one16.dirs ++ [none] ∧
      (∀ b, slotOf s' b = slotOf one16 b) ∧ reachable s' = reachable one16 ∧
      s'.hazard = one16.hazard.set 0 one16.table :=
  ⟨reach_one16, by decide, stale_resize_noop one16 reach_one16 8 (by decide)⟩

/-! # The hazard slots on exit of `hashtable_list_find` -/

theorem getLast?_cons_of_ne_nil {α : Type} (a : α) {l : List α} (h : l ≠ []) :
    (a :: l).getLast? = l.getLast? := by
  cases l with
  | nil => exact absurd rfl h
  | cons b l => simp [List.getLast?]

theorem list_find_loop_hazards (bucket key code : Nat) :
    ∀ (R : List Nat) (fuel : Nat) (s : hash_table_t) (prev : Slot) (current : Nat),
      Chain s.nodes current R → slot_load s prev = .ok current →
      (R.takeWhile (passes s.nodes code key)).length < fuel →
      s.hazard.length = 3 → s.hazard[1]? = some current →
      ∃ hz, list_find_loop bucket key code fuel s prev current
          = .ok (headPtr (R.dropWhile (passes s.nodes code key)),
                 lastSlot prev (R.takeWhile (passes s.nodes code key)),
                 { s with hazard := hz })
        ∧ hz.length = 3
        ∧ (∀ i rest, R.dropWhile (passes s.nodes code key) = i :: rest →
            hz[0]? = some (headPtr rest) ∧ hz[1]? = some (nodeAddr i))
        ∧ (R.dropWhile (passes s.nodes code key) = [] →
            hz[1]? = some 0 ∧ (R ≠ [] → hz[0]? = some 0))
        ∧ (R = [] → hz = s.hazard)
        ∧ (∀ j, (R.takeWhile (passes s.nodes code key)).getLast? = some j →
            hz[2]? = some (nodeAddr j))
        ∧ (R.takeWhile (passes s.nodes code key) = [] → hz[2]? = s.hazard[2]?) := by
  intro R
  induction R with
  | nil =>
    intro fuel s prev current hc _ hf hz3 hz1
    have hcur : current = 0 := hc
    subst hcur
    obtain ⟨f, rfl⟩ : ∃ f, fuel = f + 1 := ⟨fuel - 1, by omega⟩
    refine ⟨s.hazard, ?_, hz3, ?_, ?_, fun _ => rfl, ?_, fun _ => rfl⟩
    · simp [list_find_loop, node_get_zero, headPtr, lastSlot]
    · intro i rest h; simp at h
    · intro _
      exact ⟨hz1, fun h => absurd rfl h⟩
    · intro j h; simp at h
  | cons i R ih =>
    intro fuel s prev current hc hp hf hz3 hz1
    obtain ⟨hcur, n, hn, hrest⟩ := hc
    subst hcur
    obtain ⟨f, rfl⟩ : ∃ f, fuel = f + 1 := ⟨fuel - 1, by omega⟩
    have hnext : n.next = headPtr R := seg_headPtr hrest
    have hgm : hashtable_hazard_ptr_get_with_mask s (nodeAddr i + 24) 0
        = .ok (n.next, { s with hazard := s.hazard.set 0 n.next }) := by
      unfold hashtable_hazard_ptr_get_with_mask
      rw [unmask_nodeAddr_add i 24 (by decide), load_next hn]
      simp [hashtable_hazard_ptr_set_with_mask, hashtable_hazard_ptr_set, hnext, headPtr_unmask]
    have hlc : load { s with hazard := s.hazard.set 0 n.next } (nodeAddr i) = .ok n.code :=
      load_code (s := { s with hazard := s.hazard.set 0 n.next }) hn
    have hlk : load { s with hazard := s.hazard.set 0 n.next } (nodeAddr i + 8) = .ok n.key :=
      load_key (s := { s with hazard := s.hazard.set 0 n.next }) hn
    have hsl : slot_load { s with hazard := s.hazard.set 0 n.next } prev = .ok (nodeAddr i) := by
      rw [slot_load_hazard]; exact hp
    have hbit : hashtable_node_bit n.next = 0 := by rw [hnext]; exact headPtr_bit R
    by_cases hstop : n.code > code ∨ (n.code = code ∧ n.key = key)
    · have hpass : passes s.nodes code key i = false := by
        simp only [passes, codeAt_eq hn, keyAt_eq hn]
        rcases hstop with h | ⟨h1, h2⟩
        · simp [h]
        · simp [h1, h2]
      refine ⟨s.hazard.set 0 n.next, ?_, by simp [hz3], ?_, ?_, ?_, ?_, ?_⟩
      · rw [list_find_loop]
        simp only [nodeAddr_ne_zero, if_false, hgm, hlc, hlk, hsl, node_get_nodeAddr, node_make_zero,
          ne_eq, not_true_eq_false, hbit, if_true, hstop]
        simp [List.dropWhile, List.takeWhile, hpass, headPtr, lastSlot]
      · intro j rest h
        simp only [List.dropWhile, hpass] at h
        injection h with h1 h2
        subst h1
        subst h2
        rw [hnext]
        constructor
        · simp [List.getElem?_set, hz3]
        · rw [List.getElem?_set_ne (by decide)]
          exact hz1
      · intro h
        simp [List.dropWhile, hpass] at h
      · intro h
        exact absurd h (List.cons_ne_nil _ _)
      · intro j h
        simp [List.takeWhile, hpass] at h
      · intro _
        rw [List.getElem?_set_ne (by decide)]
    · have hpass : passes s.nodes code key i = true := by
        simp only [passes, codeAt_eq hn, keyAt_eq hn]
        push_neg at hstop
        obtain ⟨h1, h2⟩ := hstop
        have h1' : ¬ (code < n.code) := by omega
        by_cases hc : n.code = code
        · simp [h1', hc, h2 hc]
        · simp [h1', hc]
      have hlen : (R.takeWhile (passes s.nodes code key)).length < f := by
        have htw : (i :: R).takeWhile (passes s.nodes code key)
            = i :: R.takeWhile (passes s.nodes code key) := by
          simp [List.takeWhile, hpass]
        rw [htw] at hf
        simp at hf
        omega
      have hz2 : (hashtable_hazard_ptr_set_with_mask
          (hashtable_hazard_ptr_set_with_mask { s with hazard := s.hazard.set 0 n.next }
            (nodeAddr i) 2) n.next 1).hazard
          = ((s.hazard.set 0 n.next).set 2 (nodeAddr i)).set 1 n.next := by
        simp [hashtable_hazard_ptr_set_with_mask, hashtable_hazard_ptr_set, hnext, headPtr_unmask,
          unmask_nodeAddr]
      obtain ⟨hz, hrun, hlenz, hpost, hnil, hRnil, hlast, hpre⟩ := ih f
        (hashtable_hazard_ptr_set_with_mask
          (hashtable_hazard_ptr_set_with_mask { s with hazard := s.hazard.set 0 n.next }
            (nodeAddr i) 2) n.next 1)
        (Slot.mem (nodeAddr i + 24)) n.next hrest
        (by
          show load _ (nodeAddr i + 24) = .ok n.next
          exact load_next (s := hashtable_hazard_ptr_set_with_mask
            (hashtable_hazard_ptr_set_with_mask { s with hazard := s.hazard.set 0 n.next }
              (nodeAddr i) 2) n.next 1) hn) hlen
        (by rw [hz2]; simp [hz3])
        (by rw [hz2]; simp [List.getElem?_set, hz3])
      have hnodes : (hashtable_hazard_ptr_set_with_mask
          (hashtable_hazard_ptr_set_with_mask { s with hazard := s.hazard.set 0 n.next }
            (nodeAddr i) 2) n.next 1).nodes = s.nodes := rfl
      rw [hnodes] at hrun hpost hnil hlast hpre
      rw [hz2] at hRnil hpre
      refine ⟨hz, ?_, hlenz, ?_, ?_, ?_, ?_, ?_⟩
      · rw [list_find_loop]
        simp only [nodeAddr_ne_zero, if_false, hgm, hlc, hlk, hsl, node_get_nodeAddr, node_make_zero,
          ne_eq, not_true_eq_false, hbit, if_true, hstop]
        rw [hrun]
        simp [List.dropWhile, List.takeWhile, hpass, lastSlot, hashtable_hazard_ptr_set_with_mask,
          hashtable_hazard_ptr_set]
      · intro j rest h
        simp only [List.dropWhile, hpass] at h
        exact hpost j rest h
      · intro h
        simp only [List.dropWhile, hpass] at h
        refine ⟨(hnil h).1, fun _ => ?_⟩
        by_cases hR : R = []
        · rw [hRnil hR, hnext, hR]
          simp [List.getElem?_set, hz3, headPtr]
        · exact (hnil h).2 hR
      · intro h
        exact absurd h (List.cons_ne_nil _ _)
      · intro j h
        have htw : (i :: R).takeWhile (passes s.nodes code key)
            = i :: R.takeWhile (passes s.nodes code key) := by
          simp [List.takeWhile, hpass]
        rw [htw] at h
        by_cases hX : R.takeWhile (passes s.nodes code key) = []
        · rw [hX] at h
          simp at h
          subst h
          rw [hpre hX]
          simp [List.getElem?_set, hz3]
        · rw [getLast?_cons_of_ne_nil i hX] at h
          exact hlast j h
      · intro h
        simp [List.takeWhile, hpass] at h

/-- C40, failing input: the table `two16`, bucket 5, key 21.  The call
`hashtable_list_find(5, 21, code 21)` returns the non-null address of node 4,
and the hazard slots on exit are `[node 1, node 4, node 3]`, that is `[next,
current, owner of prev]`, where the comment of lines 259-265 promises `[null,
null, prev]`; the call for the key 133, whose code is above every code of the
list, returns null, and the slots are `[null, null, node 1]`, where the comment
promises `[next, current, prev]`. -/
theorem exit_hazards_exchanged :
    (hashtable_list_find 100 two16 5 21
      (hashtable_hash_key_regular (hashtable_hash_key 21))).map (fun r => (r.1, r.2.2.hazard))
      = .ok (nodeAddr 4, [nodeAddr 1, nodeAddr 4, nodeAddr 3]) ∧
    nodeAddr 4 ≠ 0 ∧ nodeAddr 1 ≠ 0 ∧
    (hashtable_list_find 100 two16 5 133
      (hashtable_hash_key_regular (hashtable_hash_key 133))).map (fun r => (r.1, r.2.2.hazard))
      = .ok (0, [0, 0, nodeAddr 1]) :=
  ⟨by rfl, by decide, by decide, by rfl⟩

/-- What the code leaves in the hazard slots, on every list: on a table with
three hazard slots whose slot `bucket` heads the chain `R` of unmarked nodes,
`hashtable_list_find` returns; if the returned
node `i` is not null, slot 0 holds the address of its successor (null if it has
none) and slot 1 the address of `i`; if it is null, the slots 0 and 1 hold null;
slot 2 holds the address of the last node the walk has passed, the owner of
`prev`, and is left as it was if the walk has passed no node. -/
theorem exit_hazards (fuel : Nat) (s : hash_table_t) (bucket key code : Nat) (R : List Nat)
    (hdl : dir_load s s.table bucket = .ok (headPtr R))
    (hR : Chain s.nodes (headPtr R) R) (hne : R ≠ []) (hfuel : R.length < fuel)
    (hz : s.hazard.length = 3) :
    ∃ cur prev s', hashtable_list_find fuel s bucket key code = .ok (cur, prev, s') ∧
      s'.hazard.length = 3 ∧
      (∀ i rest, R.dropWhile (passes s.nodes code key) = i :: rest →
        cur = nodeAddr i ∧ s'.hazard[0]? = some (headPtr rest) ∧
        s'.hazard[1]? = some (nodeAddr i)) ∧
      (R.dropWhile (passes s.nodes code key) = [] →
        cur = 0 ∧ s'.hazard[0]? = some 0 ∧ s'.hazard[1]? = some 0) ∧
      (∀ j, (R.takeWhile (passes s.nodes code key)).getLast? = some j →
        prev = Slot.mem (nodeAddr j + 24) ∧ s'.hazard[2]? = some (nodeAddr j)) ∧
      (R.takeWhile (passes s.nodes code key) = [] →
        prev = Slot.dir s.table bucket ∧ s'.hazard[2]? = s.hazard[2]?) := by
  have he : list_find_entry s bucket
      = .ok ({ s with hazard := (s.hazard.set 0 s.table).set 1 (headPtr R) },
             Slot.dir s.table bucket, headPtr R) := by
    unfold list_find_entry
    have : slot_load (hashtable_hazard_ptr_set s s.table 0) (Slot.dir s.table bucket)
        = .ok (headPtr R) := by
      show dir_load (hashtable_hazard_ptr_set s s.table 0) s.table bucket = _
      exact hdl
    simp only [this]
    rfl
  obtain ⟨hz', hrun, hlen, hpost, hnil, _, hlast, hpre⟩ :=
    list_find_loop_hazards bucket key code R fuel
      { s with hazard := (s.hazard.set 0 s.table).set 1 (headPtr R) }
      (Slot.dir s.table bucket) (headPtr R) hR
      (by show dir_load _ s.table bucket = _; exact hdl)
      (Nat.lt_of_le_of_lt (List.takeWhile_sublist _).length_le hfuel) (by simp [hz])
      (by simp [List.getElem?_set, hz])
  refine ⟨_, _, _, by unfold hashtable_list_find; rw [he]; exact hrun, hlen, ?_, ?_, ?_, ?_⟩
  · intro i rest h
    have h' := hpost i rest h
    exact ⟨by rw [show R.dropWhile (passes s.nodes code key) = i :: rest from h]; rfl, h'.1, h'.2⟩
  · intro h
    have h' := hnil h
    exact ⟨by rw [show R.dropWhile (passes s.nodes code key) = [] from h]; rfl, h'.2 hne, h'.1⟩
  · intro j h
    refine ⟨?_, hlast j h⟩
    obtain ⟨X, hX⟩ : ∃ X, R.takeWhile (passes s.nodes code key) = X ++ [j] := by
      have hne' : R.takeWhile (passes s.nodes code key) ≠ [] := by
        intro e; rw [e] at h; simp at h
      refine ⟨(R.takeWhile (passes s.nodes code key)).dropLast, ?_⟩
      have := List.dropLast_append_getLast hne'
      rw [List.getLast?_eq_getLast _ hne'] at h
      injection h with h
      rw [h] at this
      exact this.symm
    show lastSlot _ (R.takeWhile (passes s.nodes code key)) = _
    rw [hX, lastSlot_append]
  · intro h
    refine ⟨?_, ?_⟩
    · show lastSlot _ (R.takeWhile (passes s.nodes code key)) = _
      rw [h]
      rfl
    · rw [hpre h]
      simp [List.getElem?_set, hz]

/-- An instance of `exit_hazards`: the bucket 5 of `two16`, whose chain is the
sentinel (node 3) and the nodes of the keys 21 and 5 (nodes 4 and 1), searched
for key 21. -/
theorem exit_hazards_witness :
    dir_load two16 two16.table 5 = .ok (headPtr [3, 4, 1]) ∧
    Chain two16.nodes (headPtr [3, 4, 1]) [3, 4, 1] ∧ ([3, 4, 1] : List Nat) ≠ [] ∧
    [3, 4, 1].length < 100 ∧ two16.hazard.length = 3 ∧
    ∃ cur prev s', hashtable_list_find 100 two16 5 21
        (hashtable_hash_key_regular (hashtable_hash_key 21)) = .ok (cur, prev, s') ∧
      s'.hazard.length = 3 ∧
      (∀ i rest, [3, 4, 1].dropWhile (passes two16.nodes
          (hashtable_hash_key_regular (hashtable_hash_key 21)) 21) = i :: rest →
        cur = nodeAddr i ∧ s'.hazard[0]? = some (headPtr rest) ∧
        s'.hazard[1]? = some (nodeAddr i)) ∧
      ([3, 4, 1].dropWhile (passes two16.nodes
          (hashtable_hash_key_regular (hashtable_hash_key 21)) 21) = [] →
        cur = 0 ∧ s'.hazard[0]? = some 0 ∧ s'.hazard[1]? = some 0) ∧
      (∀ j, ([3, 4, 1].takeWhile (passes two16.nodes
          (hashtable_hash_key_regular (hashtable_hash_key 21)) 21)).getLast? = some j →
        prev = Slot.mem (nodeAddr j + 24) ∧ s'.hazard[2]? = some (nodeAddr j)) ∧
      ([3, 4, 1].takeWhile (passes two16.nodes
          (hashtable_hash_key_regular (hashtable_hash_key 21)) 21) = [] →
        prev = Slot.dir two16.table 5 ∧ s'.hazard[2]? = two16.hazard[2]?) :=
  ⟨by rfl,
    ⟨rfl, ⟨2684354560, 5, 0, 320⟩, by rfl, rfl, ⟨2715758943, 21, 210, 128⟩, by rfl, rfl,
      ⟨2919672041, 5, 50, 0⟩, by rfl, rfl⟩,
    by decide, by decide, by rfl,
    exit_hazards 100 two16 5 21 (hashtable_hash_key_regular (hashtable_hash_key 21)) [3, 4, 1]
      (by rfl)
      ⟨rfl, ⟨2684354560, 5, 0, 320⟩, by rfl, rfl, ⟨2715758943, 21, 210, 128⟩, by rfl, rfl,
        ⟨2919672041, 5, 50, 0⟩, by rfl, rfl⟩
      (by decide) (by decide) (by rfl)⟩

/-! # Single-threaded runs never retry -/

theorem dir_load_inv_rev {s : hash_table_t} {d L : List Nat} (h : InvL s d L) {b v : Nat}
    (hb : dir_load s s.table b = .ok v) : d[b]? = some v := by
  obtain ⟨j, ht, hd⟩ := h.tbl
  unfold dir_load at hb
  simp only [ht, dirAddr_mod, dirAddr_div, hd, ne_eq, not_true_eq_false, if_false] at hb
  cases hdb : d[b]? with
  | none => rw [hdb] at hb; exact Except.noConfusion hb
  | some w =>
    rw [hdb] at hb
    injection hb with hb
    rw [hb]

/-- At every node `i` of a chain the two tests of the walk are as in a run
without interference: `*prev` is the untagged address of the node, and the
`next` field of the node is untagged. -/
theorem chain_tests (s : hash_table_t) (i : Nat) (Y : List Nat) :
    ∀ (X : List Nat) (prev : Slot) (cur : Nat),
      Seg s.nodes cur (X ++ i :: Y) 0 → slot_load s prev = .ok cur →
      slot_load s (lastSlot prev X)
          = .ok (hashtable_node_make (hashtable_node_get (nodeAddr i)) 0) ∧
        ∃ n, s.nodes[i]? = some (some n) ∧ hashtable_node_bit n.next = 0 := by
  intro X
  induction X with
  | nil =>
    intro prev cur hseg hp
    obtain ⟨hcur, n, hn, hrest⟩ := hseg
    subst hcur
    refine ⟨by rw [node_get_nodeAddr, node_make_zero]; exact hp, n, hn, ?_⟩
    rw [seg_headPtr hrest]
    exact headPtr_bit Y
  | cons x X ih =>
    intro prev cur hseg hp
    obtain ⟨hcur, n, hn, hrest⟩ := hseg
    exact ih (Slot.mem (nodeAddr x + 24)) n.next hrest (load_next hn)

theorem list_find_tight (s : hash_table_t) (bucket key code : Nat) (R : List Nat)
    (hdl : dir_load s s.table bucket = .ok (headPtr R))
    (hR : Chain s.nodes (headPtr R) R) (hz : s.hazard.length = 3) :
    ∃ hz', hashtable_list_find ((R.takeWhile (passes s.nodes code key)).length + 1) s bucket
        key code
      = .ok (headPtr (R.dropWhile (passes s.nodes code key)),
             lastSlot (Slot.dir s.table bucket) (R.takeWhile (passes s.nodes code key)),
             { s with hazard := hz' }) := by
  have he : list_find_entry s bucket
      = .ok ({ s with hazard := (s.hazard.set 0 s.table).set 1 (headPtr R) },
             Slot.dir s.table bucket, headPtr R) := by
    unfold list_find_entry
    have : slot_load (hashtable_hazard_ptr_set s s.table 0) (Slot.dir s.table bucket)
        = .ok (headPtr R) := by
      show dir_load (hashtable_hazard_ptr_set s s.table 0) s.table bucket = _
      exact hdl
    simp only [this]
    rfl
  obtain ⟨hz', hrun, _⟩ :=
    list_find_loop_hazards bucket key code R ((R.takeWhile (passes s.nodes code key)).length + 1)
      { s with hazard := (s.hazard.set 0 s.table).set 1 (headPtr R) }
      (Slot.dir s.table bucket) (headPtr R) hR
      (by show dir_load _ s.table bucket = _; exact hdl) (Nat.lt_succ_self _) (by simp [hz])
      (by simp [List.getElem?_set, hz])
  exact ⟨hz', by unfold hashtable_list_find; rw [he]; exact hrun⟩

/-- The retry loop of `hashtable_list_insert` returns in its first round,
whatever the number `a + 1` of rounds it is allowed. -/
theorem list_insert_attempts (fuel : Nat) (s : hash_table_t) (bucket m : Nat) (nm : hash_node_t)
    (r0 : Nat) (R : List Nat)
    (hdl : dir_load s s.table bucket = .ok (nodeAddr r0))
    (hR : Chain s.nodes (nodeAddr r0) (r0 :: R)) (hnd : (r0 :: R).Nodup)
    (hm : s.nodes[m]? = some (some nm)) (hmR : m ∉ r0 :: R)
    (hfuel : (r0 :: R).length < fuel) (hz : 0 < s.hazard.length)
    (hfirst : passes s.nodes nm.code nm.key r0 = true) :
    ∃ res, (∀ a, list_insert_loop fuel bucket (nodeAddr m) nm.key nm.code (a + 1) s = .ok res) ∧
      (res.1 = nodeAddr m →
        Chain res.2.nodes (nodeAddr r0)
          ((r0 :: R).takeWhile (passes s.nodes nm.code nm.key) ++
            m :: (r0 :: R).dropWhile (passes s.nodes nm.code nm.key))) := by
  obtain ⟨hz', hfind, hlen, _⟩ := list_find_spec fuel s bucket nm.key nm.code (r0 :: R)
    hdl hR hfuel hz
  have hpostalloc : ∀ i ∈ (r0 :: R).dropWhile (passes s.nodes nm.code nm.key),
      ∃ n, ({ s with hazard := hz' } : hash_table_t).nodes[i]? = some (some n) := by
    intro i hi
    exact seg_alloc _ _ _ hR i ((List.dropWhile_sublist _).subset hi)
  have hfound := list_insert_found_spec { s with hazard := hz' }
    ((r0 :: R).dropWhile (passes s.nodes nm.code nm.key)) m nm hm hpostalloc
  by_cases hex : ∃ i rest, (r0 :: R).dropWhile (passes s.nodes nm.code nm.key) = i :: rest ∧
      isMatch s.nodes nm.code nm.key i = true
  · obtain ⟨i, rest, hpost, hmatch⟩ := hex
    refine ⟨(nodeAddr i, { s with hazard := hz' }), fun a => ?_, fun he => ?_⟩
    · rw [list_insert_loop, hfind]
      rw [hpost] at hfound
      simp only [headPtr, headMatches, hmatch] at hfound
      simp only [hpost, headPtr, hfound]
    · exfalso
      have him : i = m := nodeAddr_inj he
      have hi : i ∈ r0 :: R :=
        (List.dropWhile_sublist _).subset (hpost ▸ List.mem_cons_self _ _)
      exact hmR (him ▸ hi)
  · have hnomatch : ∀ i rest, (r0 :: R).dropWhile (passes s.nodes nm.code nm.key) = i :: rest →
        isMatch s.nodes nm.code nm.key i = false := by
      intro i rest hp
      by_contra hc
      exact hex ⟨i, rest, hp, by simpa using hc⟩
    obtain ⟨X, jl, hpre⟩ := takeWhile_ne_nil_snoc (passes s.nodes nm.code nm.key) r0 R hfirst
    have hsplit : r0 :: R = (X ++ [jl]) ++ (r0 :: R).dropWhile (passes s.nodes nm.code nm.key) := by
      rw [← hpre]; exact (List.takeWhile_append_dropWhile _ _).symm
    generalize hpostdef : (r0 :: R).dropWhile (passes s.nodes nm.code nm.key) = post at *
    have hnd' : ((X ++ [jl]) ++ post).Nodup := hsplit ▸ hnd
    have hjlR : jl ∈ r0 :: R := by rw [hsplit]; simp
    have hjlm : jl ≠ m := fun e => hmR (e ▸ hjlR)
    obtain ⟨njl, hnjl⟩ := seg_alloc _ _ _ hR jl hjlR
    have hseg : Seg s.nodes (nodeAddr r0) ((X ++ [jl]) ++ post) 0 := hsplit ▸ hR
    obtain ⟨r, hseg1, hseg2⟩ := (seg_append (X ++ [jl]) post _ _).1 hseg
    have hr : r = headPtr post := seg_headPtr hseg2
    subst hr
    have hjlnext : njl.next = headPtr post := by
      obtain ⟨r', _, h2⟩ := (seg_append X [jl] _ _).1 hseg1
      obtain ⟨_, n', hn', hq⟩ := h2
      rw [hnjl] at hn'
      injection hn' with hn'
      injection hn' with hn'
      subst hn'
      exact hq
    have hjlX : jl ∉ X := by
      have := (List.nodup_append.1 (List.nodup_append.1 hnd').1).2.2
      intro hx
      exact this hx (List.mem_singleton_self jl)
    have hfoundF : list_insert_found { s with hazard := hz' } (headPtr post) (nodeAddr m)
        = .ok false := by
      rw [hfound]
      cases post with
      | nil => rfl
      | cons i rest => simp [headMatches, hnomatch i rest rfl]
    let nodes1 := s.nodes.set m (some { nm with next := headPtr post })
    have hn1jl : nodes1[jl]? = some (some njl) := by
      simp [nodes1, List.getElem?_set, Ne.symm hjlm, hnjl]
    have hml : m < s.nodes.length := getElem?_some_lt hm
    have hn1m : nodes1[m]? = some (some { nm with next := headPtr post }) := by
      simp [nodes1, List.getElem?_set, hml]
    let nodes2 := nodes1.set jl (some { njl with next := nodeAddr m })
    refine ⟨(nodeAddr m, { s with hazard := hz'.set 0 (nodeAddr m), nodes := nodes2 }),
      fun a => ?_, fun _ => ?_⟩
    · rw [list_insert_loop, hfind]
      simp only [hfoundF, hpre, lastSlot_append, headPtr_even, node_make_zero]
      rw [store_next (s := { s with hazard := hz' }) (headPtr post) hm]
      have hcas : hashtable_atomic_cas
          (hashtable_hazard_ptr_set
            { s with hazard := hz', nodes := nodes1 } (nodeAddr m) 0)
          (Slot.mem (nodeAddr jl + 24)) (headPtr post) (nodeAddr m)
          = .ok (true, { s with hazard := hz'.set 0 (nodeAddr m), nodes := nodes2 }) := by
        unfold hashtable_atomic_cas
        have h1 : slot_load (hashtable_hazard_ptr_set
            { s with hazard := hz', nodes := nodes1 } (nodeAddr m) 0)
            (Slot.mem (nodeAddr jl + 24)) = .ok njl.next :=
          load_next (s := hashtable_hazard_ptr_set
            { s with hazard := hz', nodes := nodes1 } (nodeAddr m) 0) hn1jl
        have h2 : slot_store (hashtable_hazard_ptr_set
            { s with hazard := hz', nodes := nodes1 } (nodeAddr m) 0)
            (Slot.mem (nodeAddr jl + 24)) (nodeAddr m)
            = .ok { s with hazard := hz'.set 0 (nodeAddr m), nodes := nodes2 } :=
          store_next (s := hashtable_hazard_ptr_set
            { s with hazard := hz', nodes := nodes1 } (nodeAddr m) 0) (nodeAddr m) hn1jl
        simp only [h1, h2, hjlnext, if_true]
      simp only [hcas]
    · rw [hpre]
      show Seg nodes2 (nodeAddr r0) ((X ++ [jl]) ++ m :: post) 0
      refine (seg_append (X ++ [jl]) (m :: post) _ _).2 ⟨nodeAddr m, ?_, ?_⟩
      · have hs1 : Seg nodes1 (nodeAddr r0) (X ++ [jl]) (headPtr post) := by
          apply seg_congr _ _ _ _ hseg1
          intro i hi
          have : m ≠ i := by
            intro e; subst e
            exact hmR (by rw [hsplit]; exact List.mem_append_left _ hi)
          simp [nodes1, List.getElem?_set, this]
        exact seg_snoc_set hs1 hjlX hn1jl
      · refine ⟨rfl, { nm with next := headPtr post }, ?_, ?_⟩
        · simp [nodes2, List.getElem?_set, hjlm, hn1m]
        · apply seg_congr _ _ _ _ hseg2
          intro i hi
          have h1 : m ≠ i := by
            intro e; subst e
            exact hmR (by rw [hsplit]; exact List.mem_append_right _ hi)
          have h2 : jl ≠ i := by
            intro e; subst e
            exact (List.nodup_append.1 hnd').2.2 (by simp) hi
          simp [nodes2, nodes1, List.getElem?_set, h1, h2]

/-- The retry loop of `hashtable_list_delete` returns in its first round,
whatever the number `a + 1` of rounds it is allowed; when it returns a node,
both compare-and-swaps have succeeded and the node is unlinked. -/
theorem list_delete_attempts (fuel : Nat) (s : hash_table_t) (bucket key code : Nat)
    (r0 : Nat) (R : List Nat)
    (hdl : dir_load s s.table bucket = .ok (nodeAddr r0))
    (hR : Chain s.nodes (nodeAddr r0) (r0 :: R)) (hnd : (r0 :: R).Nodup)
    (hfuel : (r0 :: R).length < fuel) (hz : 0 < s.hazard.length)
    (hfirst : passes s.nodes code key r0 = true) :
    ∃ res, (∀ a, list_delete_loop fuel bucket key code (a + 1) s = .ok res) ∧
      (res.1 ≠ 0 → ∃ i rest, (r0 :: R).dropWhile (passes s.nodes code key) = i :: rest ∧
        res.1 = nodeAddr i ∧
        Chain res.2.nodes (nodeAddr r0)
          ((r0 :: R).takeWhile (passes s.nodes code key) ++ rest)) := by
  obtain ⟨hz', hfind, hlen, hhz⟩ := list_find_spec fuel s bucket key code (r0 :: R)
    hdl hR hfuel hz
  have hpostalloc : ∀ i ∈ (r0 :: R).dropWhile (passes s.nodes code key),
      ∃ n, s.nodes[i]? = some (some n) := by
    intro i hi
    exact seg_alloc _ _ _ hR i ((List.dropWhile_sublist _).subset hi)
  obtain ⟨X, jl, hpre⟩ := takeWhile_ne_nil_snoc (passes s.nodes code key) r0 R hfirst
  have hsplit : r0 :: R = (X ++ [jl]) ++ (r0 :: R).dropWhile (passes s.nodes code key) := by
    rw [← hpre]; exact (List.takeWhile_append_dropWhile _ _).symm
  generalize hpostdef : (r0 :: R).dropWhile (passes s.nodes code key) = post at *
  by_cases hno : headMatches s.nodes code key post = false
  · refine ⟨(0, { s with hazard := hz' }), fun a => ?_, fun h => absurd rfl h⟩
    rw [list_delete_loop, hfind]
    cases post with
    | nil => simp [headPtr]
    | cons i rest =>
      obtain ⟨n, hn⟩ := hpostalloc i (List.mem_cons_self _ _)
      simp only [headMatches, isMatch, codeAt_eq hn, keyAt_eq hn] at hno
      simp only [headPtr, nodeAddr_ne_zero, if_false,
        load_code (s := { s with hazard := hz' }) hn,
        load_key (s := { s with hazard := hz' }) hn]
      by_cases hc : n.code = code
      · have hk : n.key ≠ key := by
          intro hk; simp [hc, hk] at hno
        simp [hc, hk]
      · simp [hc]
  · obtain ⟨i, rest, hpost, hmatch⟩ : ∃ i rest, post = i :: rest ∧
        isMatch s.nodes code key i = true := by
      cases post with
      | nil => exact absurd rfl hno
      | cons i rest => exact ⟨i, rest, rfl, by simpa [headMatches] using hno⟩
    subst hpost
    obtain ⟨n, hn⟩ := hpostalloc i (List.mem_cons_self _ _)
    simp only [isMatch, codeAt_eq hn, keyAt_eq hn, Bool.and_eq_true, decide_eq_true_eq] at hmatch
    obtain ⟨hcode, hkey⟩ := hmatch
    have hnd' : ((X ++ [jl]) ++ i :: rest).Nodup := hsplit ▸ hnd
    have hjlR : jl ∈ r0 :: R := by rw [hsplit]; simp
    have hiR : i ∈ r0 :: R := by rw [hsplit]; simp
    have hjli : jl ≠ i := by
      intro e; subst e
      exact (List.nodup_append.1 hnd').2.2 (by simp) (List.mem_cons_self _ _)
    obtain ⟨njl, hnjl⟩ := seg_alloc _ _ _ hR jl hjlR
    have hseg : Seg s.nodes (nodeAddr r0) ((X ++ [jl]) ++ i :: rest) 0 := hsplit ▸ hR
    obtain ⟨r, hseg1, hseg2⟩ := (seg_append (X ++ [jl]) (i :: rest) _ _).1 hseg
    have hr : r = nodeAddr i := hseg2.1
    subst hr
    have hjlnext : njl.next = nodeAddr i := by
      obtain ⟨r', _, h2⟩ := (seg_append X [jl] _ _).1 hseg1
      obtain ⟨_, n', hn', hq⟩ := h2
      rw [hnjl] at hn'
      injection hn' with hn'
      injection hn' with hn'
      subst hn'
      exact hq
    have hrest : Seg s.nodes n.next rest 0 := by
      obtain ⟨_, n', hn', hq⟩ := hseg2
      rw [hn] at hn'
      injection hn' with hn'
      injection hn' with hn'
      subst hn'
      exact hq
    have hinext : n.next = headPtr rest := seg_headPtr hrest
    have hjlX : jl ∉ X := by
      have := (List.nodup_append.1 (List.nodup_append.1 hnd').1).2.2
      intro hx
      exact this hx (List.mem_singleton_self jl)
    have hil : i < s.nodes.length := getElem?_some_lt hn
    let nodes1 := s.nodes.set i (some { n with next := hashtable_node_make (headPtr rest) 1 })
    have hn1jl : nodes1[jl]? = some (some njl) := by
      simp [nodes1, List.getElem?_set, Ne.symm hjli, hnjl]
    let nodes2 := nodes1.set jl (some { njl with next := headPtr rest })
    refine ⟨(nodeAddr i, { s with hazard := hz', nodes := nodes2 }), fun a => ?_,
      fun _ => ⟨i, rest, rfl, rfl, ?_⟩⟩
    · rw [list_delete_loop, hfind]
      simp only [headPtr, nodeAddr_ne_zero, if_false,
        load_code (s := { s with hazard := hz' }) hn,
        load_key (s := { s with hazard := hz' }) hn, hcode, hkey, ne_eq, not_true_eq_false]
      have hcur : hashtable_hazard_ptr_get_current { s with hazard := hz' } 0
          = .ok (headPtr rest) := by
        unfold hashtable_hazard_ptr_get_current
        simp [hhz i rest rfl]
      simp only [hcur, headPtr_even, node_get_nodeAddr, node_make_zero]
      have hcas1 : hashtable_atomic_cas { s with hazard := hz' } (Slot.mem (nodeAddr i + 24))
          (headPtr rest) (hashtable_node_make (headPtr rest) 1)
          = .ok (true, { s with hazard := hz', nodes := nodes1 }) := by
        unfold hashtable_atomic_cas
        have h1 : slot_load { s with hazard := hz' } (Slot.mem (nodeAddr i + 24))
            = .ok n.next := load_next (s := { s with hazard := hz' }) hn
        have h2 : slot_store { s with hazard := hz' } (Slot.mem (nodeAddr i + 24))
            (hashtable_node_make (headPtr rest) 1)
            = .ok { s with hazard := hz', nodes := nodes1 } :=
          store_next (s := { s with hazard := hz' }) _ hn
        simp only [h1, h2, hinext, if_true]
      have hcas2 : hashtable_atomic_cas { s with hazard := hz', nodes := nodes1 }
          (lastSlot (Slot.dir s.table bucket) (X ++ [jl])) (nodeAddr i) (headPtr rest)
          = .ok (true, { s with hazard := hz', nodes := nodes2 }) := by
        rw [lastSlot_append]
        unfold hashtable_atomic_cas
        have h1 : slot_load { s with hazard := hz', nodes := nodes1 }
            (Slot.mem (nodeAddr jl + 24)) = .ok njl.next :=
          load_next (s := { s with hazard := hz', nodes := nodes1 }) hn1jl
        have h2 : slot_store { s with hazard := hz', nodes := nodes1 }
            (Slot.mem (nodeAddr jl + 24)) (headPtr rest)
            = .ok { s with hazard := hz', nodes := nodes2 } :=
          store_next (s := { s with hazard := hz', nodes := nodes1 }) _ hn1jl
        simp only [h1, h2, hjlnext, if_true]
      simp only [hcas1, hpre, hcas2, hashtable_node_destroy, node_bit_nodeAddr, ne_eq,
        not_true_eq_false, if_false]
    · rw [hpre]
      show Seg nodes2 (nodeAddr r0) ((X ++ [jl]) ++ rest) 0
      refine (seg_append (X ++ [jl]) rest _ _).2 ⟨headPtr rest, ?_, ?_⟩
      · have hs1 : Seg nodes1 (nodeAddr r0) (X ++ [jl]) (nodeAddr i) := by
          apply seg_congr _ _ _ _ hseg1
          intro k hk
          have : i ≠ k := by
            intro e; subst e
            exact (List.nodup_append.1 hnd').2.2 hk (List.mem_cons_self _ _)
          simp [nodes1, List.getElem?_set, this]
        exact seg_snoc_set hs1 hjlX hn1jl
      · rw [← hinext]
        apply seg_congr _ _ _ _ hrest
        intro k hk
        have h1 : i ≠ k := by
          intro e; subst e
          exact (List.nodup_cons.1 (List.nodup_append.1 hnd').2.1).1 hk
        have h2 : jl ≠ k := by
          intro e; subst e
          exact (List.nodup_append.1 hnd').2.2 (by simp) (List.mem_cons_of_mem _ hk)
        simp [nodes2, nodes1, List.getElem?_set, h1, h2]

/-- The sentinel of a bucket lets every code above its own pass. -/
theorem sentinel_passes {nodes : List (Option hash_node_t)} {r0 b code key : Nat}
    (hc : codeAt nodes r0 = hashtable_hash_key_dummy b)
    (hlt : hashtable_hash_key_dummy b < code) : passes nodes code key r0 = true := by
  have h1 : ¬ (codeAt nodes r0 > code) := by rw [hc]; omega
  have h2 : codeAt nodes r0 ≠ code := by rw [hc]; omega
  simp [passes, h1, h2]

/-- C37: on every state `s` reachable single-threaded, and on every state `t`
of the same shape (a directory `d` and a finite, duplicate-free, sorted,
null-terminated list `L` of unmarked nodes, which a reachable state has), from
every initialised bucket `b`: `hashtable_list_find` returns with one loop
iteration for each node it passes and one more, which leaves none for a
restart, and at every node of the chain the test `*prev != current` of the
restart and the tag test of `next` are false; the retry loops of
`hashtable_list_delete` and `hashtable_list_insert` return when they are
allowed a single round, with the result of the function itself, a deleted node
being unlinked and an inserted node linked; `hashtable_bucket_parent` is below
its argument and `hashtable_bucket_init` returns within a recursion depth of 61;
`hashtable_find` and `hashtable_delete` return, and `hashtable_insert` returns
unless the doubling of a directory of `2^60` slots is due. -/
theorem single_threaded_no_retry (s : hash_table_t) (hr : Reach s) :
    (∃ d L, InvL s d L) ∧
    (∀ (t : hash_table_t) (d L : List Nat), InvL t d L →
      ∀ (b v : Nat), d[b]? = some v → v ≠ 0 →
      ∃ R, Chain t.nodes v R ∧
        (∀ key code,
          (∃ res, hashtable_list_find ((R.takeWhile (passes t.nodes code key)).length + 1)
            t b key code = .ok res) ∧
          (∀ X i Y, R = X ++ i :: Y →
            slot_load t (lastSlot (Slot.dir t.table b) X)
                = .ok (hashtable_node_make (hashtable_node_get (nodeAddr i)) 0) ∧
              ∃ n, t.nodes[i]? = some (some n) ∧ hashtable_node_bit n.next = 0)) ∧
        (∀ key code, hashtable_hash_key_dummy b < code →
          ∃ res, list_delete_loop (budget t) b key code 1 t = .ok res ∧
            hashtable_list_delete (budget t) t b key code = .ok res ∧
            (res.1 ≠ 0 → ∃ i rest, R.dropWhile (passes t.nodes code key) = i :: rest ∧
              res.1 = nodeAddr i ∧
              Chain res.2.nodes v (R.takeWhile (passes t.nodes code key) ++ rest))) ∧
        (∀ (m : Nat) (nm : hash_node_t), t.nodes[m]? = some (some nm) → m ∉ L →
          hashtable_hash_key_dummy b < nm.code →
          ∃ res, list_insert_loop (budget t) b (nodeAddr m) nm.key nm.code 1 t = .ok res ∧
            hashtable_list_insert (budget t) t b (nodeAddr m) = .ok res ∧
            (res.1 = nodeAddr m →
              Chain res.2.nodes v (R.takeWhile (passes t.nodes nm.code nm.key) ++
                m :: R.dropWhile (passes t.nodes nm.code nm.key))))) ∧
    (∀ b, 0 < b → b < WORD → ∃ p, hashtable_bucket_parent b = .ok p ∧ p < b) ∧
    (∀ b, 0 < b → b < s.size → dir_load s s.table b = .ok 0 →
      ∃ s', hashtable_bucket_init (budget s) 61 s s.table b = .ok s') ∧
    (∀ key, ∃ r s', hashtable_find (budget s) s key = .ok (r, s')) ∧
    (∀ key, ∃ r s', hashtable_delete (budget s) s key = .ok (r, s')) ∧
    (∀ key value, (∃ r s', hashtable_insert (budget s) s key value = .ok (r, s')) ∨
      (s.size = 2 ^ 60 ∧ hashtable_insert (budget s) s key value = .error .ub)) := by
  obtain ⟨d, L, h⟩ := reach_inv hr
  have hb64 : L.length + 64 ≤ budget s := h.budget_ok (le_refl _)
  refine ⟨⟨d, L, h.toInvL⟩, ?_, ?_, ?_, ?_, ?_, ?_⟩
  · intro t d' L' ht b v hb hv
    obtain ⟨A, r0, R, hL, hvr, hR, _, hc0, _⟩ := bucket_start ht hb hv
    subst hvr
    have hdl : dir_load t t.table b = .ok (nodeAddr r0) := dir_load_inv ht hb
    have hnd : (r0 :: R).Nodup := by
      have := ht.nodup
      rw [hL] at this
      exact (List.nodup_append.1 this).2.1
    have hlen : (r0 :: R).length < budget t := by
      have h1 : (r0 :: R).length ≤ L'.length := by rw [hL]; simp
      have h2 := ht.length_le
      unfold budget
      omega
    obtain ⟨a, ha⟩ : ∃ a, budget t = a + 1 := ⟨budget t - 1, by unfold budget; omega⟩
    have hz0 : 0 < t.hazard.length := by rw [ht.hz]; decide
    refine ⟨r0 :: R, hR, ?_, ?_, ?_⟩
    · intro key code
      obtain ⟨hz', hrun⟩ := list_find_tight t b key code (r0 :: R) hdl hR ht.hz
      refine ⟨⟨_, hrun⟩, ?_⟩
      intro X i Y hsplit
      exact chain_tests t i Y X (Slot.dir t.table b) (nodeAddr r0)
        (by rw [← hsplit]; exact hR) hdl
    · intro key code hlt
      obtain ⟨res, hres, hchain⟩ := list_delete_attempts (budget t) t b key code r0 R hdl hR hnd
        hlen hz0 (sentinel_passes hc0 hlt)
      refine ⟨res, hres 0, ?_, hchain⟩
      have := hres a
      rw [← ha] at this
      exact this
    · intro m nm hm hmL hlt
      have hmR : m ∉ r0 :: R := by
        intro hx
        apply hmL
        rw [hL]
        exact List.mem_append_right _ hx
      obtain ⟨res, hres, hchain⟩ := list_insert_attempts (budget t) t b m nm r0 R hdl hR hnd
        hm hmR hlen hz0 (sentinel_passes hc0 hlt)
      refine ⟨res, hres 0, ?_, hchain⟩
      have := hres a
      rw [← ha] at this
      unfold hashtable_list_insert
      rw [load_key hm, load_code hm]
      exact this
  · intro b hb hw
    obtain ⟨p, hp, hlt, _⟩ := bucket_parent_ok b hb hw
    exact ⟨p, hp, hlt⟩
  · intro b hb0 hbs hdl0
    have hd0 := dir_load_inv_rev h.toInvL hdl0
    obtain ⟨k, hk, hk60⟩ := h.pow
    obtain ⟨s', _, _, hrun, _⟩ := bucket_init_spec (budget s) k 61 s d L b h.toInvL hb0 hbs
      (by rw [← hk]; exact hbs) (by omega) (by omega) hd0
    exact ⟨s', hrun⟩
  · intro key
    obtain ⟨s', _, _, hrun, _⟩ := find_spec h.toInvL (budget s) key (by omega) (Or.inl h.pow2)
    exact ⟨_, s', hrun⟩
  · intro key
    obtain ⟨s', _, _, hrun, _⟩ := delete_spec h (budget s) key (by omega)
    exact ⟨_, s', hrun⟩
  · intro key value
    rcases insert_spec h (budget s) key value hb64 with ⟨_, _, hsz, herr⟩ |
      ⟨s', _, _, hrun, _⟩
    · exact Or.inr ⟨hsz, herr⟩
    · exact Or.inl ⟨_, s', hrun⟩

/-- Witness of C37: the table `one16`, which holds the key 5 in its bucket 5. -/
theorem single_threaded_no_retry_witness :
    Reach one16 ∧
    (∃ d L, InvL one16 d L) ∧
    (∀ (t : hash_table_t) (d L : List Nat), InvL t d L →
      ∀ (b v : Nat), d[b]? = some v → v ≠ 0 →
      ∃ R, Chain t.nodes v R ∧
        (∀ key code,
          (∃ res, hashtable_list_find ((R.takeWhile (passes t.nodes code key)).length + 1)
            t b key code = .ok res) ∧
          (∀ X i Y, R = X ++ i :: Y →
            slot_load t (lastSlot (Slot.dir t.table b) X)
                = .ok (hashtable_node_make (hashtable_node_get (nodeAddr i)) 0) ∧
              ∃ n, t.nodes[i]? = some (some n) ∧ hashtable_node_bit n.next = 0)) ∧
        (∀ key code, hashtable_hash_key_dummy b < code →
          ∃ res, list_delete_loop (budget t) b key code 1 t = .ok res ∧
            hashtable_list_delete (budget t) t b key code = .ok res ∧
            (res.1 ≠ 0 → ∃ i rest, R.dropWhile (passes t.nodes code key) = i :: rest ∧
              res.1 = nodeAddr i ∧
              Chain res.2.nodes v (R.takeWhile (passes t.nodes code key) ++ rest))) ∧
        (∀ (m : Nat) (nm : hash_node_t), t.nodes[m]? = some (some nm) → m ∉ L →
          hashtable_hash_key_dummy b < nm.code →
          ∃ res, list_insert_loop (budget t) b (nodeAddr m) nm.key nm.code 1 t = .ok res ∧
            hashtable_list_insert (budget t) t b (nodeAddr m) = .ok res ∧
            (res.1 = nodeAddr m →
              Chain res.2.nodes v (R.takeWhile (passes t.nodes nm.code nm.key) ++
                m :: R.dropWhile (passes t.nodes nm.code nm.key))))) ∧
    (∀ b, 0 < b → b < WORD → ∃ p, hashtable_bucket_parent b = .ok p ∧ p < b) ∧
    (∀ b, 0 < b → b < one16.size → dir_load one16 one16.table b = .ok 0 →
      ∃ s', hashtable_bucket_init (budget one16) 61 one16 one16.table b = .ok s') ∧
    (∀ key, ∃ r s', hashtable_find (budget one16) one16 key = .ok (r, s')) ∧
    (∀ key, ∃ r s', hashtable_delete (budget one16) one16 key = .ok (r, s')) ∧
    (∀ key value, (∃ r s', hashtable_insert (budget one16) one16 key value = .ok (r, s')) ∨
      (one16.size = 2 ^ 60 ∧ hashtable_insert (budget one16) one16 key value = .error .ub)) :=
  ⟨reach_one16, single_threaded_no_retry one16 reach_one16⟩

/-! # The mode flag -/

theorem map_ok {ε α β : Type} (f : α → β) (a : α) :
    (Except.ok a : Except ε α).map f = .ok (f a) := rfl

theorem map_error {ε α β : Type} (f : α → β) (e : ε) :
    (Except.error e : Except ε α).map f = .error e := rfl

theorem load_lv (b : Bool) (s : hash_table_t) (a : Nat) :
    load (with_lvalue b s) a = load s a := rfl

theorem dir_load_lv (b : Bool) (s : hash_table_t) (t k : Nat) :
    dir_load (with_lvalue b s) t k = dir_load s t k := rfl

theorem slot_load_lv (b : Bool) (s : hash_table_t) (p : Slot) :
    slot_load (with_lvalue b s) p = slot_load s p := by
  cases p <;> rfl

theorem get_current_lv (b : Bool) (s : hash_table_t) (i : Nat) :
    hashtable_hazard_ptr_get_current (with_lvalue b s) i
      = hashtable_hazard_ptr_get_current s i := rfl

theorem list_insert_found_lv (b : Bool) (s : hash_table_t) (r n : Nat) :
    list_insert_found (with_lvalue b s) r n = list_insert_found s r n := rfl

theorem store_lv (b : Bool) (s : hash_table_t) (a v : Nat) :
    store (with_lvalue b s) a v = (store s a v).map (with_lvalue b) := by
  unfold store
  have hn : (with_lvalue b s).nodes = s.nodes := rfl
  rw [hn]
  by_cases h : a / 64 = 0
  · simp only [h, if_true]; rfl
  · simp only [h, if_false]
    cases s.nodes[a / 64 - 1]? with
    | none => rfl
    | some o =>
      cases o with
      | none => rfl
      | some n =>
        simp only []
        split_ifs <;> rfl

theorem dir_store_lv (b : Bool) (s : hash_table_t) (t k v : Nat) :
    dir_store (with_lvalue b s) t k v = (dir_store s t k v).map (with_lvalue b) := by
  unfold dir_store
  have hn : (with_lvalue b s).dirs = s.dirs := rfl
  rw [hn]
  by_cases h : t % 64 ≠ 32
  · rw [if_pos h, if_pos h]; rfl
  · rw [if_neg h, if_neg h]
    cases s.dirs[t / 64]? with
    | none => rfl
    | some o =>
      cases o with
      | none => rfl
      | some d =>
        simp only []
        split_ifs <;> rfl

theorem slot_store_lv (b : Bool) (s : hash_table_t) (p : Slot) (v : Nat) :
    slot_store (with_lvalue b s) p v = (slot_store s p v).map (with_lvalue b) := by
  cases p with
  | dir t k => exact dir_store_lv b s t k v
  | mem a => exact store_lv b s a v

theorem cas_lv (b : Bool) (s : hash_table_t) (p : Slot) (old new : Nat) :
    hashtable_atomic_cas (with_lvalue b s) p old new
      = (hashtable_atomic_cas s p old new).map (fun r => (r.1, with_lvalue b r.2)) := by
  unfold hashtable_atomic_cas
  rw [slot_load_lv, slot_store_lv]
  cases slot_load s p with
  | error e => rfl
  | ok cur =>
    simp only []
    by_cases h : cur = old
    · simp only [h, if_true]
      cases slot_store s p new <;> rfl
    · simp only [h, if_false]
      rfl

theorem node_free_lv (b : Bool) (s : hash_table_t) (p : Nat) :
    node_free (with_lvalue b s) p = (node_free s p).map (with_lvalue b) := by
  unfold node_free
  have hn : (with_lvalue b s).nodes = s.nodes := rfl
  rw [hn]
  by_cases h : p / 64 = 0 ∨ p % 64 ≠ 0
  · rw [if_pos h, if_pos h]; rfl
  · rw [if_neg h, if_neg h]
    cases s.nodes[p / 64 - 1]? with
    | none => rfl
    | some o => cases o <;> rfl

theorem get_with_mask_lv (b : Bool) (s : hash_table_t) (p i : Nat) :
    hashtable_hazard_ptr_get_with_mask (with_lvalue b s) p i
      = (hashtable_hazard_ptr_get_with_mask s p i).map (fun r => (r.1, with_lvalue b r.2)) := by
  unfold hashtable_hazard_ptr_get_with_mask
  rw [load_lv]
  cases load s (hashtable_hazard_ptr_unmask p) <;> rfl

theorem list_find_entry_lv (b : Bool) (s : hash_table_t) (bucket : Nat) :
    list_find_entry (with_lvalue b s) bucket
      = (list_find_entry s bucket).map (fun r => (with_lvalue b r.1, r.2)) := by
  unfold list_find_entry
  have h : slot_load (hashtable_hazard_ptr_set (with_lvalue b s) (with_lvalue b s).table 0)
      (Slot.dir (with_lvalue b s).table bucket)
      = slot_load (hashtable_hazard_ptr_set s s.table 0) (Slot.dir s.table bucket) := rfl
  simp only [h]
  cases slot_load (hashtable_hazard_ptr_set s s.table 0) (Slot.dir s.table bucket) <;> rfl

theorem list_find_loop_lv (b : Bool) (bucket key code : Nat) :
    ∀ (fuel : Nat) (s : hash_table_t) (prev : Slot) (current : Nat),
      list_find_loop bucket key code fuel (with_lvalue b s) prev current
        = (list_find_loop bucket key code fuel s prev current).map
            (fun r => (r.1, r.2.1, with_lvalue b r.2.2)) := by
  intro fuel
  induction fuel with
  | zero => intro s prev current; rfl
  | succ f ih =>
    intro s prev current
    rw [list_find_loop, list_find_loop]
    by_cases h0 : hashtable_node_get current = 0
    · rw [if_pos h0, if_pos h0]; rfl
    · rw [if_neg h0, if_neg h0, get_with_mask_lv]
      cases hashtable_hazard_ptr_get_with_mask s (current + 24) 0 with
      | error e => rfl
      | ok r =>
        obtain ⟨next, s1⟩ := r
        simp only [map_ok, load_lv, slot_load_lv]
        cases load s1 current with
        | error e => rfl
        | ok chash =>
          simp only []
          cases load s1 (current + 8) with
          | error e => rfl
          | ok ckey =>
            simp only []
            cases slot_load s1 prev with
            | error e => rfl
            | ok pv =>
              simp only []
              by_cases hpv : pv ≠ hashtable_node_make (hashtable_node_get current) 0
              · rw [if_pos hpv, if_pos hpv, list_find_entry_lv]
                cases list_find_entry s1 bucket with
                | error e => rfl
                | ok r =>
                  obtain ⟨s2, head, cur2⟩ := r
                  exact ih s2 head cur2
              · rw [if_neg hpv, if_neg hpv]
                by_cases hb : hashtable_node_bit next = 0
                · rw [if_pos hb, if_pos hb]
                  by_cases hstop : chash > code ∨ (chash = code ∧ ckey = key)
                  · rw [if_pos hstop, if_pos hstop]; rfl
                  · rw [if_neg hstop, if_neg hstop]
                    exact ih (hashtable_hazard_ptr_set_with_mask
                      (hashtable_hazard_ptr_set_with_mask s1 current 2) next 1) _ _
                · rw [if_neg hb, if_neg hb, cas_lv]
                  cases hashtable_atomic_cas s1 prev
                      (hashtable_node_make (hashtable_node_get current) 0)
                      (hashtable_node_make (hashtable_node_get next) 0) with
                  | error e => rfl
                  | ok r =>
                    obtain ⟨ok, s2⟩ := r
                    cases ok with
                    | true =>
                      simp only [map_ok]
                      cases hashtable_node_destroy (hashtable_node_get current) with
                      | error e => rfl
                      | ok u =>
                        simp only []
                        exact ih (hashtable_hazard_ptr_set_with_mask s2 next 1) _ _
                    | false =>
                      simp only [map_ok]
                      rw [list_find_entry_lv]
                      cases list_find_entry s2 bucket with
                      | error e => rfl
                      | ok r =>
                        obtain ⟨s3, head, cur3⟩ := r
                        exact ih s3 head cur3

theorem list_find_lv (b : Bool) (fuel : Nat) (s : hash_table_t) (bucket key code : Nat) :
    hashtable_list_find fuel (with_lvalue b s) bucket key code
      = (hashtable_list_find fuel s bucket key code).map
          (fun r => (r.1, r.2.1, with_lvalue b r.2.2)) := by
  unfold hashtable_list_find
  rw [list_find_entry_lv]
  cases list_find_entry s bucket with
  | error e => rfl
  | ok r =>
    obtain ⟨s1, head, current⟩ := r
    exact list_find_loop_lv b bucket key code fuel s1 head current

theorem list_delete_loop_lv (b : Bool) (n bucket key code : Nat) :
    ∀ (fuel : Nat) (s : hash_table_t),
      list_delete_loop n bucket key code fuel (with_lvalue b s)
        = (list_delete_loop n bucket key code fuel s).map
            (fun r => (r.1, with_lvalue b r.2)) := by
  intro fuel
  induction fuel with
  | zero => intro s; rfl
  | succ f ih =>
    intro s
    rw [list_delete_loop, list_delete_loop, list_find_lv]
    cases hashtable_list_find n s bucket key code with
    | error e => rfl
    | ok r =>
      obtain ⟨result, prev, s1⟩ := r
      simp only [map_ok, load_lv, get_current_lv]
      by_cases h0 : result = 0
      · rw [if_pos h0, if_pos h0]; rfl
      · rw [if_neg h0, if_neg h0]
        cases load s1 result with
        | error e => rfl
        | ok rcode =>
          simp only []
          by_cases hc : rcode ≠ code
          · rw [if_pos hc, if_pos hc]; rfl
          · rw [if_neg hc, if_neg hc]
            cases load s1 (result + 8) with
            | error e => rfl
            | ok rkey =>
              simp only []
              by_cases hk : rkey ≠ key
              · rw [if_pos hk, if_pos hk]; rfl
              · rw [if_neg hk, if_neg hk]
                cases hashtable_hazard_ptr_get_current s1 0 with
                | error e => rfl
                | ok next =>
                  simp only []
                  rw [cas_lv]
                  cases hashtable_atomic_cas s1 (Slot.mem (hashtable_node_get result + 24))
                      (hashtable_node_make (hashtable_node_get next) 0)
                      (hashtable_node_make (hashtable_node_get next) 1) with
                  | error e => rfl
                  | ok r =>
                    obtain ⟨ok, s2⟩ := r
                    cases ok with
                    | false =>
                      simp only [map_ok]
                      exact ih s2
                    | true =>
                      simp only [map_ok]
                      rw [cas_lv]
                      cases hashtable_atomic_cas s2 prev
                          (hashtable_node_make (hashtable_node_get result) 0)
                          (hashtable_node_make (hashtable_node_get next) 0) with
                      | error e => rfl
                      | ok r =>
                        obtain ⟨ok2, s3⟩ := r
                        cases ok2 with
                        | false => rfl
                        | true =>
                          simp only [map_ok]
                          cases hashtable_node_destroy (hashtable_node_get result) <;> rfl

theorem list_delete_lv (b : Bool) (fuel : Nat) (s : hash_table_t) (bucket key code : Nat) :
    hashtable_list_delete fuel (with_lvalue b s) bucket key code
      = (hashtable_list_delete fuel s bucket key code).map
          (fun r => (r.1, with_lvalue b r.2)) :=
  list_delete_loop_lv b fuel bucket key code fuel s

theorem list_insert_loop_lv (b : Bool) (n bucket node key code : Nat) :
    ∀ (fuel : Nat) (s : hash_table_t),
      list_insert_loop n bucket node key code fuel (with_lvalue b s)
        = (list_insert_loop n bucket node key code fuel s).map
            (fun r => (r.1, with_lvalue b r.2)) := by
  intro fuel
  induction fuel with
  | zero => intro s; rfl
  | succ f ih =>
    intro s
    rw [list_insert_loop, list_insert_loop, list_find_lv]
    cases hashtable_list_find n s bucket key code with
    | error e => rfl
    | ok r =>
      obtain ⟨result, prev, s1⟩ := r
      simp only [map_ok, list_insert_found_lv]
      cases list_insert_found s1 result node with
      | error e => rfl
      | ok found =>
        cases found with
        | true => rfl
        | false =>
          simp only []
          rw [store_lv]
          cases store s1 (node + 24) (hashtable_node_make (hashtable_node_get result) 0) with
          | error e => rfl
          | ok s2 =>
            simp only [map_ok]
            have hcas := cas_lv b (hashtable_hazard_ptr_set s2 node 0) prev
              (hashtable_node_make (hashtable_node_get result) 0) (hashtable_node_make node 0)
            have hs : hashtable_hazard_ptr_set (with_lvalue b s2) node 0
                = with_lvalue b (hashtable_hazard_ptr_set s2 node 0) := rfl
            rw [hs, hcas]
            cases hashtable_atomic_cas (hashtable_hazard_ptr_set s2 node 0) prev
                (hashtable_node_make (hashtable_node_get result) 0)
                (hashtable_node_make node 0) with
            | error e => rfl
            | ok r =>
              obtain ⟨ok, s3⟩ := r
              cases ok with
              | true => rfl
              | false =>
                simp only [map_ok]
                exact ih s3

theorem list_insert_lv (b : Bool) (fuel : Nat) (s : hash_table_t) (bucket node : Nat) :
    hashtable_list_insert fuel (with_lvalue b s) bucket node
      = (hashtable_list_insert fuel s bucket node).map
          (fun r => (r.1, with_lvalue b r.2)) := by
  unfold hashtable_list_insert
  simp only [load_lv]
  cases load s (node + 8) with
  | error e => rfl
  | ok key =>
    simp only []
    cases load s node with
    | error e => rfl
    | ok code => exact list_insert_loop_lv b fuel bucket node key code fuel s

theorem bucket_init_lv (b : Bool) (fuel : Nat) :
    ∀ (depth : Nat) (s : hash_table_t) (table bucket : Nat),
      hashtable_bucket_init fuel depth (with_lvalue b s) table bucket
        = (hashtable_bucket_init fuel depth s table bucket).map (with_lvalue b) := by
  intro depth
  induction depth with
  | zero => intro s table bucket; rfl
  | succ k ih =>
    intro s table bucket
    rw [hashtable_bucket_init, hashtable_bucket_init]
    cases hashtable_bucket_parent bucket with
    | error e => rfl
    | ok parent =>
      simp only [dir_load_lv]
      cases dir_load s table parent with
      | error e => rfl
      | ok tp =>
        simp only []
        have hrec : (if tp = 0 then hashtable_bucket_init fuel k (with_lvalue b s) table parent
            else .ok (with_lvalue b s))
            = (if tp = 0 then hashtable_bucket_init fuel k s table parent else .ok s).map
                (with_lvalue b) := by
          by_cases h : tp = 0
          · rw [if_pos h, if_pos h]; exact ih s table parent
          · rw [if_neg h, if_neg h]; rfl
        rw [hrec]
        cases (if tp = 0 then hashtable_bucket_init fuel k s table parent else .ok s) with
        | error e => rfl
        | ok s1 =>
          simp only [map_ok]
          have hcal : node_calloc (with_lvalue b s1)
              = ((node_calloc s1).1, with_lvalue b (node_calloc s1).2) := rfl
          rw [hcal]
          simp only [store_lv]
          cases store (node_calloc s1).2 ((node_calloc s1).1 + 8) bucket with
          | error e => rfl
          | ok s3 =>
            simp only [map_ok, store_lv]
            cases store s3 (node_calloc s1).1 (hashtable_hash_key_dummy bucket) with
            | error e => rfl
            | ok s4 =>
              simp only [map_ok, list_insert_lv]
              cases hashtable_list_insert fuel s4 parent (node_calloc s1).1 with
              | error e => rfl
              | ok r =>
                obtain ⟨result, s5⟩ := r
                simp only [map_ok]
                have hfree : (if hashtable_node_get result ≠ (node_calloc s1).1
                    then node_free (with_lvalue b s5) (node_calloc s1).1
                    else .ok (with_lvalue b s5))
                    = (if hashtable_node_get result ≠ (node_calloc s1).1
                        then node_free s5 (node_calloc s1).1 else .ok s5).map
                        (with_lvalue b) := by
                  by_cases h : hashtable_node_get result ≠ (node_calloc s1).1
                  · rw [if_pos h, if_pos h]; exact node_free_lv b s5 _
                  · rw [if_neg h, if_neg h]; rfl
                rw [hfree]
                cases (if hashtable_node_get result ≠ (node_calloc s1).1
                    then node_free s5 (node_calloc s1).1 else .ok s5) with
                | error e => rfl
                | ok s6 =>
                  simp only [map_ok]
                  exact dir_store_lv b (hashtable_hazard_ptr_set s6 s6.table 1) s6.table bucket _

theorem dir_memcpy_lv (b : Bool) (s : hash_table_t) (new old size : Nat) :
    dir_memcpy (with_lvalue b s) new old size = (dir_memcpy s new old size).map (with_lvalue b) := by
  unfold dir_memcpy
  have hn : (with_lvalue b s).dirs = s.dirs := rfl
  rw [hn]
  by_cases h : new % 64 ≠ 32 ∨ old % 64 ≠ 32
  · rw [if_pos h, if_pos h]; rfl
  · rw [if_neg h, if_neg h]
    cases s.dirs[new / 64]? with
    | none => rfl
    | some o1 =>
      cases o1 with
      | none => rfl
      | some dn =>
        cases s.dirs[old / 64]? with
        | none => rfl
        | some o2 =>
          cases o2 with
          | none => rfl
          | some d =>
            simp only []
            split_ifs <;> rfl

theorem dir_free_lv (b : Bool) (s : hash_table_t) (p : Nat) :
    dir_free (with_lvalue b s) p = (dir_free s p).map (with_lvalue b) := by
  unfold dir_free
  have hn : (with_lvalue b s).dirs = s.dirs := rfl
  rw [hn]
  by_cases h : p % 64 ≠ 32
  · rw [if_pos h, if_pos h]; rfl
  · rw [if_neg h, if_neg h]
    cases s.dirs[p / 64]? with
    | none => rfl
    | some o => cases o <;> rfl

theorem resize_lv (b : Bool) (s : hash_table_t) (size : Nat) :
    hashtable_resize (with_lvalue b s) size = (hashtable_resize s size).map (with_lvalue b) := by
  unfold hashtable_resize
  have hcal : dir_calloc (hashtable_hazard_ptr_set (with_lvalue b s) s.table 0)
        (size * 2 % WORD)
      = ((dir_calloc (hashtable_hazard_ptr_set s s.table 0) (size * 2 % WORD)).1,
         with_lvalue b (dir_calloc (hashtable_hazard_ptr_set s s.table 0) (size * 2 % WORD)).2) :=
    rfl
  have htb : (with_lvalue b s).table = s.table := rfl
  simp only [hcal, htb, dir_memcpy_lv]
  cases dir_memcpy (dir_calloc (hashtable_hazard_ptr_set s s.table 0) (size * 2 % WORD)).2
      (dir_calloc (hashtable_hazard_ptr_set s s.table 0) (size * 2 % WORD)).1 s.table size with
  | error e => rfl
  | ok s3 =>
    simp only [map_ok]
    have hsz : (with_lvalue b s3).size = s3.size := rfl
    rw [hsz]
    by_cases h1 : s3.size ≠ size
    · rw [if_pos h1, if_pos h1]; exact dir_free_lv b s3 _
    · rw [if_neg h1, if_neg h1]
      by_cases h2 : s3.table ≠ s.table
      · have h2a : ({ with_lvalue b s3 with size := size * 2 % WORD } : hash_table_t).table
            ≠ s.table := h2
        have h2b : ({ s3 with size := size * 2 % WORD } : hash_table_t).table ≠ s.table := h2
        rw [if_pos h2a, if_pos h2b]
        exact dir_free_lv b { s3 with size := size * 2 % WORD } _
      · have h2a : ¬ (({ with_lvalue b s3 with size := size * 2 % WORD } : hash_table_t).table
            ≠ s.table) := h2
        have h2b : ¬ (({ s3 with size := size * 2 % WORD } : hash_table_t).table ≠ s.table) := h2
        rw [if_neg h2a, if_neg h2b]
        rfl

theorem insert_lv (b : Bool) (fuel : Nat) (s : hash_table_t) (key value : Nat) :
    hashtable_insert fuel (with_lvalue b s) key value
      = (hashtable_insert fuel s key value).map (fun r => (r.1, with_lvalue b r.2)) := by
  unfold hashtable_insert
  have hcal : node_calloc (with_lvalue b s)
      = ((node_calloc s).1, with_lvalue b (node_calloc s).2) := rfl
  have hs2 : hashtable_hazard_ptr_set (with_lvalue b (node_calloc s).2)
        (with_lvalue b (node_calloc s).2).table 0
      = with_lvalue b (hashtable_hazard_ptr_set (node_calloc s).2 (node_calloc s).2.table 0) := rfl
  simp only [hcal, hs2, store_lv]
  cases store (hashtable_hazard_ptr_set (node_calloc s).2 (node_calloc s).2.table 0)
      (node_calloc s).1 (hashtable_hash_key_regular (hashtable_hash_key key)) with
  | error e => rfl
  | ok s3 =>
    simp only [map_ok, store_lv]
    cases store s3 ((node_calloc s).1 + 8) key with
    | error e => rfl
    | ok s4 =>
      simp only [map_ok, store_lv]
      cases store s4 ((node_calloc s).1 + 16) value with
      | error e => rfl
      | ok s5 =>
        simp only [map_ok]
        have hsz : (with_lvalue b s5).size = s5.size := rfl
        rw [hsz]
        by_cases h0 : s5.size = 0
        · rw [if_pos h0, if_pos h0]; rfl
        · rw [if_neg h0, if_neg h0]
          have htb : (with_lvalue b (node_calloc s).2).table = (node_calloc s).2.table := rfl
          simp only [htb, dir_load_lv]
          cases dir_load s5 (node_calloc s).2.table (hashtable_hash_key key % s5.size) with
          | error e => rfl
          | ok tb =>
            simp only []
            have hrec : (if tb = 0 then hashtable_bucket_init fuel fuel (with_lvalue b s5)
                  (node_calloc s).2.table (hashtable_hash_key key % s5.size)
                else .ok (with_lvalue b s5))
                = (if tb = 0 then hashtable_bucket_init fuel fuel s5
                    (node_calloc s).2.table (hashtable_hash_key key % s5.size)
                  else .ok s5).map (with_lvalue b) := by
              by_cases h : tb = 0
              · rw [if_pos h, if_pos h]; exact bucket_init_lv b fuel fuel s5 _ _
              · rw [if_neg h, if_neg h]; rfl
            rw [hrec]
            cases (if tb = 0 then hashtable_bucket_init fuel fuel s5
                (node_calloc s).2.table (hashtable_hash_key key % s5.size) else .ok s5) with
            | error e => rfl
            | ok s6 =>
              simp only [map_ok, list_insert_lv]
              cases hashtable_list_insert fuel s6 (hashtable_hash_key key % s5.size)
                  (node_calloc s).1 with
              | error e => rfl
              | ok r =>
                obtain ⟨result, s7⟩ := r
                simp only [map_ok]
                by_cases hr : hashtable_node_get result ≠ (node_calloc s).1
                · rw [if_pos hr, if_pos hr, node_free_lv]
                  cases node_free s7 (node_calloc s).1 <;> rfl
                · rw [if_neg hr, if_neg hr]
                  have hc : (with_lvalue b s7).count = s7.count := rfl
                  have hz : (with_lvalue b s7).size = s7.size := rfl
                  simp only [hc, hz]
                  by_cases hlf : load_factor_exceeded s7.count (f32_of_nat s7.size) = true
                  · rw [if_pos hlf, if_pos hlf]
                    by_cases hw : f32_of_nat s7.size < WORD
                    · rw [if_pos hw, if_pos hw]
                      have hres := resize_lv b { s7 with count := (s7.count + 1) % WORD }
                        (f32_of_nat s7.size)
                      erw [hres]
                      cases hashtable_resize { s7 with count := (s7.count + 1) % WORD }
                        (f32_of_nat s7.size) <;> rfl
                    · rw [if_neg hw, if_neg hw]; rfl
                  · rw [if_neg hlf, if_neg hlf]; rfl

theorem load_ok_aligned {s : hash_table_t} {a v : Nat} (h : load s a = .ok v) : a % 8 = 0 := by
  unfold load at h
  by_cases h0 : a / 64 = 0
  · rw [if_pos h0] at h; exact Except.noConfusion h
  · rw [if_neg h0] at h
    by_cases h1 : a % 64 = 0
    · omega
    · by_cases h2 : a % 64 = 8
      · omega
      · by_cases h3 : a % 64 = 16
        · omega
        · by_cases h4 : a % 64 = 24
          · omega
          · exfalso
            cases hn : s.nodes[a / 64 - 1]? with
            | none => rw [hn] at h; exact Except.noConfusion h
            | some o =>
              cases o with
              | none => rw [hn] at h; exact Except.noConfusion h
              | some n =>
                rw [hn] at h
                simp only [h1, h2, h3, h4, if_false] at h
                exact Except.noConfusion h

theorem unmask_of_aligned {a : Nat} (h : a % 8 = 0) (k : Nat) (hk : k % 4 = 0) :
    hashtable_hazard_ptr_unmask (a + k) = a + k := by
  unfold hashtable_hazard_ptr_unmask
  omega

theorem hz_mode (h : List Nat) (v : Nat) :
    (((h.set 0 v).set 1 0).set 2 0).set 0 0 = (((h.set 0 0).set 1 0).set 2 0).set 0 0 := by
  cases h with
  | nil => rfl
  | cons a t => rfl

theorem mode_free_ext {x y : hash_table_t} (h1 : x.table = y.table) (h2 : x.count = y.count)
    (h3 : x.size = y.size) (h4 : x.nodes = y.nodes) (h5 : x.dirs = y.dirs)
    (h6 : x.hazard.set 0 0 = y.hazard.set 0 0) : mode_free x = mode_free y := by
  cases x
  cases y
  simp only [mode_free] at *
  simp only [h1, h2, h3, h4, h5, h6]

theorem mode_free_lv (b : Bool) (s : hash_table_t) : mode_free (with_lvalue b s) = mode_free s :=
  rfl

theorem map_mode_lv {α : Type} (b : Bool) (r : M (α × hash_table_t)) :
    (r.map (fun r => (r.1, with_lvalue b r.2))).map (fun r => (r.1, mode_free r.2))
      = r.map (fun r => (r.1, mode_free r.2)) := by
  cases r <;> rfl

theorem find_mode (b : Bool) (fuel : Nat) (s : hash_table_t) (key : Nat) :
    (hashtable_find fuel (with_lvalue b s) key).map (fun r => (r.1, mode_free r.2))
      = (hashtable_find fuel s key).map (fun r => (r.1, mode_free r.2)) := by
  unfold hashtable_find
  have hsz : (with_lvalue b s).size = s.size := rfl
  have htb : (with_lvalue b s).table = s.table := rfl
  simp only [hsz, htb]
  by_cases h0 : s.size = 0
  · rw [if_pos h0, if_pos h0]
  · rw [if_neg h0, if_neg h0]
    have hs1 : hashtable_hazard_ptr_set (with_lvalue b s) s.table 0
        = with_lvalue b (hashtable_hazard_ptr_set s s.table 0) := rfl
    simp only [hs1, dir_load_lv]
    cases dir_load (hashtable_hazard_ptr_set s s.table 0) s.table
        (hashtable_hash_key key % s.size) with
    | error e => rfl
    | ok tb =>
      simp only []
      have hrec : (if tb = 0 then hashtable_bucket_init fuel fuel
            (with_lvalue b (hashtable_hazard_ptr_set s s.table 0)) s.table
            (hashtable_hash_key key % s.size)
          else .ok (with_lvalue b (hashtable_hazard_ptr_set s s.table 0)))
          = (if tb = 0 then hashtable_bucket_init fuel fuel (hashtable_hazard_ptr_set s s.table 0)
              s.table (hashtable_hash_key key % s.size)
            else .ok (hashtable_hazard_ptr_set s s.table 0)).map (with_lvalue b) := by
        by_cases h : tb = 0
        · rw [if_pos h, if_pos h]; exact bucket_init_lv b fuel fuel _ _ _
        · rw [if_neg h, if_neg h]; rfl
      rw [hrec]
      cases (if tb = 0 then hashtable_bucket_init fuel fuel (hashtable_hazard_ptr_set s s.table 0)
          s.table (hashtable_hash_key key % s.size)
          else .ok (hashtable_hazard_ptr_set s s.table 0)) with
      | error e => rfl
      | ok s2 =>
        simp only [map_ok, list_find_lv]
        cases hashtable_list_find fuel s2 (hashtable_hash_key key % s.size) key
            (hashtable_hash_key_regular (hashtable_hash_key key)) with
        | error e => rfl
        | ok r =>
          obtain ⟨result, prev, s3⟩ := r
          simp only [map_ok, load_lv]
          by_cases hn : hashtable_node_get result = 0
          · rw [if_pos hn, if_pos hn]; rfl
          · rw [if_neg hn, if_neg hn]
            cases hl : load s3 (hashtable_node_get result) with
            | error e => rfl
            | ok ncode =>
              simp only []
              by_cases hc : ncode ≠ hashtable_hash_key_regular (hashtable_hash_key key)
              · rw [if_pos hc, if_pos hc]; rfl
              · rw [if_neg hc, if_neg hc]
                cases load s3 (hashtable_node_get result + 8) with
                | error e => rfl
                | ok nkey =>
                  simp only []
                  by_cases hk : nkey ≠ key
                  · rw [if_pos hk, if_pos hk]; rfl
                  · rw [if_neg hk, if_neg hk]
                    have hun := unmask_of_aligned (load_ok_aligned hl) 16 (by decide)
                    have hlv : (with_lvalue b s3).lvalue = b := rfl
                    simp only [hlv, hashtable_hazard_ptr_get_with_mask, hun, load_lv]
                    cases load s3 (hashtable_node_get result + 16) with
                    | error e =>
                      cases b <;> cases s3.lvalue <;> rfl
                    | ok value =>
                      simp only []
                      have hA : ∀ x : hash_table_t,
                          mode_free (hashtable_hazard_ptr_clear (hashtable_hazard_ptr_clear
                            (hashtable_hazard_ptr_set_with_mask x value 0) 1) 2)
                          = mode_free (hashtable_hazard_ptr_clear_all x) := fun x =>
                        mode_free_ext rfl rfl rfl rfl rfl (hz_mode x.hazard _)
                      have hB : ∀ x : hash_table_t,
                          mode_free (hashtable_hazard_ptr_clear_all (with_lvalue b x))
                          = mode_free (hashtable_hazard_ptr_clear_all x) := fun x => rfl
                      by_cases hb : b = true
                      · by_cases hx : s3.lvalue = true
                        · rw [if_pos hb, if_pos hx]
                          simp only [map_ok, hA, hB]
                        · rw [if_pos hb, if_neg hx]
                          simp only [map_ok, hA, hB]
                      · by_cases hx : s3.lvalue = true
                        · rw [if_neg hb, if_pos hx]
                          simp only [map_ok, hA, hB]
                        · rw [if_neg hb, if_neg hx]
                          simp only [map_ok, hB]

theorem list_delete_loop_aligned (n bucket key code : Nat) :
    ∀ (fuel : Nat) (s : hash_table_t) (r : Nat) (s' : hash_table_t),
      list_delete_loop n bucket key code fuel s = .ok (r, s') → r % 8 = 0 := by
  intro fuel
  induction fuel with
  | zero =>
    intro s r s' h
    rw [list_delete_loop] at h
    exact Except.noConfusion h
  | succ f ih =>
    intro s r s' h
    rw [list_delete_loop] at h
    cases hf : hashtable_list_find n s bucket key code with
    | error e => rw [hf] at h; exact Except.noConfusion h
    | ok x =>
      obtain ⟨result, prev, s1⟩ := x
      rw [hf] at h
      simp only [] at h
      by_cases h0 : result = 0
      · rw [if_pos h0] at h
        have := (Prod.mk.inj (Except.ok.inj h)).1
        omega
      · rw [if_neg h0] at h
        cases hl : load s1 result with
        | error e => rw [hl] at h; exact Except.noConfusion h
        | ok rcode =>
          rw [hl] at h
          simp only [] at h
          have hal := load_ok_aligned hl
          by_cases hc : rcode ≠ code
          · rw [if_pos hc] at h
            have := (Prod.mk.inj (Except.ok.inj h)).1
            omega
          · rw [if_neg hc] at h
            cases hl2 : load s1 (result + 8) with
            | error e => rw [hl2] at h; exact Except.noConfusion h
            | ok rkey =>
              rw [hl2] at h
              simp only [] at h
              by_cases hk : rkey ≠ key
              · rw [if_pos hk] at h
                have := (Prod.mk.inj (Except.ok.inj h)).1
                omega
              · rw [if_neg hk] at h
                cases hg : hashtable_hazard_ptr_get_current s1 0 with
                | error e => rw [hg] at h; exact Except.noConfusion h
                | ok next =>
                  rw [hg] at h
                  simp only [] at h
                  cases hcas : hashtable_atomic_cas s1 (Slot.mem (hashtable_node_get result + 24))
                      (hashtable_node_make (hashtable_node_get next) 0)
                      (hashtable_node_make (hashtable_node_get next) 1) with
                  | error e => rw [hcas] at h; exact Except.noConfusion h
                  | ok y =>
                    obtain ⟨ok, s2⟩ := y
                    rw [hcas] at h
                    cases ok with
                    | false =>
                      simp only [] at h
                      exact ih s2 r s' h
                    | true =>
                      simp only [] at h
                      cases hcas2 : hashtable_atomic_cas s2 prev
                          (hashtable_node_make (hashtable_node_get result) 0)
                          (hashtable_node_make (hashtable_node_get next) 0) with
                      | error e => rw [hcas2] at h; exact Except.noConfusion h
                      | ok z =>
                        obtain ⟨ok2, s3⟩ := z
                        rw [hcas2] at h
                        cases ok2 with
                        | false =>
                          simp only [] at h
                          have := (Prod.mk.inj (Except.ok.inj h)).1
                          omega
                        | true =>
                          simp only [] at h
                          cases hd : hashtable_node_destroy (hashtable_node_get result) with
                          | error e => rw [hd] at h; exact Except.noConfusion h
                          | ok u =>
                            rw [hd] at h
                            simp only [] at h
                            have := (Prod.mk.inj (Except.ok.inj h)).1
                            omega

theorem store_mode_free (s : hash_table_t) (a v : Nat) :
    store (mode_free s) a v = (store s a v).map mode_free := by
  unfold store
  have hn : (mode_free s).nodes = s.nodes := rfl
  rw [hn]
  by_cases h : a / 64 = 0
  · simp only [h, if_true]; rfl
  · simp only [h, if_false]
    cases s.nodes[a / 64 - 1]? with
    | none => rfl
    | some o =>
      cases o with
      | none => rfl
      | some n =>
        simp only []
        split_ifs <;> rfl

/-- A store on two tables that agree up to the mode flag and hazard slot 0
gives tables that agree up to the mode flag and hazard slot 0. -/
theorem store_mode {x y : hash_table_t} (h : mode_free x = mode_free y) (a v : Nat) :
    (∃ e, store x a v = .error e ∧ store y a v = .error e) ∨
    (∃ s1 s2, store x a v = .ok s1 ∧ store y a v = .ok s2 ∧ mode_free s1 = mode_free s2) := by
  have hx := store_mode_free x a v
  have hy := store_mode_free y a v
  rw [h, hy] at hx
  cases hsx : store x a v with
  | error e =>
    cases hsy : store y a v with
    | error e2 =>
      rw [hsx, hsy] at hx
      simp only [map_error] at hx
      injection hx with hx
      exact Or.inl ⟨e, rfl, by rw [hx]⟩
    | ok s2 =>
      rw [hsx, hsy] at hx
      exact Except.noConfusion hx
  | ok s1 =>
    cases hsy : store y a v with
    | error e2 =>
      rw [hsx, hsy] at hx
      exact Except.noConfusion hx
    | ok s2 =>
      rw [hsx, hsy] at hx
      simp only [map_ok] at hx
      injection hx with hx
      exact Or.inr ⟨s1, s2, rfl, rfl, hx.symm⟩

theorem hz_mode2 {h h' : List Nat} (e : h.set 0 0 = h'.set 0 0) (v w : Nat) :
    (((h.set 0 v).set 1 0).set 2 0).set 0 0 = (((h'.set 0 w).set 1 0).set 2 0).set 0 0 := by
  cases h with
  | nil =>
    cases h' with
    | nil => rfl
    | cons a' t' => exact List.noConfusion e
  | cons a t =>
    cases h' with
    | nil => exact List.noConfusion e
    | cons a' t' =>
      have ht : t = t' := (List.cons.inj e).2
      subst ht
      rfl

theorem mode_free_fields {x y : hash_table_t} (h : mode_free x = mode_free y) :
    x.table = y.table ∧ x.count = y.count ∧ x.size = y.size ∧ x.nodes = y.nodes ∧
      x.dirs = y.dirs ∧ x.hazard.set 0 0 = y.hazard.set 0 0 :=
  ⟨(congrArg hash_table_t.table h : (mode_free x).table = (mode_free y).table),
    (congrArg hash_table_t.count h : (mode_free x).count = (mode_free y).count),
    (congrArg hash_table_t.size h : (mode_free x).size = (mode_free y).size),
    (congrArg hash_table_t.nodes h : (mode_free x).nodes = (mode_free y).nodes),
    (congrArg hash_table_t.dirs h : (mode_free x).dirs = (mode_free y).dirs),
    (congrArg hash_table_t.hazard h : (mode_free x).hazard = (mode_free y).hazard)⟩

theorem load_mode {x y : hash_table_t} (h : mode_free x = mode_free y) (a : Nat) :
    load x a = load y a := by
  have h1 : load x a = load (mode_free x) a := rfl
  have h2 : load y a = load (mode_free y) a := rfl
  rw [h1, h2, h]

/-- The tail of `hashtable_delete` (lines 590-600) on two tables that agree up
to the mode flag and hazard slot 0. -/
theorem delete_tail_mode (x y : hash_table_t) (hxy : mode_free x = mode_free y)
    (node result : Nat)
    (hun : hashtable_hazard_ptr_unmask (node + 16) = node + 16) :
    (match (if x.lvalue then
               match hashtable_hazard_ptr_get_with_mask x (node + 16) 0 with
               | .error e => .error e
               | .ok (value, s5) =>
                 .ok (value, hashtable_hazard_ptr_clear (hashtable_hazard_ptr_clear s5 1) 2)
             else
               match load x (node + 16) with
               | .error e => .error e
               | .ok value => .ok (value, hashtable_hazard_ptr_clear_all x) :
             M (Nat × hash_table_t)) with
      | .error e => (.error e : M (Nat × hash_table_t))
      | .ok (value, s6) =>
        match store s6 (result + 16) 0 with
        | .error e => .error e
        | .ok s7 => .ok (value, s7)).map (fun r : Nat × hash_table_t => (r.1, mode_free r.2))
    = (match (if y.lvalue then
               match hashtable_hazard_ptr_get_with_mask y (node + 16) 0 with
               | .error e => .error e
               | .ok (value, s5) =>
                 .ok (value, hashtable_hazard_ptr_clear (hashtable_hazard_ptr_clear s5 1) 2)
             else
               match load y (node + 16) with
               | .error e => .error e
               | .ok value => .ok (value, hashtable_hazard_ptr_clear_all y) :
             M (Nat × hash_table_t)) with
      | .error e => (.error e : M (Nat × hash_table_t))
      | .ok (value, s6) =>
        match store s6 (result + 16) 0 with
        | .error e => .error e
        | .ok s7 => .ok (value, s7)).map (fun r : Nat × hash_table_t => (r.1, mode_free r.2)) := by
  obtain ⟨f1, f2, f3, f4, f5, f6⟩ := mode_free_fields hxy
  simp only [hashtable_hazard_ptr_get_with_mask, hun, load_mode hxy]
  cases load y (node + 16) with
  | error e => cases x.lvalue <;> cases y.lvalue <;> rfl
  | ok value =>
    simp only []
    have key : ∀ (X Y : hash_table_t), mode_free X = mode_free Y →
        (match store X (result + 16) 0 with
          | .error e => (.error e : M (Nat × hash_table_t))
          | .ok s7 => .ok (value, s7)).map (fun r : Nat × hash_table_t => (r.1, mode_free r.2))
        = (match store Y (result + 16) 0 with
          | .error e => (.error e : M (Nat × hash_table_t))
          | .ok s7 => .ok (value, s7)).map
            (fun r : Nat × hash_table_t => (r.1, mode_free r.2)) := by
      intro X Y hXY
      rcases store_mode hXY (result + 16) 0 with ⟨e, h1, h2⟩ | ⟨s1, s2, h1, h2, h3⟩
      · rw [h1, h2]
      · rw [h1, h2]
        simp only [map_ok, h3]
    have hAA : mode_free (hashtable_hazard_ptr_clear (hashtable_hazard_ptr_clear
          (hashtable_hazard_ptr_set_with_mask x value 0) 1) 2)
        = mode_free (hashtable_hazard_ptr_clear (hashtable_hazard_ptr_clear
          (hashtable_hazard_ptr_set_with_mask y value 0) 1) 2) :=
      mode_free_ext f1 f2 f3 f4 f5 (hz_mode2 f6 _ _)
    have hAB : mode_free (hashtable_hazard_ptr_clear (hashtable_hazard_ptr_clear
          (hashtable_hazard_ptr_set_with_mask x value 0) 1) 2)
        = mode_free (hashtable_hazard_ptr_clear_all y) :=
      mode_free_ext f1 f2 f3 f4 f5 (hz_mode2 f6 _ _)
    have hBA : mode_free (hashtable_hazard_ptr_clear_all x)
        = mode_free (hashtable_hazard_ptr_clear (hashtable_hazard_ptr_clear
          (hashtable_hazard_ptr_set_with_mask y value 0) 1) 2) :=
      mode_free_ext f1 f2 f3 f4 f5 (hz_mode2 f6 _ _)
    have hBB : mode_free (hashtable_hazard_ptr_clear_all x)
        = mode_free (hashtable_hazard_ptr_clear_all y) :=
      mode_free_ext f1 f2 f3 f4 f5 (hz_mode2 f6 _ _)
    by_cases hx : x.lvalue = true
    · by_cases hy : y.lvalue = true
      · rw [if_pos hx, if_pos hy]; exact key _ _ hAA
      · rw [if_pos hx, if_neg hy]; exact key _ _ hAB
    · by_cases hy : y.lvalue = true
      · rw [if_neg hx, if_pos hy]; exact key _ _ hBA
      · rw [if_neg hx, if_neg hy]; exact key _ _ hBB

theorem delete_mode (b : Bool) (fuel : Nat) (s : hash_table_t) (key : Nat) :
    (hashtable_delete fuel (with_lvalue b s) key).map
        (fun r : Nat × hash_table_t => (r.1, mode_free r.2))
      = (hashtable_delete fuel s key).map
        (fun r : Nat × hash_table_t => (r.1, mode_free r.2)) := by
  unfold hashtable_delete
  have hsz : (with_lvalue b s).size = s.size := rfl
  have htb : (with_lvalue b s).table = s.table := rfl
  simp only [hsz, htb]
  by_cases h0 : s.size = 0
  · rw [if_pos h0, if_pos h0]
  · rw [if_neg h0, if_neg h0]
    have hs1 : hashtable_hazard_ptr_set (with_lvalue b s) s.table 0
        = with_lvalue b (hashtable_hazard_ptr_set s s.table 0) := rfl
    simp only [hs1, dir_load_lv]
    cases dir_load (hashtable_hazard_ptr_set s s.table 0) s.table
        (hashtable_hash_key key % s.size) with
    | error e => rfl
    | ok tb =>
      simp only []
      have hrec : (if tb = 0 then hashtable_bucket_init fuel fuel
            (with_lvalue b (hashtable_hazard_ptr_set s s.table 0)) s.table
            (hashtable_hash_key key % s.size)
          else .ok (with_lvalue b (hashtable_hazard_ptr_set s s.table 0)))
          = (if tb = 0 then hashtable_bucket_init fuel fuel (hashtable_hazard_ptr_set s s.table 0)
              s.table (hashtable_hash_key key % s.size)
            else .ok (hashtable_hazard_ptr_set s s.table 0)).map (with_lvalue b) := by
        by_cases h : tb = 0
        · rw [if_pos h, if_pos h]; exact bucket_init_lv b fuel fuel _ _ _
        · rw [if_neg h, if_neg h]; rfl
      rw [hrec]
      cases (if tb = 0 then hashtable_bucket_init fuel fuel (hashtable_hazard_ptr_set s s.table 0)
          s.table (hashtable_hash_key key % s.size)
          else .ok (hashtable_hazard_ptr_set s s.table 0)) with
      | error e => rfl
      | ok s2 =>
        simp only [map_ok, list_delete_lv]
        cases hd : hashtable_list_delete fuel s2 (hashtable_hash_key key % s.size) key
            (hashtable_hash_key_regular (hashtable_hash_key key)) with
        | error e => rfl
        | ok r =>
          obtain ⟨result, s3⟩ := r
          simp only [map_ok]
          by_cases hr0 : result = 0
          · rw [if_pos hr0, if_pos hr0]; rfl
          · rw [if_neg hr0, if_neg hr0]
            have hal : result % 8 = 0 :=
              list_delete_loop_aligned fuel _ _ _ fuel s2 result s3 hd
            have hng : hashtable_node_get result % 8 = 0 := by
              unfold hashtable_node_get; omega
            have p1 : (with_lvalue b s3).table = s3.table := rfl
            have p2 : (with_lvalue b s3).hazard = s3.hazard := rfl
            have p3 : (with_lvalue b s3).count = s3.count := rfl
            have p4 : (with_lvalue b s3).size = s3.size := rfl
            have p5 : (with_lvalue b s3).lvalue = b := rfl
            have p6 : (with_lvalue b s3).nodes = s3.nodes := rfl
            have p7 : (with_lvalue b s3).dirs = s3.dirs := rfl
            simp only [p1, p2, p3, p4, p5, p6, p7]
            generalize (s3.count + WORD - 1) % WORD = c
            exact delete_tail_mode ⟨s3.table, s3.hazard, c, s3.size, b, s3.nodes, s3.dirs⟩
              ⟨s3.table, s3.hazard, c, s3.size, s3.lvalue, s3.nodes, s3.dirs⟩ rfl
              (hashtable_node_get result) result (unmask_of_aligned hng 16 (by decide))

theorem find_hz (fuel : Nat) (s : hash_table_t) (key x : Nat) :
    hashtable_find fuel (hashtable_hazard_ptr_set s x 0) key = hashtable_find fuel s key := by
  unfold hashtable_find
  have hsz : (hashtable_hazard_ptr_set s x 0).size = s.size := rfl
  have htb : (hashtable_hazard_ptr_set s x 0).table = s.table := rfl
  have h1 : hashtable_hazard_ptr_set (hashtable_hazard_ptr_set s x 0) s.table 0
      = hashtable_hazard_ptr_set s s.table 0 := by
    simp [hashtable_hazard_ptr_set, List.set_set]
  simp only [hsz, htb, h1]

theorem delete_hz (fuel : Nat) (s : hash_table_t) (key x : Nat) :
    hashtable_delete fuel (hashtable_hazard_ptr_set s x 0) key = hashtable_delete fuel s key := by
  unfold hashtable_delete
  have hsz : (hashtable_hazard_ptr_set s x 0).size = s.size := rfl
  have htb : (hashtable_hazard_ptr_set s x 0).table = s.table := rfl
  have h1 : hashtable_hazard_ptr_set (hashtable_hazard_ptr_set s x 0) s.table 0
      = hashtable_hazard_ptr_set s s.table 0 := by
    simp [hashtable_hazard_ptr_set, List.set_set]
  simp only [hsz, htb, h1]

theorem insert_hz (fuel : Nat) (s : hash_table_t) (key value x : Nat) :
    hashtable_insert fuel (hashtable_hazard_ptr_set s x 0) key value
      = hashtable_insert fuel s key value := by
  unfold hashtable_insert
  have hcal : node_calloc (hashtable_hazard_ptr_set s x 0)
      = ((node_calloc s).1, hashtable_hazard_ptr_set (node_calloc s).2 x 0) := rfl
  have htb : (hashtable_hazard_ptr_set (node_calloc s).2 x 0).table = (node_calloc s).2.table :=
    rfl
  have h1 : hashtable_hazard_ptr_set (hashtable_hazard_ptr_set (node_calloc s).2 x 0)
        (node_calloc s).2.table 0
      = hashtable_hazard_ptr_set (node_calloc s).2 (node_calloc s).2.table 0 := by
    simp [hashtable_hazard_ptr_set, List.set_set]
  simp only [hcal, htb, h1]

theorem mode_free_eq (s : hash_table_t) :
    mode_free s = with_lvalue false (hashtable_hazard_ptr_set s 0 0) := rfl

theorem find_mode_free (fuel : Nat) (s : hash_table_t) (key : Nat) :
    (hashtable_find fuel (mode_free s) key).map
        (fun r : Nat × hash_table_t => (r.1, mode_free r.2))
      = (hashtable_find fuel s key).map (fun r : Nat × hash_table_t => (r.1, mode_free r.2)) := by
  rw [mode_free_eq, find_mode, find_hz]

theorem delete_mode_free (fuel : Nat) (s : hash_table_t) (key : Nat) :
    (hashtable_delete fuel (mode_free s) key).map
        (fun r : Nat × hash_table_t => (r.1, mode_free r.2))
      = (hashtable_delete fuel s key).map
        (fun r : Nat × hash_table_t => (r.1, mode_free r.2)) := by
  rw [mode_free_eq, delete_mode, delete_hz]

theorem insert_mode_free (fuel : Nat) (s : hash_table_t) (key value : Nat) :
    (hashtable_insert fuel (mode_free s) key value).map
        (fun r : Bool × hash_table_t => (r.1, mode_free r.2))
      = (hashtable_insert fuel s key value).map
        (fun r : Bool × hash_table_t => (r.1, mode_free r.2)) := by
  rw [mode_free_eq, insert_lv, map_mode_lv, insert_hz]

theorem map_eq_cases {α : Type} {X Y : M (α × hash_table_t)}
    (h : X.map (fun r : α × hash_table_t => (r.1, mode_free r.2))
      = Y.map (fun r : α × hash_table_t => (r.1, mode_free r.2))) :
    (∃ e, X = .error e ∧ Y = .error e) ∨
    (∃ r s1 s2, X = .ok (r, s1) ∧ Y = .ok (r, s2) ∧ mode_free s1 = mode_free s2) := by
  cases X with
  | error e =>
    cases Y with
    | error e2 =>
      simp only [map_error] at h
      injection h with h
      exact Or.inl ⟨e, rfl, by rw [h]⟩
    | ok y => exact Except.noConfusion h
  | ok x =>
    cases Y with
    | error e2 => exact Except.noConfusion h
    | ok y =>
      obtain ⟨r1, s1⟩ := x
      obtain ⟨r2, s2⟩ := y
      simp only [map_ok] at h
      injection h with h
      injection h with h1 h2
      subst h1
      exact Or.inr ⟨r1, s1, s2, rfl, rfl, h2⟩

theorem run_op_mode (s : hash_table_t) (op : Op) :
    (run_op (mode_free s) op).map (fun r : Nat × hash_table_t => (r.1, mode_free r.2))
      = (run_op s op).map (fun r : Nat × hash_table_t => (r.1, mode_free r.2)) := by
  have hb : budget (mode_free s) = budget s := rfl
  cases op with
  | insert key value =>
    simp only [run_op, hb]
    rcases map_eq_cases (insert_mode_free (budget s) s key value) with
      ⟨e, h1, h2⟩ | ⟨r, s1, s2, h1, h2, h3⟩
    · rw [h1, h2]
    · rw [h1, h2]
      simp only [map_ok, h3]
  | find key =>
    simp only [run_op, hb]
    exact find_mode_free (budget s) s key
  | delete key =>
    simp only [run_op, hb]
    exact delete_mode_free (budget s) s key

theorem shared_view_mode_free (s : hash_table_t) : shared_view (mode_free s) = shared_view s :=
  rfl

theorem shared_view_of_mode {x y : hash_table_t} (h : mode_free x = mode_free y) :
    shared_view x = shared_view y := by
  rw [← shared_view_mode_free x, ← shared_view_mode_free y, h]

theorem run_ops_mode :
    ∀ (ops : List Op) (s : hash_table_t),
      (run_ops ops (mode_free s)).map (fun r : List Nat × hash_table_t => (r.1, shared_view r.2))
        = (run_ops ops s).map (fun r : List Nat × hash_table_t => (r.1, shared_view r.2)) := by
  intro ops
  induction ops with
  | nil => intro s; rfl
  | cons op rest ih =>
    intro s
    rw [run_ops, run_ops]
    rcases map_eq_cases (run_op_mode s op) with ⟨e, h1, h2⟩ | ⟨r, s1, s2, h1, h2, h3⟩
    · rw [h1, h2]
    · rw [h1, h2]
      simp only []
      have hE : (run_ops rest s1).map
            (fun r : List Nat × hash_table_t => (r.1, shared_view r.2))
          = (run_ops rest s2).map
            (fun r : List Nat × hash_table_t => (r.1, shared_view r.2)) := by
        rw [← ih s1, ← ih s2, h3]
      cases hx : run_ops rest s1 with
      | error e =>
        cases hy : run_ops rest s2 with
        | error e2 =>
          rw [hx, hy] at hE
          simp only [map_error] at hE
          injection hE with hE
          rw [hE]
        | ok y =>
          rw [hx, hy] at hE
          exact Except.noConfusion hE
      | ok x =>
        cases hy : run_ops rest s2 with
        | error e2 =>
          rw [hx, hy] at hE
          exact Except.noConfusion hE
        | ok y =>
          obtain ⟨rs1, t1⟩ := x
          obtain ⟨rs2, t2⟩ := y
          rw [hx, hy] at hE
          simp only [map_ok] at hE
          injection hE with hE
          injection hE with hE1 hE2
          simp only [map_ok, hE1, hE2]

theorem create_lv (b : Bool) (size : Nat) :
    hashtable_create b size = (hashtable_create false size).map (with_lvalue b) := by
  unfold hashtable_create
  simp only [dir_calloc, node_calloc]
  generalize dirAddr ([] : List (Option (List Nat))).length = T
  generalize nodeAddr ([] : List (Option hash_node_t)).length = Nd
  generalize (([] : List (Option hash_node_t)) ++ [some ⟨0, 0, 0, 0⟩]) = NS
  generalize (([] : List (Option (List Nat))) ++ [some (List.replicate (8 * size % WORD / 8) 0)])
    = DS
  have h0 : (⟨T, [0, 0, 0], 0, size, b, NS, DS⟩ : hash_table_t)
      = with_lvalue b ⟨T, [0, 0, 0], 0, size, false, NS, DS⟩ := rfl
  rw [h0, dir_store_lv]
  cases dir_store ⟨T, [0, 0, 0], 0, size, false, NS, DS⟩ T 0 Nd with
  | error e => rfl
  | ok s4 =>
    simp only [map_ok, store_lv]
    cases store s4 Nd (hashtable_hash_key_dummy 0) with
    | error e => rfl
    | ok s5 =>
      simp only [map_ok]
      exact store_lv b s5 _ _

/-- C36: a table created with `lvalue = true` and a table created with
`lvalue = false` of the same size, driven single-threaded by the same sequence
of `hashtable_insert`, `hashtable_find` and `hashtable_delete` calls, give the
same results (or the same fault), and end with the same directory pointer,
count, size, node memory (the list) and directories; as the sequence is
arbitrary the same holds after every call of it.  The hazard slots do differ:
after `insert(5, 50); find(5)` on 16 buckets slot 0 holds the unmasked value 48
in one mode and 0 in the other. -/
theorem mode_flag_independent :
    (∀ (size : Nat) (ops : List Op),
      (run_from_create true size ops).map
          (fun r : List Nat × hash_table_t => (r.1, shared_view r.2))
        = (run_from_create false size ops).map
          (fun r : List Nat × hash_table_t => (r.1, shared_view r.2))) ∧
    (run_from_create true 16 [Op.insert 5 50, Op.find 5]).map
        (fun r : List Nat × hash_table_t => (r.1, r.2.hazard)) = .ok ([1, 50], [48, 0, 0]) ∧
    (run_from_create false 16 [Op.insert 5 50, Op.find 5]).map
        (fun r : List Nat × hash_table_t => (r.1, r.2.hazard)) = .ok ([1, 50], [0, 0, 0]) := by
  refine ⟨?_, by rfl, by rfl⟩
  intro size ops
  unfold run_from_create
  rw [create_lv true size]
  cases hashtable_create false size with
  | error e => rfl
  | ok s =>
    simp only [map_ok]
    have h := run_ops_mode ops (with_lvalue true s)
    rw [mode_free_lv, run_ops_mode ops s] at h
    exact h.symm

/-- A resize of the table `one16` of size 16 with the size 32, which the table
never had: the `memcpy` of line 500 reads 32 slots from a directory of 16. -/
theorem resize_larger_overreads : hashtable_resize one16 32 = .error .ub := by rfl

end LockFreeHashtable
